import Mathlib

/-!
# LR(0) table construction and shift-reduce driver (`compiler_design/lr0_parser.c`)

A shallow embedding of the grammar store, the item closure, the recursive
construction of the item sets together with the ACTION/GOTO tables, and the
table driven parser, followed by theorems about them.

Conventions of the embedding.

* C arrays are lists; the fixed array capacities of the program
  (`PRODSETMAXALLOCSIZE`, `MAX_DIMENSIONS`, the 256 entry parse stack, ...) are
  not represented.  The one capacity the program checks itself,
  `SETMAXALLOCSIZE`, is.
* A `size` field that always equals the number of written slots is the length
  of the list.
* A function that returns an index or `-1` returns `Option Nat`, except
  `set_order`, whose result the program uses as an array subscript without a
  check and which therefore stays an integer.
* Symbol slots of a production that no insertion has written are never
  initialised by the program; they read as `Grammar.fill`.
* Recursive C functions take a recursion budget and answer `Res.nofuel` when it
  is used up; steps whose behaviour C leaves undefined answer `Res.undefined`.
-/

namespace LR0

/-! ## Results of budgeted runs -/

/-- Result of running part of the program: a value, a step with undefined
behaviour (null dereference, read outside the stored data), or an exhausted
recursion budget. -/
inductive Res (α : Type) where
  | ok (a : α)
  | undefined
  | nofuel
  deriving DecidableEq

/-- Sequencing of budgeted runs. -/
def Res.bind {α β : Type} (r : Res α) (f : α → Res β) : Res β :=
  match r with
  | .ok a => f a
  | .undefined => .undefined
  | .nofuel => .nofuel

/-- Image of the value of a budgeted run. -/
def Res.map {α β : Type} (f : α → β) (r : Res α) : Res β :=
  match r with
  | .ok a => .ok (f a)
  | .undefined => .undefined
  | .nofuel => .nofuel

/-! ## Ordered sets of symbols -/

/-- The constant `SETMAXALLOCSIZE`. -/
def SETMAXALLOCSIZE : Nat := 40

/-- The struct `Set`: the first `data_size` slots of `data`. -/
structure Set where
  data : List Char
  deriving DecidableEq

/-- The field `data_size`. -/
def Set.data_size (s : Set) : Nat := s.data.length

/-- The function `set_init`. -/
def set_init : Set := ⟨[]⟩

/-- The function `set_insert`: the updated set and the returned flag
(1 when the element was already present, 0 otherwise; a full set drops the
element and still answers 0). -/
def set_insert (s : Set) (k : Char) : Set × Int :=
  if k ∈ s.data then (s, 1)
  else if s.data.length < SETMAXALLOCSIZE then (⟨s.data ++ [k]⟩, 0)
  else (s, 0)

/-- The function `set_order`: index of the element, or `-1`. -/
def set_order (s : Set) (k : Char) : Int :=
  if k ∈ s.data then (s.data.indexOf k : Int) else -1

/-- The function `set_exists`. -/
def set_exists (s : Set) (k : Char) : Bool := decide (0 ≤ set_order s k)

/-! ## Grammar storage -/

/-- The constant `SYMBOLMAXALLOCSIZE`: the number of slots of the array
`symbols` of a production. -/
def SYMBOLMAXALLOCSIZE : Nat := 10

/-- The struct `Production`: the symbols stored by the insertion, in the order
of their subscripts (`size` is their number).  The array `symbols` has
`SYMBOLMAXALLOCSIZE` slots and the program stores without a check: the list
is the content of the struct as long as it has at most `SYMBOLMAXALLOCSIZE`
elements; for a longer one the stores from the subscript `SYMBOLMAXALLOCSIZE`
on fall outside the array, and what the storage holds then is not
represented. -/
structure Production where
  symbols : List Char
  deriving DecidableEq

/-- The field `size` of a production. -/
def Production.size (p : Production) : Nat := p.symbols.length

/-- The struct `ProductionSet`. -/
structure ProductionSet where
  productions : List Production
  symbol : Char
  nullable : Bool
  deriving DecidableEq

/-- The struct `Grammar`.  `fill` is the content of the symbol slots that were
never written. -/
structure Grammar where
  set : List ProductionSet
  nonterminal_set : Set
  terminal_set : Set
  starting_symbol : Char
  fill : Char
  deriving DecidableEq

/-- The field `size` of a grammar. -/
def Grammar.size (g : Grammar) : Nat := g.set.length

/-- The read `p->symbols[i]`. -/
def symbol_at (g : Grammar) (p : Production) (i : Nat) : Char :=
  p.symbols.getD i g.fill

/-- The function `grammar_init`, on storage whose symbol slots hold `fill`. -/
def grammar_init (fill : Char) : Grammar :=
  ⟨[], set_init, set_init, Char.ofNat 0, fill⟩

/-- The function `is_nonterminal`. -/
def is_nonterminal (symbol : Char) : Bool := symbol.isUpper

/-- The function `is_terminal`. -/
def is_terminal (symbol : Char) : Bool := !symbol.isUpper

/-- The probe loop of `grammar_find` over the production sets. -/
def find_set : List ProductionSet → Char → Option Nat
  | [], _ => none
  | p :: ps, symbol =>
    if p.symbol = symbol then some 0 else (find_set ps symbol).map (· + 1)

/-- The function `grammar_find` (`none` for `-1`). -/
def grammar_find (g : Grammar) (symbol : Char) : Option Nat := find_set g.set symbol

/-- The symbol loop of `grammar_insert_internal`: reads the rule up to its
terminating NUL, skips white space, records terminals and appends symbols. -/
def grammar_insert_scan : List Char → Set → List Char → Set × List Char
  | [], ts, syms => (ts, syms)
  | c :: cs, ts, syms =>
    if c = Char.ofNat 0 then (ts, syms)
    else if c = ' ' ∨ c = '\t' ∨ c = '\n' then grammar_insert_scan cs ts syms
    else grammar_insert_scan cs
      (if is_terminal c then (set_insert ts c).1 else ts) (syms ++ [c])

/-- The function `grammar_insert_internal`, on the production set with index
`prodset`.  The stores `symbols[size - 1] = rule[i]` are collected in the order
in which the loop makes them; those with a subscript from
`SYMBOLMAXALLOCSIZE` on are outside the array in the program (see
`Production`). -/
def grammar_insert_internal (g : Grammar) (prodset : Nat) (rule : List Char) : Grammar :=
  match g.set[prodset]? with
  | none => g
  | some p =>
    if rule.head? = some '@' then
      let p1 : ProductionSet := ⟨p.productions ++ [⟨[]⟩], p.symbol, true⟩
      { g with set := g.set.set prodset p1 }
    else
      let r := grammar_insert_scan rule g.terminal_set []
      let p1 : ProductionSet := ⟨p.productions ++ [⟨r.2⟩], p.symbol, p.nullable⟩
      { g with set := g.set.set prodset p1, terminal_set := r.1 }

/-- The function `grammar_insert_rule`. -/
def grammar_insert_rule (g : Grammar) (nonterminal : Char) (rule : List Char) : Grammar :=
  let g1 := { g with nonterminal_set := (set_insert g.nonterminal_set nonterminal).1 }
  match grammar_find g1 nonterminal with
  | some prodset => grammar_insert_internal g1 prodset rule
  | none =>
    grammar_insert_internal { g1 with set := g1.set ++ [⟨[], nonterminal, false⟩] }
      g1.set.length rule

/-- The function `grammar_set_starting_symbol`. -/
def grammar_set_starting_symbol (g : Grammar) (symbol : Char) : Grammar :=
  match grammar_find g symbol with
  | none => g
  | some prodset =>
    match g.set[prodset]? with
    | none => g
    | some p => { g with starting_symbol := p.symbol }

/-- The function `grammar_finish`: the grammar and the returned code. -/
def grammar_finish (g : Grammar) : Grammar × Int :=
  if g.starting_symbol = Char.ofNat 0 then (g, -1)
  else ({ g with terminal_set := (set_insert g.terminal_set '$').1 }, 0)

/-- The function `grammar_lr0_augment`. -/
def grammar_lr0_augment (g : Grammar) : Grammar :=
  grammar_insert_rule g 'Z' [g.starting_symbol]

/-! ## Items and item sets -/

/-- The struct `ItemProduction`. -/
structure ItemProduction where
  nonterminal : Char
  production : Nat
  dot_offset : Nat
  deriving DecidableEq

/-- The struct `Item`: one state of the automaton.  The first `closure_offset`
productions are the ones the closure is derived from. -/
structure Item where
  productions : List ItemProduction
  closure_offset : Nat
  nonterminal_set : Set
  deriving DecidableEq

/-- The struct `ItemSet`: the states found so far. -/
structure ItemSet where
  items : List Item
  initial_symbol : Char
  deriving DecidableEq

/-- The function `item_set_init`. -/
def item_set_init (initial_symbol : Char) : ItemSet := ⟨[], initial_symbol⟩

/-- The function `item_insert`: appends an empty state; its index is the new
`items_size - 1`. -/
def item_insert (s : ItemSet) : ItemSet :=
  { s with items := s.items ++ [⟨[], 1, set_init⟩] }

/-- The function `item_production_insert`: the updated state and the returned
flag (1 when the triple was already there). -/
def item_production_insert (s : Item) (nonterminal : Char) (production dot_offset : Nat) :
    Item × Int :=
  if (⟨nonterminal, production, dot_offset⟩ : ItemProduction) ∈ s.productions then (s, 1)
  else ({ s with productions := s.productions ++ [⟨nonterminal, production, dot_offset⟩] }, 0)

/-- The function `item_get_production`.  `none` stands for the null pointer and
for a slot beyond the productions stored for the nonterminal. -/
def item_get_production (g : Grammar) (s : ItemProduction) : Option Production :=
  match grammar_find g s.nonterminal with
  | none => none
  | some prodset =>
    match g.set[prodset]? with
    | none => none
    | some ps => ps.productions[s.production]?

/-- The loop of `item_insert_closure_internal` over the productions of
`nonterminal`, from production number `i` on; `recurse` is the recursive call.
The result is the state and the return code (0 or -1). -/
def closure_loop (recurse : Item → Char → Res (Item × Int)) (g : Grammar)
    (nonterminal : Char) : List Production → Nat → Item → Res (Item × Int)
  | [], _, s => .ok (s, 0)
  | p :: ps, i, s =>
    let r := item_production_insert s nonterminal i 0
    if r.2 = 1 then closure_loop recurse g nonterminal ps (i + 1) s
    else if 0 < p.size ∧ is_nonterminal (symbol_at g p 0) = true then
      match recurse r.1 (symbol_at g p 0) with
      | .ok (s2, code) =>
        if code < 0 then .ok (s2, -1)
        else closure_loop recurse g nonterminal ps (i + 1) s2
      | .undefined => .undefined
      | .nofuel => .nofuel
    else closure_loop recurse g nonterminal ps (i + 1) r.1

/-- The function `item_insert_closure_internal`, with a recursion budget. -/
def item_insert_closure_internal : Nat → Grammar → Item → Char → Res (Item × Int)
  | 0, _, _, _ => .nofuel
  | fuel + 1, g, s, nonterminal =>
    match grammar_find g nonterminal with
    | none => .ok (s, -1)
    | some prodset =>
      match g.set[prodset]? with
      | none => .undefined
      | some ps =>
        closure_loop (item_insert_closure_internal fuel g) g nonterminal ps.productions 0
          { s with nonterminal_set := (set_insert s.nonterminal_set nonterminal).1 }

/-- The loop of `item_insert_closure` over the first `closure_offset`
productions: `n` iterations are left, the next one reads production `i`.  The
result is the state and the return code (`no_outgoing`, or -1). -/
def closure_scan (fuel : Nat) (g : Grammar) :
    Nat → Nat → Set → Int → Item → Res (Item × Int)
  | 0, _, _, no_outgoing, s => .ok (s, no_outgoing)
  | n + 1, i, visited, no_outgoing, s =>
    match s.productions[i]? with
    | none => .undefined
    | some ip =>
      match item_get_production g ip with
      | none => .undefined
      | some p =>
        if p.size ≤ ip.dot_offset then closure_scan fuel g n (i + 1) visited no_outgoing s
        else if is_nonterminal (symbol_at g p ip.dot_offset) = true then
          let v := set_insert visited (symbol_at g p ip.dot_offset)
          if v.2 = 1 then closure_scan fuel g n (i + 1) v.1 no_outgoing s
          else
            match item_insert_closure_internal fuel g s (symbol_at g p ip.dot_offset) with
            | .ok (s2, code) =>
              if code < 0 then .ok (s2, -1)
              else closure_scan fuel g n (i + 1) v.1 0 s2
            | .undefined => .undefined
            | .nofuel => .nofuel
        else closure_scan fuel g n (i + 1) visited 0 s

/-- The function `item_insert_closure`, with a recursion budget for its
helper. -/
def item_insert_closure (fuel : Nat) (g : Grammar) (s : Item) : Res (Item × Int) :=
  if s.productions.length = 0 then .ok (s, -1)
  else closure_scan fuel g s.closure_offset 0 set_init 1 s

/-- The loop of `item_find` over the first `closure_offset` productions of one
state. -/
def item_find_in (p : ItemProduction) : Item → Bool := fun it =>
  decide (p ∈ it.productions.take it.closure_offset)

/-- The loop of `item_find` over the states. -/
def item_find_from (p : ItemProduction) : List Item → Option Nat
  | [] => none
  | it :: rest =>
    if item_find_in p it = true then some 0 else (item_find_from p rest).map (· + 1)

/-- The function `item_find` (`none` for `-1`). -/
def item_find (s : ItemSet) (p : ItemProduction) : Option Nat := item_find_from p s.items

/-! ## The parsing table -/

/-- The enum `ActionType`. -/
inductive ActionType where
  | ACTION_ERROR
  | ACTION_SHIFT
  | ACTION_REDUCE
  | ACTION_ACCEPT
  deriving DecidableEq

open ActionType

/-- The constant `GOTO_ERROR`. -/
def GOTO_ERROR : Int := -1

/-- The struct `ActionRecord`. -/
structure ActionRecord where
  type : ActionType
  target_state : Int
  nonterminal : Char
  production : Nat
  deriving DecidableEq

/-- The constant `MAX_DIMENSIONS`: the number of rows and of columns of the
two arrays of the table. -/
def MAX_DIMENSIONS : Int := 20

/-- The struct `LR0ParsingTable`: the cells of the two arrays as they are
stored, row by row.  A row outside the arrays and a column from
`MAX_DIMENSIONS` on are given cells of their own (the capacities are not
represented). -/
structure LR0ParsingTable where
  action_cells : Int → Int → ActionRecord
  goto_cells : Int → Int → Int

/-- The row of the cell that the subscripts `[r][c]` address: rows are stored
one after the other, so the column subscript -1 (the answer of `set_order` for
a symbol that is not in the set) addresses the last cell of the row before. -/
def cell_row (r c : Int) : Int := if c = -1 then r - 1 else r

/-- The column of the cell that the subscripts `[r][c]` address. -/
def cell_col (c : Int) : Int := if c = -1 then MAX_DIMENSIONS - 1 else c

/-- The expression `action_table[r][c]`. -/
def LR0ParsingTable.action_table (t : LR0ParsingTable) (r c : Int) : ActionRecord :=
  t.action_cells (cell_row r c) (cell_col c)

/-- The expression `goto_table[r][c]`. -/
def LR0ParsingTable.goto_table (t : LR0ParsingTable) (r c : Int) : Int :=
  t.goto_cells (cell_row r c) (cell_col c)

/-- The struct `LR0StackRecord`. -/
structure LR0StackRecord where
  symbol : Char
  target_state : Int
  deriving DecidableEq

/-- The function `lr0_parsing_table_init`; the fields it leaves unwritten are
taken to be zero. -/
def lr0_parsing_table_init : LR0ParsingTable :=
  ⟨fun _ _ => ⟨ACTION_ERROR, 0, Char.ofNat 0, 0⟩, fun _ _ => GOTO_ERROR⟩

/-- An assignment to the whole cell `action_table[r][c]`. -/
def set_action (t : LR0ParsingTable) (r c : Int) (a : ActionRecord) : LR0ParsingTable :=
  { t with action_cells := fun i j =>
      if i = cell_row r c ∧ j = cell_col c then a else t.action_cells i j }

/-- An assignment to `goto_table[r][c]`. -/
def set_goto (t : LR0ParsingTable) (r c : Int) (v : Int) : LR0ParsingTable :=
  { t with goto_cells := fun i j =>
      if i = cell_row r c ∧ j = cell_col c then v else t.goto_cells i j }

/-- The lines the construction prints about the grammar.  `state` is the state
being processed when the line is printed. -/
inductive Diag where
  | reduce_overlap (state : Nat) (terminal : Char) (old : ActionType) (rule : Int)
  | goto_overlap (state : Nat) (old : Int) (next : Nat)
  | shift_overlap (state : Nat) (symbol : Char) (next : Nat)
  | not_lr0_warning
  deriving DecidableEq

/-- The line is one of the two overlap reports on an ACTION cell of `state`. -/
def Diag.is_action_overlap (state : Nat) : Diag → Bool
  | .reduce_overlap s _ _ _ => decide (s = state)
  | .shift_overlap s _ _ => decide (s = state)
  | _ => false

/-- The line is an overlap report of any kind. -/
def Diag.is_overlap : Diag → Bool
  | .reduce_overlap _ _ _ _ => true
  | .shift_overlap _ _ _ => true
  | .goto_overlap _ _ _ => true
  | .not_lr0_warning => false

/-- What the construction works on: the item sets, the table, the lines
printed so far, and a history variable that is not in the program: every
assignment made to a cell of `action_table`, as (row and column of the cell,
new content), most recent first. -/
structure Build where
  set : ItemSet
  table : LR0ParsingTable
  out : List Diag
  writes : List (Int × Int × ActionRecord)

/-- An assignment to `action_table[r][c]`, entered in the history. -/
def Build.assign (b : Build) (r c : Int) (a : ActionRecord) : Build :=
  ⟨b.set, set_action b.table r c a, b.out, (cell_row r c, cell_col c, a) :: b.writes⟩

/-- The most recent assignment to the cell in a history, or the initial
content of the cell when there is none. -/
def last_write : List (Int × Int × ActionRecord) → Int → Int → ActionRecord
  | [], r, c => lr0_parsing_table_init.action_cells r c
  | w :: ws, r, c => if w.1 = r ∧ w.2.1 = c then w.2.2 else last_write ws r c

/-- The function `grammar_get_order_from_item`. -/
def grammar_get_order_from_item (g : Grammar) (k : ItemProduction) : Int :=
  let prodset := (grammar_find g k.nonterminal).getD 0
  let before : Nat := ((g.set.take prodset).map (fun ps => ps.productions.length)).sum
  (-1 : Int) + (before : Int) + ((k.production + 1 : Nat) : Int)

/-- The assignment `action_table[item_offset]['$'].type = ACTION_ACCEPT`. -/
def write_accept (g : Grammar) (item_offset : Nat) (b : Build) : Build :=
  let c := set_order g.terminal_set '$'
  let old := b.table.action_table item_offset c
  b.assign item_offset c ⟨ACTION_ACCEPT, old.target_state, old.nonterminal, old.production⟩

/-- The loop that writes a reduce action into every terminal column of row
`item_offset`, from column `i` on, printing a line for each cell already in
use. -/
def write_reduce (g : Grammar) (item_offset : Nat) (ip : ItemProduction) :
    List Char → Nat → Build → Build
  | [], _, b => b
  | a :: rest, i, b =>
    let old := b.table.action_table item_offset i
    let rule := grammar_get_order_from_item g ip
    let out := if old.type ≠ ACTION_ERROR then
        b.out ++ [Diag.reduce_overlap item_offset a old.type rule]
      else b.out
    write_reduce g item_offset ip rest (i + 1)
      (Build.assign ⟨b.set, b.table, out, b.writes⟩ item_offset i
        ⟨ACTION_REDUCE, rule, ip.nonterminal, ip.production⟩)

/-- The accept or reduce entries written for a production whose dot is at its
end. -/
def write_complete (g : Grammar) (item_offset : Nat) (ip : ItemProduction) (b : Build) :
    Build :=
  if ip.nonterminal = 'Z' then write_accept g item_offset b
  else write_reduce g item_offset ip g.terminal_set.data 0 b

/-- The end of an iteration of the main loop: the goto or shift entry for
`symbol` in row `item_offset`, with the line printed when the cell is in use. -/
def write_edge (g : Grammar) (item_offset : Nat) (symbol : Char) (next : Nat) (b : Build) :
    Build :=
  if is_nonterminal symbol = true then
    let c := set_order g.nonterminal_set symbol
    let old := b.table.goto_table item_offset c
    ⟨b.set, set_goto b.table item_offset c next,
      if old ≠ GOTO_ERROR then b.out ++ [Diag.goto_overlap item_offset old next] else b.out,
      b.writes⟩
  else
    let c := set_order g.terminal_set symbol
    let old := b.table.action_table item_offset c
    Build.assign
      ⟨b.set, b.table,
        if old.type ≠ ACTION_ERROR then b.out ++ [Diag.shift_overlap item_offset symbol next]
        else b.out, b.writes⟩
      item_offset c ⟨ACTION_SHIFT, next, old.nonterminal, old.production⟩

/-! ## Construction of the item sets and of the table -/

/-- The inner loop of `grammar_create_lr_table_internal` that adds to a new
state every later production of `item` with `symbol` next to its dot: `n`
iterations are left, the next one reads production `j`. -/
def collect_extra (g : Grammar) (item : Item) (symbol : Char) :
    Nat → Nat → Item → List Diag → Res (Item × List Diag)
  | 0, _, new_item, out => .ok (new_item, out)
  | n + 1, j, new_item, out =>
    match item.productions[j]? with
    | none => .undefined
    | some ipj =>
      match item_get_production g ipj with
      | none => .undefined
      | some extra_p =>
        if ipj.dot_offset = extra_p.size then collect_extra g item symbol n (j + 1) new_item out
        else if symbol_at g extra_p ipj.dot_offset = symbol then
          let r := item_production_insert new_item ipj.nonterminal ipj.production
            (ipj.dot_offset + 1)
          collect_extra g item symbol n (j + 1)
            ⟨r.1.productions, r.1.closure_offset + 1, r.1.nonterminal_set⟩
            (out ++ [Diag.not_lr0_warning])
        else collect_extra g item symbol n (j + 1) new_item out

/-- The main loop of `grammar_create_lr_table_internal` over the productions
of state `item_offset`: `n` iterations are left, the next one reads production
`i`; `recurse` is the recursive call.  The result carries the return code
(0 or -1). -/
def table_loop (recurse : Build → Nat → Res (Build × Int)) (g : Grammar) (item_offset : Nat) :
    Nat → Nat → Set → Build → Res (Build × Int)
  | 0, _, _, b => .ok (b, 0)
  | n + 1, i, visited, b =>
    match b.set.items[item_offset]? with
    | none => .undefined
    | some item =>
      match item.productions[i]? with
      | none => .undefined
      | some ip =>
        match item_get_production g ip with
        | none => .undefined
        | some p =>
          let b1 := if p.size ≤ ip.dot_offset then write_complete g item_offset ip b else b
          let symbol := symbol_at g p ip.dot_offset
          let new : ItemProduction := ⟨ip.nonterminal, ip.production, ip.dot_offset + 1⟩
          let v := set_insert visited symbol
          if v.2 = 1 then table_loop recurse g item_offset n (i + 1) v.1 b1
          else
            match item_find b1.set new with
            | some next =>
              table_loop recurse g item_offset n (i + 1) v.1
                (write_edge g item_offset symbol next b1)
            | none =>
              let fresh := (item_production_insert ⟨[], 1, set_init⟩ new.nonterminal
                new.production new.dot_offset).1
              match collect_extra g item symbol (item.productions.length - (i + 1)) (i + 1)
                  fresh b1.out with
              | .undefined => .undefined
              | .nofuel => .nofuel
              | .ok (new_item, out) =>
                match recurse
                    ⟨⟨b1.set.items ++ [new_item], b1.set.initial_symbol⟩, b1.table, out, b1.writes⟩
                    b1.set.items.length with
                | .undefined => .undefined
                | .nofuel => .nofuel
                | .ok (b2, code) =>
                  if code < 0 then .ok (b2, -1)
                  else table_loop recurse g item_offset n (i + 1) v.1
                    (write_edge g item_offset symbol b1.set.items.length b2)

/-- The function `grammar_create_lr_table_internal`, with a recursion budget
(shared with the closure it calls). -/
def grammar_create_lr_table_internal : Nat → Grammar → Build → Nat → Res (Build × Int)
  | 0, _, _, _ => .nofuel
  | fuel + 1, g, b, item_offset =>
    match b.set.items[item_offset]? with
    | none => .undefined
    | some item0 =>
      match item_insert_closure fuel g item0 with
      | .undefined => .undefined
      | .nofuel => .nofuel
      | .ok (item, no_outgoing) =>
        let b0 : Build :=
          ⟨⟨b.set.items.set item_offset item, b.set.initial_symbol⟩, b.table, b.out, b.writes⟩
        if no_outgoing = 1 then
          match item.productions[0]? with
          | none => .undefined
          | some ip => .ok (write_complete g item_offset ip b0, 1)
        else if no_outgoing < 0 then .ok (b0, -1)
        else
          table_loop (grammar_create_lr_table_internal fuel g) g item_offset
            item.productions.length 0 set_init b0

/-- The function `grammar_create_lr_table`: the item sets, the table, the
printed lines and the return code. -/
def grammar_create_lr_table (fuel : Nat) (g : Grammar) (set : ItemSet) : Res (Build × Int) :=
  let item := (item_production_insert ⟨[], 1, set_init⟩ 'Z' 0 0).1
  grammar_create_lr_table_internal fuel g
    ⟨⟨set.items ++ [item], set.initial_symbol⟩, lr0_parsing_table_init, [], []⟩
    set.items.length

/-! ## The shift-reduce driver -/

/-- The `return` statements of `grammar_input_check`. -/
inductive Exit where
  | accept
  | unknown_symbol
  | symbol_mismatch
  | error_state
  | stack_empty
  deriving DecidableEq

/-- The value returned at each `return` statement. -/
def Exit.code : Exit → Int
  | .accept => 1
  | .unknown_symbol => 0
  | .symbol_mismatch => 0
  | .error_state => 0
  | .stack_empty => -1

/-- The variables of the driver loop: the stack (top entry first), the input
cursor, and the shift and reduce actions carried out so far (oldest first). -/
structure Config where
  stack : List LR0StackRecord
  input_offset : Nat
  trace : List ActionRecord
  deriving DecidableEq

/-- The lookahead `curr_input`: the character under the cursor, a newline or
the terminating NUL (read at and past the end of the list) giving the end
marker. -/
def curr_input (input : List Char) (input_offset : Nat) : Char :=
  let c := input.getD input_offset (Char.ofNat 0)
  if c = '\n' ∨ c = Char.ofNat 0 then '$' else c

/-- The pop loop of a reduction, over the right-hand side from its last symbol
to its first.  `some` is the remaining stack, `none` the symbol mismatch; a
read below the bottom of the stack is undefined. -/
def pop_symbols : List Char → List LR0StackRecord → Res (Option (List LR0StackRecord))
  | [], stack => .ok (some stack)
  | _ :: _, [] => .undefined
  | c :: cs, top :: rest =>
    if top.symbol ≠ c then .ok none else pop_symbols cs rest

/-- One iteration of the loop of `grammar_input_check`: either the next values
of the variables or the `return` taken.  An empty stack ends the loop; a
negative state on top of the stack makes the table read undefined. -/
def driver_step (g : Grammar) (table : LR0ParsingTable) (input : List Char) (cfg : Config) :
    Res (Config ⊕ Exit) :=
  match cfg.stack with
  | [] => .ok (.inr .stack_empty)
  | top :: _ =>
    let c := curr_input input cfg.input_offset
    if set_order g.terminal_set c < 0 then .ok (.inr .unknown_symbol)
    else if top.target_state < 0 then .undefined
    else
      let action := table.action_table top.target_state (set_order g.terminal_set c)
      match action.type with
      | ACTION_ACCEPT => .ok (.inr .accept)
      | ACTION_SHIFT =>
        .ok (.inl ⟨⟨c, action.target_state⟩ :: cfg.stack, cfg.input_offset + 1,
          cfg.trace ++ [action]⟩)
      | ACTION_REDUCE =>
        match item_get_production g ⟨action.nonterminal, action.production, 0⟩ with
        | none => .undefined
        | some p =>
          match pop_symbols p.symbols.reverse cfg.stack with
          | .undefined => .undefined
          | .nofuel => .nofuel
          | .ok none => .ok (.inr .symbol_mismatch)
          | .ok (some []) => .undefined
          | .ok (some (below :: rest)) =>
            let goto_state := table.goto_table below.target_state
              (set_order g.nonterminal_set action.nonterminal)
            .ok (.inl ⟨⟨action.nonterminal, goto_state⟩ :: below :: rest, cfg.input_offset,
              cfg.trace ++ [action]⟩)
      | ACTION_ERROR => .ok (.inr .error_state)

/-- The loop of `grammar_input_check`, for at most `fuel` iterations: the
`return` taken and the variables at that moment. -/
def driver_loop (g : Grammar) (table : LR0ParsingTable) (input : List Char) :
    Nat → Config → Res (Exit × Config)
  | 0, _ => .nofuel
  | fuel + 1, cfg =>
    match driver_step g table input cfg with
    | .undefined => .undefined
    | .nofuel => .nofuel
    | .ok (.inr e) => .ok (e, cfg)
    | .ok (.inl cfg1) => driver_loop g table input fuel cfg1

/-- The function `grammar_input_check`, for at most `fuel` iterations of its
loop; the value it returns is `Exit.code` of the first component. -/
def grammar_input_check (fuel : Nat) (g : Grammar) (table : LR0ParsingTable)
    (input : List Char) : Res (Exit × Config) :=
  driver_loop g table input fuel ⟨[⟨'$', 0⟩], 0, []⟩

/-! ## Derivations and the closure of an item set, as reference notions -/

/-- One rewriting step of the grammar: a left-hand side symbol inside a
sentential form is replaced by one of its productions. -/
inductive Rewrites (g : Grammar) : List Char → List Char → Prop where
  | step (u v : List Char) (ps : ProductionSet) (p : Production) :
      ps ∈ g.set → p ∈ ps.productions →
      Rewrites g (u ++ [ps.symbol] ++ v) (u ++ p.symbols ++ v)

/-- The sentential form `w` is derivable from the sentential form `u`. -/
def Derives (g : Grammar) (u w : List Char) : Prop :=
  Relation.ReflTransGen (Rewrites g) u w

/-- The productions stored for a nonterminal (none when it has no production
set). -/
def productions_of (g : Grammar) (nonterminal : Char) : List Production :=
  match grammar_find g nonterminal with
  | none => []
  | some prodset =>
    match g.set[prodset]? with
    | none => []
    | some ps => ps.productions

/-- The item has its dot immediately before the nonterminal `B`. -/
def dot_before (g : Grammar) (x : ItemProduction) (B : Char) : Prop :=
  ∃ p, item_get_production g x = some p ∧ p.symbols[x.dot_offset]? = some B ∧
    is_nonterminal B = true

/-- The least set of items that contains the kernel and, with an item whose
dot is before a nonterminal, the dot-0 item of every production of that
nonterminal. -/
inductive InClosure (g : Grammar) (kernel : List ItemProduction) : ItemProduction → Prop where
  | kernel (x : ItemProduction) : x ∈ kernel → InClosure g kernel x
  | expand (y : ItemProduction) (B : Char) (j : Nat) :
      InClosure g kernel y → dot_before g y B → j < (productions_of g B).length →
      InClosure g kernel ⟨B, j, 0⟩

/-- Every production of `B` has its dot-0 item in the list. -/
def closed_for (g : Grammar) (items : List ItemProduction) (B : Char) : Prop :=
  ∀ j, j < (productions_of g B).length → (⟨B, j, 0⟩ : ItemProduction) ∈ items

/-- Inserting `k` leaves the set as it is: `k` is a member, or the set is
full. -/
def set_settled (s : Set) (k : Char) : Prop :=
  k ∈ s.data ∨ ¬ s.data.length < SETMAXALLOCSIZE

/-- The dot-0 items of all stored productions. -/
def dot0_items (g : Grammar) : List ItemProduction :=
  g.set.flatMap (fun ps =>
    (List.range ps.productions.length).map (fun j => (⟨ps.symbol, j, 0⟩ : ItemProduction)))

/-- The number of entries of `u` that are not in `items`. -/
def count_missing : List ItemProduction → List ItemProduction → Nat
  | [], _ => 0
  | a :: t, items => (if a ∈ items then 0 else 1) + count_missing t items

/-- The number of dot-0 items of the grammar that are not in the list: the
measure that bounds the recursion of the closure. -/
def missing (g : Grammar) (items : List ItemProduction) : Nat :=
  count_missing (dot0_items g) items

/-- Every nonterminal on a right-hand side has a production set. -/
def rhs_defined (g : Grammar) : Prop :=
  ∀ ps ∈ g.set, ∀ p ∈ ps.productions, ∀ c ∈ p.symbols,
    is_nonterminal c = true → grammar_find g c ≠ none

/-- The part of what the closure guarantees that composes along a run: the
state only gains dot-0 items at the end of its list. -/
structure Grows (g : Grammar) (s s2 : Item) : Prop where
  offset : s2.closure_offset = s.closure_offset
  grows : ∃ added, s2.productions = s.productions ++ added ∧ ∀ x ∈ added, x.dot_offset = 0
  settled : ∀ c, set_settled s.nonterminal_set c → set_settled s2.nonterminal_set c
  measure : missing g s2.productions ≤ missing g s.productions

/-- What a run of the loop of `item_insert_closure_internal` from production
`i` on, over `n` productions of `B`, guarantees. -/
structure LoopPost (g : Grammar) (B : Char) (i n : Nat) (s s2 : Item) (code : Int) : Prop where
  mono : Grows g s s2
  code_cases : code = 0 ∨ code = -1
  range : code = 0 → ∀ j, i ≤ j → j < i + n → (⟨B, j, 0⟩ : ItemProduction) ∈ s2.productions
  fresh : code = 0 → ∀ x ∈ s2.productions, x ∉ s.productions →
    ∀ C, dot_before g x C → closed_for g s2.productions C
  least : ∀ K, (∀ x ∈ s.productions, InClosure g K x) →
    (∃ y, InClosure g K y ∧ dot_before g y B) → ∀ x ∈ s2.productions, InClosure g K x
  defined : rhs_defined g → code = 0

/-- What a completed call of `item_insert_closure_internal` guarantees. -/
structure ClosurePost (g : Grammar) (s : Item) (B : Char) (s2 : Item) (code : Int) : Prop where
  mono : Grows g s s2
  code_cases : code = 0 ∨ code = -1
  closed : code = 0 → closed_for g s2.productions B ∧ set_settled s2.nonterminal_set B
  found : code = 0 → grammar_find g B ≠ none
  fresh : code = 0 → ∀ x ∈ s2.productions, x ∉ s.productions →
    ∀ C, dot_before g x C → closed_for g s2.productions C
  least : ∀ K, (∀ x ∈ s.productions, InClosure g K x) →
    (∃ y, InClosure g K y ∧ dot_before g y B) → ∀ x ∈ s2.productions, InClosure g K x
  defined : rhs_defined g → grammar_find g B ≠ none → code = 0

/-- The specification of `item_insert_closure_internal` by outcome: a value
satisfies `ClosurePost`, no step is undefined, and the budget runs out only
when it does not exceed the measure. -/
def ClosureOutcome (g : Grammar) (fuel : Nat) (s : Item) (B : Char) :
    Res (Item × Int) → Prop
  | .ok r => ClosurePost g s B r.1 r.2
  | .undefined => False
  | .nofuel => fuel ≤ missing g s.productions

/-- The specification of the loop of `item_insert_closure_internal` by
outcome, for a recursive call with budget `fuel`. -/
def LoopOutcome (g : Grammar) (fuel : Nat) (B : Char) (i n : Nat) (s : Item) :
    Res (Item × Int) → Prop
  | .ok r => LoopPost g B i n s r.1 r.2
  | .undefined => False
  | .nofuel => fuel + 1 ≤ missing g s.productions

/-- The productions `i`, ..., `i + n - 1` of the state can be read and name
stored productions of the grammar. -/
def readable (g : Grammar) (i n : Nat) (s : Item) : Prop :=
  ∀ idx, i ≤ idx → idx < i + n →
    ∃ ip p, s.productions[idx]? = some ip ∧ item_get_production g ip = some p

/-- What a run of the loop of `item_insert_closure` over the productions `i`,
..., `i + n - 1`, entered with the flag `no_outgoing`, guarantees. -/
structure ScanPost (g : Grammar) (i n : Nat) (no_outgoing : Int) (s s2 : Item) (code : Int) :
    Prop where
  mono : Grows g s s2
  code_cases : code = -1 ∨ code = 0 ∨ (code = 1 ∧ no_outgoing = 1)
  scanned : 0 ≤ code → ∀ idx, i ≤ idx → idx < i + n → ∀ ip, s2.productions[idx]? = some ip →
    ∀ C, dot_before g ip C → closed_for g s2.productions C
  fresh : 0 ≤ code → ∀ x ∈ s2.productions, x ∉ s.productions →
    ∀ C, dot_before g x C → closed_for g s2.productions C
  least : ∀ K, (∀ x ∈ s.productions, InClosure g K x) → ∀ x ∈ s2.productions, InClosure g K x
  defined : rhs_defined g → 0 ≤ code
  quiet : code = 1 → s2 = s ∧ ∀ idx, i ≤ idx → idx < i + n → ∀ ip p,
    s.productions[idx]? = some ip → item_get_production g ip = some p → p.size ≤ ip.dot_offset

/-- The specification of the loop of `item_insert_closure` by outcome. -/
def ScanOutcome (g : Grammar) (fuel i n : Nat) (no_outgoing : Int) (s : Item) :
    Res (Item × Int) → Prop
  | .ok r => ScanPost g i n no_outgoing s r.1 r.2
  | .undefined => ¬ readable g i n s
  | .nofuel => fuel ≤ missing g s.productions

/-- The table agrees with the history of assignments: every ACTION cell holds
what was assigned to it last. -/
def consistent (b : Build) : Prop :=
  ∀ r c, b.table.action_cells r c = last_write b.writes r c

/-- What a write with the column subscript -1 in the next row leaves in a
cell: the cell is in the last column, and it holds a shift or an accept
action. -/
def aliased (c : Int) (a : ActionRecord) : Prop :=
  c = MAX_DIMENSIONS - 1 ∧ (a.type = ACTION_SHIFT ∨ a.type = ACTION_ACCEPT)

/-- The part of the effect of the construction that composes along a run, seen
from the states below `fixed`: those states are untouched and so are the cells
of their ACTION rows, but for a last cell that a write with the column
subscript -1 has reached; a used ACTION cell stays used, the state list and
the output only grow, and the table keeps agreeing with the history of
assignments. -/
structure Frame (fixed : Nat) (b b2 : Build) : Prop where
  length : b.set.items.length ≤ b2.set.items.length
  items : ∀ j, j < fixed → b2.set.items[j]? = b.set.items[j]?
  out : ∃ more, b2.out = b.out ++ more
  action : ∀ (r c : Int), r < fixed →
    b2.table.action_cells r c = b.table.action_cells r c ∨
      aliased c (b2.table.action_cells r c)
  keeps : ∀ (r c : Int), (b.table.action_cells r c).type ≠ ACTION_ERROR →
    (b2.table.action_cells r c).type ≠ ACTION_ERROR
  agrees : consistent b → consistent b2

/-- The effect of the writes made while state `k` is processed: of the ACTION
cells outside row `k` only the last cell of the row before can change, by a
write with the column subscript -1, so that the rows after `k` are untouched;
a used ACTION cell stays used, and output is only added. -/
structure RowWrite (k : Nat) (b b2 : Build) : Prop where
  set : b2.set = b.set
  out : ∃ more, b2.out = b.out ++ more
  action : ∀ (r c : Int), r ≠ k →
    b2.table.action_cells r c = b.table.action_cells r c ∨
      aliased c (b2.table.action_cells r c)
  above : ∀ (r c : Int), (k : Int) < r →
    b2.table.action_cells r c = b.table.action_cells r c
  keeps : ∀ (r c : Int), (b.table.action_cells r c).type ≠ ACTION_ERROR →
    (b2.table.action_cells r c).type ≠ ACTION_ERROR
  agrees : consistent b → consistent b2

/-- The effect of the main loop for state `k`: the states that exist are
untouched, and the ACTION rows below `k` as `Frame` says. -/
structure LoopFrame (k : Nat) (b b2 : Build) : Prop where
  frame : Frame k b b2
  items : ∀ j, j < b.set.items.length → b2.set.items[j]? = b.set.items[j]?

/-- Among the first `i` productions of the state there is one, not of `Z`,
whose dot is at or past the end. -/
def seen_complete (g : Grammar) (item : Item) (i : Nat) : Prop :=
  ∃ idx x p, idx < i ∧ item.productions[idx]? = some x ∧ item_get_production g x = some p ∧
    p.size ≤ x.dot_offset ∧ x.nonterminal ≠ 'Z'

/-- Among the first `i` productions of the state there is one for which the
main loop reads `a` as the symbol at the dot. -/
def seen_symbol (g : Grammar) (item : Item) (a : Char) (i : Nat) : Prop :=
  ∃ idx y p, idx < i ∧ item.productions[idx]? = some y ∧ item_get_production g y = some p ∧
    symbol_at g p y.dot_offset = a

/-- The invariant of the main loop for state `k` about the ACTION cell of the
terminal `a`: once a complete production or a production with `a` at its dot
has been met the cell is in use, and once both have been met an overlap on an
ACTION cell of state `k` has been printed. -/
structure OverlapInv (g : Grammar) (k : Nat) (item : Item) (a : Char) (i : Nat)
    (visited : Set) (b : Build) : Prop where
  complete : seen_complete g item i →
    (b.table.action_table k (set_order g.terminal_set a)).type ≠ ACTION_ERROR
  symbol : seen_symbol g item a i ∨ a ∈ visited.data →
    (b.table.action_table k (set_order g.terminal_set a)).type ≠ ACTION_ERROR
  both : seen_complete g item i → seen_symbol g item a i ∨ a ∈ visited.data →
    ∃ d ∈ b.out, Diag.is_action_overlap k d = true

/-- Shift/reduce overlaps of state `s` on the terminal `a` are reported: if the
state holds a complete production, not of `Z`, and a production with its dot
before `a`, an overlap on an ACTION cell of `s` has been printed. -/
def reported (g : Grammar) (a : Char) (b : Build) (s : Nat) : Prop :=
  ∀ item, b.set.items[s]? = some item →
    (∃ x ∈ item.productions, ∃ p, item_get_production g x = some p ∧ p.size ≤ x.dot_offset ∧
      x.nonterminal ≠ 'Z') →
    (∃ y ∈ item.productions, ∃ p, item_get_production g y = some p ∧
      p.symbols[y.dot_offset]? = some a) →
    ∃ d ∈ b.out, Diag.is_action_overlap s d = true

/-! ## The goto operation and bounded runs of the driver, as reference notions -/

/-- The item has the symbol `X` immediately after its dot. -/
def dot_at (g : Grammar) (x : ItemProduction) (X : Char) : Bool :=
  match item_get_production g x with
  | some p => decide (p.symbols[x.dot_offset]? = some X)
  | none => false

/-- The item with its dot moved one symbol to the right. -/
def advance (x : ItemProduction) : ItemProduction :=
  ⟨x.nonterminal, x.production, x.dot_offset + 1⟩

/-- The kernel of `goto(I, X)`: the items of `I` that have `X` after the dot,
with the dot advanced past it.  `goto(I, X)` is the closure of this list. -/
def goto_kernel (g : Grammar) (items : List ItemProduction) (X : Char) :
    List ItemProduction :=
  (items.filter (fun x => dot_at g x X)).map advance

/-- The items of state `s` of a construction (none when there is no such
state). -/
def Build.items_of (b : Build) (s : Nat) : List ItemProduction :=
  match b.set.items[s]? with
  | some it => it.productions
  | none => []

/-- The kernel of state `s` of a construction: its first `closure_offset`
items. -/
def Build.kernel_of (b : Build) (s : Nat) : List ItemProduction :=
  match b.set.items[s]? with
  | some it => it.productions.take it.closure_offset
  | none => []

/-- The first `n` iterations of the loop of `grammar_input_check` from the
given values of its variables: the values after them, or the `return` taken
earlier. -/
def driver_run (g : Grammar) (table : LR0ParsingTable) (input : List Char) :
    Nat → Config → Res (Config ⊕ Exit)
  | 0, cfg => .ok (.inl cfg)
  | n + 1, cfg =>
    match driver_step g table input cfg with
    | .ok (.inl cfg1) => driver_run g table input n cfg1
    | r => r

/-! ## The states of the construction, as reference notions -/

/-- The number of (production, dot offset) pairs of the grammar: the sum, over
all stored productions, of the length plus one. -/
def item_pairs (g : Grammar) : Nat :=
  (g.set.map (fun ps => (ps.productions.map (fun p => p.size + 1)).sum)).sum

/-- The items of the productions `ps` of `symbol`, numbered from `j` on, with
a dot offset from 1 to the length of the production plus one. -/
def advanced_from (symbol : Char) : List Production → Nat → List ItemProduction
  | [], _ => []
  | p :: ps, j =>
    (List.range (p.size + 1)).map (fun d => (⟨symbol, j, d + 1⟩ : ItemProduction)) ++
      advanced_from symbol ps (j + 1)

/-- The items that the main loop can form from an item whose dot is within
its production: one for each (production, dot offset) pair. -/
def advanced_items (g : Grammar) : List ItemProduction :=
  g.set.flatMap (fun ps => advanced_from ps.symbol ps.productions 0)

/-- The symbol slots that the program never wrote hold a character that occurs
in no production.  (A rule is read up to its NUL, so this holds on zero-filled
storage.) -/
def fill_unused (g : Grammar) : Prop :=
  ∀ ps ∈ g.set, ∀ p ∈ ps.productions, g.fill ∉ p.symbols

/-- Every item of the state has its dot within its production. -/
def Item.regular (g : Grammar) (it : Item) : Prop :=
  ∀ x ∈ it.productions, ∀ p, item_get_production g x = some p → x.dot_offset ≤ p.size

/-- Every item of the state has its dot at the end of its production or
beyond it. -/
def Item.spent (g : Grammar) (it : Item) : Prop :=
  ∀ x ∈ it.productions, ∀ p, item_get_production g x = some p → p.size ≤ x.dot_offset

/-- What holds of the list of states throughout the construction: every state
has a first item, inside its kernel; the first item of a state is in the kernel
of no earlier state; the first item of every state but state 0 is one of
`advanced_items`; and a state has all its dots within the productions or all
of them at or beyond the end. -/
structure StatesInv (g : Grammar) (items : List Item) : Prop where
  first : ∀ (j : Nat) (it : Item), items[j]? = some it →
    ∃ x, it.productions[0]? = some x ∧ 1 ≤ it.closure_offset
  fresh : ∀ (i j : Nat) (iti itj : Item) (x : ItemProduction), i < j →
    items[i]? = some iti → items[j]? = some itj →
    itj.productions[0]? = some x → x ∉ iti.productions.take iti.closure_offset
  known : ∀ (j : Nat) (it : Item) (x : ItemProduction), 1 ≤ j → items[j]? = some it →
    it.productions[0]? = some x → x ∈ advanced_items g
  shape : ∀ (j : Nat) (it : Item), items[j]? = some it → Item.regular g it ∨ Item.spent g it

/-! ## The cells of the table, as reference notions -/

/-- What holds of every cell of the two arrays throughout the construction: a
shift action and a GOTO entry in use hold the number of a state that exists, a
reduce action holds a stored production and its order number, an accept
action is in the cell that the column subscript of `$` addresses and, when `$`
has a column, in the row of a state that holds a production of `Z` with its dot
at or beyond the end, and the rows from the number of states on are as
`lr0_parsing_table_init` left them. -/
structure CellsWf (g : Grammar) (b : Build) : Prop where
  shift : ∀ r c : Int, (b.table.action_cells r c).type = ACTION_SHIFT →
    ∃ t : Nat, (b.table.action_cells r c).target_state = (t : Int) ∧ t < b.set.items.length
  reduce : ∀ r c : Int, (b.table.action_cells r c).type = ACTION_REDUCE →
    item_get_production g
      ⟨(b.table.action_cells r c).nonterminal, (b.table.action_cells r c).production, 0⟩ ≠
        none ∧
    (b.table.action_cells r c).target_state =
      grammar_get_order_from_item g
        ⟨(b.table.action_cells r c).nonterminal, (b.table.action_cells r c).production, 0⟩
  accept : ∀ r c : Int, (b.table.action_cells r c).type = ACTION_ACCEPT →
    c = cell_col (set_order g.terminal_set '$') ∧
    (0 ≤ set_order g.terminal_set '$' → ∃ (s : Nat) (it : Item), r = (s : Int) ∧
      b.set.items[s]? = some it ∧ ∃ x ∈ it.productions, x.nonterminal = 'Z' ∧
        ∃ p, item_get_production g x = some p ∧ p.size ≤ x.dot_offset)
  goto : ∀ r c : Int, b.table.goto_cells r c ≠ GOTO_ERROR →
    ∃ t : Nat, b.table.goto_cells r c = (t : Int) ∧ t < b.set.items.length
  clear : ∀ r c : Int, (b.set.items.length : Int) ≤ r →
    (b.table.action_cells r c).type = ACTION_ERROR ∧ b.table.goto_cells r c = GOTO_ERROR

/-- An assignment that the main loop makes to an ACTION cell of the row of the
state it works on, with the index of the item at which it is made. -/
inductive CellWrite where
  | accept (i : Nat)
  | reduce (i : Nat)
  | shift (i : Nat)
  deriving DecidableEq

/-- The assignments that the main loop makes to the cell of the terminal `a`
in the row of the state it works on, in the order in which it makes them,
while it passes the items `l`, the first of which has the index `i`, with the
set `visited` of the symbols it has dealt with: for an item whose dot is at or
beyond the end the accept action (a production of `Z`, in the column of `$`)
or the reduce action (another production, in every column), and then the shift
action when the symbol read at the dot is `a` and is not in `visited`.  (An
item that names no production, at which the loop would not go on, is passed
over.) -/
def cell_writes (g : Grammar) (a : Char) : List ItemProduction → Nat → Set → List CellWrite
  | [], _, _ => []
  | ip :: rest, i, visited =>
    match item_get_production g ip with
    | none => cell_writes g a rest (i + 1) visited
    | some p =>
      (if p.size ≤ ip.dot_offset then
        (if ip.nonterminal = 'Z' then (if a = '$' then [CellWrite.accept i] else [])
        else [CellWrite.reduce i])
      else []) ++
      (if (set_insert visited (symbol_at g p ip.dot_offset)).2 ≠ 1 ∧
          symbol_at g p ip.dot_offset = a then [CellWrite.shift i] else []) ++
      cell_writes g a rest (i + 1) (set_insert visited (symbol_at g p ip.dot_offset)).1

/-- The one assignment made to the cell of the terminal `a` for a state
without outgoing item, whose first item is `ip`. -/
def quiet_write (a : Char) (ip : ItemProduction) : Option CellWrite :=
  if ip.nonterminal = 'Z' then (if a = '$' then some (CellWrite.accept 0) else none)
  else some (CellWrite.reduce 0)

/-- The cell is as the assignment `w` to it left it, or as
`lr0_parsing_table_init` left it when there was none. -/
def cell_left (g : Grammar) (item : Item) (cell : ActionRecord) : Option CellWrite → Prop
  | none => cell.type = ACTION_ERROR
  | some (CellWrite.accept _) => cell.type = ACTION_ACCEPT
  | some (CellWrite.reduce i) => ∃ z, item.productions[i]? = some z ∧
      cell = ⟨ACTION_REDUCE, grammar_get_order_from_item g z, z.nonterminal, z.production⟩
  | some (CellWrite.shift _) => cell.type = ACTION_SHIFT

/-- What the cell of the terminal `a` in the row of state `s` finally holds:
what a write with the column subscript -1 in the next row left there, or what
the one assignment for a state without outgoing item left (all its dots are at
or beyond the end, and its first item names a production), or what the last
assignment of the main loop left. -/
def RowFinal (g : Grammar) (a : Char) (b : Build) (s : Nat) (item : Item) : Prop :=
  aliased (set_order g.terminal_set a)
    (b.table.action_table s (set_order g.terminal_set a)) ∨
  (Item.spent g item ∧ ∃ ip, item.productions[0]? = some ip ∧
    (∃ p, item_get_production g ip = some p) ∧
    cell_left g item (b.table.action_table s (set_order g.terminal_set a))
      (quiet_write a ip)) ∨
  cell_left g item (b.table.action_table s (set_order g.terminal_set a))
    (cell_writes g a item.productions 0 set_init).getLast?

/-- The part of the invariant of the main loop for state `k` about the column
of the terminal `a` that does not concern row `k`: the rows of the states after
`k` are final, and the rows from the number of states on are clear. -/
structure ColumnRest (g : Grammar) (a : Char) (b0 : Build) (k : Nat) (item : Item)
    (b : Build) : Prop where
  here : b.set.items[k]? = some item
  last : k + 1 = b0.set.items.length
  length : b0.set.items.length ≤ b.set.items.length
  done : ∀ s, k < s → s < b.set.items.length →
    ∃ it, b.set.items[s]? = some it ∧ RowFinal g a b s it
  clear : ∀ r : Int, (b.set.items.length : Int) ≤ r →
    (b.table.action_table r (set_order g.terminal_set a)).type = ACTION_ERROR

/-- The cell of the terminal `a` in row `k` holds what the last of the
assignments `pre` left there, or what a write with the column subscript -1 in
the next row left. -/
def cell_after (g : Grammar) (a : Char) (k : Nat) (item : Item) (b : Build)
    (pre : List CellWrite) : Prop :=
  aliased (set_order g.terminal_set a)
      (b.table.action_table k (set_order g.terminal_set a)) ∨
    cell_left g item (b.table.action_table k (set_order g.terminal_set a)) pre.getLast?

/-- The invariant of the main loop for state `k` about the column of the
terminal `a`: what `ColumnRest` says, and the cell of row `k` holds what the
last assignment so far left there. -/
structure ColumnLoop (g : Grammar) (a : Char) (b0 : Build) (k : Nat) (item : Item) (i : Nat)
    (visited : Set) (b : Build) : Prop where
  rest : ColumnRest g a b0 k item b
  row : ∃ pre, pre ++ cell_writes g a (item.productions.drop i) i visited =
      cell_writes g a item.productions 0 set_init ∧ cell_after g a k item b pre

/-- What holds of the column of the terminal `a` when a call of
`grammar_create_lr_table_internal` that started with `b` has succeeded: the
rows of the state it was called on and of the states added since are final,
and the rows from the number of states on are clear. -/
structure ColumnPost (g : Grammar) (a : Char) (b b2 : Build) : Prop where
  done : ∀ s, b.set.items.length - 1 ≤ s → s < b2.set.items.length →
    ∃ it, b2.set.items[s]? = some it ∧ RowFinal g a b2 s it
  clear : ∀ r : Int, (b2.set.items.length : Int) ≤ r →
    (b2.table.action_table r (set_order g.terminal_set a)).type = ACTION_ERROR

/-! ## Grammars used as examples -/

/-- The grammar `E -> E+T | T`, `T -> id` with start symbol `E`, finished, on
zero-filled storage. -/
def example1_finished : Grammar :=
  (grammar_finish (grammar_set_starting_symbol
    (grammar_insert_rule (grammar_insert_rule (grammar_insert_rule
      (grammar_init (Char.ofNat 0)) 'E' "E+T".toList) 'E' "T".toList) 'T' "id".toList)
    'E')).1

/-- The grammar `E -> E+T | T`, `T -> id` with start symbol `E`, finished and
augmented. -/
def example1 : Grammar := grammar_lr0_augment example1_finished

/-- The grammar `A -> (A) | a` with start symbol `A`, finished and augmented,
on zero-filled storage. -/
def example2 : Grammar :=
  grammar_lr0_augment (grammar_finish (grammar_set_starting_symbol
    (grammar_insert_rule (grammar_insert_rule
      (grammar_init (Char.ofNat 0)) 'A' "(A)".toList) 'A' "a".toList)
    'A')).1

/-- The grammar `S -> pA | qD`, `A -> xy`, `D -> A | C`, `C -> xz` with start
symbol `S`, finished and augmented, on zero-filled storage. -/
def grammar_shared_item : Grammar :=
  grammar_lr0_augment (grammar_finish (grammar_set_starting_symbol
    (grammar_insert_rule (grammar_insert_rule (grammar_insert_rule (grammar_insert_rule
      (grammar_insert_rule (grammar_insert_rule
      (grammar_init (Char.ofNat 0)) 'S' "pA".toList) 'S' "qD".toList) 'A' "xy".toList)
      'D' "A".toList) 'D' "C".toList) 'C' "xz".toList)
    'S')).1

/-- The grammar `S -> Xc | b | pXd`, `X -> Sa` with start symbol `S`, finished
and augmented, on zero-filled storage. -/
def grammar_left_recursive : Grammar :=
  grammar_lr0_augment (grammar_finish (grammar_set_starting_symbol
    (grammar_insert_rule (grammar_insert_rule (grammar_insert_rule (grammar_insert_rule
      (grammar_init (Char.ofNat 0)) 'S' "Xc".toList) 'S' "b".toList) 'S' "pXd".toList)
      'X' "Sa".toList)
    'S')).1

/-- The grammar `S -> A | B`, `A -> x`, `B -> x` with start symbol `S`,
finished and augmented, on zero-filled storage. -/
def grammar_two_reductions : Grammar :=
  grammar_lr0_augment (grammar_finish (grammar_set_starting_symbol
    (grammar_insert_rule (grammar_insert_rule (grammar_insert_rule (grammar_insert_rule
      (grammar_init (Char.ofNat 0)) 'S' "A".toList) 'S' "B".toList) 'A' "x".toList)
      'B' "x".toList)
    'S')).1

/-- The grammar `S -> a | ab` with start symbol `S`, finished and augmented,
on zero-filled storage. -/
def grammar_shift_reduce : Grammar :=
  grammar_lr0_augment (grammar_finish (grammar_set_starting_symbol
    (grammar_insert_rule (grammar_insert_rule
      (grammar_init (Char.ofNat 0)) 'S' "a".toList) 'S' "ab".toList)
    'S')).1

/-- The grammar `Z -> a`, `S -> b` with start symbol `S`, finished and
augmented, on zero-filled storage: a grammar that uses the letter `Z` itself. -/
def grammar_with_Z : Grammar :=
  grammar_lr0_augment (grammar_finish (grammar_set_starting_symbol
    (grammar_insert_rule (grammar_insert_rule
      (grammar_init (Char.ofNat 0)) 'Z' "a".toList) 'S' "b".toList)
    'S')).1

/-- The grammar `S -> pD | qA`, `D -> A | C`, `A -> xy`, `C -> xz` with start
symbol `S`, finished and augmented, on zero-filled storage. -/
def grammar_goto_hole : Grammar :=
  grammar_lr0_augment (grammar_finish (grammar_set_starting_symbol
    (grammar_insert_rule (grammar_insert_rule (grammar_insert_rule (grammar_insert_rule
      (grammar_insert_rule (grammar_insert_rule
      (grammar_init (Char.ofNat 0)) 'S' "pD".toList) 'S' "qA".toList) 'D' "A".toList)
      'D' "C".toList) 'A' "xy".toList) 'C' "xz".toList)
    'S')).1

/-- The grammar `S -> A | Sb | a`, `A -> S` with start symbol `S`, finished
and augmented, on zero-filled storage. -/
def grammar_accept_overwritten : Grammar :=
  grammar_lr0_augment (grammar_finish (grammar_set_starting_symbol
    (grammar_insert_rule (grammar_insert_rule (grammar_insert_rule (grammar_insert_rule
      (grammar_init (Char.ofNat 0)) 'S' "A".toList) 'S' "Sb".toList) 'S' "a".toList)
      'A' "S".toList)
    'S')).1

/-- The `(nonterminal, production)` pairs of the reductions in a trace, in
order. -/
def reductions (trace : List ActionRecord) : List (Char × Nat) :=
  (trace.filter (fun a => decide (a.type = ACTION_REDUCE))).map
    (fun a => (a.nonterminal, a.production))

/-! ## The grammar store seen from outside -/

/-- The symbols that a rule string stands for: none when the rule begins with
`@`, otherwise the characters before the terminating NUL that are not white
space, in order. -/
def rule_symbols (rule : List Char) : List Char :=
  if rule.head? = some '@' then []
  else (rule.takeWhile (fun c => decide (c ≠ Char.ofNat 0))).filter
    (fun c => decide (¬ (c = ' ' ∨ c = '\t' ∨ c = '\n')))

/-- The grammar `Z -> a`, `S -> b` with start symbol `S`, finished and not yet
augmented, on zero-filled storage. -/
def grammar_with_Z_finished : Grammar :=
  (grammar_finish (grammar_set_starting_symbol
    (grammar_insert_rule (grammar_insert_rule
      (grammar_init (Char.ofNat 0)) 'Z' "a".toList) 'S' "b".toList)
    'S')).1

/-- A grammar with forty terminals, none of them `$`: four productions of `S`
with ten terminals each, start symbol `S`, not yet finished. -/
def grammar_forty_terminals : Grammar :=
  grammar_set_starting_symbol
    (grammar_insert_rule (grammar_insert_rule (grammar_insert_rule (grammar_insert_rule
      (grammar_init (Char.ofNat 0)) 'S' "abcdefghij".toList) 'S' "klmnopqrst".toList)
      'S' "uvwxyz0123".toList) 'S' "456789+-*/".toList)
    'S'

/-- The grammar after the single insertion `S -> Ab`. -/
def grammar_undefined_rhs : Grammar :=
  grammar_insert_rule (grammar_init (Char.ofNat 0)) 'S' "Ab".toList

/-- The grammar after the single insertion `S -> a`, without a start symbol. -/
def grammar_without_start : Grammar :=
  grammar_insert_rule (grammar_init (Char.ofNat 0)) 'S' "a".toList

/-- The symbol sets cover the stored symbols as far as their capacity goes:
unless the terminal set is full, it holds every terminal stored in a
production, and unless the nonterminal set is full, it holds the symbol of
every production set. -/
def SymbolsCovered (g : Grammar) : Prop :=
  (g.terminal_set.data.length < SETMAXALLOCSIZE →
    ∀ ps ∈ g.set, ∀ p ∈ ps.productions, ∀ c ∈ p.symbols,
      is_terminal c = true → c ∈ g.terminal_set.data) ∧
  (g.nonterminal_set.data.length < SETMAXALLOCSIZE →
    ∀ ps ∈ g.set, ps.symbol ∈ g.nonterminal_set.data)

/-- The grammar after five insertions for `S` that store forty-one different
terminals, the last of them `=`. -/
def grammar_forty_one_terminals : Grammar :=
  grammar_insert_rule (grammar_insert_rule (grammar_insert_rule (grammar_insert_rule
    (grammar_insert_rule
    (grammar_init (Char.ofNat 0)) 'S' "abcdefghij".toList) 'S' "klmnopqrst".toList)
    'S' "uvwxyz0123".toList) 'S' "456789+-*/".toList) 'S' "=".toList

/-! ## Iterations of the driver, as reference notions -/

/-- The iteration of the driver loop entered with the variables `cfg` takes the
reduce branch, with the table entry `action` and the production `p` that the
entry names. -/
def reduces_by (g : Grammar) (table : LR0ParsingTable) (input : List Char) (cfg : Config)
    (action : ActionRecord) (p : Production) : Prop :=
  ∃ top rest, cfg.stack = top :: rest ∧
    0 ≤ set_order g.terminal_set (curr_input input cfg.input_offset) ∧
    0 ≤ top.target_state ∧
    table.action_table top.target_state
      (set_order g.terminal_set (curr_input input cfg.input_offset)) = action ∧
    action.type = ACTION_REDUCE ∧
    item_get_production g ⟨action.nonterminal, action.production, 0⟩ = some p

/-- The column of `$` holds no shift entry. -/
def no_shift_at_end (g : Grammar) (table : LR0ParsingTable) : Prop :=
  ∀ r : Int, (table.action_table r (set_order g.terminal_set '$')).type ≠ ACTION_SHIFT

/-- The grammar `S -> aSb | ab` with start symbol `S`, finished and augmented,
on zero-filled storage. -/
def grammar_nested : Grammar :=
  grammar_lr0_augment (grammar_finish (grammar_set_starting_symbol
    (grammar_insert_rule (grammar_insert_rule
      (grammar_init (Char.ofNat 0)) 'S' "aSb".toList) 'S' "ab".toList)
    'S')).1

/-- The grammar `S -> ASb`, `A -> @` with start symbol `S`, finished and
augmented, on zero-filled storage. -/
def grammar_empty_loop : Grammar :=
  grammar_lr0_augment (grammar_finish (grammar_set_starting_symbol
    (grammar_insert_rule (grammar_insert_rule
      (grammar_init (Char.ofNat 0)) 'S' "ASb".toList) 'A' "@".toList)
    'S')).1

/-- The variables of the driver loop have one of the listed stacks and input
cursors. -/
def among (l : List (List LR0StackRecord × Nat)) (cfg : Config) : Prop :=
  (cfg.stack, cfg.input_offset) ∈ l

/-! ## Nonterminals without productions, as reference notions -/

/-- The item has its dot immediately before a nonterminal that has no
production set. -/
def dangling (g : Grammar) (x : ItemProduction) : Prop :=
  ∃ U, dot_before g x U ∧ grammar_find g U = none

/-- What a run of one of the closure functions guarantees about repeated items
and about nonterminals without a production set.  `pending` says that the
nonterminal the run was called for has no production set. -/
structure ClosureCode (g : Grammar) (pending : Prop) (s s2 : Item) (code : Int) : Prop where
  sub : ∀ x ∈ s.productions, x ∈ s2.productions
  nodup : s.productions.Nodup → s2.productions.Nodup
  found : 0 ≤ code → ¬ pending
  good : 0 ≤ code → ∀ x ∈ s2.productions, x ∈ s.productions ∨ ¬ dangling g x
  bad : code < 0 → pending ∨ ∃ x ∈ s2.productions, dangling g x

/-- What the construction needs of a state to go on: its items name stored
productions, none is repeated, and the kernel is within the list. -/
structure Item.sound (g : Grammar) (it : Item) : Prop where
  stored : ∀ x ∈ it.productions, item_get_production g x ≠ none
  nodup : it.productions.Nodup
  kernel : it.closure_offset ≤ it.productions.length

/-- Every state of the construction is sound. -/
def all_sound (g : Grammar) (b : Build) : Prop :=
  ∀ (j : Nat) (it : Item), b.set.items[j]? = some it → Item.sound g it

/-- The state that a call of `grammar_create_lr_table_internal` starts from,
the last of the list, still consists of its kernel alone. -/
def last_unclosed (b : Build) : Prop :=
  ∀ it, b.set.items[b.set.items.length - 1]? = some it →
    it.productions ≠ [] ∧ it.productions.length ≤ it.closure_offset

/-- No state from `k` on has an item with its dot before a nonterminal without
a production set. -/
def no_dangling (g : Grammar) (k : Nat) (b : Build) : Prop :=
  ∀ (j : Nat) (it : Item), k ≤ j → b.set.items[j]? = some it →
    ∀ x ∈ it.productions, ¬ dangling g x

/-- Some state has an item with its dot before a nonterminal without a
production set. -/
def has_dangling (g : Grammar) (b : Build) : Prop :=
  ∃ (j : Nat) (it : Item), b.set.items[j]? = some it ∧ ∃ x ∈ it.productions, dangling g x

/-- A budget that suffices for the construction: one unit for each state that
can still be created, and what the closure of a state needs. -/
def construction_budget (g : Grammar) : Nat :=
  item_pairs g + (dot0_items g).length + 3

/-- The grammar `S -> Ab` with start symbol `S`, finished and augmented, on
zero-filled storage; `A` has no productions. -/
def grammar_missing_nonterminal : Grammar :=
  grammar_lr0_augment (grammar_finish (grammar_set_starting_symbol
    (grammar_insert_rule (grammar_init (Char.ofNat 0)) 'S' "Ab".toList) 'S')).1

/-! ## Further examples and reference notions -/

/-- A set that holds `SETMAXALLOCSIZE` different elements: `a`..`z`, `0`..`9`,
`+`, `-`, `*`, `/`. -/
def full_set : Set := ⟨"abcdefghijklmnopqrstuvwxyz0123456789+-*/".toList⟩

/-- The inner loop of `grammar_print` over the productions of production set
number `prod_set`, from production `prod` on, entered with the counter
`order`: for each line the set, the production and the number printed in
parentheses, and the counter afterwards. -/
def print_productions (prod_set : Nat) :
    List Production → Nat → Nat → List (Nat × Nat × Nat) × Nat
  | [], _, order => ([], order)
  | _ :: rest, prod, order =>
    let r := print_productions prod_set rest (prod + 1) (order + 1)
    ((prod_set, prod, order) :: r.1, r.2)

/-- The outer loop of `grammar_print` over the production sets, from set
number `prod_set` on, entered with the counter `order`. -/
def print_sets : List ProductionSet → Nat → Nat → List (Nat × Nat × Nat)
  | [], _, _ => []
  | ps :: rest, prod_set, order =>
    let r := print_productions prod_set ps.productions 0 order
    r.1 ++ print_sets rest (prod_set + 1) r.2

/-- The numbered lines of the function `grammar_print`: for each production,
in the order of printing, its production set, its number within the set and
the order number shown for it. -/
def grammar_print (g : Grammar) : List (Nat × Nat × Nat) := print_sets g.set 0 0

/-- The number of productions stored in the production sets before set number
`s`. -/
def productions_before (g : Grammar) (s : Nat) : Nat :=
  ((g.set.take s).map (fun ps => ps.productions.length)).sum

/-- The number of shift actions in a trace. -/
def shifts (trace : List ActionRecord) : Nat :=
  (trace.filter (fun a => decide (a.type = ACTION_SHIFT))).length

/-- The grammar `S -> a$b` with start symbol `S`, finished and augmented, on
zero-filled storage: a grammar that uses the end marker as a terminal. -/
def grammar_with_end_marker : Grammar :=
  grammar_lr0_augment (grammar_finish (grammar_set_starting_symbol
    (grammar_insert_rule (grammar_init (Char.ofNat 0)) 'S' "a$b".toList) 'S')).1

/-- No state of the build lists a triple (nonterminal, production, dot offset)
twice. -/
def all_nodup (b : Build) : Prop :=
  ∀ it ∈ b.set.items, it.productions.Nodup

/-! ## The closure, with a count of its recursive calls -/

/-- The loop of `item_insert_closure_internal` (as `closure_loop`) with a
counter of the recursive calls: `calls` have been made so far, and the counter
goes up by one right before the loop makes the recursive call. -/
def closure_loop_calls (recurse : Item → Char → Nat → Res (Item × Int × Nat)) (g : Grammar)
    (nonterminal : Char) : List Production → Nat → Item → Nat → Res (Item × Int × Nat)
  | [], _, s, calls => .ok (s, 0, calls)
  | p :: ps, i, s, calls =>
    let r := item_production_insert s nonterminal i 0
    if r.2 = 1 then closure_loop_calls recurse g nonterminal ps (i + 1) s calls
    else if 0 < p.size ∧ is_nonterminal (symbol_at g p 0) = true then
      match recurse r.1 (symbol_at g p 0) (calls + 1) with
      | .ok (s2, code, calls2) =>
        if code < 0 then .ok (s2, -1, calls2)
        else closure_loop_calls recurse g nonterminal ps (i + 1) s2 calls2
      | .undefined => .undefined
      | .nofuel => .nofuel
    else closure_loop_calls recurse g nonterminal ps (i + 1) r.1 calls

/-- The function `item_insert_closure_internal` with the counter of the calls
it makes to itself. -/
def item_insert_closure_internal_calls :
    Nat → Grammar → Item → Char → Nat → Res (Item × Int × Nat)
  | 0, _, _, _, _ => .nofuel
  | fuel + 1, g, s, nonterminal, calls =>
    match grammar_find g nonterminal with
    | none => .ok (s, -1, calls)
    | some prodset =>
      match g.set[prodset]? with
      | none => .undefined
      | some ps =>
        closure_loop_calls (item_insert_closure_internal_calls fuel g) g nonterminal
          ps.productions 0
          { s with nonterminal_set := (set_insert s.nonterminal_set nonterminal).1 } calls

/-- The loop of `item_insert_closure` (as `closure_scan`) with two counters:
`calls`, the calls `item_insert_closure_internal` has made to itself, and
`outer`, the calls this loop has made to it, which goes up by one right before
such a call. -/
def closure_scan_calls (fuel : Nat) (g : Grammar) :
    Nat → Nat → Set → Int → Item → Nat → Nat → Res (Item × Int × Nat × Nat)
  | 0, _, _, no_outgoing, s, calls, outer => .ok (s, no_outgoing, calls, outer)
  | n + 1, i, visited, no_outgoing, s, calls, outer =>
    match s.productions[i]? with
    | none => .undefined
    | some ip =>
      match item_get_production g ip with
      | none => .undefined
      | some p =>
        if p.size ≤ ip.dot_offset then
          closure_scan_calls fuel g n (i + 1) visited no_outgoing s calls outer
        else if is_nonterminal (symbol_at g p ip.dot_offset) = true then
          let v := set_insert visited (symbol_at g p ip.dot_offset)
          if v.2 = 1 then closure_scan_calls fuel g n (i + 1) v.1 no_outgoing s calls outer
          else
            match item_insert_closure_internal_calls fuel g s (symbol_at g p ip.dot_offset)
                calls with
            | .ok (s2, code, calls2) =>
              if code < 0 then .ok (s2, -1, calls2, outer + 1)
              else closure_scan_calls fuel g n (i + 1) v.1 0 s2 calls2 (outer + 1)
            | .undefined => .undefined
            | .nofuel => .nofuel
        else closure_scan_calls fuel g n (i + 1) visited 0 s calls outer

/-- The function `item_insert_closure` with the number of calls that
`item_insert_closure_internal` made to itself and the number of calls that
`item_insert_closure` made to it. -/
def item_insert_closure_calls (fuel : Nat) (g : Grammar) (s : Item) :
    Res (Item × Int × Nat × Nat) :=
  if s.productions.length = 0 then .ok (s, -1, 0, 0)
  else closure_scan_calls fuel g s.closure_offset 0 set_init 1 s 0 0

/-- The result without the counters. -/
def forget_calls {α : Type} (r : Res (Item × Int × α)) : Res (Item × Int) :=
  r.map (fun q => (q.1, q.2.1))

/-- The mutually recursive grammar `S -> SA | SB`, `A -> S`, `B -> S` with
start symbol `S`, finished and augmented, on zero-filled storage. -/
def grammar_mutual : Grammar :=
  grammar_lr0_augment (grammar_finish (grammar_set_starting_symbol
    (grammar_insert_rule (grammar_insert_rule (grammar_insert_rule (grammar_insert_rule
      (grammar_init (Char.ofNat 0)) 'S' "SA".toList) 'S' "SB".toList) 'A' "S".toList)
      'B' "S".toList) 'S')).1

/-! ## Storage that is not zero-filled, and tables of twenty columns -/

/-- The grammar `E -> E+T | T`, `T -> id` with start symbol `E`, finished and
augmented, on storage whose unwritten symbol slots hold `fill`. -/
def example1_filled (fill : Char) : Grammar :=
  grammar_lr0_augment (grammar_finish (grammar_set_starting_symbol
    (grammar_insert_rule (grammar_insert_rule (grammar_insert_rule
      (grammar_init fill) 'E' "E+T".toList) 'E' "T".toList) 'T' "id".toList)
    'E')).1

/-- The grammar `S -> Sa | b`, `P -> cdefghijkl | mnopqrs` with start symbol
`S`, finished and augmented, on zero-filled storage: with `$` it has twenty
terminals, and `$` has the column 19. -/
def grammar_twenty_columns : Grammar :=
  grammar_lr0_augment (grammar_finish (grammar_set_starting_symbol
    (grammar_insert_rule (grammar_insert_rule (grammar_insert_rule (grammar_insert_rule
      (grammar_init (Char.ofNat 0)) 'S' "Sa".toList) 'S' "b".toList) 'P' "cdefghijkl".toList)
      'P' "mnopqrs".toList) 'S')).1

/-- The grammar `S -> A | Ab`, `A -> x`, `P -> cdefghijkl | mnopqrs` with start
symbol `S`, finished and augmented, on zero-filled storage: with `$` it has
twenty terminals, and `$` has the column 19. -/
def grammar_accept_aliased : Grammar :=
  grammar_lr0_augment (grammar_finish (grammar_set_starting_symbol
    (grammar_insert_rule (grammar_insert_rule (grammar_insert_rule (grammar_insert_rule
      (grammar_insert_rule
      (grammar_init (Char.ofNat 0)) 'S' "A".toList) 'S' "Ab".toList) 'A' "x".toList)
      'P' "cdefghijkl".toList) 'P' "mnopqrs".toList) 'S')).1

/-- The grammar `S -> aB | c`, `B -> S | Z` with start symbol `S`, finished and
augmented, on zero-filled storage. -/
def grammar_accept_not_first : Grammar :=
  grammar_lr0_augment (grammar_finish (grammar_set_starting_symbol
    (grammar_insert_rule (grammar_insert_rule (grammar_insert_rule (grammar_insert_rule
      (grammar_init (Char.ofNat 0)) 'S' "aB".toList) 'S' "c".toList) 'B' "S".toList)
      'B' "Z".toList) 'S')).1

/-! ## The symbol sets as the insertions leave them, as reference notions -/

/-- The set that `set_insert` leaves when the characters of `l` are entered
one after the other. -/
def set_insert_all (s : Set) (l : List Char) : Set :=
  l.foldl (fun t c => (set_insert t c).1) s

/-- The terminals among the symbols that a rule string stands for, in
order. -/
def rule_terminals (rule : List Char) : List Char :=
  (rule_symbols rule).filter is_terminal

/-- The grammar after the calls `grammar_insert_rule(g, N, rule)` for the pairs
(`N`, `rule`) of the list, in order. -/
def insert_rules (g : Grammar) (rules : List (Char × List Char)) : Grammar :=
  rules.foldl (fun h r => grammar_insert_rule h r.1 r.2) g

/-- The grammar `S -> b`, `P -> acdefghijk | lmnopqrst` with start symbol `S`,
augmented without `grammar_finish` having been called, on zero-filled storage:
it has twenty terminals, `t` has the column 19, and `$` is not among them. -/
def grammar_unfinished : Grammar :=
  grammar_lr0_augment (grammar_set_starting_symbol
    (grammar_insert_rule (grammar_insert_rule (grammar_insert_rule
      (grammar_init (Char.ofNat 0)) 'S' "b".toList) 'P' "acdefghijk".toList)
      'P' "lmnopqrst".toList) 'S')

/-- The grammar `S -> $S | a` with start symbol `S`, finished and augmented, on
zero-filled storage. -/
def grammar_end_marker_loop : Grammar :=
  grammar_lr0_augment (grammar_finish (grammar_set_starting_symbol
    (grammar_insert_rule (grammar_insert_rule
      (grammar_init (Char.ofNat 0)) 'S' "$S".toList) 'S' "a".toList) 'S')).1

/-! ## Runs of the driver that stop, as reference notions -/

/-- No production of the grammar is empty. -/
def no_empty_production (g : Grammar) : Prop :=
  ∀ ps ∈ g.set, ∀ p ∈ ps.productions, p.size ≠ 0

/-- No production of the grammar contains the end marker. -/
def no_end_marker (g : Grammar) : Prop :=
  ∀ ps ∈ g.set, ∀ p ∈ ps.productions, '$' ∉ p.symbols

/-- The productions of one symbol go down in rank: the left-hand side of each
has a smaller rank than its symbol, so that no chain of them returns to where
it began. -/
def unit_ranked (g : Grammar) (rank : Char → Nat) : Prop :=
  ∀ ps ∈ g.set, ∀ p ∈ ps.productions, p.size = 1 → ∀ c ∈ p.symbols, rank ps.symbol < rank c

/-- What holds of the variables of the driver loop on a table that
`grammar_create_lr_table` built, when no production contains `$` or is empty
and the column of `$` holds no shift entry: the bottom entry of the stack is
the one the loop started with, the cursor is within the input, no state on the
stack is below `GOTO_ERROR`, and the stack has at most one entry more than
characters have been shifted. -/
structure StackInv (input : List Char) (cfg : Config) : Prop where
  bottom : ∃ above, cfg.stack = above ++ [⟨'$', 0⟩]
  within : cfg.input_offset ≤ input.length
  states : ∀ e ∈ cfg.stack, GOTO_ERROR ≤ e.target_state
  height : cfg.stack.length ≤ cfg.input_offset + 1

/-- The quantity that every iteration of the driver loop decreases: `R` times
the sum of twice the number of unread characters and the height of the stack,
plus the rank of the symbol on top of the stack. -/
def driver_measure (rank : Char → Nat) (R : Nat) (input : List Char) (cfg : Config) : Nat :=
  R * (2 * (input.length - cfg.input_offset) + cfg.stack.length) +
    (match cfg.stack with
    | [] => 0
    | top :: _ => rank top.symbol)

/-- The rank of the symbols of the grammar `E -> E+T | T`, `T -> id`,
augmented: `Z` before `E` before every other symbol. -/
def example1_rank (c : Char) : Nat :=
  if c = 'Z' then 0 else if c = 'E' then 1 else 2

end LR0

/-! # Theorems -/

namespace LR0

open ActionType

/-! ## The two worked examples -/

set_option maxRecDepth 100000 in
/-- On zero-filled storage `grammar_input_check` returns 0 on `id+` for the
same grammar, through the `ACTION_ERROR` branch, and the lookahead at that
moment is the end marker (the cursor is on the terminator of the input). -/
theorem example1_rejects :
    (grammar_create_lr_table 16 example1 (item_set_init 'Z')).bind
      (fun r => (grammar_input_check 16 example1 r.1.table "id+".toList).map
        (fun e => (r.2, e.1, e.1.code, e.2.input_offset,
          curr_input "id+".toList e.2.input_offset))) =
      .ok (0, Exit.error_state, 0, 3, '$') := by
  decide

set_option maxRecDepth 100000 in
/-- C5. For the grammar `A -> (A) | a` (rules inserted in that order, start
`A`, finished and augmented) `grammar_input_check` returns 1 on `(a)` after
exactly two reductions, the first by production 1 of `A` (`A -> a`) and the
second by production 0 of `A` (`A -> (A)`), and returns 0 on `(a` through the
`ACTION_ERROR` branch. -/
theorem example2_runs :
    (productions_of example2 'A' = [⟨"(A)".toList⟩, ⟨"a".toList⟩]) ∧
    (grammar_create_lr_table 16 example2 (item_set_init 'Z')).bind
      (fun r => (grammar_input_check 16 example2 r.1.table "(a)".toList).map
        (fun e => (r.2, e.1.code, reductions e.2.trace))) =
      .ok (0, 1, [('A', 1), ('A', 0)]) ∧
    (grammar_create_lr_table 16 example2 (item_set_init 'Z')).bind
      (fun r => (grammar_input_check 16 example2 r.1.table "(a".toList).map
        (fun e => (r.2, e.1, e.1.code))) =
      .ok (0, Exit.error_state, 0) := by
  refine ⟨by decide, by decide, by decide⟩

end LR0

namespace LR0

open ActionType

/-! ## Runs on which the parser and the grammar disagree -/

set_option maxRecDepth 100000 in
/-- C1 (evaluation at the failing input). For the grammar `S -> pA | qD`,
`A -> xy`, `D -> A | C`, `C -> xz` the string `qxz` is derivable from the
start symbol, the table construction returns 0 and prints no line at all,
and `grammar_input_check` on `qxz` returns 0 (through the `ACTION_ERROR`
branch). -/
theorem shared_item_rejects_derivable :
    Derives grammar_shared_item [grammar_shared_item.starting_symbol] "qxz".toList ∧
    (grammar_create_lr_table 16 grammar_shared_item (item_set_init 'Z')).bind
      (fun r => (grammar_input_check 16 grammar_shared_item r.1.table "qxz".toList).map
        (fun e => (r.2, r.1.out, e.1, e.1.code))) = .ok (0, [], Exit.error_state, 0) := by
  refine ⟨?_, by decide⟩
  have h1 : Rewrites grammar_shared_item ['S'] ['q', 'D'] :=
    Rewrites.step [] [] ⟨[⟨['p', 'A']⟩, ⟨['q', 'D']⟩], 'S', false⟩ ⟨['q', 'D']⟩
      (by decide) (by decide)
  have h2 : Rewrites grammar_shared_item ['q', 'D'] ['q', 'C'] :=
    Rewrites.step ['q'] [] ⟨[⟨['A']⟩, ⟨['C']⟩], 'D', false⟩ ⟨['C']⟩ (by decide) (by decide)
  have h3 : Rewrites grammar_shared_item ['q', 'C'] ['q', 'x', 'z'] :=
    Rewrites.step ['q'] [] ⟨[⟨['x', 'z']⟩], 'C', false⟩ ⟨['x', 'z']⟩ (by decide) (by decide)
  exact Relation.ReflTransGen.single h1 |>.tail h2 |>.tail h3

end LR0

namespace LR0

open ActionType

/-- Every sentential form derivable from `S` in the grammar `S -> Xc | b | pXd`,
`X -> Sa` is `S`, is `b`, or ends in `c` or `d`. -/
theorem left_recursive_forms (w : List Char)
    (h : Derives grammar_left_recursive ['S'] w) :
    w = ['S'] ∨ w = ['b'] ∨ w.getLast? = some 'c' ∨ w.getLast? = some 'd' := by
  induction h with
  | refl => exact Or.inl rfl
  | tail _ hstep ih =>
    cases hstep with
    | step u v ps p hps hp =>
      have hset : grammar_left_recursive.set =
          [⟨[⟨['X', 'c']⟩, ⟨['b']⟩, ⟨['p', 'X', 'd']⟩], 'S', false⟩,
           ⟨[⟨['S', 'a']⟩], 'X', false⟩, ⟨[⟨['S']⟩], 'Z', false⟩] := by decide
      rw [hset] at hps
      rcases List.eq_nil_or_concat v with hv | ⟨v1, l, hv⟩
      · subst hv
        have hlast : (u ++ [ps.symbol] ++ []).getLast? = some ps.symbol := by simp
        simp only [List.mem_cons, List.mem_singleton, List.not_mem_nil, or_false] at hps
        rcases ih with h0 | h0 | h0 | h0
        · have hu : u = [] := by
            cases u with
            | nil => rfl
            | cons a t => simp at h0
          subst hu
          simp at h0
          rcases hps with rfl | rfl | rfl
          · simp at hp
            rcases hp with rfl | rfl | rfl <;> simp
          · simp at h0
          · simp at h0
        · rw [h0] at hlast
          rcases hps with rfl | rfl | rfl <;> simp at hlast
        · rw [h0] at hlast
          rcases hps with rfl | rfl | rfl <;> simp at hlast
        · rw [h0] at hlast
          rcases hps with rfl | rfl | rfl <;> simp at hlast
      · rw [List.concat_eq_append] at hv
        subst hv
        have e1 : (u ++ [ps.symbol] ++ (v1 ++ [l])).getLast? = some l := by
          simp [← List.append_assoc]
        have e2 : (u ++ p.symbols ++ (v1 ++ [l])).getLast? = some l := by
          simp [← List.append_assoc]
        rcases ih with h0 | h0 | h0 | h0
        · have := congrArg List.length h0
          simp at this
          omega
        · have := congrArg List.length h0
          simp at this
          omega
        · rw [e1] at h0; rw [e2]; exact Or.inr (Or.inr (Or.inl h0))
        · rw [e1] at h0; rw [e2]; exact Or.inr (Or.inr (Or.inr h0))

set_option maxRecDepth 100000 in
/-- C2 (evaluation at the failing input). For the grammar `S -> Xc | b | pXd`,
`X -> Sa` the string `pb` is not derivable from the start symbol, the table
construction returns 0 and prints no overlap line (only the warning it also
prints for the grammar `E -> E+T | T`, `T -> id`), and `grammar_input_check`
on `pb` returns 1. -/
theorem left_recursive_accepts_underivable :
    ¬ Derives grammar_left_recursive [grammar_left_recursive.starting_symbol] "pb".toList ∧
    (grammar_create_lr_table 16 grammar_left_recursive (item_set_init 'Z')).bind
      (fun r => (grammar_input_check 16 grammar_left_recursive r.1.table "pb".toList).map
        (fun e => (r.2, r.1.out, e.1.code))) =
      .ok (0, [Diag.not_lr0_warning, Diag.not_lr0_warning], 1) := by
  refine ⟨?_, by decide⟩
  intro h
  have hs : grammar_left_recursive.starting_symbol = 'S' := by decide
  rw [hs] at h
  have := left_recursive_forms _ h
  simp at this

set_option maxRecDepth 100000 in
/-- C6 (evaluation at the failing input). For the grammar `S -> A | B`,
`A -> x`, `B -> x` the table construction returns 0, state 3 holds the two
items `A -> x .` and `B -> x .`, and the only line printed is the warning:
there is no overlap report for state 3. -/
theorem two_reductions_unreported :
    productions_of grammar_two_reductions 'A' = [⟨['x']⟩] ∧
    productions_of grammar_two_reductions 'B' = [⟨['x']⟩] ∧
    (grammar_create_lr_table 16 grammar_two_reductions (item_set_init 'Z')).map
      (fun r => (r.2, (r.1.set.items[3]?).map (fun it => it.productions), r.1.out,
        r.1.out.any (Diag.is_action_overlap 3))) =
      .ok (0, some [⟨'A', 0, 1⟩, ⟨'B', 0, 1⟩], [Diag.not_lr0_warning], false) := by
  refine ⟨by decide, by decide, by decide⟩

end LR0

namespace LR0

open ActionType

/-! ## Basic facts about the stores -/

theorem find_set_some {l : List ProductionSet} {c : Char} {k : Nat}
    (h : find_set l c = some k) : ∃ ps, l[k]? = some ps ∧ ps.symbol = c := by
  induction l generalizing k with
  | nil => simp [find_set] at h
  | cons a t ih =>
    unfold find_set at h
    split at h
    · cases h
      exact ⟨a, by simp, by assumption⟩
    · cases hf : find_set t c with
      | none => simp [hf] at h
      | some m =>
        simp [hf] at h
        subst h
        obtain ⟨ps, h1, h2⟩ := ih hf
        exact ⟨ps, by simpa using h1, h2⟩

theorem find_set_none {l : List ProductionSet} {c : Char}
    (h : find_set l c = none) : ∀ ps ∈ l, ps.symbol ≠ c := by
  induction l with
  | nil => simp
  | cons a t ih =>
    unfold find_set at h
    split at h
    · cases h
    · cases hf : find_set t c with
      | none =>
        intro ps hps
        rcases List.mem_cons.1 hps with rfl | hps
        · assumption
        · exact ih hf ps hps
      | some m => simp [hf] at h

theorem productions_of_eq {g : Grammar} {B : Char} {k : Nat} {ps : ProductionSet}
    (h1 : grammar_find g B = some k) (h2 : g.set[k]? = some ps) :
    productions_of g B = ps.productions := by
  simp [productions_of, h1, h2]

theorem item_get_production_dot0 (g : Grammar) (B : Char) (j d : Nat) :
    item_get_production g ⟨B, j, d⟩ = (productions_of g B)[j]? := by
  cases h1 : grammar_find g B with
  | none => simp [item_get_production, productions_of, h1]
  | some k =>
    cases h2 : g.set[k]? with
    | none => simp [item_get_production, productions_of, h1, h2]
    | some ps => simp [item_get_production, productions_of, h1, h2]

theorem set_insert_settled {s : Set} {k : Char} (h : set_settled s k) :
    (set_insert s k).1 = s := by
  unfold set_insert
  by_cases h1 : k ∈ s.data
  · simp [h1]
  · rcases h with h | h
    · exact absurd h h1
    · simp [h1, h]

theorem set_insert_makes_settled (s : Set) (k : Char) : set_settled (set_insert s k).1 k := by
  unfold set_insert set_settled
  by_cases h : k ∈ s.data
  · simp [h]
  · by_cases h2 : s.data.length < SETMAXALLOCSIZE
    · simp [h, h2]
    · simp [h, h2]

theorem set_insert_keeps_settled {s : Set} {k c : Char} (h : set_settled s c) :
    set_settled (set_insert s k).1 c := by
  unfold set_insert
  by_cases h1 : k ∈ s.data
  · simpa [h1] using h
  · by_cases h2 : s.data.length < SETMAXALLOCSIZE
    · simp only [h1, h2, if_true, if_false]
      rcases h with h | h
      · exact Or.inl (by simp [h])
      · exact absurd h2 h
    · simpa [h1, h2] using h

theorem closed_for_mono {g : Grammar} {l l2 : List ItemProduction} {B : Char}
    (h : closed_for g l B) (hsub : ∀ x ∈ l, x ∈ l2) : closed_for g l2 B :=
  fun j hj => hsub _ (h j hj)

theorem count_missing_mono (u : List ItemProduction) {l l2 : List ItemProduction}
    (hsub : ∀ x ∈ l, x ∈ l2) : count_missing u l2 ≤ count_missing u l := by
  induction u with
  | nil => simp [count_missing]
  | cons a t ih =>
    simp only [count_missing]
    by_cases h1 : a ∈ l
    · have h2 : a ∈ l2 := hsub _ h1
      simp [h1, h2, ih]
    · by_cases h2 : a ∈ l2
      · simp [h1, h2]; omega
      · simp [h1, h2, ih]

theorem count_missing_insert (u : List ItemProduction) {l : List ItemProduction}
    {x : ItemProduction} (hx : x ∈ u) (hnot : x ∉ l) :
    count_missing u (l ++ [x]) + 1 ≤ count_missing u l := by
  induction u with
  | nil => simp at hx
  | cons a t ih =>
    simp only [count_missing]
    have hle : count_missing t (l ++ [x]) ≤ count_missing t l :=
      count_missing_mono t (fun y hy => List.mem_append_left _ hy)
    by_cases hax : a = x
    · subst hax
      simp [hnot]
      omega
    · have hx2 : x ∈ t := by
        rcases List.mem_cons.1 hx with h | h
        · exact absurd h.symm hax
        · exact h
      have := ih hx2
      by_cases hal : a ∈ l
      · simp [hal]
        exact this
      · simp [hal, hax]
        omega

theorem missing_mono (g : Grammar) {l l2 : List ItemProduction} (hsub : ∀ x ∈ l, x ∈ l2) :
    missing g l2 ≤ missing g l :=
  count_missing_mono _ hsub

theorem missing_insert (g : Grammar) {l : List ItemProduction} {x : ItemProduction}
    (hx : x ∈ dot0_items g) (hnot : x ∉ l) : missing g (l ++ [x]) + 1 ≤ missing g l :=
  count_missing_insert _ hx hnot

theorem mem_dot0_items {g : Grammar} {B : Char} {k j : Nat} {ps : ProductionSet}
    (h1 : grammar_find g B = some k) (h2 : g.set[k]? = some ps)
    (hj : j < ps.productions.length) : (⟨B, j, 0⟩ : ItemProduction) ∈ dot0_items g := by
  obtain ⟨ps2, h3, h4⟩ := find_set_some h1
  rw [h2] at h3
  cases h3
  unfold dot0_items
  simp only [List.mem_flatMap, List.mem_map, List.mem_range]
  exact ⟨ps, List.getElem?_mem h2, j, hj, by rw [h4]⟩

end LR0

namespace LR0

/-! ## The closure of a state -/

theorem Grows.refl_g (g : Grammar) (s : Item) : Grows g s s :=
  ⟨rfl, ⟨[], by simp⟩, fun _ h => h, Nat.le_refl _⟩

theorem Grows.sub {g : Grammar} {s s2 : Item} (h : Grows g s s2) :
    ∀ x ∈ s.productions, x ∈ s2.productions := by
  obtain ⟨added, h1, _⟩ := h.grows
  intro x hx
  rw [h1]
  exact List.mem_append_left _ hx

theorem Grows.trans_g {g : Grammar} {s s2 s3 : Item} (h1 : Grows g s s2) (h2 : Grows g s2 s3) :
    Grows g s s3 := by
  obtain ⟨a1, e1, d1⟩ := h1.grows
  obtain ⟨a2, e2, d2⟩ := h2.grows
  refine ⟨h2.offset.trans h1.offset, ⟨a1 ++ a2, ?_, ?_⟩, fun c h => h2.settled c (h1.settled c h),
    Nat.le_trans h2.measure h1.measure⟩
  · rw [e2, e1, List.append_assoc]
  · intro x hx
    rcases List.mem_append.1 hx with h | h
    · exact d1 x h
    · exact d2 x h

theorem item_production_insert_mem {s : Item} {B : Char} {i d : Nat}
    (h : (⟨B, i, d⟩ : ItemProduction) ∈ s.productions) :
    item_production_insert s B i d = (s, 1) := by
  simp [item_production_insert, h]

theorem item_production_insert_new {s : Item} {B : Char} {i d : Nat}
    (h : (⟨B, i, d⟩ : ItemProduction) ∉ s.productions) :
    item_production_insert s B i d =
      (⟨s.productions ++ [⟨B, i, d⟩], s.closure_offset, s.nonterminal_set⟩, 0) := by
  simp [item_production_insert, h]

theorem grows_insert (g : Grammar) (s : Item) (x : ItemProduction) (hx : x.dot_offset = 0) :
    Grows g s ⟨s.productions ++ [x], s.closure_offset, s.nonterminal_set⟩ :=
  ⟨rfl, ⟨[x], rfl, by simpa using hx⟩, fun _ h => h,
    missing_mono g (fun y hy => List.mem_append_left _ hy)⟩

theorem dot_before_dot0 {g : Grammar} {B C : Char} {i : Nat} {p : Production}
    (hp : (productions_of g B)[i]? = some p) (h : dot_before g ⟨B, i, 0⟩ C) :
    p.symbols[0]? = some C ∧ is_nonterminal C = true := by
  obtain ⟨q, h1, h2, h3⟩ := h
  rw [item_get_production_dot0, hp] at h1
  cases h1
  exact ⟨h2, h3⟩

theorem closure_loop_spec (g : Grammar) (fuel : Nat)
    (recurse : Item → Char → Res (Item × Int))
    (hrec : ∀ s B, ClosureOutcome g fuel s B (recurse s B)) (B : Char)
    (hB : grammar_find g B ≠ none) :
    ∀ (ps : List Production) (i : Nat) (s : Item),
      (∀ j p, ps[j]? = some p → (productions_of g B)[i + j]? = some p) →
      LoopOutcome g fuel B i ps.length s (closure_loop recurse g B ps i s) := by
  intro ps
  induction ps with
  | nil =>
    intro i s _
    simp only [closure_loop, LoopOutcome]
    exact ⟨Grows.refl_g g s, Or.inl rfl, fun _ j h1 h2 => by simp at h2; omega,
      fun _ x h1 h2 => absurd h1 h2, fun K h _ => h, fun _ => rfl⟩
  | cons p ps ih =>
    intro i s hctx
    have hp : (productions_of g B)[i]? = some p := by simpa using hctx 0 p (by simp)
    have hctx2 : ∀ j q, ps[j]? = some q → (productions_of g B)[i + 1 + j]? = some q := by
      intro j q hq
      have := hctx (j + 1) q (by simpa using hq)
      rwa [show i + (j + 1) = i + 1 + j by omega] at this
    have hlen : i < (productions_of g B).length := by
      rcases List.getElem?_eq_some.1 hp with ⟨h, _⟩
      exact h
    have hx0 : (⟨B, i, 0⟩ : ItemProduction) ∈ dot0_items g := by
      cases h1 : grammar_find g B with
      | none => exact absurd h1 hB
      | some k =>
        cases h2 : g.set[k]? with
        | none => simp [productions_of, h1, h2] at hlen
        | some psB =>
          rw [productions_of_eq h1 h2] at hlen
          exact mem_dot0_items h1 h2 hlen
    have hpmem : ∃ psB ∈ g.set, p ∈ psB.productions := by
      cases h1 : grammar_find g B with
      | none => exact absurd h1 hB
      | some k =>
        cases h2 : g.set[k]? with
        | none => simp [productions_of, h1, h2] at hlen
        | some psB =>
          rw [productions_of_eq h1 h2] at hp
          exact ⟨psB, List.getElem?_mem h2, List.getElem?_mem hp⟩
    unfold closure_loop
    by_cases hmem : (⟨B, i, 0⟩ : ItemProduction) ∈ s.productions
    · -- the item is already there
      rw [item_production_insert_mem hmem]
      simp only [if_true]
      have h := ih (i + 1) s hctx2
      cases hres : closure_loop recurse g B ps (i + 1) s with
      | undefined => rw [hres] at h; exact h
      | nofuel => rw [hres] at h; exact h
      | ok r =>
        rw [hres] at h
        simp only [LoopOutcome] at h ⊢
        refine ⟨h.mono, h.code_cases, ?_, h.fresh, h.least, h.defined⟩
        intro hc j h1 h2
        by_cases hj : j = i
        · subst hj; exact h.mono.sub _ hmem
        · exact h.range hc j (by omega) (by simp at h2; omega)
    · rw [item_production_insert_new hmem]
      simp only [show ((0 : Int) = 1) = False by simp, if_false]
      have hg1 := grows_insert g s ⟨B, i, 0⟩ rfl
      have hm1 := missing_insert g hx0 hmem
      by_cases hcond : 0 < p.size ∧ is_nonterminal (symbol_at g p 0) = true
      · -- a nonterminal follows the dot: the recursive call
        simp only [hcond, and_self, if_true]
        have hsym : p.symbols[0]? = some (symbol_at g p 0) := by
          have : 0 < p.symbols.length := hcond.1
          simp [symbol_at, List.getD, List.getElem?_eq_getElem this]
        have hdem : dot_before g ⟨B, i, 0⟩ (symbol_at g p 0) :=
          ⟨p, by rw [item_get_production_dot0]; exact hp, hsym, hcond.2⟩
        have hr := hrec ⟨s.productions ++ [⟨B, i, 0⟩], s.closure_offset, s.nonterminal_set⟩
          (symbol_at g p 0)
        cases hres : recurse ⟨s.productions ++ [⟨B, i, 0⟩], s.closure_offset, s.nonterminal_set⟩
            (symbol_at g p 0) with
        | undefined => rw [hres] at hr; exact hr
        | nofuel =>
          rw [hres] at hr
          simp only [ClosureOutcome] at hr
          simp only [LoopOutcome]
          omega
        | ok r =>
          obtain ⟨s2, code⟩ := r
          rw [hres] at hr
          simp only [ClosureOutcome] at hr
          simp only []
          have hg2 : Grows g s s2 := hg1.trans_g hr.mono
          have hleast2 : ∀ K, (∀ x ∈ s.productions, InClosure g K x) →
              (∃ y, InClosure g K y ∧ dot_before g y B) → ∀ x ∈ s2.productions, InClosure g K x := by
            intro K hK hdemB
            obtain ⟨y, hy1, hy2⟩ := hdemB
            have hxin : InClosure g K ⟨B, i, 0⟩ := InClosure.expand y B i hy1 hy2 hlen
            apply hr.least K
            · intro x hx
              rcases List.mem_append.1 hx with h | h
              · exact hK x h
              · simp at h; subst h; exact hxin
            · exact ⟨_, hxin, hdem⟩
          by_cases hneg : code < 0
          · simp only [hneg, if_true, LoopOutcome]
            refine ⟨hg2, Or.inr rfl, fun h => by simp at h, fun h => by simp at h, hleast2, ?_⟩
            intro hdef
            have hfind : grammar_find g (symbol_at g p 0) ≠ none := by
              obtain ⟨psB, h1, h2⟩ := hpmem
              exact hdef psB h1 p h2 _ (List.getElem?_mem hsym) hcond.2
            have := hr.defined hdef hfind
            omega
          · simp only [hneg, if_false]
            have hc0 : code = 0 := by rcases hr.code_cases with h | h <;> omega
            have h := ih (i + 1) s2 hctx2
            cases hres2 : closure_loop recurse g B ps (i + 1) s2 with
            | undefined => rw [hres2] at h; exact h
            | nofuel =>
              rw [hres2] at h
              simp only [LoopOutcome] at h ⊢
              have := hg2.measure
              omega
            | ok r2 =>
              rw [hres2] at h
              simp only [LoopOutcome] at h ⊢
              refine ⟨hg2.trans_g h.mono, h.code_cases, ?_, ?_, ?_, h.defined⟩
              · intro hc j h1 h2
                by_cases hj : j = i
                · subst hj
                  exact h.mono.sub _ (hr.mono.sub _ (by simp))
                · exact h.range hc j (by omega) (by simp at h2; omega)
              · intro hc x hx hnot C hC
                by_cases hx2 : x ∈ s2.productions
                · by_cases hx1 : x = ⟨B, i, 0⟩
                  · subst hx1
                    have := dot_before_dot0 hp hC
                    rw [hsym] at this
                    have hCe : symbol_at g p 0 = C := by simpa using this.1
                    rw [← hCe]
                    exact closed_for_mono (hr.closed hc0).1 h.mono.sub
                  · have hx3 : x ∉ s.productions ++ [⟨B, i, 0⟩] := by
                      simp [hnot, hx1]
                    exact closed_for_mono (hr.fresh hc0 x hx2 hx3 C hC) h.mono.sub
                · exact h.fresh hc x hx hx2 C hC
              · intro K hK hdemB
                exact h.least K (hleast2 K hK hdemB) hdemB
      · -- no nonterminal after the dot
        simp only [hcond, if_false]
        have h := ih (i + 1) ⟨s.productions ++ [⟨B, i, 0⟩], s.closure_offset, s.nonterminal_set⟩
          hctx2
        cases hres2 : closure_loop recurse g B ps (i + 1)
            ⟨s.productions ++ [⟨B, i, 0⟩], s.closure_offset, s.nonterminal_set⟩ with
        | undefined => rw [hres2] at h; exact h
        | nofuel =>
          rw [hres2] at h
          simp only [LoopOutcome] at h ⊢
          omega
        | ok r2 =>
          rw [hres2] at h
          simp only [LoopOutcome] at h ⊢
          refine ⟨hg1.trans_g h.mono, h.code_cases, ?_, ?_, ?_, h.defined⟩
          · intro hc j h1 h2
            by_cases hj : j = i
            · subst hj
              exact h.mono.sub _ (by simp)
            · exact h.range hc j (by omega) (by simp at h2; omega)
          · intro hc x hx hnot C hC
            by_cases hx1 : x = ⟨B, i, 0⟩
            · subst hx1
              exfalso
              have := dot_before_dot0 hp hC
              apply hcond
              have hpos : 0 < p.symbols.length := by
                rcases List.getElem?_eq_some.1 this.1 with ⟨hh, _⟩
                exact hh
              refine ⟨hpos, ?_⟩
              have : symbol_at g p 0 = C := by
                have h5 := this.1
                simp [symbol_at, List.getD, h5]
              rw [this]
              exact (dot_before_dot0 hp hC).2
            · have hx3 : x ∉ s.productions ++ [⟨B, i, 0⟩] := by
                simp [hnot, hx1]
              exact h.fresh hc x hx hx3 C hC
          · intro K hK hdemB
            apply h.least K _ hdemB
            obtain ⟨y, hy1, hy2⟩ := hdemB
            intro x hx
            rcases List.mem_append.1 hx with h | h
            · exact hK x h
            · simp at h; subst h; exact InClosure.expand y B i hy1 hy2 hlen

end LR0

namespace LR0

theorem closure_internal_spec (g : Grammar) :
    ∀ (fuel : Nat) (s : Item) (B : Char),
      ClosureOutcome g fuel s B (item_insert_closure_internal fuel g s B) := by
  intro fuel
  induction fuel with
  | zero =>
    intro s B
    simp [item_insert_closure_internal, ClosureOutcome]
  | succ fuel ih =>
    intro s B
    unfold item_insert_closure_internal
    cases h1 : grammar_find g B with
    | none =>
      simp only [ClosureOutcome]
      exact ⟨Grows.refl_g g s, Or.inr rfl, fun h => by simp at h, fun h => by simp at h,
        fun h => by simp at h, fun K h _ => h, fun _ h => absurd h1 h⟩
    | some k =>
      obtain ⟨psB, h2, _⟩ := find_set_some h1
      simp only [h2]
      have hB : grammar_find g B ≠ none := by simp [h1]
      have hprods := productions_of_eq h1 h2
      have hloop := closure_loop_spec g fuel (item_insert_closure_internal fuel g) ih B hB
        psB.productions 0
        ⟨s.productions, s.closure_offset, (set_insert s.nonterminal_set B).1⟩
        (by intro j p hp; rw [hprods]; simpa using hp)
      have hg0 : Grows g s ⟨s.productions, s.closure_offset, (set_insert s.nonterminal_set B).1⟩ :=
        ⟨rfl, ⟨[], by simp⟩, fun c h => set_insert_keeps_settled h, Nat.le_refl _⟩
      cases hres : closure_loop (item_insert_closure_internal fuel g) g B psB.productions 0
          ⟨s.productions, s.closure_offset, (set_insert s.nonterminal_set B).1⟩ with
      | undefined => rw [hres] at hloop; exact hloop
      | nofuel =>
        rw [hres] at hloop
        simpa [LoopOutcome, ClosureOutcome] using hloop
      | ok r =>
        rw [hres] at hloop
        simp only [LoopOutcome, ClosureOutcome] at hloop ⊢
        refine ⟨hg0.trans_g hloop.mono, hloop.code_cases, ?_, fun _ => hB, hloop.fresh,
          hloop.least, fun hd _ => hloop.defined hd⟩
        intro hc
        refine ⟨?_, hloop.mono.settled B (set_insert_makes_settled _ _)⟩
        intro j hj
        rw [hprods] at hj
        exact hloop.range hc j (Nat.zero_le _) (by omega)

end LR0

namespace LR0

theorem Grows.getElem? {g : Grammar} {s s2 : Item} (h : Grows g s s2) {i : Nat}
    {x : ItemProduction} (hx : s.productions[i]? = some x) : s2.productions[i]? = some x := by
  obtain ⟨added, h1, _⟩ := h.grows
  rw [h1]
  rcases List.getElem?_eq_some.1 hx with ⟨hlt, hval⟩
  rw [List.getElem?_append_left hlt]
  exact hx

theorem symbol_at_of_getElem? {g : Grammar} {p : Production} {d : Nat} {C : Char}
    (h : p.symbols[d]? = some C) : symbol_at g p d = C := by
  simp [symbol_at, List.getD, h]

theorem getElem?_symbol_at {g : Grammar} {p : Production} {d : Nat} (h : d < p.size) :
    p.symbols[d]? = some (symbol_at g p d) := by
  have h2 : d < p.symbols.length := h
  simp [symbol_at, List.getD, List.getElem?_eq_getElem h2]

theorem dot_before_iff {g : Grammar} {ip : ItemProduction} {p : Production} {C : Char}
    (hp : item_get_production g ip = some p) :
    dot_before g ip C ↔
      ip.dot_offset < p.size ∧ symbol_at g p ip.dot_offset = C ∧ is_nonterminal C = true := by
  constructor
  · rintro ⟨q, h1, h2, h3⟩
    rw [hp] at h1
    cases h1
    rcases List.getElem?_eq_some.1 h2 with ⟨hlt, _⟩
    exact ⟨hlt, symbol_at_of_getElem? h2, h3⟩
  · rintro ⟨h1, h2, h3⟩
    refine ⟨p, hp, ?_, h3⟩
    rw [← h2]
    exact getElem?_symbol_at h1

theorem item_get_production_stored {g : Grammar} {ip : ItemProduction} {p : Production}
    (hp : item_get_production g ip = some p) : ∃ ps ∈ g.set, p ∈ ps.productions := by
  unfold item_get_production at hp
  cases h1 : grammar_find g ip.nonterminal with
  | none => simp [h1] at hp
  | some k =>
    cases h2 : g.set[k]? with
    | none => simp [h1, h2] at hp
    | some ps =>
      simp [h1, h2] at hp
      exact ⟨ps, List.getElem?_mem h2, List.getElem?_mem hp⟩

theorem set_insert_data (s : Set) (k : Char) :
    ∀ c ∈ (set_insert s k).1.data, c ∈ s.data ∨ c = k := by
  intro c hc
  unfold set_insert at hc
  by_cases h1 : k ∈ s.data
  · simp [h1] at hc; exact Or.inl hc
  · by_cases h2 : s.data.length < SETMAXALLOCSIZE
    · simp [h1, h2] at hc; exact hc
    · simp [h1, h2] at hc; exact Or.inl hc

theorem set_insert_flag (s : Set) (k : Char) :
    ((set_insert s k).2 = 1 ↔ k ∈ s.data) := by
  unfold set_insert
  by_cases h1 : k ∈ s.data
  · simp [h1]
  · by_cases h2 : s.data.length < SETMAXALLOCSIZE
    · simp [h1, h2]
    · simp [h1, h2]

theorem closure_scan_spec (g : Grammar) (fuel : Nat) :
    ∀ (n i : Nat) (visited : Set) (no_outgoing : Int) (s : Item),
      (∀ C ∈ visited.data, closed_for g s.productions C) →
      (visited.data ≠ [] → no_outgoing = 0) →
      (no_outgoing = 0 ∨ no_outgoing = 1) →
      ScanOutcome g fuel i n no_outgoing s (closure_scan fuel g n i visited no_outgoing s) := by
  intro n
  induction n with
  | zero =>
    intro i visited no s _ _ hno
    simp only [closure_scan, ScanOutcome]
    refine ⟨Grows.refl_g g s, ?_, fun _ idx h1 h2 => by omega, fun _ x h1 h2 => absurd h1 h2,
      fun K h => h, fun _ => by rcases hno with h | h <;> omega, fun _ => ⟨rfl, fun idx h1 h2 => by omega⟩⟩
    rcases hno with h | h
    · exact Or.inr (Or.inl h)
    · exact Or.inr (Or.inr ⟨h, h⟩)
  | succ n ih =>
    intro i visited no s hvis hvno hno
    unfold closure_scan
    cases hread : s.productions[i]? with
    | none =>
      simp only [ScanOutcome]
      intro hr
      obtain ⟨ip, p, h1, _⟩ := hr i (Nat.le_refl _) (by omega)
      rw [hread] at h1
      cases h1
    | some ip =>
      simp only []
      cases hget : item_get_production g ip with
      | none =>
        simp only [ScanOutcome]
        intro hr
        obtain ⟨ip2, p, h1, h2⟩ := hr i (Nat.le_refl _) (by omega)
        rw [hread] at h1
        cases h1
        rw [hget] at h2
        cases h2
      | some p =>
        simp only []
        -- how a result of the remaining iterations extends to this one
        have extend : ∀ (visited2 : Set) (no2 : Int) (s1 : Item), Grows g s s1 →
            (∀ C, dot_before g ip C → closed_for g s1.productions C) →
            (∀ x ∈ s1.productions, x ∉ s.productions →
              ∀ C, dot_before g x C → closed_for g s1.productions C) →
            (∀ K, (∀ x ∈ s.productions, InClosure g K x) →
              ∀ x ∈ s1.productions, InClosure g K x) →
            (no2 = 1 → no = 1 ∧ s1 = s ∧ p.size ≤ ip.dot_offset) →
            ScanOutcome g fuel (i + 1) n no2 s1
              (closure_scan fuel g n (i + 1) visited2 no2 s1) →
            ScanOutcome g fuel i (n + 1) no s
              (closure_scan fuel g n (i + 1) visited2 no2 s1) := by
          intro visited2 no2 s1 hg1 hip hfresh1 hleast1 hq1 hout
          cases hres : closure_scan fuel g n (i + 1) visited2 no2 s1 with
          | undefined =>
            rw [hres] at hout
            simp only [ScanOutcome] at hout ⊢
            intro hr
            apply hout
            intro idx h1 h2
            obtain ⟨ip2, p2, h3, h4⟩ := hr idx (by omega) (by omega)
            exact ⟨ip2, p2, hg1.getElem? h3, h4⟩
          | nofuel =>
            rw [hres] at hout
            simp only [ScanOutcome] at hout ⊢
            exact Nat.le_trans hout hg1.measure
          | ok r =>
            rw [hres] at hout
            simp only [ScanOutcome] at hout ⊢
            refine ⟨hg1.trans_g hout.mono, ?_, ?_, ?_, fun K hK => hout.least K (hleast1 K hK),
              hout.defined, ?_⟩
            · rcases hout.code_cases with h1 | h1 | ⟨h1, h2⟩
              · exact Or.inl h1
              · exact Or.inr (Or.inl h1)
              · exact Or.inr (Or.inr ⟨h1, (hq1 h2).1⟩)
            · intro hc idx h1 h2 ip2 hip2 C hC
              by_cases hidx : idx = i
              · subst hidx
                have := (hg1.trans_g hout.mono).getElem? hread
                rw [this] at hip2
                cases hip2
                exact closed_for_mono (hip C hC) hout.mono.sub
              · exact hout.scanned hc idx (by omega) (by omega) ip2 hip2 C hC
            · intro hc x hx hnot C hC
              by_cases hx1 : x ∈ s1.productions
              · exact closed_for_mono (hfresh1 x hx1 hnot C hC) hout.mono.sub
              · exact hout.fresh hc x hx hx1 C hC
            · intro hc
              obtain ⟨he, hrange⟩ := hout.quiet hc
              have hno2 : no2 = 1 := by
                rcases hout.code_cases with h1 | h1 | ⟨_, h2⟩
                · omega
                · omega
                · exact h2
              obtain ⟨_, hs1, hle⟩ := hq1 hno2
              subst hs1
              refine ⟨he, ?_⟩
              intro idx h1 h2 ip2 p2 hip2 hp2
              by_cases hidx : idx = i
              · subst hidx
                rw [hread] at hip2
                cases hip2
                rw [hget] at hp2
                cases hp2
                exact hle
              · exact hrange idx (by omega) (by omega) ip2 p2 hip2 hp2
        by_cases hsize : p.size ≤ ip.dot_offset
        · simp only [hsize, if_true]
          refine extend visited no s (Grows.refl_g g s) ?_ (fun x h1 h2 => absurd h1 h2)
            (fun K h => h) (fun h => ⟨h, rfl, hsize⟩) (ih (i + 1) visited no s hvis hvno hno)
          intro C hC
          have := ((dot_before_iff hget).1 hC).1
          omega
        · simp only [hsize, if_false]
          by_cases hnt : is_nonterminal (symbol_at g p ip.dot_offset) = true
          · simp only [hnt, if_true]
            have hdem : dot_before g ip (symbol_at g p ip.dot_offset) :=
              (dot_before_iff hget).2 ⟨by omega, rfl, hnt⟩
            by_cases hflag : (set_insert visited (symbol_at g p ip.dot_offset)).2 = 1
            · simp only [hflag, if_true]
              have hmem := (set_insert_flag _ _).1 hflag
              have hv1 : ∀ C ∈ (set_insert visited (symbol_at g p ip.dot_offset)).1.data,
                  closed_for g s.productions C := by
                intro C hC
                rcases set_insert_data _ _ C hC with h | h
                · exact hvis C h
                · rw [h]; exact hvis _ hmem
              have hne : visited.data ≠ [] := List.ne_nil_of_mem hmem
              refine extend _ no s (Grows.refl_g g s) ?_ (fun x h1 h2 => absurd h1 h2)
                (fun K h => h) (fun h => by have := hvno hne; omega)
                (ih (i + 1) _ no s hv1 (fun _ => hvno hne) hno)
              intro C hC
              have := ((dot_before_iff hget).1 hC).2.1
              rw [← this]
              exact hvis _ hmem
            · simp only [hflag, if_false]
              have hr := closure_internal_spec g fuel s (symbol_at g p ip.dot_offset)
              cases hres : item_insert_closure_internal fuel g s (symbol_at g p ip.dot_offset) with
              | undefined => rw [hres] at hr; exact absurd hr (by simp [ClosureOutcome])
              | nofuel =>
                rw [hres] at hr
                simpa [ClosureOutcome, ScanOutcome] using hr
              | ok r =>
                obtain ⟨s2, code⟩ := r
                rw [hres] at hr
                simp only [ClosureOutcome] at hr
                simp only []
                have hleast2 : ∀ K, (∀ x ∈ s.productions, InClosure g K x) →
                    ∀ x ∈ s2.productions, InClosure g K x := by
                  intro K hK
                  exact hr.least K hK ⟨ip, hK ip (List.getElem?_mem hread), hdem⟩
                by_cases hneg : code < 0
                · simp only [hneg, if_true, ScanOutcome]
                  refine ⟨hr.mono, Or.inl rfl, fun h => by omega, fun h => by omega, hleast2,
                    ?_, fun h => by omega⟩
                  intro hdef
                  exfalso
                  obtain ⟨ps, h1, h2⟩ := item_get_production_stored hget
                  have hfind := hdef ps h1 p h2 _
                    (List.getElem?_mem (getElem?_symbol_at (g := g) (by omega : ip.dot_offset < p.size)))
                    hnt
                  have := hr.defined hdef hfind
                  omega
                · simp only [hneg, if_false]
                  have hc0 : code = 0 := by rcases hr.code_cases with h | h <;> omega
                  have hv1 : ∀ C ∈ (set_insert visited (symbol_at g p ip.dot_offset)).1.data,
                      closed_for g s2.productions C := by
                    intro C hC
                    rcases set_insert_data _ _ C hC with h | h
                    · exact closed_for_mono (hvis C h) hr.mono.sub
                    · rw [h]; exact (hr.closed hc0).1
                  refine extend _ 0 s2 hr.mono ?_ (hr.fresh hc0) hleast2
                    (fun h => by omega) (ih (i + 1) _ 0 s2 hv1 (fun _ => rfl) (Or.inl rfl))
                  intro C hC
                  have := ((dot_before_iff hget).1 hC).2.1
                  rw [← this]
                  exact (hr.closed hc0).1
          · simp only [hnt, if_false]
            refine extend visited 0 s (Grows.refl_g g s) ?_ (fun x h1 h2 => absurd h1 h2)
              (fun K h => h) (fun h => by omega)
              (ih (i + 1) visited 0 s hvis (fun _ => rfl) (Or.inl rfl))
            intro C hC
            have h := (dot_before_iff hget).1 hC
            rw [← h.2.1] at h
            exact absurd h.2.2 hnt

end LR0

namespace LR0

theorem count_missing_le (u l : List ItemProduction) : count_missing u l ≤ u.length := by
  induction u with
  | nil => simp [count_missing]
  | cons a t ih =>
    simp only [count_missing, List.length_cons]
    split <;> omega

theorem readable_of_valid {g : Grammar} {s : Item} {n : Nat} (hn : n ≤ s.productions.length)
    (hvalid : ∀ x ∈ s.productions, item_get_production g x ≠ none) : readable g 0 n s := by
  intro idx _ h2
  have hlt : idx < s.productions.length := by omega
  refine ⟨s.productions[idx], ?_⟩
  have hmem : s.productions[idx] ∈ s.productions := List.getElem_mem hlt
  cases hp : item_get_production g s.productions[idx] with
  | none => exact absurd hp (hvalid _ hmem)
  | some p => exact ⟨p, List.getElem?_eq_getElem hlt, rfl⟩

/-- A successful closure of a state whose whole list is the kernel returns a
list that contains the kernel, is closed, and consists exactly of the items of
the least such set. -/
theorem closure_sound (g : Grammar) (s s2 : Item) (fuel : Nat) (code : Int)
    (hoff : s.closure_offset = s.productions.length)
    (h : item_insert_closure fuel g s = .ok (s2, code)) (hcode : 0 ≤ code) :
    (∀ x ∈ s.productions, x ∈ s2.productions) ∧
    (∀ x ∈ s2.productions, ∀ B, dot_before g x B →
      ∀ j, j < (productions_of g B).length → (⟨B, j, 0⟩ : ItemProduction) ∈ s2.productions) ∧
    (∀ x, x ∈ s2.productions ↔ InClosure g s.productions x) := by
  unfold item_insert_closure at h
  by_cases hlen : s.productions.length = 0
  · simp only [hlen, if_true] at h
    cases h
    omega
  · simp only [hlen, if_false] at h
    have hspec := closure_scan_spec g fuel s.closure_offset 0 set_init 1 s
      (by intro C hC; simp [set_init] at hC) (by intro h; simp [set_init] at h) (Or.inr rfl)
    rw [h] at hspec
    simp only [ScanOutcome] at hspec
    have hb : ∀ x ∈ s2.productions, ∀ B, dot_before g x B →
        ∀ j, j < (productions_of g B).length → (⟨B, j, 0⟩ : ItemProduction) ∈ s2.productions := by
      intro x hx B hB
      by_cases hk : x ∈ s.productions
      · obtain ⟨idx, hidx⟩ := List.mem_iff_getElem?.1 hk
        have hlt : idx < s.productions.length := (List.getElem?_eq_some.1 hidx).1
        exact hspec.scanned hcode idx (Nat.zero_le _) (by omega) x (hspec.mono.getElem? hidx) B hB
      · exact hspec.fresh hcode x hx hk B hB
    refine ⟨hspec.mono.sub, hb, ?_⟩
    intro x
    constructor
    · exact hspec.least s.productions (fun y hy => InClosure.kernel y hy) x
    · intro hx
      induction hx with
      | kernel y hy => exact hspec.mono.sub y hy
      | expand y B j _ hyB hj ih => exact hb y ih B hyB j hj

/-- C8. For a grammar in which every nonterminal on a right-hand side has
productions and a state whose whole list is a non-empty kernel of items of the
grammar, `item_insert_closure` returns (for every budget above the number of
productions) a non-negative code and a list that (a) contains the kernel,
(b) contains, for every item in it with the dot before a nonterminal `B`, the
dot-0 item of every production of `B`, and (c) consists exactly of the items
of the least set with these two properties. -/
theorem closure_least_closed (g : Grammar) (s : Item) (fuel : Nat)
    (hne : s.productions ≠ [])
    (hoff : s.closure_offset = s.productions.length)
    (hvalid : ∀ x ∈ s.productions, item_get_production g x ≠ none)
    (hdef : rhs_defined g)
    (hfuel : (dot0_items g).length < fuel) :
    ∃ s2 code, item_insert_closure fuel g s = .ok (s2, code) ∧ 0 ≤ code ∧
      (∀ x ∈ s.productions, x ∈ s2.productions) ∧
      (∀ x ∈ s2.productions, ∀ B, dot_before g x B →
        ∀ j, j < (productions_of g B).length → (⟨B, j, 0⟩ : ItemProduction) ∈ s2.productions) ∧
      (∀ x, x ∈ s2.productions ↔ InClosure g s.productions x) := by
  have hlen : s.productions.length ≠ 0 := by
    intro h
    exact hne (List.length_eq_zero.1 h)
  have hspec := closure_scan_spec g fuel s.closure_offset 0 set_init 1 s
    (by intro C hC; simp [set_init] at hC) (by intro h; simp [set_init] at h) (Or.inr rfl)
  have hrun : item_insert_closure fuel g s = closure_scan fuel g s.closure_offset 0 set_init 1 s := by
    simp [item_insert_closure, hlen]
  cases hres : closure_scan fuel g s.closure_offset 0 set_init 1 s with
  | undefined =>
    rw [hres] at hspec
    exact absurd (readable_of_valid (by omega) hvalid) hspec
  | nofuel =>
    rw [hres] at hspec
    simp only [ScanOutcome] at hspec
    have := count_missing_le (dot0_items g) s.productions
    unfold missing at hspec
    omega
  | ok r =>
    obtain ⟨s2, code⟩ := r
    rw [hres] at hspec hrun
    simp only [ScanOutcome] at hspec
    have hcode := hspec.defined hdef
    exact ⟨s2, code, hrun, hcode, closure_sound g s s2 fuel code hoff hrun hcode⟩

set_option maxRecDepth 100000 in
/-- Witness for `closure_least_closed`: the start item of the grammar
`E -> E+T | T`, `T -> id`. -/
theorem closure_least_closed_witness :
    ∃ s2 code, item_insert_closure 5 example1 ⟨[⟨'Z', 0, 0⟩], 1, set_init⟩ = .ok (s2, code) ∧
      0 ≤ code ∧
      (∀ x ∈ [(⟨'Z', 0, 0⟩ : ItemProduction)], x ∈ s2.productions) ∧
      (∀ x ∈ s2.productions, ∀ B, dot_before example1 x B →
        ∀ j, j < (productions_of example1 B).length →
          (⟨B, j, 0⟩ : ItemProduction) ∈ s2.productions) ∧
      (∀ x, x ∈ s2.productions ↔ InClosure example1 [⟨'Z', 0, 0⟩] x) :=
  closure_least_closed example1 ⟨[⟨'Z', 0, 0⟩], 1, set_init⟩ 5 (by decide) rfl (by decide)
    (by unfold rhs_defined; decide) (by decide)

end LR0

namespace LR0

theorem closure_loop_closed (recurse : Item → Char → Res (Item × Int)) (g : Grammar)
    (B : Char) : ∀ (ps : List Production) (i : Nat) (s : Item),
      (∀ j, i ≤ j → j < i + ps.length → (⟨B, j, 0⟩ : ItemProduction) ∈ s.productions) →
      closure_loop recurse g B ps i s = .ok (s, 0) := by
  intro ps
  induction ps with
  | nil => intro i s _; rfl
  | cons p ps ih =>
    intro i s h
    unfold closure_loop
    have hmem := h i (Nat.le_refl _) (by simp)
    rw [item_production_insert_mem hmem]
    simp only [if_true]
    exact ih (i + 1) s (fun j h1 h2 => h j (by omega) (by simp; omega))

theorem closure_internal_closed (g : Grammar) (fuel : Nat) (s : Item) (B : Char)
    (hfind : grammar_find g B ≠ none) (hcl : closed_for g s.productions B)
    (hset : set_settled s.nonterminal_set B) :
    item_insert_closure_internal (fuel + 1) g s B = .ok (s, 0) := by
  unfold item_insert_closure_internal
  cases h1 : grammar_find g B with
  | none => exact absurd h1 hfind
  | some k =>
    obtain ⟨psB, h2, _⟩ := find_set_some h1
    simp only [h2, set_insert_settled hset]
    apply closure_loop_closed
    intro j _ hj
    apply hcl
    rw [productions_of_eq h1 h2]
    omega

theorem closure_scan_grows (g : Grammar) (fuel : Nat) :
    ∀ (n i : Nat) (visited : Set) (no : Int) (s : Item) (r : Item × Int),
      closure_scan fuel g n i visited no s = .ok r → Grows g s r.1 := by
  intro n
  induction n with
  | zero =>
    intro i visited no s r h
    simp only [closure_scan] at h
    cases h
    exact Grows.refl_g g s
  | succ n ih =>
    intro i visited no s r h
    unfold closure_scan at h
    cases hread : s.productions[i]? with
    | none => simp [hread] at h
    | some ip =>
      simp only [hread] at h
      cases hget : item_get_production g ip with
      | none => simp [hget] at h
      | some p =>
        simp only [hget] at h
        split at h
        · exact ih _ _ _ _ _ h
        · split at h
          · split at h
            · exact ih _ _ _ _ _ h
            · have hr := closure_internal_spec g fuel s (symbol_at g p ip.dot_offset)
              cases hres : item_insert_closure_internal fuel g s (symbol_at g p ip.dot_offset) with
              | undefined => simp [hres] at h
              | nofuel => simp [hres] at h
              | ok r1 =>
                obtain ⟨s1, c1⟩ := r1
                rw [hres] at hr
                simp only [ClosureOutcome] at hr
                simp only [hres] at h
                split at h
                · cases h
                  exact hr.mono
                · exact hr.mono.trans_g (ih _ _ _ _ _ h)
          · exact ih _ _ _ _ _ h

theorem closure_scan_again (g : Grammar) (fuel : Nat) :
    ∀ (n i : Nat) (visited : Set) (no : Int) (s s2 : Item) (code : Int),
      closure_scan fuel g n i visited no s = .ok (s2, code) → 0 ≤ code →
      closure_scan fuel g n i visited no s2 = .ok (s2, code) := by
  intro n
  induction n with
  | zero =>
    intro i visited no s s2 code h _
    simp only [closure_scan] at h ⊢
    cases h
    rfl
  | succ n ih =>
    intro i visited no s s2 code h hc
    have hg := closure_scan_grows g fuel _ _ _ _ _ _ h
    unfold closure_scan at h ⊢
    cases hread : s.productions[i]? with
    | none => simp [hread] at h
    | some ip =>
      simp only [hread] at h
      rw [hg.getElem? hread]
      simp only []
      cases hget : item_get_production g ip with
      | none => simp [hget] at h
      | some p =>
        simp only [hget] at h ⊢
        by_cases hsize : p.size ≤ ip.dot_offset
        · simp only [hsize, if_true] at h ⊢
          exact ih _ _ _ _ _ _ h hc
        · simp only [hsize, if_false] at h ⊢
          by_cases hnt : is_nonterminal (symbol_at g p ip.dot_offset) = true
          · simp only [hnt, if_true] at h ⊢
            by_cases hflag : (set_insert visited (symbol_at g p ip.dot_offset)).2 = 1
            · simp only [hflag, if_true] at h ⊢
              exact ih _ _ _ _ _ _ h hc
            · simp only [hflag, if_false] at h ⊢
              have hr := closure_internal_spec g fuel s (symbol_at g p ip.dot_offset)
              cases hres : item_insert_closure_internal fuel g s (symbol_at g p ip.dot_offset) with
              | undefined => simp [hres] at h
              | nofuel => simp [hres] at h
              | ok r1 =>
                obtain ⟨s1, c1⟩ := r1
                rw [hres] at hr
                simp only [ClosureOutcome] at hr
                simp only [hres] at h
                by_cases hneg : c1 < 0
                · simp only [hneg, if_true] at h
                  cases h
                  omega
                · simp only [hneg, if_false] at h
                  have hc1 : c1 = 0 := by rcases hr.code_cases with h1 | h1 <;> omega
                  have hg1 := closure_scan_grows g fuel _ _ _ _ _ _ h
                  have hcl : closed_for g s2.productions (symbol_at g p ip.dot_offset) :=
                    closed_for_mono (hr.closed hc1).1 hg1.sub
                  have hst : set_settled s2.nonterminal_set (symbol_at g p ip.dot_offset) :=
                    hg1.settled _ (hr.closed hc1).2
                  cases fuel with
                  | zero => simp [item_insert_closure_internal] at hres
                  | succ f =>
                    rw [closure_internal_closed g f s2 _ (hr.found hc1) hcl hst]
                    simp only [show ¬ ((0 : Int) < 0) by omega, if_false]
                    exact ih _ _ _ _ _ _ h hc
          · simp only [hnt, if_false] at h ⊢
            exact ih _ _ _ _ _ _ h hc

/-- C9. When `item_insert_closure` succeeds on a state, applying it to the
resulting state (with the same budget) returns that state unchanged, with the
same code: the items, their order and their number stay as they are. -/
theorem closure_idempotent (g : Grammar) (fuel : Nat) (s s2 : Item) (code : Int)
    (h : item_insert_closure fuel g s = .ok (s2, code)) (hc : 0 ≤ code) :
    item_insert_closure fuel g s2 = .ok (s2, code) := by
  unfold item_insert_closure at h ⊢
  by_cases hlen : s.productions.length = 0
  · simp only [hlen, if_true] at h
    cases h
    omega
  · simp only [hlen, if_false] at h
    have hg := closure_scan_grows g fuel _ _ _ _ _ _ h
    obtain ⟨added, hadd, _⟩ := hg.grows
    have hlen2 : s2.productions.length ≠ 0 := by
      rw [hadd, List.length_append]
      omega
    simp only [hlen2, if_false]
    have hoff : s2.closure_offset = s.closure_offset := hg.offset
    rw [hoff]
    exact closure_scan_again g fuel _ _ _ _ _ _ _ h hc

set_option maxRecDepth 100000 in
/-- Witness for `closure_idempotent`: the start state of the grammar
`E -> E+T | T`, `T -> id`. -/
theorem closure_idempotent_witness :
    item_insert_closure 5 example1
      ⟨[⟨'Z', 0, 0⟩, ⟨'E', 0, 0⟩, ⟨'E', 1, 0⟩, ⟨'T', 0, 0⟩], 1, ⟨['E', 'T']⟩⟩ =
      .ok (⟨[⟨'Z', 0, 0⟩, ⟨'E', 0, 0⟩, ⟨'E', 1, 0⟩, ⟨'T', 0, 0⟩], 1, ⟨['E', 'T']⟩⟩, 0) :=
  closure_idempotent example1 5 ⟨[⟨'Z', 0, 0⟩], 1, set_init⟩ _ 0 (by decide) (by decide)

end LR0

namespace LR0

open ActionType

/-! ## The writes into the table -/

theorem action_table_eq (t : LR0ParsingTable) (r c : Int) (h : c ≠ -1) :
    t.action_table r c = t.action_cells r c := by
  simp [LR0ParsingTable.action_table, cell_row, cell_col, h]

theorem goto_table_eq (t : LR0ParsingTable) (r c : Int) (h : c ≠ -1) :
    t.goto_table r c = t.goto_cells r c := by
  simp [LR0ParsingTable.goto_table, cell_row, cell_col, h]

theorem cell_row_le (k c : Int) : cell_row k c ≤ k := by
  unfold cell_row
  split <;> omega

theorem RowWrite.refl_w (k : Nat) (b : Build) : RowWrite k b b :=
  ⟨rfl, ⟨[], by simp⟩, fun _ _ _ => Or.inl rfl, fun _ _ _ => rfl, fun _ _ h => h, fun h => h⟩

theorem RowWrite.trans_w {k : Nat} {b b2 b3 : Build} (h1 : RowWrite k b b2)
    (h2 : RowWrite k b2 b3) : RowWrite k b b3 := by
  obtain ⟨m1, e1⟩ := h1.out
  obtain ⟨m2, e2⟩ := h2.out
  refine ⟨h2.set.trans h1.set, ⟨m1 ++ m2, by rw [e2, e1, List.append_assoc]⟩, ?_,
    fun r c h => (h2.above r c h).trans (h1.above r c h),
    fun r c h => h2.keeps r c (h1.keeps r c h), fun h => h2.agrees (h1.agrees h)⟩
  intro r c hr
  rcases h2.action r c hr with h | h
  · rw [h]
    exact h1.action r c hr
  · exact Or.inr h

theorem RowWrite.mem_out_w {k : Nat} {b b2 : Build} (h : RowWrite k b b2) {d : Diag}
    (hd : d ∈ b.out) : d ∈ b2.out := by
  obtain ⟨m, e⟩ := h.out
  rw [e]
  exact List.mem_append_left _ hd

/-- A used ACTION cell, addressed by its subscripts, stays used. -/
theorem RowWrite.used_w {k : Nat} {b b2 : Build} (h : RowWrite k b b2) (c : Int)
    (hu : (b.table.action_table k c).type ≠ ACTION_ERROR) :
    (b2.table.action_table k c).type ≠ ACTION_ERROR :=
  h.keeps _ _ hu

theorem assign_rowwrite (k : Nat) (b : Build) (c : Int) (a : ActionRecord)
    (ha : a.type = ACTION_SHIFT ∨ a.type = ACTION_ACCEPT ∨ (a.type = ACTION_REDUCE ∧ c ≠ -1)) :
    RowWrite k b (b.assign k c a) := by
  have hne : a.type ≠ ACTION_ERROR := by
    rcases ha with h | h | ⟨h, _⟩ <;> rw [h] <;> simp
  refine ⟨rfl, ⟨[], by simp [Build.assign]⟩, ?_, ?_, ?_, ?_⟩
  rotate_left
  · intro r c2 hr
    simp only [Build.assign, set_action]
    rw [if_neg]
    rintro ⟨h1, _⟩
    have := cell_row_le k c
    omega
  rotate_right
  · intro r c2 hr
    simp only [Build.assign, set_action]
    by_cases hc : r = cell_row k c ∧ c2 = cell_col c
    · rw [if_pos hc]
      right
      obtain ⟨h1, h2⟩ := hc
      have hm : c = -1 := by
        by_contra hn
        simp [cell_row, hn] at h1
        exact hr h1
      refine ⟨by rw [h2]; simp [cell_col, hm], ?_⟩
      rcases ha with h | h | ⟨_, h⟩
      · exact Or.inl h
      · exact Or.inr h
      · exact absurd hm h
    · rw [if_neg hc]
      exact Or.inl rfl
  · intro r c2 h
    simp only [Build.assign, set_action]
    split
    · exact hne
    · exact h
  · intro h r c2
    simp only [Build.assign, set_action, last_write]
    by_cases hc : r = cell_row k c ∧ c2 = cell_col c
    · obtain ⟨h1, h2⟩ := hc
      subst h1 h2
      simp
    · have hc2 : ¬ (cell_row k c = r ∧ cell_col c = c2) := fun hh => hc ⟨hh.1.symm, hh.2.symm⟩
      simp only [hc, hc2, if_false]
      exact h r c2

theorem assign_cell (k : Nat) (b : Build) (c : Int) (a : ActionRecord) :
    (b.assign k c a).table.action_table k c = a := by
  simp [Build.assign, set_action, LR0ParsingTable.action_table]

theorem assign_other (k : Nat) (b : Build) (c c2 : Int) (a : ActionRecord) (h : c2 ≠ c) :
    (b.assign k c a).table.action_table k c2 = b.table.action_table k c2 := by
  simp only [Build.assign, set_action, LR0ParsingTable.action_table]
  rw [if_neg]
  rintro ⟨h1, h2⟩
  by_cases hc : c = -1 <;> by_cases hc2 : c2 = -1 <;>
    simp only [cell_row, cell_col, MAX_DIMENSIONS, hc, hc2, if_true, if_false] at h1 h2 <;>
    omega

theorem write_accept_rowwrite (g : Grammar) (k : Nat) (b : Build) :
    RowWrite k b (write_accept g k b) ∧ (write_accept g k b).out = b.out := by
  unfold write_accept
  exact ⟨assign_rowwrite k b _ _ (Or.inr (Or.inl rfl)), rfl⟩

/-- The reduce loop: every cell of the row in the columns it runs over ends
as a reduce action, and a cell that was in use is reported. -/
theorem write_reduce_spec (g : Grammar) (k : Nat) (ip : ItemProduction) :
    ∀ (cols : List Char) (i : Nat) (b : Build),
      RowWrite k b (write_reduce g k ip cols i b) ∧
      (∀ c : Nat, i ≤ c → c < i + cols.length →
        ((write_reduce g k ip cols i b).table.action_table k c).type = ACTION_REDUCE ∧
        ((b.table.action_table k c).type ≠ ACTION_ERROR →
          ∃ d ∈ (write_reduce g k ip cols i b).out, Diag.is_action_overlap k d = true)) ∧
      (∀ c : Int, (c < i ∨ (i : Int) + cols.length ≤ c) →
        (write_reduce g k ip cols i b).table.action_table k c = b.table.action_table k c) := by
  intro cols
  induction cols with
  | nil =>
    intro i b
    refine ⟨RowWrite.refl_w k b, ?_, fun _ _ => rfl⟩
    intro c h1 h2
    simp at h2
    omega
  | cons a rest ih =>
    intro i b
    unfold write_reduce
    simp only []
    generalize hb1 : Build.assign
      ⟨b.set, b.table,
        if (b.table.action_table k i).type ≠ ACTION_ERROR then
          b.out ++ [Diag.reduce_overlap k a (b.table.action_table k i).type
            (grammar_get_order_from_item g ip)]
        else b.out, b.writes⟩ k i
      ⟨ACTION_REDUCE, grammar_get_order_from_item g ip, ip.nonterminal, ip.production⟩ = b1
    have hstep : RowWrite k b b1 := by
      rw [← hb1]
      have h1 : RowWrite k b ⟨b.set, b.table,
          if (b.table.action_table k i).type ≠ ACTION_ERROR then
            b.out ++ [Diag.reduce_overlap k a (b.table.action_table k i).type
              (grammar_get_order_from_item g ip)]
          else b.out, b.writes⟩ := by
        refine ⟨rfl, ?_, fun _ _ _ => Or.inl rfl, fun _ _ _ => rfl, fun _ _ h => h, fun h => h⟩
        split
        · exact ⟨_, rfl⟩
        · exact ⟨[], by simp⟩
      exact h1.trans_w (assign_rowwrite k _ _ _ (Or.inr (Or.inr ⟨rfl, by omega⟩)))
    have hcell : b1.table.action_table k i =
        ⟨ACTION_REDUCE, grammar_get_order_from_item g ip, ip.nonterminal, ip.production⟩ := by
      rw [← hb1]; exact assign_cell k _ _ _
    have hother : ∀ c : Int, c ≠ i → b1.table.action_table k c = b.table.action_table k c := by
      intro c hc
      rw [← hb1]; exact assign_other k _ _ _ _ hc
    have hrep : (b.table.action_table k i).type ≠ ACTION_ERROR →
        ∃ d ∈ b1.out, Diag.is_action_overlap k d = true := by
      intro h
      refine ⟨Diag.reduce_overlap k a (b.table.action_table k i).type
        (grammar_get_order_from_item g ip), ?_, by simp [Diag.is_action_overlap]⟩
      rw [← hb1]
      simp [Build.assign, h]
    obtain ⟨ih1, ih2, ih3⟩ := ih (i + 1) b1
    refine ⟨hstep.trans_w ih1, ?_, ?_⟩
    · intro c h1 h2
      by_cases hc : c = i
      · subst hc
        constructor
        · rw [ih3 (c : Int) (Or.inl (by omega)), hcell]
        · intro h
          obtain ⟨d, hd, hd2⟩ := hrep h
          exact ⟨d, ih1.mem_out_w hd, hd2⟩
      · have hlt : i + 1 ≤ c := by omega
        have hlt2 : c < i + 1 + rest.length := by simp at h2; omega
        obtain ⟨h3, h4⟩ := ih2 c hlt hlt2
        refine ⟨h3, ?_⟩
        intro h
        apply h4
        rw [hother (c : Int) (by omega)]
        exact h
    · intro c hc
      have hc2 : c < ((i + 1 : Nat) : Int) ∨ ((i + 1 : Nat) : Int) + rest.length ≤ c := by
        simp only [List.length_cons] at hc
        rcases hc with h | h
        · left; omega
        · right; push_cast at h ⊢; omega
      rw [ih3 c hc2]
      apply hother
      simp only [List.length_cons] at hc
      rcases hc with h | h
      · omega
      · push_cast at h; omega

end LR0

namespace LR0

open ActionType

theorem set_order_nat {s : Set} {a : Char} (h : 0 ≤ set_order s a) :
    ∃ c : Nat, set_order s a = (c : Int) ∧ c < s.data.length ∧ a ∈ s.data := by
  unfold set_order at h ⊢
  by_cases hm : a ∈ s.data
  · rw [if_pos hm]
    exact ⟨s.data.indexOf a, rfl, List.indexOf_lt_length.2 hm, hm⟩
  · simp [hm] at h

theorem set_order_inj {s : Set} {a c : Char} (h : 0 ≤ set_order s a)
    (he : set_order s c = set_order s a) : c = a := by
  unfold set_order at h he
  by_cases hm : a ∈ s.data
  · by_cases hc : c ∈ s.data
    · simp only [hm, hc, if_true] at he
      have he2 : s.data.indexOf c = s.data.indexOf a := by exact_mod_cast he
      have h1 := List.indexOf_lt_length.2 hc
      have h2 := List.indexOf_lt_length.2 hm
      have e1 : s.data[s.data.indexOf c] = c := List.getElem_indexOf h1
      have e2 : s.data[s.data.indexOf a] = a := List.getElem_indexOf h2
      rw [← e1, ← e2]
      simp [he2]
    · simp only [hm, hc, if_true, if_false] at he
      have : (0 : Int) ≤ (s.data.indexOf a : Int) := Int.ofNat_nonneg _
      omega
  · simp [hm] at h

/-- The entries for a production with its dot at the end, when it is not a
production of `Z`: every terminal column of the row ends as a reduce action,
and a cell that was in use is reported. -/
theorem write_complete_spec (g : Grammar) (k : Nat) (ip : ItemProduction) (b : Build) :
    RowWrite k b (write_complete g k ip b) ∧
    (ip.nonterminal ≠ 'Z' → ∀ c : Nat, c < g.terminal_set.data.length →
      ((write_complete g k ip b).table.action_table k c).type ≠ ACTION_ERROR ∧
      ((b.table.action_table k c).type ≠ ACTION_ERROR →
        ∃ d ∈ (write_complete g k ip b).out, Diag.is_action_overlap k d = true)) := by
  unfold write_complete
  by_cases hZ : ip.nonterminal = 'Z'
  · simp only [hZ, if_true]
    exact ⟨(write_accept_rowwrite g k b).1, fun h => absurd rfl h⟩
  · simp only [hZ, if_false]
    obtain ⟨h1, h2, _⟩ := write_reduce_spec g k ip g.terminal_set.data 0 b
    refine ⟨h1, fun _ c hc => ?_⟩
    obtain ⟨h3, h4⟩ := h2 c (Nat.zero_le _) (by omega)
    exact ⟨by rw [h3]; simp, h4⟩

/-- The goto or shift entry written at the end of an iteration: for a symbol
that is not a nonterminal the cell of its column ends as a shift action, and a
cell that was in use is reported. -/
theorem write_edge_spec (g : Grammar) (k : Nat) (symbol : Char) (next : Nat) (b : Build) :
    RowWrite k b (write_edge g k symbol next b) ∧
    (is_nonterminal symbol = false →
      ((write_edge g k symbol next b).table.action_table k
        (set_order g.terminal_set symbol)).type = ACTION_SHIFT ∧
      ((b.table.action_table k (set_order g.terminal_set symbol)).type ≠ ACTION_ERROR →
        ∃ d ∈ (write_edge g k symbol next b).out, Diag.is_action_overlap k d = true)) := by
  unfold write_edge
  by_cases hnt : is_nonterminal symbol = true
  · simp only [if_pos hnt]
    refine ⟨⟨rfl, ?_, fun _ _ _ => Or.inl rfl, fun _ _ _ => rfl, fun _ _ h => h, fun h => h⟩,
      fun h => by simp [hnt] at h⟩
    simp only []
    split
    · exact ⟨_, rfl⟩
    · exact ⟨[], by simp⟩
  · simp only [if_neg hnt]
    constructor
    · have h1 : RowWrite k b ⟨b.set, b.table,
          if (b.table.action_table k (set_order g.terminal_set symbol)).type ≠ ACTION_ERROR then
            b.out ++ [Diag.shift_overlap k symbol next]
          else b.out, b.writes⟩ := by
        refine ⟨rfl, ?_, fun _ _ _ => Or.inl rfl, fun _ _ _ => rfl, fun _ _ h => h, fun h => h⟩
        split
        · exact ⟨_, rfl⟩
        · exact ⟨[], by simp⟩
      exact h1.trans_w (assign_rowwrite k _ _ _ (Or.inl rfl))
    · intro _
      constructor
      · rw [assign_cell]
      · intro h
        refine ⟨Diag.shift_overlap k symbol next, ?_, by simp [Diag.is_action_overlap]⟩
        simp [Build.assign, h]

/-- The inner loop never fails for lack of budget, adds only output, and keeps
the number of productions of the new state within its `closure_offset`. -/
theorem collect_extra_spec (g : Grammar) (item : Item) (symbol : Char) :
    ∀ (n j : Nat) (new_item : Item) (out : List Diag) (r : Res (Item × List Diag)),
      collect_extra g item symbol n j new_item out = r →
      r ≠ .nofuel ∧ ∀ ni o, r = .ok (ni, o) →
        (∃ more, o = out ++ more) ∧
        (new_item.productions.length ≤ new_item.closure_offset →
          ni.productions.length ≤ ni.closure_offset) ∧
        (new_item.productions ≠ [] → ni.productions ≠ []) := by
  intro n
  induction n with
  | zero =>
    intro j new_item out r h
    simp only [collect_extra] at h
    subst h
    refine ⟨by simp, ?_⟩
    intro ni o hr
    cases hr
    exact ⟨⟨[], by simp⟩, fun h => h, fun h => h⟩
  | succ n ih =>
    intro j new_item out r h
    unfold collect_extra at h
    cases hread : item.productions[j]? with
    | none =>
      simp only [hread] at h
      subst h
      exact ⟨by simp, fun _ _ hr => by cases hr⟩
    | some ipj =>
      simp only [hread] at h
      cases hget : item_get_production g ipj with
      | none =>
        simp only [hget] at h
        subst h
        exact ⟨by simp, fun _ _ hr => by cases hr⟩
      | some extra_p =>
        simp only [hget] at h
        split at h
        · exact ih _ _ _ _ h
        · split at h
          · obtain ⟨h1, h2⟩ := ih _ _ _ _ h
            refine ⟨h1, ?_⟩
            intro ni o hr
            obtain ⟨⟨more, hm⟩, h3, h4⟩ := h2 ni o hr
            refine ⟨⟨Diag.not_lr0_warning :: more, by rw [hm]; simp⟩, ?_, ?_⟩
            · intro hle
              apply h3
              simp only [item_production_insert]
              split
              · simp only []; omega
              · simp only [List.length_append, List.length_singleton]; omega
            · intro hne
              apply h4
              simp only [item_production_insert]
              split
              · exact hne
              · simp
          · exact ih _ _ _ _ h

end LR0

namespace LR0

open ActionType

/-! ## What the construction leaves untouched -/

theorem Frame.refl_f (k : Nat) (b : Build) : Frame k b b :=
  ⟨Nat.le_refl _, fun _ _ => rfl, ⟨[], by simp⟩, fun _ _ _ => Or.inl rfl, fun _ _ h => h,
    fun h => h⟩

theorem Frame.trans_f {k : Nat} {b b2 b3 : Build} (h1 : Frame k b b2) (h2 : Frame k b2 b3) :
    Frame k b b3 := by
  obtain ⟨m1, e1⟩ := h1.out
  obtain ⟨m2, e2⟩ := h2.out
  refine ⟨Nat.le_trans h1.length h2.length, fun j hj => (h2.items j hj).trans (h1.items j hj),
    ⟨m1 ++ m2, by rw [e2, e1, List.append_assoc]⟩, ?_,
    fun r c h => h2.keeps r c (h1.keeps r c h), fun h => h2.agrees (h1.agrees h)⟩
  intro r c hr
  rcases h2.action r c hr with h | h
  · rw [h]
    exact h1.action r c hr
  · exact Or.inr h

theorem Frame.weaken {k k2 : Nat} {b b2 : Build} (h : Frame k2 b b2) (hk : k ≤ k2) :
    Frame k b b2 :=
  ⟨h.length, fun j hj => h.items j (by omega), h.out,
    fun r c hr => h.action r c (by omega), h.keeps, h.agrees⟩

theorem Frame.mem_out_f {k : Nat} {b b2 : Build} (h : Frame k b b2) {d : Diag}
    (hd : d ∈ b.out) : d ∈ b2.out := by
  obtain ⟨m, e⟩ := h.out
  rw [e]
  exact List.mem_append_left _ hd

theorem LoopFrame.refl_l (k : Nat) (b : Build) : LoopFrame k b b :=
  ⟨Frame.refl_f k b, fun _ _ => rfl⟩

theorem LoopFrame.trans_l {k : Nat} {b b2 b3 : Build} (h1 : LoopFrame k b b2)
    (h2 : LoopFrame k b2 b3) : LoopFrame k b b3 :=
  ⟨h1.frame.trans_f h2.frame,
    fun j hj => (h2.items j (Nat.lt_of_lt_of_le hj h1.frame.length)).trans (h1.items j hj)⟩

/-- A used ACTION cell, addressed by its subscripts, stays used. -/
theorem LoopFrame.used_l {k : Nat} {b b2 : Build} (h : LoopFrame k b b2) (c : Int)
    (hu : (b.table.action_table k c).type ≠ ACTION_ERROR) :
    (b2.table.action_table k c).type ≠ ACTION_ERROR :=
  h.frame.keeps _ _ hu

theorem RowWrite.loopframe {k : Nat} {b b2 : Build} (h : RowWrite k b b2) :
    LoopFrame k b b2 := by
  refine ⟨⟨by rw [h.set], fun j _ => by rw [h.set], h.out, ?_, h.keeps, h.agrees⟩,
    fun j _ => by rw [h.set]⟩
  intro r c hr
  exact h.action r c (by omega)

/-- The effect, on the loop for state `k`, of adding a state and constructing
from it. -/
theorem recursion_loopframe {k : Nat} {b b2 : Build} {ni : Item} {out : List Diag}
    (hk : k < b.set.items.length) (hout : ∃ more, out = b.out ++ more)
    (h : Frame b.set.items.length
      ⟨⟨b.set.items ++ [ni], b.set.initial_symbol⟩, b.table, out, b.writes⟩ b2) :
    LoopFrame k b b2 := by
  obtain ⟨m1, e1⟩ := hout
  obtain ⟨m2, e2⟩ := h.out
  have hlen := h.length
  simp only [List.length_append, List.length_singleton] at hlen
  refine ⟨⟨by omega, ?_, ⟨m1 ++ m2, by rw [e2]; simp [e1]⟩, ?_, h.keeps, h.agrees⟩, ?_⟩
  · intro j hj
    rw [h.items j (by omega)]
    simp only []
    rw [List.getElem?_append_left (by omega)]
  · intro r c hr
    exact h.action r c (by omega)
  · intro j hj
    rw [h.items j hj]
    simp only []
    rw [List.getElem?_append_left hj]

theorem table_loop_frame (recurse : Build → Nat → Res (Build × Int)) (g : Grammar) (k : Nat)
    (hrec : ∀ b next r, recurse b next = .ok r → next + 1 = b.set.items.length →
      Frame next b r.1) :
    ∀ (n i : Nat) (visited : Set) (b : Build) (r : Build × Int),
      table_loop recurse g k n i visited b = .ok r → k < b.set.items.length →
      LoopFrame k b r.1 := by
  intro n
  induction n with
  | zero =>
    intro i visited b r h _
    simp only [table_loop] at h
    cases h
    exact LoopFrame.refl_l k b
  | succ n ih =>
    intro i visited b r h hk
    unfold table_loop at h
    cases hitem : b.set.items[k]? with
    | none => simp [hitem] at h
    | some item =>
      simp only [hitem] at h
      cases hread : item.productions[i]? with
      | none => simp [hread] at h
      | some ip =>
        simp only [hread] at h
        cases hget : item_get_production g ip with
        | none => simp [hget] at h
        | some p =>
          simp only [hget] at h
          generalize hb1 : (if p.size ≤ ip.dot_offset then write_complete g k ip b else b) = b1
            at h
          have hf1 : LoopFrame k b b1 := by
            rw [← hb1]
            split
            · exact (write_complete_spec g k ip b).1.loopframe
            · exact LoopFrame.refl_l k b
          have hk1 : k < b1.set.items.length := Nat.lt_of_lt_of_le hk hf1.frame.length
          split at h
          · exact hf1.trans_l (ih _ _ _ _ h hk1)
          · cases hfind : item_find b1.set ⟨ip.nonterminal, ip.production, ip.dot_offset + 1⟩ with
            | some next =>
              simp only [hfind] at h
              have hf2 := (write_edge_spec g k (symbol_at g p ip.dot_offset) next b1).1.loopframe
              have hk2 := Nat.lt_of_lt_of_le hk1 hf2.frame.length
              exact hf1.trans_l (hf2.trans_l (ih _ _ _ _ h hk2))
            | none =>
              simp only [hfind] at h
              cases hcol : collect_extra g item (symbol_at g p ip.dot_offset)
                  (item.productions.length - (i + 1)) (i + 1)
                  (item_production_insert ⟨[], 1, set_init⟩ ip.nonterminal ip.production
                    (ip.dot_offset + 1)).1 b1.out with
              | undefined => simp [hcol] at h
              | nofuel => simp [hcol] at h
              | ok rc =>
                obtain ⟨new_item, out⟩ := rc
                simp only [hcol] at h
                have hout := ((collect_extra_spec g item _ _ _ _ _ _ hcol).2 new_item out rfl).1
                cases hres : recurse
                    ⟨⟨b1.set.items ++ [new_item], b1.set.initial_symbol⟩, b1.table, out, b1.writes⟩
                    b1.set.items.length with
                | undefined => simp [hres] at h
                | nofuel => simp [hres] at h
                | ok rr =>
                  obtain ⟨b2, code⟩ := rr
                  simp only [hres] at h
                  have hf3 : LoopFrame k b1 b2 :=
                    recursion_loopframe hk1 hout (hrec _ _ _ hres (by simp))
                  have hk3 : k < b2.set.items.length :=
                    Nat.lt_of_lt_of_le hk1 hf3.frame.length
                  split at h
                  · cases h
                    exact hf1.trans_l hf3
                  · have hf4 := (write_edge_spec g k (symbol_at g p ip.dot_offset)
                      b1.set.items.length b2).1.loopframe
                    have hk4 := Nat.lt_of_lt_of_le hk3 hf4.frame.length
                    exact hf1.trans_l (hf3.trans_l (hf4.trans_l (ih _ _ _ _ h hk4)))

/-- The construction for state `k` leaves the states and rows below `k` as
they are, and state `k` ends as the closure of what it was. -/
theorem internal_frame (g : Grammar) :
    ∀ (fuel : Nat) (b : Build) (k : Nat) (r : Build × Int),
      grammar_create_lr_table_internal fuel g b k = .ok r → k < b.set.items.length →
      Frame k b r.1 ∧
      ∃ item0 item no, b.set.items[k]? = some item0 ∧
        item_insert_closure (fuel - 1) g item0 = .ok (item, no) ∧
        r.1.set.items[k]? = some item ∧ (0 ≤ r.2 → 0 ≤ no) := by
  intro fuel
  induction fuel with
  | zero =>
    intro b k r h
    simp [grammar_create_lr_table_internal] at h
  | succ fuel ih =>
    intro b k r h hk
    unfold grammar_create_lr_table_internal at h
    cases hitem : b.set.items[k]? with
    | none => simp [hitem] at h
    | some item0 =>
      simp only [hitem] at h
      cases hcl : item_insert_closure fuel g item0 with
      | undefined => simp [hcl] at h
      | nofuel => simp [hcl] at h
      | ok rc =>
        obtain ⟨item, no⟩ := rc
        simp only [hcl] at h
        have hf0 : Frame k b
            ⟨⟨b.set.items.set k item, b.set.initial_symbol⟩, b.table, b.out, b.writes⟩ := by
          refine ⟨by simp, ?_, ⟨[], by simp⟩, fun _ _ _ => Or.inl rfl, fun _ _ h => h, fun h => h⟩
          intro j hj
          simp only []
          rw [List.getElem?_set_ne (by omega)]
        have hi0 : (b.set.items.set k item)[k]? = some item := by
          rw [List.getElem?_set_self hk]
        by_cases hno1 : no = 1
        · simp only [hno1, if_true] at h
          cases hp0 : item.productions[0]? with
          | none => simp [hp0] at h
          | some ip =>
            simp only [hp0] at h
            cases h
            have hw := (write_complete_spec g k ip
              ⟨⟨b.set.items.set k item, b.set.initial_symbol⟩, b.table, b.out, b.writes⟩).1
            refine ⟨hf0.trans_f hw.loopframe.frame, item0, item, 1, rfl, ?_, ?_, fun _ => by omega⟩
            · simpa [hno1] using hcl
            · rw [hw.set]
              exact hi0
        · simp only [hno1, if_false] at h
          by_cases hneg : no < 0
          · simp only [hneg, if_true] at h
            cases h
            exact ⟨hf0, item0, item, no, rfl, by simpa using hcl, hi0, fun h => by omega⟩
          · simp only [hneg, if_false] at h
            have hl := table_loop_frame (grammar_create_lr_table_internal fuel g) g k
              (fun b2 next r2 h2 hn => (ih b2 next r2 h2 (by omega)).1)
              _ _ _ _ _ h (by simpa using hk)
            refine ⟨hf0.trans_f hl.frame, item0, item, no, rfl, by simpa using hcl, ?_,
              fun _ => by omega⟩
            rw [hl.items k (by simpa using hk)]
            exact hi0

end LR0

namespace LR0

open ActionType

/-! ## The start state -/

theorem find_set_append {l : List ProductionSet} {c : Char} (ps : ProductionSet)
    (h : find_set l c = none) :
    find_set (l ++ [ps]) c = if ps.symbol = c then some l.length else none := by
  induction l with
  | nil => simp [find_set]
  | cons a t ih =>
    unfold find_set at h
    split at h
    · cases h
    · rename_i hne
      cases hf : find_set t c with
      | some m => simp [hf] at h
      | none =>
        have ih2 := ih hf
        show find_set (a :: (t ++ [ps])) c = _
        simp only [find_set, hne, if_false]
        rw [ih2]
        split <;> simp

theorem upper_facts {c : Char} (h : is_nonterminal c = true) :
    c ≠ Char.ofNat 0 ∧ c ≠ ' ' ∧ c ≠ '\t' ∧ c ≠ '\n' ∧ c ≠ '@' ∧ is_terminal c = false := by
  refine ⟨?_, ?_, ?_, ?_, ?_, ?_⟩
  · intro e; rw [e] at h; exact absurd h (by decide)
  · intro e; rw [e] at h; exact absurd h (by decide)
  · intro e; rw [e] at h; exact absurd h (by decide)
  · intro e; rw [e] at h; exact absurd h (by decide)
  · intro e; rw [e] at h; exact absurd h (by decide)
  · unfold is_terminal
    unfold is_nonterminal at h
    simp [h]

/-- After augmentation of a grammar without `Z`, whose start symbol is an
upper-case letter, `Z` has the single production `Z -> S`. -/
theorem augment_productions (g0 : Grammar) (hZ : grammar_find g0 'Z' = none)
    (hS : is_nonterminal g0.starting_symbol = true) :
    productions_of (grammar_lr0_augment g0) 'Z' = [⟨[g0.starting_symbol]⟩] := by
  obtain ⟨h0, h1, h2, h3, h4, h5⟩ := upper_facts hS
  have hfind : find_set g0.set 'Z' = none := hZ
  have hscan : grammar_insert_scan [g0.starting_symbol] g0.terminal_set [] =
      (g0.terminal_set, [g0.starting_symbol]) := by
    simp [grammar_insert_scan, h0, h1, h2, h3, h5]
  have hset : (grammar_lr0_augment g0).set =
      g0.set ++ [⟨[⟨[g0.starting_symbol]⟩], 'Z', false⟩] := by
    simp [grammar_lr0_augment, grammar_insert_rule, grammar_find, hfind,
      grammar_insert_internal, hscan, h4]
  unfold productions_of grammar_find
  rw [hset, find_set_append _ hfind]
  simp

/-- After augmentation of a grammar without `Z`, `Z` has exactly one
production. -/
theorem augment_single (g0 : Grammar) (hZ : grammar_find g0 'Z' = none) :
    (productions_of (grammar_lr0_augment g0) 'Z').length = 1 := by
  have hfind : find_set g0.set 'Z' = none := hZ
  have hset : ∃ p, (grammar_lr0_augment g0).set = g0.set ++ [⟨[p], 'Z', p.symbols.isEmpty⟩] ∨
      (grammar_lr0_augment g0).set = g0.set ++ [⟨[p], 'Z', false⟩] := by
    by_cases hat : g0.starting_symbol = '@'
    · refine ⟨⟨[]⟩, Or.inl ?_⟩
      simp [grammar_lr0_augment, grammar_insert_rule, grammar_find, hfind,
        grammar_insert_internal, hat]
    · refine ⟨⟨(grammar_insert_scan [g0.starting_symbol] g0.terminal_set []).2⟩, Or.inr ?_⟩
      simp [grammar_lr0_augment, grammar_insert_rule, grammar_find, hfind,
        grammar_insert_internal, hat]
  obtain ⟨p, hset | hset⟩ := hset
  · unfold productions_of grammar_find
    rw [hset, find_set_append _ hfind]
    simp
  · unfold productions_of grammar_find
    rw [hset, find_set_append _ hfind]
    simp

/-- C10 (as amended). For a grammar in which `Z` has no production set, after
augmentation `Z` has exactly one production (it is `Z -> S` when the start
symbol `S` is an upper-case letter), and when `grammar_create_lr_table`
succeeds from an empty item set, state 0 is the list returned by
`item_insert_closure` for the single item (`Z`, production 0, dot 0): it
consists exactly of the items of the closure of that item. -/
theorem start_state_closure (g0 : Grammar) (fuel : Nat) (c0 : Char) (b : Build) (code : Int)
    (hZ : grammar_find g0 'Z' = none)
    (hrun : grammar_create_lr_table fuel (grammar_lr0_augment g0) (item_set_init c0) =
      .ok (b, code))
    (hcode : 0 ≤ code) :
    (productions_of (grammar_lr0_augment g0) 'Z').length = 1 ∧
    (is_nonterminal g0.starting_symbol = true →
      productions_of (grammar_lr0_augment g0) 'Z' = [⟨[g0.starting_symbol]⟩]) ∧
    ∃ item no,
      item_insert_closure (fuel - 1) (grammar_lr0_augment g0) ⟨[⟨'Z', 0, 0⟩], 1, set_init⟩ =
        .ok (item, no) ∧
      0 ≤ no ∧ b.set.items[0]? = some item ∧
      ∀ x, x ∈ item.productions ↔ InClosure (grammar_lr0_augment g0) [⟨'Z', 0, 0⟩] x := by
  refine ⟨augment_single g0 hZ, augment_productions g0 hZ, ?_⟩
  unfold grammar_create_lr_table at hrun
  have hins : (item_production_insert ⟨[], 1, set_init⟩ 'Z' 0 0).1 =
      ⟨[⟨'Z', 0, 0⟩], 1, set_init⟩ := by
    simp [item_production_insert]
  simp only [hins, item_set_init, List.nil_append, List.length_nil] at hrun
  obtain ⟨_, item0, item, no, h1, h2, h3, h4⟩ :=
    internal_frame (grammar_lr0_augment g0) fuel _ 0 _ hrun (by simp)
  simp at h1
  subst h1
  have hno := h4 hcode
  exact ⟨item, no, h2, hno, h3, (closure_sound _ _ _ _ _ rfl h2 hno).2.2⟩

end LR0

namespace LR0

open ActionType

/-! ## Shift/reduce overlaps are printed -/

theorem seen_complete_succ {g : Grammar} {item : Item} {i : Nat} {ip : ItemProduction}
    {p : Production} (hread : item.productions[i]? = some ip)
    (hget : item_get_production g ip = some p) :
    seen_complete g item (i + 1) ↔
      seen_complete g item i ∨ (p.size ≤ ip.dot_offset ∧ ip.nonterminal ≠ 'Z') := by
  constructor
  · rintro ⟨idx, x, q, h1, h2, h3, h4, h5⟩
    by_cases hidx : idx = i
    · subst hidx
      rw [hread] at h2
      cases h2
      rw [hget] at h3
      cases h3
      exact Or.inr ⟨h4, h5⟩
    · exact Or.inl ⟨idx, x, q, by omega, h2, h3, h4, h5⟩
  · rintro (⟨idx, x, q, h1, h2, h3, h4, h5⟩ | ⟨h4, h5⟩)
    · exact ⟨idx, x, q, by omega, h2, h3, h4, h5⟩
    · exact ⟨i, ip, p, by omega, hread, hget, h4, h5⟩

theorem seen_symbol_succ {g : Grammar} {item : Item} {a : Char} {i : Nat}
    {ip : ItemProduction} {p : Production} (hread : item.productions[i]? = some ip)
    (hget : item_get_production g ip = some p) :
    seen_symbol g item a (i + 1) ↔
      seen_symbol g item a i ∨ symbol_at g p ip.dot_offset = a := by
  constructor
  · rintro ⟨idx, y, q, h1, h2, h3, h4⟩
    by_cases hidx : idx = i
    · subst hidx
      rw [hread] at h2
      cases h2
      rw [hget] at h3
      cases h3
      exact Or.inr h4
    · exact Or.inl ⟨idx, y, q, by omega, h2, h3, h4⟩
  · rintro (⟨idx, y, q, h1, h2, h3, h4⟩ | h4)
    · exact ⟨idx, y, q, by omega, h2, h3, h4⟩
    · exact ⟨i, ip, p, by omega, hread, hget, h4⟩

theorem reported_stable {g : Grammar} {a : Char} {b b2 : Build} {s : Nat}
    (h : reported g a b s) (hitems : b2.set.items[s]? = b.set.items[s]?)
    (hout : ∀ d ∈ b.out, d ∈ b2.out) : reported g a b2 s := by
  intro item hitem hx hy
  rw [hitems] at hitem
  obtain ⟨d, hd, hd2⟩ := h item hitem hx hy
  exact ⟨d, hout d hd, hd2⟩

theorem LoopFrame.mem_out_l {k : Nat} {b b2 : Build} (h : LoopFrame k b b2) :
    ∀ d ∈ b.out, d ∈ b2.out :=
  fun _ hd => h.frame.mem_out_f hd

/-- The invariant after the entries for a complete production have been
written at iteration `i`. -/
theorem overlap_after_complete {g : Grammar} {k : Nat} {item : Item} {a : Char} {i : Nat}
    {visited : Set} {b : Build} {ip : ItemProduction} {p : Production}
    (hcol : 0 ≤ set_order g.terminal_set a)
    (hread : item.productions[i]? = some ip) (hget : item_get_production g ip = some p)
    (hinv : OverlapInv g k item a i visited b) :
    let b1 := if p.size ≤ ip.dot_offset then write_complete g k ip b else b
    LoopFrame k b b1 ∧
    (seen_complete g item (i + 1) →
      (b1.table.action_table k (set_order g.terminal_set a)).type ≠ ACTION_ERROR) ∧
    (seen_symbol g item a i ∨ a ∈ visited.data →
      (b1.table.action_table k (set_order g.terminal_set a)).type ≠ ACTION_ERROR) ∧
    (seen_complete g item (i + 1) → seen_symbol g item a i ∨ a ∈ visited.data →
      ∃ d ∈ b1.out, Diag.is_action_overlap k d = true) := by
  intro b1
  obtain ⟨col, hc1, hc2, _⟩ := set_order_nat hcol
  by_cases hsize : p.size ≤ ip.dot_offset
  · have hb1 : b1 = write_complete g k ip b := by simp [b1, hsize]
    rw [hb1]
    obtain ⟨hw, hw2⟩ := write_complete_spec g k ip b
    refine ⟨hw.loopframe, ?_, fun h => hw.used_w _ (hinv.symbol h), ?_⟩
    · intro h
      rcases (seen_complete_succ hread hget).1 h with h1 | ⟨_, hZ⟩
      · exact hw.used_w _ (hinv.complete h1)
      · rw [hc1]
        exact (hw2 hZ col hc2).1
    · intro h hA
      rcases (seen_complete_succ hread hget).1 h with h1 | ⟨_, hZ⟩
      · obtain ⟨d, hd, hd2⟩ := hinv.both h1 hA
        exact ⟨d, hw.mem_out_w hd, hd2⟩
      · have hused := hinv.symbol hA
        rw [hc1] at hused
        exact (hw2 hZ col hc2).2 hused
  · have hb1 : b1 = b := by simp [b1, hsize]
    rw [hb1]
    have hsc : seen_complete g item (i + 1) → seen_complete g item i := by
      intro h
      rcases (seen_complete_succ hread hget).1 h with h1 | ⟨h2, _⟩
      · exact h1
      · exact absurd h2 hsize
    exact ⟨LoopFrame.refl_l k b, fun h => hinv.complete (hsc h), hinv.symbol,
      fun h hA => hinv.both (hsc h) hA⟩

/-- The invariant at the next iteration when the symbol at the dot had been
met before. -/
theorem overlap_skip {g : Grammar} {k : Nat} {item : Item} {a : Char} {i : Nat}
    {visited : Set} {b1 : Build} {ip : ItemProduction} {p : Production}
    (hread : item.productions[i]? = some ip) (hget : item_get_production g ip = some p)
    (hflag : (set_insert visited (symbol_at g p ip.dot_offset)).2 = 1)
    (h1 : seen_complete g item (i + 1) →
      (b1.table.action_table k (set_order g.terminal_set a)).type ≠ ACTION_ERROR)
    (h2 : seen_symbol g item a i ∨ a ∈ visited.data →
      (b1.table.action_table k (set_order g.terminal_set a)).type ≠ ACTION_ERROR)
    (h3 : seen_complete g item (i + 1) → seen_symbol g item a i ∨ a ∈ visited.data →
      ∃ d ∈ b1.out, Diag.is_action_overlap k d = true) :
    OverlapInv g k item a (i + 1) (set_insert visited (symbol_at g p ip.dot_offset)).1 b1 := by
  have hmem := (set_insert_flag _ _).1 hflag
  have hA : seen_symbol g item a (i + 1) ∨
      a ∈ (set_insert visited (symbol_at g p ip.dot_offset)).1.data →
      seen_symbol g item a i ∨ a ∈ visited.data := by
    rintro (h | h)
    · rcases (seen_symbol_succ hread hget).1 h with h | h
      · exact Or.inl h
      · exact Or.inr (h ▸ hmem)
    · rcases set_insert_data _ _ a h with h | h
      · exact Or.inr h
      · exact Or.inr (h ▸ hmem)
  exact ⟨h1, fun h => h2 (hA h), fun h hh => h3 h (hA hh)⟩

/-- The invariant at the next iteration when the symbol at the dot is new and
its goto or shift entry has been written. -/
theorem overlap_edge {g : Grammar} {k : Nat} {item : Item} {a : Char} {i : Nat}
    {visited : Set} {b1 b2 : Build} {ip : ItemProduction} {p : Production} (next : Nat)
    (hta : is_nonterminal a = false)
    (hread : item.productions[i]? = some ip) (hget : item_get_production g ip = some p)
    (hf : LoopFrame k b1 b2)
    (h1 : seen_complete g item (i + 1) →
      (b1.table.action_table k (set_order g.terminal_set a)).type ≠ ACTION_ERROR)
    (h2 : seen_symbol g item a i ∨ a ∈ visited.data →
      (b1.table.action_table k (set_order g.terminal_set a)).type ≠ ACTION_ERROR)
    (h3 : seen_complete g item (i + 1) → seen_symbol g item a i ∨ a ∈ visited.data →
      ∃ d ∈ b1.out, Diag.is_action_overlap k d = true) :
    OverlapInv g k item a (i + 1) (set_insert visited (symbol_at g p ip.dot_offset)).1
      (write_edge g k (symbol_at g p ip.dot_offset) next b2) := by
  obtain ⟨hw, hw2⟩ := write_edge_spec g k (symbol_at g p ip.dot_offset) next b2
  have hA : seen_symbol g item a (i + 1) ∨
      a ∈ (set_insert visited (symbol_at g p ip.dot_offset)).1.data →
      (seen_symbol g item a i ∨ a ∈ visited.data) ∨ symbol_at g p ip.dot_offset = a := by
    rintro (h | h)
    · rcases (seen_symbol_succ hread hget).1 h with h | h
      · exact Or.inl (Or.inl h)
      · exact Or.inr h
    · rcases set_insert_data _ _ a h with h | h
      · exact Or.inl (Or.inr h)
      · exact Or.inr h.symm
  refine ⟨fun h => hw.used_w _ (hf.used_l _ (h1 h)), ?_, ?_⟩
  · intro h
    rcases hA h with h | h
    · exact hw.used_w _ (hf.used_l _ (h2 h))
    · have := (hw2 (h ▸ hta)).1
      rw [h] at this ⊢
      rw [this]
      simp
  · intro hc h
    rcases hA h with h | h
    · obtain ⟨d, hd, hd2⟩ := h3 hc h
      exact ⟨d, hw.mem_out_w (hf.mem_out_l d hd), hd2⟩
    · have hused := hf.used_l _ (h1 hc)
      have := (hw2 (h ▸ hta)).2
      rw [h] at this ⊢
      exact this hused

end LR0

namespace LR0

open ActionType

theorem table_loop_overlap (recurse : Build → Nat → Res (Build × Int)) (g : Grammar) (k : Nat)
    (a : Char) (hcol : 0 ≤ set_order g.terminal_set a) (hta : is_nonterminal a = false)
    (hrec : ∀ b next r, recurse b next = .ok r → next + 1 = b.set.items.length →
      Frame next b r.1 ∧
      (0 ≤ r.2 →
        (∀ it, b.set.items[next]? = some it → it.productions.length ≤ it.closure_offset) →
        ∀ s, next ≤ s → reported g a r.1 s))
    (item : Item) :
    ∀ (n i : Nat) (visited : Set) (b : Build) (r : Build × Int),
      table_loop recurse g k n i visited b = .ok r → 0 ≤ r.2 → k < b.set.items.length →
      b.set.items[k]? = some item → OverlapInv g k item a i visited b →
      (seen_complete g item (i + n) → seen_symbol g item a (i + n) →
        ∃ d ∈ r.1.out, Diag.is_action_overlap k d = true) ∧
      (∀ s, b.set.items.length ≤ s → reported g a r.1 s) := by
  have hrecf : ∀ b next r, recurse b next = .ok r → next + 1 = b.set.items.length →
      Frame next b r.1 := fun b next r h1 h2 => (hrec b next r h1 h2).1
  intro n
  induction n with
  | zero =>
    intro i visited b r h _ _ _ hinv
    simp only [table_loop] at h
    cases h
    refine ⟨fun h1 h2 => hinv.both h1 (Or.inl h2), ?_⟩
    intro s hs it hit
    have : b.set.items[s]? = none := List.getElem?_eq_none hs
    rw [this] at hit
    cases hit
  | succ n ih =>
    intro i visited b r h hcode hk hitem hinv
    unfold table_loop at h
    simp only [hitem] at h
    cases hread : item.productions[i]? with
    | none => simp [hread] at h
    | some ip =>
      simp only [hread] at h
      cases hget : item_get_production g ip with
      | none => simp [hget] at h
      | some p =>
        simp only [hget] at h
        obtain ⟨hf1, k1, k2, k3⟩ := overlap_after_complete hcol hread hget hinv
        generalize hb1 : (if p.size ≤ ip.dot_offset then write_complete g k ip b else b) = b1
          at h hf1 k1 k2 k3
        have hk1 : k < b1.set.items.length := Nat.lt_of_lt_of_le hk hf1.frame.length
        have hitem1 : b1.set.items[k]? = some item := by rw [hf1.items k hk]; exact hitem
        have hlen1 : b1.set.items.length = b.set.items.length := by
          rw [← hb1]
          split
          · rw [(write_complete_spec g k ip b).1.set]
          · rfl
        rw [show i + (n + 1) = i + 1 + n by omega]
        by_cases hflag : (set_insert visited (symbol_at g p ip.dot_offset)).2 = 1
        · simp only [hflag, if_true] at h
          have := ih _ _ _ _ h hcode hk1 hitem1 (overlap_skip hread hget hflag k1 k2 k3)
          rw [hlen1] at this
          exact this
        · simp only [hflag, if_false] at h
          cases hfind : item_find b1.set ⟨ip.nonterminal, ip.production, ip.dot_offset + 1⟩ with
          | some next =>
            simp only [hfind] at h
            have hw := (write_edge_spec g k (symbol_at g p ip.dot_offset) next b1).1
            have := ih _ _ _ _ h hcode (by rw [hw.set]; exact hk1) (by rw [hw.set]; exact hitem1)
              (overlap_edge next hta hread hget (LoopFrame.refl_l k b1) k1 k2 k3)
            rw [hw.set, hlen1] at this
            exact this
          | none =>
            simp only [hfind] at h
            cases hcol2 : collect_extra g item (symbol_at g p ip.dot_offset)
                (item.productions.length - (i + 1)) (i + 1)
                (item_production_insert ⟨[], 1, set_init⟩ ip.nonterminal ip.production
                  (ip.dot_offset + 1)).1 b1.out with
            | undefined => simp [hcol2] at h
            | nofuel => simp [hcol2] at h
            | ok rc =>
              obtain ⟨new_item, out⟩ := rc
              simp only [hcol2] at h
              obtain ⟨hout, hnew, _⟩ :=
                (collect_extra_spec g item _ _ _ _ _ _ hcol2).2 new_item out rfl
              have hnew2 : new_item.productions.length ≤ new_item.closure_offset := by
                apply hnew
                simp [item_production_insert]
              cases hres : recurse
                  ⟨⟨b1.set.items ++ [new_item], b1.set.initial_symbol⟩, b1.table, out, b1.writes⟩
                  b1.set.items.length with
              | undefined => simp [hres] at h
              | nofuel => simp [hres] at h
              | ok rr =>
                obtain ⟨b2, code⟩ := rr
                simp only [hres] at h
                obtain ⟨hfr, hrep⟩ := hrec _ _ _ hres (by simp)
                have hf3 : LoopFrame k b1 b2 := recursion_loopframe hk1 hout hfr
                by_cases hneg : code < 0
                · simp only [hneg, if_true] at h
                  cases h
                  simp at hcode
                · simp only [hneg, if_false] at h
                  have hrep2 : ∀ s, b1.set.items.length ≤ s → reported g a b2 s := by
                    apply hrep (by omega)
                    intro it hit
                    simp at hit
                    subst hit
                    exact hnew2
                  have hw := (write_edge_spec g k (symbol_at g p ip.dot_offset)
                    b1.set.items.length b2).1
                  have hk3 : k < b2.set.items.length :=
                    Nat.lt_of_lt_of_le hk1 hf3.frame.length
                  have hrest := table_loop_frame recurse g k hrecf _ _ _ _ _ h
                    (by rw [hw.set]; exact hk3)
                  obtain ⟨hA, hB⟩ := ih _ _ _ _ h hcode (by rw [hw.set]; exact hk3)
                    (by rw [hw.set, hf3.items k hk1]; exact hitem1)
                    (overlap_edge b1.set.items.length hta hread hget hf3 k1 k2 k3)
                  refine ⟨hA, ?_⟩
                  intro s hs
                  rw [hw.set] at hB
                  by_cases hs2 : b2.set.items.length ≤ s
                  · exact hB s hs2
                  · have hs3 : s < (write_edge g k (symbol_at g p ip.dot_offset)
                        b1.set.items.length b2).set.items.length := by
                      rw [hw.set]; omega
                    apply reported_stable (hrep2 s (by omega))
                    · rw [hrest.items s hs3, hw.set]
                    · intro d hd
                      exact hrest.mem_out_l d (hw.mem_out_w hd)

end LR0

namespace LR0

open ActionType

theorem internal_overlap (g : Grammar) (a : Char) (hcol : 0 ≤ set_order g.terminal_set a)
    (hta : is_nonterminal a = false) :
    ∀ (fuel : Nat) (b : Build) (k : Nat) (r : Build × Int),
      grammar_create_lr_table_internal fuel g b k = .ok r → 0 ≤ r.2 →
      k < b.set.items.length →
      (∀ it, b.set.items[k]? = some it → it.productions.length ≤ it.closure_offset) →
      reported g a r.1 k ∧ ∀ s, b.set.items.length ≤ s → reported g a r.1 s := by
  intro fuel
  induction fuel with
  | zero =>
    intro b k r h
    simp [grammar_create_lr_table_internal] at h
  | succ fuel ih =>
    intro b k r h hcode hk hkernel
    have hrec : ∀ b2 next r2, grammar_create_lr_table_internal fuel g b2 next = .ok r2 →
        next + 1 = b2.set.items.length →
        Frame next b2 r2.1 ∧
        (0 ≤ r2.2 →
          (∀ it, b2.set.items[next]? = some it → it.productions.length ≤ it.closure_offset) →
          ∀ s, next ≤ s → reported g a r2.1 s) := by
      intro b2 next r2 h2 hn
      refine ⟨(internal_frame g fuel b2 next r2 h2 (by omega)).1, ?_⟩
      intro hc2 hk2 s hs
      obtain ⟨h3, h4⟩ := ih b2 next r2 h2 hc2 (by omega) hk2
      by_cases hsn : s = next
      · subst hsn; exact h3
      · exact h4 s (by omega)
    obtain ⟨hframe, item0', item', no', hi0, hcl', hik, _⟩ := internal_frame g (fuel + 1) b k r h hk
    unfold grammar_create_lr_table_internal at h
    cases hitem : b.set.items[k]? with
    | none => simp [hitem] at h
    | some item0 =>
      simp only [hitem] at h
      have hle0 := hkernel item0 hitem
      cases hcl : item_insert_closure fuel g item0 with
      | undefined => simp [hcl] at h
      | nofuel => simp [hcl] at h
      | ok rc =>
        obtain ⟨item, no⟩ := rc
        simp only [hcl] at h
        -- the state that the table ends with at `k` is `item`
        have hfinal : r.1.set.items[k]? = some item := by
          rw [hitem] at hi0
          cases hi0
          simp only [Nat.add_sub_cancel] at hcl'
          rw [hcl] at hcl'
          cases hcl'
          exact hik
        have hscan : ScanPost g 0 item0.closure_offset 1 item0 item no ∨ no = -1 := by
          unfold item_insert_closure at hcl
          by_cases hlen : item0.productions.length = 0
          · simp only [hlen, if_true] at hcl
            cases hcl
            exact Or.inr rfl
          · simp only [hlen, if_false] at hcl
            have hspec := closure_scan_spec g fuel item0.closure_offset 0 set_init 1 item0
              (by intro C hC; simp [set_init] at hC) (by intro h; simp [set_init] at h)
              (Or.inr rfl)
            rw [hcl] at hspec
            exact Or.inl hspec
        by_cases hno1 : no = 1
        · simp only [hno1, if_true] at h
          cases hp0 : item.productions[0]? with
          | none => simp [hp0] at h
          | some ip =>
            simp only [hp0] at h
            cases h
            have hw := (write_complete_spec g k ip
              ⟨⟨b.set.items.set k item, b.set.initial_symbol⟩, b.table, b.out, b.writes⟩).1
            constructor
            · intro it hit _ hy
              rw [hfinal] at hit
              cases hit
              exfalso
              rcases hscan with hsp | hsp
              · obtain ⟨he, hq⟩ := hsp.quiet hno1
                subst he
                obtain ⟨y, hy1, p, hy2, hy3⟩ := hy
                obtain ⟨idx, hidx⟩ := List.mem_iff_getElem?.1 hy1
                have hlt := (List.getElem?_eq_some.1 hidx).1
                have := hq idx (Nat.zero_le _) (by omega) y p hidx hy2
                have hlt2 : y.dot_offset < p.symbols.length := (List.getElem?_eq_some.1 hy3).1
                unfold Production.size at this
                omega
              · omega
            · intro s hs it hit
              rw [hw.set] at hit
              simp only [] at hit
              have : (b.set.items.set k item)[s]? = none :=
                List.getElem?_eq_none (by simpa using hs)
              rw [this] at hit
              cases hit
        · simp only [hno1, if_false] at h
          by_cases hneg : no < 0
          · simp only [hneg, if_true] at h
            cases h
            simp at hcode
          · simp only [hneg, if_false] at h
            have hk0 : k < (b.set.items.set k item).length := by simpa using hk
            have hi0 : (b.set.items.set k item)[k]? = some item := by
              rw [List.getElem?_set_self hk]
            have hinv0 : OverlapInv g k item a 0 set_init
                ⟨⟨b.set.items.set k item, b.set.initial_symbol⟩, b.table, b.out, b.writes⟩ := by
              have hc : ¬ seen_complete g item 0 := by
                rintro ⟨idx, _, _, h1, _⟩
                omega
              have hs : ¬ (seen_symbol g item a 0 ∨ a ∈ set_init.data) := by
                rintro (⟨idx, _, _, h1, _⟩ | h1)
                · omega
                · simp [set_init] at h1
              exact ⟨fun h => absurd h hc, fun h => absurd h hs, fun h => absurd h hc⟩
            obtain ⟨hA, hB⟩ := table_loop_overlap (grammar_create_lr_table_internal fuel g) g k a
              hcol hta hrec item _ _ _ _ _ h hcode hk0 hi0 hinv0
            constructor
            · intro it hit hx hy
              rw [hfinal] at hit
              cases hit
              apply hA
              · obtain ⟨x, hx1, p, hx2, hx3, hx4⟩ := hx
                obtain ⟨idx, hidx⟩ := List.mem_iff_getElem?.1 hx1
                have hlt := (List.getElem?_eq_some.1 hidx).1
                exact ⟨idx, x, p, by omega, hidx, hx2, hx3, hx4⟩
              · obtain ⟨y, hy1, p, hy2, hy3⟩ := hy
                obtain ⟨idx, hidx⟩ := List.mem_iff_getElem?.1 hy1
                have hlt := (List.getElem?_eq_some.1 hidx).1
                exact ⟨idx, y, p, by omega, hidx, hy2, symbol_at_of_getElem? hy3⟩
            · intro s hs
              exact hB s (by simpa using hs)

end LR0

namespace LR0

open ActionType

/-! ## Instances -/

set_option maxRecDepth 100000 in
/-- Witness for `start_state_closure`: the grammar `E -> E+T | T`, `T -> id`. -/
theorem start_state_closure_witness :
    ∃ b item no, grammar_create_lr_table 16 example1 (item_set_init 'Z') = .ok (b, 0) ∧
      productions_of example1 'Z' = [⟨['E']⟩] ∧
      item_insert_closure 15 example1 ⟨[⟨'Z', 0, 0⟩], 1, set_init⟩ = .ok (item, no) ∧
      0 ≤ no ∧ b.set.items[0]? = some item ∧
      ∀ x, x ∈ item.productions ↔ InClosure example1 [⟨'Z', 0, 0⟩] x := by
  have hm : (grammar_create_lr_table 16 example1 (item_set_init 'Z')).map (fun r => r.2) =
      .ok 0 := by decide
  cases hrun : grammar_create_lr_table 16 example1 (item_set_init 'Z') with
  | undefined => rw [hrun] at hm; simp [Res.map] at hm
  | nofuel => rw [hrun] at hm; simp [Res.map] at hm
  | ok r =>
    obtain ⟨b, code⟩ := r
    rw [hrun] at hm
    simp only [Res.map, Res.ok.injEq] at hm
    subst hm
    obtain ⟨_, h1, item, no, h2, h3, h4, h5⟩ :=
      start_state_closure example1_finished 16 'Z' b 0 (by decide) hrun (by decide)
    exact ⟨b, item, no, rfl, h1 (by decide), h2, h3, h4, h5⟩

set_option maxRecDepth 100000 in
/-- C10 (counterexample). For the finished and augmented grammar `Z -> a`,
`S -> b` with start symbol `S`, the augmented start production `Z -> S` is
production 1 of `Z`, the table construction returns 0, and state 0 is the
single item `Z -> . a`: it does not contain the item of the augmented start
production with the dot at offset 0. -/
theorem start_state_with_Z :
    grammar_with_Z.starting_symbol = 'S' ∧
    productions_of grammar_with_Z 'Z' = [⟨['a']⟩, ⟨['S']⟩] ∧
    (grammar_create_lr_table 16 grammar_with_Z (item_set_init 'Z')).map
      (fun r => (r.2, (r.1.set.items[0]?).map (fun it => it.productions))) =
      .ok (0, some [⟨'Z', 0, 0⟩]) ∧
    (⟨'Z', 1, 0⟩ : ItemProduction) ∉ [(⟨'Z', 0, 0⟩ : ItemProduction)] := by
  refine ⟨by decide, by decide, by decide, by decide⟩

end LR0

namespace LR0

open ActionType

/-! ## Runs on which the automaton is not the canonical one -/

/-- An item of the closure of a kernel is in the kernel or has its dot at
offset 0. -/
theorem in_closure_cases {g : Grammar} {K : List ItemProduction} {x : ItemProduction}
    (h : InClosure g K x) : x ∈ K ∨ x.dot_offset = 0 := by
  cases h with
  | kernel _ hx => exact Or.inl hx
  | expand _ _ _ _ _ _ => exact Or.inr rfl

set_option maxRecDepth 100000 in
/-- C11 (evaluation at the failing input). For the grammar `S -> pA | qD`,
`A -> xy`, `D -> A | C`, `C -> xz` the construction returns 0; state 6 holds
`A -> . xy` and `C -> . xz`, so `goto(6, x)` is the closure of
`A -> x . y`, `C -> x . z`; the entry recorded for state 6 and `x` is a shift
to state 4, and state 4 holds `A -> x . y` only: `C -> x . z` is an item of
`goto(6, x)` and not of the state the edge leads to. -/
theorem goto_edge_misses_item :
    (grammar_create_lr_table 16 grammar_shared_item (item_set_init 'Z')).map
      (fun r => (r.2, r.1.items_of 6, r.1.items_of 4,
        (r.1.table.action_table 6 (set_order grammar_shared_item.terminal_set 'x')).type,
        (r.1.table.action_table 6 (set_order grammar_shared_item.terminal_set 'x')).target_state)) =
      .ok (0, [⟨'S', 1, 1⟩, ⟨'D', 0, 0⟩, ⟨'A', 0, 0⟩, ⟨'D', 1, 0⟩, ⟨'C', 0, 0⟩],
        [⟨'A', 0, 1⟩], ACTION_SHIFT, 4) ∧
    goto_kernel grammar_shared_item
      [⟨'S', 1, 1⟩, ⟨'D', 0, 0⟩, ⟨'A', 0, 0⟩, ⟨'D', 1, 0⟩, ⟨'C', 0, 0⟩] 'x' =
      [⟨'A', 0, 1⟩, ⟨'C', 0, 1⟩] ∧
    InClosure grammar_shared_item [⟨'A', 0, 1⟩, ⟨'C', 0, 1⟩] ⟨'C', 0, 1⟩ ∧
    (⟨'C', 0, 1⟩ : ItemProduction) ∉ [(⟨'A', 0, 1⟩ : ItemProduction)] := by
  refine ⟨by decide, by decide, InClosure.kernel _ (by decide), by decide⟩

set_option maxRecDepth 100000 in
/-- C12 (evaluation at the failing input). For the same grammar the entries
for (state 2, `x`) and for (state 6, `x`) are shifts to the same state 4,
while `goto(2, x)` is the closure of `A -> x . y` and `goto(6, x)` is the
closure of `A -> x . y`, `C -> x . z`: the item `C -> x . z` is in the second
and not in the first. -/
theorem one_id_for_two_gotos :
    (grammar_create_lr_table 16 grammar_shared_item (item_set_init 'Z')).map
      (fun r => (r.2,
        goto_kernel grammar_shared_item (r.1.items_of 2) 'x',
        goto_kernel grammar_shared_item (r.1.items_of 6) 'x',
        r.1.table.action_table 2 (set_order grammar_shared_item.terminal_set 'x'),
        r.1.table.action_table 6 (set_order grammar_shared_item.terminal_set 'x'))) =
      .ok (0, [⟨'A', 0, 1⟩], [⟨'A', 0, 1⟩, ⟨'C', 0, 1⟩],
        ⟨ACTION_SHIFT, 4, Char.ofNat 0, 0⟩, ⟨ACTION_SHIFT, 4, Char.ofNat 0, 0⟩) ∧
    InClosure grammar_shared_item [⟨'A', 0, 1⟩, ⟨'C', 0, 1⟩] ⟨'C', 0, 1⟩ ∧
    ¬ InClosure grammar_shared_item [⟨'A', 0, 1⟩] ⟨'C', 0, 1⟩ := by
  refine ⟨by decide, InClosure.kernel _ (by decide), ?_⟩
  intro h
  rcases in_closure_cases h with h | h
  · simp at h
  · simp at h

set_option maxRecDepth 100000 in
/-- C14 (evaluation at the failing input). For the grammar `E -> E+T | T`,
`T -> id` the construction returns 0; state 1 holds `Z -> E .`, whose dot is
at the end of a production of length 1; state 2 was created from that item
and holds the single item (`Z`, production 0, dot offset 2); and row 1 has a
shift to state 2 in the column of the symbol read at offset 1 of `Z -> E` (a
slot the grammar never wrote; it has no column, so the subscript is -1). -/
theorem dot_past_the_end :
    item_get_production example1 ⟨'Z', 0, 1⟩ = some ⟨['E']⟩ ∧
    symbol_at example1 ⟨['E']⟩ 1 = Char.ofNat 0 ∧
    set_order example1.terminal_set (Char.ofNat 0) = -1 ∧
    (grammar_create_lr_table 16 example1 (item_set_init 'Z')).map
      (fun r => (r.2, r.1.items_of 1, r.1.items_of 2, r.1.table.action_table 1 (-1))) =
      .ok (0, [⟨'Z', 0, 1⟩, ⟨'E', 0, 1⟩], [⟨'Z', 0, 2⟩],
        ⟨ACTION_SHIFT, 2, Char.ofNat 0, 0⟩) := by
  refine ⟨by decide, by decide, by decide, by decide⟩

set_option maxRecDepth 100000 in
/-- C15 (evaluation at the failing input). For the grammar `S -> pA | qD`,
`A -> xy`, `D -> A | C`, `C -> xz` the construction returns 0 and prints
nothing; state 6 holds `C -> . xz`, with its dot before the terminal `x`; the
ACTION entry of state 6 for `x` is a shift to state 4, whose kernel is
`A -> x . y`; no state at all has `C -> x . z` in its kernel. -/
theorem shift_target_misses_item :
    dot_at grammar_shared_item ⟨'C', 0, 0⟩ 'x' = true ∧
    is_terminal 'x' = true ∧
    (grammar_create_lr_table 16 grammar_shared_item (item_set_init 'Z')).map
      (fun r => (r.2, r.1.out, decide ((⟨'C', 0, 0⟩ : ItemProduction) ∈ r.1.items_of 6),
        r.1.table.action_table 6 (set_order grammar_shared_item.terminal_set 'x'))) =
      .ok (0, [], true, ⟨ACTION_SHIFT, 4, Char.ofNat 0, 0⟩) ∧
    (grammar_create_lr_table 16 grammar_shared_item (item_set_init 'Z')).map
      (fun r => (r.1.kernel_of 4,
        (List.range r.1.set.items.length).any
          (fun s => decide ((⟨'C', 0, 1⟩ : ItemProduction) ∈ r.1.kernel_of s)))) =
      .ok ([⟨'A', 0, 1⟩], false) := by
  refine ⟨by decide, by decide, by decide, by decide⟩

set_option maxRecDepth 100000 in
/-- C18 (evaluation at the failing input). For the grammar `S -> A | B`,
`A -> x`, `B -> x` the construction returns 0 and reports no overlap; state 3
holds `B -> x .`, with its dot at the end of production 0 of `B`; the ACTION
entries of state 3 for `x` and for `$` are reduce actions that name
production 0 of `A`. -/
theorem second_reduction_not_written :
    item_get_production grammar_two_reductions ⟨'B', 0, 1⟩ = some ⟨['x']⟩ ∧
    grammar_two_reductions.terminal_set.data = ['x', '$'] ∧
    (grammar_create_lr_table 16 grammar_two_reductions (item_set_init 'Z')).map
      (fun r => (r.2, r.1.out.any Diag.is_overlap, r.1.items_of 3,
        r.1.table.action_table 3 (set_order grammar_two_reductions.terminal_set 'x'),
        r.1.table.action_table 3 (set_order grammar_two_reductions.terminal_set '$'))) =
      .ok (0, false, [⟨'A', 0, 1⟩, ⟨'B', 0, 1⟩],
        ⟨ACTION_REDUCE, 2, 'A', 0⟩, ⟨ACTION_REDUCE, 2, 'A', 0⟩) := by
  refine ⟨by decide, by decide, by decide⟩

end LR0

namespace LR0

open ActionType

/-! ## The driver: unknown input symbols -/

/-- An iteration that does not return leaves the input cursor where it was or
one further, after a lookahead that is in the terminal set, and leaves the
stack non-empty. -/
theorem driver_step_next {g : Grammar} {table : LR0ParsingTable} {input : List Char}
    {cfg cfg1 : Config} (h : driver_step g table input cfg = .ok (.inl cfg1)) :
    cfg1.stack ≠ [] ∧
    0 ≤ set_order g.terminal_set (curr_input input cfg.input_offset) ∧
    (cfg1.input_offset = cfg.input_offset ∨ cfg1.input_offset = cfg.input_offset + 1) := by
  unfold driver_step at h
  cases hs : cfg.stack with
  | nil => simp [hs] at h
  | cons top rest =>
    simp only [hs] at h
    by_cases hunk : set_order g.terminal_set (curr_input input cfg.input_offset) < 0
    · simp [hunk] at h
    · simp only [hunk, if_false] at h
      by_cases htop : top.target_state < 0
      · simp [htop] at h
      · simp only [htop, if_false] at h
        split at h
        · simp at h
        · simp only [Res.ok.injEq, Sum.inl.injEq] at h
          subst h
          exact ⟨by simp, by omega, Or.inr rfl⟩
        · split at h
          · simp at h
          · split at h
            · simp at h
            · simp at h
            · simp at h
            · simp at h
            · simp only [Res.ok.injEq, Sum.inl.injEq] at h
              subst h
              exact ⟨by simp, by omega, Or.inl rfl⟩
        · simp at h

/-- An iteration that returns through the accept branch had a lookahead that
is in the terminal set. -/
theorem driver_step_accept {g : Grammar} {table : LR0ParsingTable} {input : List Char}
    {cfg : Config} (h : driver_step g table input cfg = .ok (.inr Exit.accept)) :
    0 ≤ set_order g.terminal_set (curr_input input cfg.input_offset) := by
  unfold driver_step at h
  cases hs : cfg.stack with
  | nil => simp [hs] at h
  | cons top rest =>
    simp only [hs] at h
    by_cases hunk : set_order g.terminal_set (curr_input input cfg.input_offset) < 0
    · simp [hunk] at h
    · omega

/-- An iteration whose lookahead is not in the terminal set returns through
the unknown-symbol branch, whatever the table holds. -/
theorem driver_step_unknown (g : Grammar) (table : LR0ParsingTable) (input : List Char)
    (cfg : Config) (hstack : cfg.stack ≠ [])
    (hunk : set_order g.terminal_set (curr_input input cfg.input_offset) < 0) :
    driver_step g table input cfg = .ok (.inr Exit.unknown_symbol) := by
  unfold driver_step
  cases hs : cfg.stack with
  | nil => exact absurd hs hstack
  | cons top rest => simp [hunk]

/-- The loop continues from the variables reached after `n` iterations. -/
theorem driver_loop_of_run (g : Grammar) (table : LR0ParsingTable) (input : List Char) :
    ∀ (n : Nat) (cfg0 cfg : Config), driver_run g table input n cfg0 = .ok (.inl cfg) →
      ∀ m, driver_loop g table input (n + m) cfg0 = driver_loop g table input m cfg := by
  intro n
  induction n with
  | zero =>
    intro cfg0 cfg h m
    simp only [driver_run, Res.ok.injEq, Sum.inl.injEq] at h
    subst h
    simp
  | succ n ih =>
    intro cfg0 cfg h m
    unfold driver_run at h
    rw [show n + 1 + m = (n + m) + 1 by omega]
    cases hstep : driver_step g table input cfg0 with
    | undefined => simp [hstep] at h
    | nofuel => simp [hstep] at h
    | ok v =>
      cases v with
      | inr e => simp [hstep] at h
      | inl cfg1 =>
        simp only [hstep] at h
        simp only [driver_loop, hstep]
        exact ih cfg1 cfg h m

/-- The variables reached after `n` iterations: the stack is not empty. -/
theorem driver_run_stack (g : Grammar) (table : LR0ParsingTable) (input : List Char) :
    ∀ (n : Nat) (cfg0 cfg : Config), driver_run g table input n cfg0 = .ok (.inl cfg) →
      cfg0.stack ≠ [] → cfg.stack ≠ [] := by
  intro n
  induction n with
  | zero =>
    intro cfg0 cfg h h0
    simp only [driver_run, Res.ok.injEq, Sum.inl.injEq] at h
    subst h
    exact h0
  | succ n ih =>
    intro cfg0 cfg h h0
    unfold driver_run at h
    cases hstep : driver_step g table input cfg0 with
    | undefined => simp [hstep] at h
    | nofuel => simp [hstep] at h
    | ok v =>
      cases v with
      | inr e => simp [hstep] at h
      | inl cfg1 =>
        simp only [hstep] at h
        exact ih cfg1 cfg h (driver_step_next hstep).1

/-- When the loop returns through the accept branch, every lookahead up to
and including the one of the accepting iteration was in the terminal set. -/
theorem driver_loop_accept (g : Grammar) (table : LR0ParsingTable) (input : List Char) :
    ∀ (fuel : Nat) (cfg cfgf : Config),
      driver_loop g table input fuel cfg = .ok (Exit.accept, cfgf) →
      (∀ i, i < cfg.input_offset → 0 ≤ set_order g.terminal_set (curr_input input i)) →
      ∀ i, i ≤ cfgf.input_offset → 0 ≤ set_order g.terminal_set (curr_input input i) := by
  intro fuel
  induction fuel with
  | zero =>
    intro cfg cfgf h
    simp [driver_loop] at h
  | succ fuel ih =>
    intro cfg cfgf h hinv
    unfold driver_loop at h
    cases hstep : driver_step g table input cfg with
    | undefined => simp [hstep] at h
    | nofuel => simp [hstep] at h
    | ok v =>
      cases v with
      | inr e =>
        simp only [hstep, Res.ok.injEq, Prod.mk.injEq] at h
        obtain ⟨he, hc⟩ := h
        subst he hc
        intro i hi
        by_cases hlt : i < cfg.input_offset
        · exact hinv i hlt
        · have : i = cfg.input_offset := by omega
          subst this
          exact driver_step_accept hstep
      | inl cfg1 =>
        simp only [hstep] at h
        obtain ⟨_, hknown, hoff⟩ := driver_step_next hstep
        apply ih cfg1 cfgf h
        intro i hi
        by_cases hlt : i < cfg.input_offset
        · exact hinv i hlt
        · have : i = cfg.input_offset := by omega
          subst this
          exact hknown

/-- C20 (as amended). If the driver reaches an iteration whose lookahead
(with a newline and the terminating NUL read as `$`) is not in the terminal
set, `grammar_input_check` returns at that iteration through the branch whose
value is 0, and the iteration returns so whatever the table holds.  And when
`grammar_input_check` returns 1, every character up to and including the one
under the cursor at the accepting iteration, read in the same way, is in the
terminal set. -/
theorem unknown_symbol_rejected (g : Grammar) (table : LR0ParsingTable) (input : List Char) :
    (∀ (n : Nat) (cfg : Config),
      driver_run g table input n ⟨[⟨'$', 0⟩], 0, []⟩ = .ok (.inl cfg) →
      set_order g.terminal_set (curr_input input cfg.input_offset) < 0 →
      (∀ fuel, n < fuel →
        grammar_input_check fuel g table input = .ok (Exit.unknown_symbol, cfg)) ∧
      Exit.code Exit.unknown_symbol = 0 ∧
      ∀ table2, driver_step g table2 input cfg = .ok (.inr Exit.unknown_symbol)) ∧
    (∀ (fuel : Nat) (e : Exit) (cfg : Config),
      grammar_input_check fuel g table input = .ok (e, cfg) → e.code = 1 →
      ∀ i, i ≤ cfg.input_offset → 0 ≤ set_order g.terminal_set (curr_input input i)) := by
  constructor
  · intro n cfg hrun hunk
    have hstack := driver_run_stack g table input n _ cfg hrun (by simp)
    refine ⟨?_, rfl, fun table2 => driver_step_unknown g table2 input cfg hstack hunk⟩
    intro fuel hfuel
    obtain ⟨m, rfl⟩ : ∃ m, fuel = n + (m + 1) := ⟨fuel - n - 1, by omega⟩
    unfold grammar_input_check
    rw [driver_loop_of_run g table input n _ cfg hrun (m + 1)]
    unfold driver_loop
    rw [driver_step_unknown g table input cfg hstack hunk]
  · intro fuel e cfg h hcode
    have he : e = Exit.accept := by
      cases e <;> simp [Exit.code] at hcode
      rfl
    subst he
    unfold grammar_input_check at h
    exact driver_loop_accept g table input fuel _ cfg h (by intro i hi; simp at hi)

set_option maxRecDepth 100000 in
/-- C19 (evaluation at the failing input). For the grammar `S -> pD | qA`,
`D -> A | C`, `A -> xy`, `C -> xz` the construction returns 0.  On the input
`qxz` the driver shifts `q`, `x` and `z`; the fourth iteration reduces by
`C -> xz`, which exposes state 9, where the GOTO entry for `C` is
`GOTO_ERROR`; the iteration does not return: it pushes the entry with state
-1 and the loop goes on, so that the next iteration reads row -1 of the
ACTION table. -/
theorem reduce_pushes_goto_error :
    (grammar_create_lr_table 16 grammar_goto_hole (item_set_init 'Z')).map
      (fun r => (r.2,
        r.1.table.goto_table 9 (set_order grammar_goto_hole.nonterminal_set 'C'))) =
      .ok (0, GOTO_ERROR) ∧
    (grammar_create_lr_table 16 grammar_goto_hole (item_set_init 'Z')).bind
      (fun r => (driver_run grammar_goto_hole r.1.table "qxz".toList 3
        ⟨[⟨'$', 0⟩], 0, []⟩).map
          (Sum.elim (fun cfg => some (cfg.stack, cfg.input_offset)) (fun _ => none))) =
      .ok (some ([⟨'z', 7⟩, ⟨'x', 5⟩, ⟨'q', 9⟩, ⟨'$', 0⟩], 3)) ∧
    (grammar_create_lr_table 16 grammar_goto_hole (item_set_init 'Z')).bind
      (fun r => (driver_run grammar_goto_hole r.1.table "qxz".toList 4
        ⟨[⟨'$', 0⟩], 0, []⟩).map
          (Sum.elim (fun cfg => some (cfg.stack, cfg.input_offset, reductions cfg.trace))
            (fun _ => none))) =
      .ok (some ([⟨'C', -1⟩, ⟨'q', 9⟩, ⟨'$', 0⟩], 3, [('C', 0)])) ∧
    (grammar_create_lr_table 16 grammar_goto_hole (item_set_init 'Z')).bind
      (fun r => grammar_input_check 16 grammar_goto_hole r.1.table "qxz".toList) =
      .undefined := by
  refine ⟨by decide, by decide, by decide, by decide⟩

set_option maxRecDepth 100000 in
/-- C20 (counterexample). For the grammar `E -> E+T | T`, `T -> id` the
character `a` is not in the terminal set; the input `id$a` contains it at
offset 3, before the terminator (the input has no newline and no NUL, so its
terminator is at offset 4); and `grammar_input_check` returns 1 on this
input, with the cursor at offset 2. -/
theorem accepts_before_unknown_symbol :
    set_order example1.terminal_set 'a' = -1 ∧
    "id$a".toList[3]? = some 'a' ∧
    (∀ c ∈ "id$a".toList, c ≠ '\n' ∧ c ≠ Char.ofNat 0) ∧
    (grammar_create_lr_table 16 example1 (item_set_init 'Z')).bind
      (fun r => (grammar_input_check 16 example1 r.1.table "id$a".toList).map
        (fun e => (r.2, e.1.code, e.2.input_offset))) = .ok (0, 1, 2) := by
  refine ⟨by decide, by decide, by decide, by decide⟩

end LR0

namespace LR0

open ActionType

/-! ## Induction over the construction -/

/-- Induction principle for the main loop of state `k`.  `I` is the loop
invariant; `Pre` and `Post` describe a recursive call on a state that has just
been added. -/
theorem table_loop_induct (recurse : Build → Nat → Res (Build × Int)) (g : Grammar) (k : Nat)
    (item : Item) (Pre : Build → Prop) (Post : Build → Build → Prop)
    (I : Nat → Set → Build → Prop)
    (hrec : ∀ b next r, recurse b next = .ok r → next + 1 = b.set.items.length → 0 ≤ r.2 →
      Pre b → Frame next b r.1 ∧ Post b r.1)
    (hitem : ∀ i v b, I i v b → b.set.items[k]? = some item)
    (hstep : ∀ i v b ip p, I i v b → item.productions[i]? = some ip →
      item_get_production g ip = some p →
      ∀ b1, b1 = (if p.size ≤ ip.dot_offset then write_complete g k ip b else b) →
      ((set_insert v (symbol_at g p ip.dot_offset)).2 = 1 →
        I (i + 1) (set_insert v (symbol_at g p ip.dot_offset)).1 b1) ∧
      ((set_insert v (symbol_at g p ip.dot_offset)).2 ≠ 1 → ∀ next,
        item_find b1.set ⟨ip.nonterminal, ip.production, ip.dot_offset + 1⟩ = some next →
        I (i + 1) (set_insert v (symbol_at g p ip.dot_offset)).1
          (write_edge g k (symbol_at g p ip.dot_offset) next b1)) ∧
      ((set_insert v (symbol_at g p ip.dot_offset)).2 ≠ 1 →
        item_find b1.set ⟨ip.nonterminal, ip.production, ip.dot_offset + 1⟩ = none →
        ∀ ni out,
        collect_extra g item (symbol_at g p ip.dot_offset) (item.productions.length - (i + 1))
          (i + 1) (item_production_insert ⟨[], 1, set_init⟩ ip.nonterminal ip.production
            (ip.dot_offset + 1)).1 b1.out = .ok (ni, out) →
        Pre ⟨⟨b1.set.items ++ [ni], b1.set.initial_symbol⟩, b1.table, out, b1.writes⟩ ∧
        ∀ b2,
          Frame b1.set.items.length
            ⟨⟨b1.set.items ++ [ni], b1.set.initial_symbol⟩, b1.table, out, b1.writes⟩ b2 →
          Post ⟨⟨b1.set.items ++ [ni], b1.set.initial_symbol⟩, b1.table, out, b1.writes⟩ b2 →
          I (i + 1) (set_insert v (symbol_at g p ip.dot_offset)).1
            (write_edge g k (symbol_at g p ip.dot_offset) b1.set.items.length b2))) :
    ∀ (n i : Nat) (v : Set) (b : Build) (r : Build × Int),
      table_loop recurse g k n i v b = .ok r → 0 ≤ r.2 → I i v b →
      ∃ v2, I (i + n) v2 r.1 := by
  intro n
  induction n with
  | zero =>
    intro i v b r h _ hinv
    simp only [table_loop] at h
    cases h
    exact ⟨v, hinv⟩
  | succ n ih =>
    intro i v b r h hcode hinv
    unfold table_loop at h
    simp only [hitem i v b hinv] at h
    rw [show i + (n + 1) = i + 1 + n by omega]
    cases hread : item.productions[i]? with
    | none => simp [hread] at h
    | some ip =>
      simp only [hread] at h
      cases hget : item_get_production g ip with
      | none => simp [hget] at h
      | some p =>
        simp only [hget] at h
        obtain ⟨s1, s2, s3⟩ := hstep i v b ip p hinv hread hget _ rfl
        generalize (if p.size ≤ ip.dot_offset then write_complete g k ip b else b) = b1
          at h s1 s2 s3
        by_cases hflag : (set_insert v (symbol_at g p ip.dot_offset)).2 = 1
        · simp only [hflag, if_true] at h
          exact ih _ _ _ _ h hcode (s1 hflag)
        · simp only [hflag, if_false] at h
          cases hfind : item_find b1.set ⟨ip.nonterminal, ip.production, ip.dot_offset + 1⟩ with
          | some next =>
            simp only [hfind] at h
            exact ih _ _ _ _ h hcode (s2 hflag next hfind)
          | none =>
            simp only [hfind] at h
            cases hcol : collect_extra g item (symbol_at g p ip.dot_offset)
                (item.productions.length - (i + 1)) (i + 1)
                (item_production_insert ⟨[], 1, set_init⟩ ip.nonterminal ip.production
                  (ip.dot_offset + 1)).1 b1.out with
            | undefined => simp [hcol] at h
            | nofuel => simp [hcol] at h
            | ok rc =>
              obtain ⟨ni, out⟩ := rc
              simp only [hcol] at h
              obtain ⟨hpre, hpost⟩ := s3 hflag hfind ni out hcol
              cases hres : recurse
                  ⟨⟨b1.set.items ++ [ni], b1.set.initial_symbol⟩, b1.table, out, b1.writes⟩
                  b1.set.items.length with
              | undefined => simp [hres] at h
              | nofuel => simp [hres] at h
              | ok rr =>
                obtain ⟨b2, code⟩ := rr
                simp only [hres] at h
                by_cases hneg : code < 0
                · simp only [hneg, if_true] at h
                  cases h
                  simp at hcode
                · simp only [hneg, if_false] at h
                  obtain ⟨hfr, hpo⟩ := hrec _ _ _ hres (by simp) (by simpa using hneg) hpre
                  exact ih _ _ _ _ h hcode (hpost b2 hfr hpo)

/-- Induction principle for `grammar_create_lr_table_internal`, which is only
ever called on the last state of the list.  `Pre` holds when a call starts,
`Post` relates the start of a successful call to its end, and `I` is the
invariant of the main loop (its first argument is the construction at the
start of the call). -/
theorem internal_induct (g : Grammar) (Pre : Build → Prop) (Post : Build → Build → Prop)
    (I : Build → Nat → Item → Nat → Set → Build → Prop)
    (hquiet : ∀ fuel b k item0 item ip, Pre b → k + 1 = b.set.items.length →
      b.set.items[k]? = some item0 → item_insert_closure fuel g item0 = .ok (item, 1) →
      item.productions[0]? = some ip →
      Post b (write_complete g k ip
        ⟨⟨b.set.items.set k item, b.set.initial_symbol⟩, b.table, b.out, b.writes⟩))
    (henter : ∀ fuel b k item0 item no, Pre b → k + 1 = b.set.items.length →
      b.set.items[k]? = some item0 → item_insert_closure fuel g item0 = .ok (item, no) →
      no ≠ 1 → ¬ no < 0 →
      I b k item 0 set_init
        ⟨⟨b.set.items.set k item, b.set.initial_symbol⟩, b.table, b.out, b.writes⟩)
    (hitem : ∀ b0 k item i v b, I b0 k item i v b → b.set.items[k]? = some item)
    (hstep : ∀ b0 k item i v b ip p, I b0 k item i v b → item.productions[i]? = some ip →
      item_get_production g ip = some p →
      ∀ b1, b1 = (if p.size ≤ ip.dot_offset then write_complete g k ip b else b) →
      ((set_insert v (symbol_at g p ip.dot_offset)).2 = 1 →
        I b0 k item (i + 1) (set_insert v (symbol_at g p ip.dot_offset)).1 b1) ∧
      ((set_insert v (symbol_at g p ip.dot_offset)).2 ≠ 1 → ∀ next,
        item_find b1.set ⟨ip.nonterminal, ip.production, ip.dot_offset + 1⟩ = some next →
        I b0 k item (i + 1) (set_insert v (symbol_at g p ip.dot_offset)).1
          (write_edge g k (symbol_at g p ip.dot_offset) next b1)) ∧
      ((set_insert v (symbol_at g p ip.dot_offset)).2 ≠ 1 →
        item_find b1.set ⟨ip.nonterminal, ip.production, ip.dot_offset + 1⟩ = none →
        ∀ ni out,
        collect_extra g item (symbol_at g p ip.dot_offset) (item.productions.length - (i + 1))
          (i + 1) (item_production_insert ⟨[], 1, set_init⟩ ip.nonterminal ip.production
            (ip.dot_offset + 1)).1 b1.out = .ok (ni, out) →
        Pre ⟨⟨b1.set.items ++ [ni], b1.set.initial_symbol⟩, b1.table, out, b1.writes⟩ ∧
        ∀ b2,
          Frame b1.set.items.length
            ⟨⟨b1.set.items ++ [ni], b1.set.initial_symbol⟩, b1.table, out, b1.writes⟩ b2 →
          Post ⟨⟨b1.set.items ++ [ni], b1.set.initial_symbol⟩, b1.table, out, b1.writes⟩ b2 →
          I b0 k item (i + 1) (set_insert v (symbol_at g p ip.dot_offset)).1
            (write_edge g k (symbol_at g p ip.dot_offset) b1.set.items.length b2)))
    (hexit : ∀ b0 k item v b, k + 1 = b0.set.items.length →
      I b0 k item item.productions.length v b → Post b0 b) :
    ∀ (fuel : Nat) (b : Build) (k : Nat) (r : Build × Int),
      grammar_create_lr_table_internal fuel g b k = .ok r → 0 ≤ r.2 →
      k + 1 = b.set.items.length → Pre b → Post b r.1 := by
  intro fuel
  induction fuel with
  | zero =>
    intro b k r h
    simp [grammar_create_lr_table_internal] at h
  | succ fuel ih =>
    intro b k r h hcode hk hpre
    unfold grammar_create_lr_table_internal at h
    cases hit : b.set.items[k]? with
    | none => simp [hit] at h
    | some item0 =>
      simp only [hit] at h
      cases hcl : item_insert_closure fuel g item0 with
      | undefined => simp [hcl] at h
      | nofuel => simp [hcl] at h
      | ok rc =>
        obtain ⟨item, no⟩ := rc
        simp only [hcl] at h
        by_cases hno1 : no = 1
        · subst hno1
          simp only [if_true] at h
          cases hp0 : item.productions[0]? with
          | none => simp [hp0] at h
          | some ip =>
            simp only [hp0] at h
            cases h
            exact hquiet fuel b k item0 item ip hpre hk hit hcl hp0
        · simp only [hno1, if_false] at h
          by_cases hneg : no < 0
          · simp only [hneg, if_true] at h
            cases h
            simp at hcode
          · simp only [hneg, if_false] at h
            have h0 := henter fuel b k item0 item no hpre hk hit hcl hno1 hneg
            obtain ⟨v2, hfin⟩ := table_loop_induct (grammar_create_lr_table_internal fuel g) g k
              item Pre Post (I b k item)
              (fun b2 next r2 h2 hn hc2 hp2 =>
                ⟨(internal_frame g fuel b2 next r2 h2 (by omega)).1,
                  ih b2 next r2 h2 hc2 hn hp2⟩)
              (hitem b k item) (hstep b k item) _ _ _ _ _ h hcode h0
            simp only [Nat.zero_add] at hfin
            exact hexit b k item v2 r.1 hk hfin

end LR0

namespace LR0

open ActionType

/-! ## The number of states -/

theorem advanced_from_length (symbol : Char) :
    ∀ (ps : List Production) (j : Nat),
      (advanced_from symbol ps j).length = (ps.map (fun p => p.size + 1)).sum := by
  intro ps
  induction ps with
  | nil => intro j; simp [advanced_from]
  | cons p ps ih =>
    intro j
    simp [advanced_from, ih]

theorem advanced_items_length (g : Grammar) : (advanced_items g).length = item_pairs g := by
  unfold advanced_items item_pairs
  induction g.set with
  | nil => simp
  | cons ps rest ih =>
    simp only [List.flatMap_cons, List.length_append, List.map_cons, List.sum_cons, ih,
      advanced_from_length]

theorem advanced_from_mem (symbol : Char) :
    ∀ (ps : List Production) (j idx : Nat) (p : Production) (d : Nat),
      ps[idx]? = some p → d ≤ p.size →
      (⟨symbol, j + idx, d + 1⟩ : ItemProduction) ∈ advanced_from symbol ps j := by
  intro ps
  induction ps with
  | nil => intro j idx p d h; simp at h
  | cons q ps ih =>
    intro j idx p d h hd
    unfold advanced_from
    cases idx with
    | zero =>
      simp only [List.getElem?_cons_zero, Option.some.injEq] at h
      subst h
      apply List.mem_append_left
      simp only [List.mem_map, List.mem_range]
      exact ⟨d, by omega, by simp⟩
    | succ idx =>
      simp only [List.getElem?_cons_succ] at h
      apply List.mem_append_right
      have := ih (j + 1) idx p d h hd
      rw [show j + (idx + 1) = j + 1 + idx by omega]
      exact this

/-- The item formed by the main loop from an item whose dot is within its
production is one of `advanced_items`. -/
theorem advanced_mem {g : Grammar} {ip : ItemProduction} {p : Production}
    (hget : item_get_production g ip = some p) (hd : ip.dot_offset ≤ p.size) :
    (⟨ip.nonterminal, ip.production, ip.dot_offset + 1⟩ : ItemProduction) ∈ advanced_items g := by
  unfold item_get_production at hget
  cases h1 : grammar_find g ip.nonterminal with
  | none => simp [h1] at hget
  | some k =>
    simp only [h1] at hget
    obtain ⟨ps, h2, h3⟩ := find_set_some h1
    simp only [h2] at hget
    unfold advanced_items
    simp only [List.mem_flatMap]
    refine ⟨ps, List.getElem?_mem h2, ?_⟩
    have := advanced_from_mem ps.symbol ps.productions 0 ip.production p ip.dot_offset hget hd
    simpa [h3] using this

theorem item_find_from_none {p : ItemProduction} :
    ∀ {l : List Item}, item_find_from p l = none →
      ∀ it ∈ l, p ∉ it.productions.take it.closure_offset := by
  intro l
  induction l with
  | nil => intro _ it hit; simp at hit
  | cons a rest ih =>
    intro h it hit
    unfold item_find_from at h
    cases ha : item_find_in p a with
    | true => simp [ha] at h
    | false =>
      simp only [ha, Bool.false_eq_true, if_false, Option.map_eq_none'] at h
      rcases List.mem_cons.1 hit with rfl | hmem
      · simpa [item_find_in] using ha
      · exact ih h it hmem

theorem item_find_from_some {p : ItemProduction} :
    ∀ {l : List Item} {n : Nat}, item_find_from p l = some n →
      ∃ it, l[n]? = some it ∧ p ∈ it.productions.take it.closure_offset := by
  intro l
  induction l with
  | nil => intro n h; simp [item_find_from] at h
  | cons a rest ih =>
    intro n h
    unfold item_find_from at h
    cases ha : item_find_in p a with
    | true =>
      simp only [ha, if_true, Option.some.injEq] at h
      subst h
      exact ⟨a, by simp, by simpa [item_find_in] using ha⟩
    | false =>
      simp only [ha, Bool.false_eq_true, if_false, Option.map_eq_some'] at h
      obtain ⟨m, hm, rfl⟩ := h
      obtain ⟨it, h1, h2⟩ := ih hm
      exact ⟨it, by simpa using h1, h2⟩

/-- The inner loop only appends, to the new state, items of the state being
processed that have the symbol at their dot, with the dot advanced. -/
theorem collect_extra_members (g : Grammar) (item : Item) (symbol : Char) :
    ∀ (n j : Nat) (new_item : Item) (out : List Diag) (ni : Item) (o : List Diag),
      collect_extra g item symbol n j new_item out = .ok (ni, o) →
      new_item.closure_offset ≤ ni.closure_offset ∧
      ∃ more, ni.productions = new_item.productions ++ more ∧
        ∀ x ∈ more, ∃ ipj pj, ipj ∈ item.productions ∧ item_get_production g ipj = some pj ∧
          ipj.dot_offset ≠ pj.size ∧ symbol_at g pj ipj.dot_offset = symbol ∧
          x = ⟨ipj.nonterminal, ipj.production, ipj.dot_offset + 1⟩ := by
  intro n
  induction n with
  | zero =>
    intro j new_item out ni o h
    simp only [collect_extra, Res.ok.injEq, Prod.mk.injEq] at h
    obtain ⟨h1, _⟩ := h
    subst h1
    exact ⟨Nat.le_refl _, [], by simp, by simp⟩
  | succ n ih =>
    intro j new_item out ni o h
    unfold collect_extra at h
    cases hread : item.productions[j]? with
    | none => simp [hread] at h
    | some ipj =>
      simp only [hread] at h
      cases hget : item_get_production g ipj with
      | none => simp [hget] at h
      | some extra_p =>
        simp only [hget] at h
        split at h
        · exact ih _ _ _ _ _ h
        · rename_i hne
          split at h
          · rename_i hsym
            obtain ⟨h1, more, h2, h3⟩ := ih _ _ _ _ _ h
            simp only [] at h1 h2
            have hoff : (item_production_insert new_item ipj.nonterminal ipj.production
                (ipj.dot_offset + 1)).1.closure_offset = new_item.closure_offset := by
              unfold item_production_insert
              split <;> rfl
            refine ⟨by omega, ?_⟩
            unfold item_production_insert at h2
            split at h2
            · exact ⟨more, h2, h3⟩
            · simp only [List.append_assoc] at h2
              refine ⟨_, h2, ?_⟩
              intro x hx
              rcases List.mem_append.1 hx with hx | hx
              · simp only [List.mem_singleton] at hx
                exact ⟨ipj, extra_p, List.getElem?_mem hread, hget, hne, hsym, hx⟩
              · exact h3 x hx
          · exact ih _ _ _ _ _ h

end LR0

namespace LR0

open ActionType

/-- The scan of the closure leaves alone a state all of whose items have the
dot at or beyond the end. -/
theorem closure_scan_spent (g : Grammar) (fuel : Nat) (s : Item) (hs : Item.spent g s) :
    ∀ (n i : Nat) (visited : Set) (no : Int) (r : Item × Int),
      closure_scan fuel g n i visited no s = .ok r → r = (s, no) := by
  intro n
  induction n with
  | zero =>
    intro i visited no r h
    simp only [closure_scan, Res.ok.injEq] at h
    exact h.symm
  | succ n ih =>
    intro i visited no r h
    unfold closure_scan at h
    cases hread : s.productions[i]? with
    | none => simp [hread] at h
    | some ip =>
      simp only [hread] at h
      cases hget : item_get_production g ip with
      | none => simp [hget] at h
      | some p =>
        simp only [hget] at h
        have := hs ip (List.getElem?_mem hread) p hget
        simp only [this, if_true] at h
        exact ih _ _ _ _ h

theorem closure_grows {g : Grammar} {fuel : Nat} {item0 item : Item} {no : Int}
    (h : item_insert_closure fuel g item0 = .ok (item, no)) : Grows g item0 item := by
  unfold item_insert_closure at h
  by_cases hlen : item0.productions.length = 0
  · simp only [hlen, if_true, Res.ok.injEq, Prod.mk.injEq] at h
    rw [← h.1]
    exact Grows.refl_g g item0
  · simp only [hlen, if_false] at h
    exact closure_scan_grows g fuel _ _ _ _ _ _ h

theorem closure_spent {g : Grammar} {fuel : Nat} {item0 item : Item} {no : Int}
    (h : item_insert_closure fuel g item0 = .ok (item, no)) (hs : Item.spent g item0) :
    item = item0 ∧ (no = 1 ∨ no = -1) := by
  unfold item_insert_closure at h
  by_cases hlen : item0.productions.length = 0
  · simp only [hlen, if_true, Res.ok.injEq, Prod.mk.injEq] at h
    exact ⟨h.1.symm, Or.inr h.2.symm⟩
  · simp only [hlen, if_false] at h
    have := closure_scan_spent g fuel item0 hs _ _ _ _ _ h
    simp only [Prod.mk.injEq] at this
    exact ⟨this.1, Or.inl this.2⟩

theorem Grows.regular {g : Grammar} {s s2 : Item} (h : Grows g s s2) (hr : Item.regular g s) :
    Item.regular g s2 := by
  obtain ⟨added, h1, h2⟩ := h.grows
  intro x hx p _
  rw [h1] at hx
  rcases List.mem_append.1 hx with hx | hx
  · exact hr x hx p (by assumption)
  · rw [h2 x hx]
    exact Nat.zero_le _

/-- A state whose closure did not report "no outgoing item" has all its dots
within the productions. -/
theorem closure_shape {g : Grammar} {fuel : Nat} {item0 item : Item} {no : Int}
    (h : item_insert_closure fuel g item0 = .ok (item, no))
    (hshape : Item.regular g item0 ∨ Item.spent g item0) :
    (Item.regular g item ∨ Item.spent g item) ∧ (no ≠ 1 → ¬ no < 0 → Item.regular g item) := by
  rcases hshape with hr | hs
  · have := (closure_grows h).regular hr
    exact ⟨Or.inl this, fun _ _ => this⟩
  · obtain ⟨h1, h2⟩ := closure_spent h hs
    subst h1
    refine ⟨Or.inr hs, ?_⟩
    intro h3 h4
    rcases h2 with h2 | h2
    · exact absurd h2 h3
    · omega

/-- Replacing the last state by its closure keeps the invariant of the list
of states. -/
theorem states_inv_closure {g : Grammar} {items : List Item} {k : Nat} {item0 item : Item}
    (hinv : StatesInv g items) (hk : k + 1 = items.length) (hit : items[k]? = some item0)
    (hg : Grows g item0 item) (hshape : Item.regular g item ∨ Item.spent g item) :
    StatesInv g (items.set k item) := by
  have hklt : k < items.length := by omega
  have hget : ∀ j it, (items.set k item)[j]? = some it →
      (j = k ∧ it = item) ∨ (j ≠ k ∧ items[j]? = some it) := by
    intro j it h
    by_cases hj : j = k
    · subst hj
      rw [List.getElem?_set_self hklt] at h
      cases h
      exact Or.inl ⟨rfl, rfl⟩
    · rw [List.getElem?_set_ne (fun e => hj e.symm)] at h
      exact Or.inr ⟨hj, h⟩
  have hlt : ∀ j it, (items.set k item)[j]? = some it → j < items.length := by
    intro j it h
    have := (List.getElem?_eq_some.1 h).1
    simpa using this
  have hfirst0 : ∀ x, item.productions[0]? = some x → item0.productions[0]? = some x := by
    intro x hx
    obtain ⟨y, hy, _⟩ := hinv.first k item0 hit
    have := hg.getElem? hy
    rw [this] at hx
    cases hx
    exact hy
  constructor
  · intro j it h
    rcases hget j it h with ⟨_, rfl⟩ | ⟨_, h2⟩
    · obtain ⟨y, hy, hoff⟩ := hinv.first k item0 hit
      exact ⟨y, hg.getElem? hy, by rw [hg.offset]; exact hoff⟩
    · exact hinv.first j it h2
  · intro i j iti itj x hij hi hj hx
    have hjlt := hlt j itj hj
    rcases hget i iti hi with ⟨rfl, _⟩ | ⟨_, hi2⟩
    · omega
    · rcases hget j itj hj with ⟨_, rfl⟩ | ⟨_, hj2⟩
      · exact hinv.fresh i k iti item0 x (by omega) hi2 hit (hfirst0 x hx)
      · exact hinv.fresh i j iti itj x hij hi2 hj2 hx
  · intro j it x hj1 hj hx
    rcases hget j it hj with ⟨rfl, rfl⟩ | ⟨_, hj2⟩
    · exact hinv.known j item0 x hj1 hit (hfirst0 x hx)
    · exact hinv.known j it x hj1 hj2 hx
  · intro j it hj
    rcases hget j it hj with ⟨_, rfl⟩ | ⟨_, hj2⟩
    · exact hshape
    · exact hinv.shape j it hj2

/-- Adding a state whose first item is in no kernel keeps the invariant of the
list of states. -/
theorem states_inv_append {g : Grammar} {items : List Item} {ni : Item} {x : ItemProduction}
    (hinv : StatesInv g items) (hne : items ≠ [])
    (hfirst : ni.productions[0]? = some x) (hoff : 1 ≤ ni.closure_offset)
    (hfresh : ∀ it ∈ items, x ∉ it.productions.take it.closure_offset)
    (hknown : x ∈ advanced_items g) (hshape : Item.regular g ni ∨ Item.spent g ni) :
    StatesInv g (items ++ [ni]) := by
  have hget : ∀ j it, (items ++ [ni])[j]? = some it →
      (j = items.length ∧ it = ni) ∨ (j < items.length ∧ items[j]? = some it) := by
    intro j it h
    by_cases hj : j < items.length
    · rw [List.getElem?_append_left hj] at h
      exact Or.inr ⟨hj, h⟩
    · have hlt := (List.getElem?_eq_some.1 h).1
      simp only [List.length_append, List.length_singleton] at hlt
      have hje : j = items.length := by omega
      subst hje
      simp at h
      exact Or.inl ⟨rfl, h.symm⟩
  have hpos : 0 < items.length := List.length_pos.2 hne
  constructor
  · intro j it h
    rcases hget j it h with ⟨_, rfl⟩ | ⟨_, h2⟩
    · exact ⟨x, hfirst, hoff⟩
    · exact hinv.first j it h2
  · intro i j iti itj y hij hi hj hy
    rcases hget j itj hj with ⟨rfl, rfl⟩ | ⟨_, hj2⟩
    · rcases hget i iti hi with ⟨h1, _⟩ | ⟨_, hi2⟩
      · omega
      · rw [hfirst] at hy
        cases hy
        exact hfresh iti (List.getElem?_mem hi2)
    · rcases hget i iti hi with ⟨h1, _⟩ | ⟨_, hi2⟩
      · omega
      · exact hinv.fresh i j iti itj y hij hi2 hj2 hy
  · intro j it y hj1 hj hy
    rcases hget j it hj with ⟨_, rfl⟩ | ⟨_, hj2⟩
    · rw [hfirst] at hy
      cases hy
      exact hknown
    · exact hinv.known j it y hj1 hj2 hy
  · intro j it hj
    rcases hget j it hj with ⟨_, rfl⟩ | ⟨_, hj2⟩
    · exact hshape
    · exact hinv.shape j it hj2

end LR0

namespace LR0

open ActionType

theorem item_get_production_advance (g : Grammar) (ip : ItemProduction) (d : Nat) :
    item_get_production g ⟨ip.nonterminal, ip.production, d⟩ = item_get_production g ip := by
  rw [item_get_production_dot0]
  cases ip
  rw [item_get_production_dot0]

/-- The first item of a state is in its kernel. -/
theorem first_mem_kernel {it : Item} {x : ItemProduction} (h : it.productions[0]? = some x)
    (hoff : 1 ≤ it.closure_offset) : x ∈ it.productions.take it.closure_offset := by
  obtain ⟨n, hn⟩ : ∃ n, it.closure_offset = n + 1 := ⟨it.closure_offset - 1, by omega⟩
  rw [hn]
  cases hp : it.productions with
  | nil => rw [hp] at h; simp at h
  | cons a rest =>
    rw [hp] at h
    simp only [List.getElem?_cons_zero, Option.some.injEq] at h
    subst h
    simp

/-- The shape of a state as the main loop creates it from item `ip` of a state
whose dots are within the productions. -/
theorem new_state_shape {g : Grammar} {item : Item} {ip : ItemProduction} {p : Production}
    {n j : Nat} {out o : List Diag} {ni : Item}
    (hfill : fill_unused g) (hreg : Item.regular g item)
    (hmem : ip ∈ item.productions) (hget : item_get_production g ip = some p)
    (hcol : collect_extra g item (symbol_at g p ip.dot_offset) n j
      (item_production_insert ⟨[], 1, set_init⟩ ip.nonterminal ip.production
        (ip.dot_offset + 1)).1 out = .ok (ni, o)) :
    ni.productions[0]? = some ⟨ip.nonterminal, ip.production, ip.dot_offset + 1⟩ ∧
    1 ≤ ni.closure_offset ∧ (Item.regular g ni ∨ Item.spent g ni) := by
  obtain ⟨hoff, more, hprod, hmore⟩ := collect_extra_members g item _ _ _ _ _ _ _ hcol
  have hfresh : (item_production_insert ⟨[], 1, set_init⟩ ip.nonterminal ip.production
      (ip.dot_offset + 1)).1 =
      ⟨[⟨ip.nonterminal, ip.production, ip.dot_offset + 1⟩], 1, set_init⟩ := by
    simp [item_production_insert]
  rw [hfresh] at hoff hprod
  simp only [] at hoff hprod
  refine ⟨by rw [hprod]; simp, hoff, ?_⟩
  have hle := hreg ip hmem p hget
  by_cases hlt : ip.dot_offset < p.size
  · left
    intro x hx q hq
    rw [hprod] at hx
    rcases List.mem_append.1 hx with hx | hx
    · simp only [List.mem_singleton] at hx
      subst hx
      rw [item_get_production_advance, hget] at hq
      cases hq
      exact hlt
    · obtain ⟨ipj, pj, h1, h2, h3, _, h5⟩ := hmore x hx
      subst h5
      have := hreg ipj h1 pj h2
      rw [item_get_production_advance, h2] at hq
      cases hq
      simp only []
      omega
  · right
    have hsym : symbol_at g p ip.dot_offset = g.fill := by
      unfold symbol_at
      rw [List.getD_eq_default]
      unfold Production.size at hlt
      omega
    have hnone : ∀ x ∈ more, False := by
      intro x hx
      obtain ⟨ipj, pj, h1, h2, h3, h4, _⟩ := hmore x hx
      have hlt2 : ipj.dot_offset < pj.size := by
        have := hreg ipj h1 pj h2
        omega
      obtain ⟨ps, hps, hpj⟩ := item_get_production_stored h2
      apply hfill ps hps pj hpj
      rw [← hsym, ← h4]
      exact List.getElem?_mem (getElem?_symbol_at hlt2)
    intro x hx q hq
    rw [hprod] at hx
    rcases List.mem_append.1 hx with hx | hx
    · simp only [List.mem_singleton] at hx
      subst hx
      rw [item_get_production_advance, hget] at hq
      cases hq
      simp only []
      omega
    · exact absurd hx (fun h => hnone x h)

/-- The invariant of the list of states holds after every successful call of
the construction. -/
theorem internal_states (g : Grammar) (hfill : fill_unused g) :
    ∀ (fuel : Nat) (b : Build) (k : Nat) (r : Build × Int),
      grammar_create_lr_table_internal fuel g b k = .ok r → 0 ≤ r.2 →
      k + 1 = b.set.items.length → StatesInv g b.set.items → StatesInv g r.1.set.items := by
  apply internal_induct g (fun b => StatesInv g b.set.items)
    (fun _ b2 => StatesInv g b2.set.items)
    (fun _ k item _ _ b => StatesInv g b.set.items ∧ b.set.items[k]? = some item ∧
      Item.regular g item)
  · intro fuel b k item0 item ip hpre hk hit hcl _
    rw [(write_complete_spec g k ip _).1.set]
    exact states_inv_closure hpre hk hit (closure_grows hcl)
      (closure_shape hcl (hpre.shape k item0 hit)).1
  · intro fuel b k item0 item no hpre hk hit hcl hno1 hneg
    have hsh := closure_shape hcl (hpre.shape k item0 hit)
    refine ⟨states_inv_closure hpre hk hit (closure_grows hcl) hsh.1, ?_, hsh.2 hno1 hneg⟩
    simp only []
    rw [List.getElem?_set_self (by omega)]
  · intro b0 k item i v b h
    exact h.2.1
  · intro b0 k item i v b ip p hinv hread hget b1 hb1
    obtain ⟨hst, hitem, hreg⟩ := hinv
    have hset1 : b1.set = b.set := by
      rw [hb1]
      split
      · exact (write_complete_spec g k ip b).1.set
      · rfl
    have hklt : k < b1.set.items.length := by
      rw [hset1]
      exact (List.getElem?_eq_some.1 hitem).1
    refine ⟨fun _ => ⟨by rw [hset1]; exact hst, by rw [hset1]; exact hitem, hreg⟩, ?_, ?_⟩
    · intro _ next _
      rw [(write_edge_spec g k _ next b1).1.set, hset1]
      exact ⟨hst, hitem, hreg⟩
    · intro _ hfind ni out hcol
      obtain ⟨h1, h2, h3⟩ := new_state_shape hfill hreg (List.getElem?_mem hread) hget hcol
      have hne : b1.set.items ≠ [] := by
        intro e
        rw [e] at hklt
        simp at hklt
      constructor
      · simp only []
        rw [hset1] at hne hfind ⊢
        exact states_inv_append hst hne h1 h2 (item_find_from_none hfind)
          (advanced_mem hget (hreg ip (List.getElem?_mem hread) p hget)) h3
      · intro b2 hfr hpost
        rw [(write_edge_spec g k _ _ b2).1.set]
        refine ⟨hpost, ?_, hreg⟩
        rw [hfr.items k hklt]
        simp only []
        rw [List.getElem?_append_left hklt, hset1]
        exact hitem
  · intro b0 k item v b _ h
    exact h.1

/-- A list of states that satisfies the invariant has at most one state more
than there are (production, dot offset) pairs. -/
theorem states_inv_length {g : Grammar} {items : List Item} (hinv : StatesInv g items) :
    items.length ≤ 1 + item_pairs g := by
  classical
  let f : Nat → ItemProduction := fun n =>
    ((items[n + 1]?).bind (fun it => it.productions[0]?)).getD ⟨'Z', 0, 0⟩
  have hf : ∀ n, n + 1 < items.length →
      ∃ it, items[n + 1]? = some it ∧ it.productions[0]? = some (f n) ∧
        1 ≤ it.closure_offset := by
    intro n hn
    obtain ⟨x, hx, hoff⟩ := hinv.first (n + 1) items[n + 1] (List.getElem?_eq_getElem hn)
    refine ⟨items[n + 1], List.getElem?_eq_getElem hn, ?_, hoff⟩
    simp [f, List.getElem?_eq_getElem hn, hx]
  have hmap : ∀ n ∈ Finset.range (items.length - 1), f n ∈ (advanced_items g).toFinset := by
    intro n hn
    simp only [Finset.mem_range] at hn
    obtain ⟨it, h1, h2, _⟩ := hf n (by omega)
    simp only [List.mem_toFinset]
    exact hinv.known (n + 1) it (f n) (by omega) h1 h2
  have hlt : ∀ n m, n < m → m + 1 < items.length → f n ≠ f m := by
    intro n m hnm hm e
    obtain ⟨itn, h1, h2, h3⟩ := hf n (by omega)
    obtain ⟨itm, h4, h5, _⟩ := hf m hm
    apply hinv.fresh (n + 1) (m + 1) itn itm (f m) (by omega) h1 h4 h5
    rw [← e]
    exact first_mem_kernel h2 h3
  have hcard := Finset.card_le_card_of_injOn f hmap (by
    intro n hn m hm e
    simp only [Finset.coe_range, Set.mem_Iio] at hn hm
    by_contra hne
    rcases Nat.lt_or_gt_of_ne hne with h | h
    · exact hlt n m h (by omega) e
    · exact hlt m n h (by omega) e.symm)
  have hle := List.toFinset_card_le (advanced_items g)
  rw [advanced_items_length] at hle
  simp only [Finset.card_range] at hcard
  omega

/-- When `grammar_create_lr_table` succeeds from an empty item set, on a
grammar whose never-written symbol slots hold a character that occurs in no
production (as on zero-filled storage), the number of states it has created
is at most 1 plus the number of (production, dot offset) pairs of the grammar,
the sum over all productions of the length plus one. -/
theorem state_bound (g : Grammar) (fuel : Nat) (c0 : Char) (b : Build) (code : Int)
    (hfill : fill_unused g)
    (hrun : grammar_create_lr_table fuel g (item_set_init c0) = .ok (b, code))
    (hcode : 0 ≤ code) :
    b.set.items.length ≤ 1 + item_pairs g := by
  unfold grammar_create_lr_table at hrun
  simp only [item_set_init, List.nil_append, List.length_nil] at hrun
  apply states_inv_length
  apply internal_states g hfill fuel _ 0 _ hrun hcode (by simp)
  have hfresh : (item_production_insert ⟨[], 1, set_init⟩ 'Z' 0 0).1 =
      ⟨[⟨'Z', 0, 0⟩], 1, set_init⟩ := by
    simp [item_production_insert]
  rw [hfresh]
  constructor
  · intro j it h
    cases j with
    | zero =>
      simp at h
      subst h
      exact ⟨⟨'Z', 0, 0⟩, rfl, Nat.le_refl _⟩
    | succ j => simp at h
  · intro i j iti itj x hij _ hj
    cases j with
    | zero => omega
    | succ j => simp at hj
  · intro j it x hj1 hj
    cases j with
    | zero => omega
    | succ j => simp at hj
  · intro j it h
    left
    cases j with
    | zero =>
      simp at h
      subst h
      intro x hx p _
      simp at hx
      subst hx
      exact Nat.zero_le _
    | succ j => simp at h

end LR0

namespace LR0

open ActionType

/-! ## Zero-filled storage -/

/-- The symbol loop of `grammar_insert_internal` stores no NUL. -/
theorem grammar_insert_scan_no_nul :
    ∀ (rule : List Char) (ts : Set) (syms : List Char), Char.ofNat 0 ∉ syms →
      Char.ofNat 0 ∉ (grammar_insert_scan rule ts syms).2 := by
  intro rule
  induction rule with
  | nil => intro ts syms h; simpa [grammar_insert_scan] using h
  | cons c cs ih =>
    intro ts syms h
    unfold grammar_insert_scan
    by_cases h0 : c = Char.ofNat 0
    · simpa [h0] using h
    · simp only [h0, if_false]
      split
      · exact ih ts syms h
      · apply ih
        intro hm
        rcases List.mem_append.1 hm with hm | hm
        · exact h hm
        · simp only [List.mem_singleton] at hm
          exact h0 hm.symm

theorem fill_unused_internal {g : Grammar} (h0 : g.fill = Char.ofNat 0) (h : fill_unused g)
    (prodset : Nat) (rule : List Char) :
    fill_unused (grammar_insert_internal g prodset rule) ∧
    (grammar_insert_internal g prodset rule).fill = Char.ofNat 0 := by
  unfold grammar_insert_internal
  cases hps : g.set[prodset]? with
  | none => exact ⟨h, h0⟩
  | some ps =>
    simp only []
    have hmem : ps ∈ g.set := List.getElem?_mem hps
    have key : ∀ (q : Production) (nullable : Bool), g.fill ∉ q.symbols →
        ∀ ps2 ∈ g.set.set prodset ⟨ps.productions ++ [q], ps.symbol, nullable⟩,
        ∀ p ∈ ps2.productions, g.fill ∉ p.symbols := by
      intro q nullable hq ps2 hps2 p hp
      rcases List.mem_or_eq_of_mem_set hps2 with h1 | h1
      · exact h ps2 h1 p hp
      · subst h1
        simp only [List.mem_append, List.mem_singleton] at hp
        rcases hp with hp | hp
        · exact h ps hmem p hp
        · subst hp
          exact hq
    split
    · exact ⟨key ⟨[]⟩ true (by simp), h0⟩
    · refine ⟨key _ ps.nullable ?_, h0⟩
      rw [h0]
      exact grammar_insert_scan_no_nul rule g.terminal_set [] (by simp)

/-- On zero-filled storage `grammar_insert_rule` keeps the never-written slots
different from every stored symbol. -/
theorem fill_unused_insert {g : Grammar} (h0 : g.fill = Char.ofNat 0) (h : fill_unused g)
    (nonterminal : Char) (rule : List Char) :
    fill_unused (grammar_insert_rule g nonterminal rule) ∧
    (grammar_insert_rule g nonterminal rule).fill = Char.ofNat 0 := by
  unfold grammar_insert_rule
  simp only []
  split
  · apply fill_unused_internal
    · exact h0
    · exact h
  · apply fill_unused_internal
    · exact h0
    · intro ps hps p hp
      simp only [List.mem_append, List.mem_singleton] at hps
      rcases hps with hps | hps
      · exact h ps hps p hp
      · subst hps
        simp at hp

/-- A grammar made on zero-filled storage by insertions, the choice of a start
symbol, `grammar_finish` and `grammar_lr0_augment` has its never-written slots
different from every stored symbol. -/
theorem fill_unused_built (rules : List (Char × List Char)) (start : Char) :
    fill_unused (grammar_lr0_augment (grammar_finish (grammar_set_starting_symbol
      (rules.foldl (fun g r => grammar_insert_rule g r.1 r.2) (grammar_init (Char.ofNat 0)))
      start)).1) := by
  have hfold : ∀ (rs : List (Char × List Char)) (g : Grammar), g.fill = Char.ofNat 0 →
      fill_unused g →
      fill_unused (rs.foldl (fun g r => grammar_insert_rule g r.1 r.2) g) ∧
      (rs.foldl (fun g r => grammar_insert_rule g r.1 r.2) g).fill = Char.ofNat 0 := by
    intro rs
    induction rs with
    | nil => intro g h0 h; exact ⟨h, h0⟩
    | cons r rest ih =>
      intro g h0 h
      obtain ⟨h1, h2⟩ := fill_unused_insert h0 h r.1 r.2
      exact ih _ h2 h1
  obtain ⟨h1, h2⟩ := hfold rules (grammar_init (Char.ofNat 0)) rfl (by
    intro ps hps
    simp [grammar_init] at hps)
  generalize rules.foldl (fun g r => grammar_insert_rule g r.1 r.2)
    (grammar_init (Char.ofNat 0)) = g1 at h1 h2
  have h3 : fill_unused (grammar_set_starting_symbol g1 start) ∧
      (grammar_set_starting_symbol g1 start).fill = Char.ofNat 0 := by
    unfold grammar_set_starting_symbol
    split
    · exact ⟨h1, h2⟩
    · split
      · exact ⟨h1, h2⟩
      · exact ⟨h1, h2⟩
  generalize grammar_set_starting_symbol g1 start = g2 at h3
  have h4 : fill_unused (grammar_finish g2).1 ∧ (grammar_finish g2).1.fill = Char.ofNat 0 := by
    unfold grammar_finish
    split
    · exact h3
    · exact h3
  exact (fill_unused_insert h4.2 h4.1 'Z' _).1

end LR0

namespace LR0

open ActionType

/-! ## The cells of the table -/

/-- The scan of the closure can read every item it passes in a state all of
whose items have the dot at or beyond the end. -/
theorem closure_scan_read (g : Grammar) (fuel : Nat) (s : Item) (hs : Item.spent g s) :
    ∀ (n i : Nat) (visited : Set) (no : Int) (r : Item × Int),
      closure_scan fuel g n i visited no s = .ok r →
      ∀ idx, i ≤ idx → idx < i + n →
        ∃ ip p, s.productions[idx]? = some ip ∧ item_get_production g ip = some p := by
  intro n
  induction n with
  | zero =>
    intro i visited no r _ idx h1 h2
    omega
  | succ n ih =>
    intro i visited no r h idx h1 h2
    unfold closure_scan at h
    cases hread : s.productions[i]? with
    | none => simp [hread] at h
    | some ip =>
      simp only [hread] at h
      cases hget : item_get_production g ip with
      | none => simp [hget] at h
      | some p =>
        simp only [hget] at h
        have := hs ip (List.getElem?_mem hread) p hget
        simp only [this, if_true] at h
        by_cases hidx : idx = i
        · subst hidx
          exact ⟨ip, p, hread, hget⟩
        · exact ih _ _ _ _ h idx (by omega) (by omega)

/-- A closure that reports "no outgoing item", on a state whose whole list is
its kernel, has changed nothing; every item of the state has its dot at or
beyond the end, and the first item names a stored production. -/
theorem closure_quiet {g : Grammar} {fuel : Nat} {item0 item : Item}
    (h : item_insert_closure fuel g item0 = .ok (item, 1))
    (hkernel : item0.productions.length ≤ item0.closure_offset) :
    item = item0 ∧ Item.spent g item0 ∧
    ∀ ip, item0.productions[0]? = some ip → ∃ p, item_get_production g ip = some p := by
  unfold item_insert_closure at h
  by_cases hlen : item0.productions.length = 0
  · simp [hlen] at h
  · simp only [hlen, if_false] at h
    have hspec := closure_scan_spec g fuel item0.closure_offset 0 set_init 1 item0
      (by intro C hC; simp [set_init] at hC) (by intro h; simp [set_init] at h) (Or.inr rfl)
    rw [h] at hspec
    obtain ⟨he, hq⟩ := hspec.quiet rfl
    simp only [] at he
    have hsp : Item.spent g item0 := by
      intro x hx p hp
      obtain ⟨idx, hidx⟩ := List.mem_iff_getElem?.1 hx
      have hlt := (List.getElem?_eq_some.1 hidx).1
      exact hq idx (Nat.zero_le _) (by omega) x p hidx hp
    refine ⟨he, hsp, ?_⟩
    intro ip hip
    obtain ⟨ip2, p, h1, h2⟩ := closure_scan_read g fuel item0 hsp _ _ _ _ _ h 0
      (Nat.le_refl _) (by omega)
    rw [hip] at h1
    cases h1
    exact ⟨p, h2⟩

theorem kernel_of_same_set {b b2 : Build} (h : b2.set = b.set) (t : Nat) :
    b2.kernel_of t = b.kernel_of t := by
  unfold Build.kernel_of
  rw [h]

theorem nat_ne_goto_error (n : Nat) : (n : Int) ≠ GOTO_ERROR := by
  unfold GOTO_ERROR
  omega

theorem kernel_of_eq {b : Build} {t : Nat} {it : Item} (h : b.set.items[t]? = some it) :
    b.kernel_of t = it.productions.take it.closure_offset := by
  simp [Build.kernel_of, h]

theorem Grows.kernel {g : Grammar} {s s2 : Item} (h : Grows g s s2) :
    ∀ x ∈ s.productions.take s.closure_offset, x ∈ s2.productions.take s2.closure_offset := by
  intro x hx
  obtain ⟨added, h1, _⟩ := h.grows
  rw [h1, h.offset, List.take_append_eq_append_take]
  exact List.mem_append_left _ hx

theorem dot_at_iff {g : Grammar} {x : ItemProduction} {X : Char} :
    dot_at g x X = true ↔
      ∃ p, item_get_production g x = some p ∧ p.symbols[x.dot_offset]? = some X := by
  unfold dot_at
  cases h : item_get_production g x with
  | none => simp
  | some p => simp

/-- A symbol read at the dot that differs from the content of the never-written
slots is a symbol of the production. -/
theorem symbol_at_real {g : Grammar} {p : Production} {d : Nat} {X : Char}
    (h : symbol_at g p d = X) (hfill : g.fill ≠ X) : p.symbols[d]? = some X := by
  by_cases hd : d < p.size
  · rw [← h]
    exact getElem?_symbol_at hd
  · exfalso
    apply hfill
    rw [← h]
    unfold symbol_at
    rw [List.getD_eq_default]
    unfold Production.size at hd
    omega

end LR0

namespace LR0

open ActionType

/-! ## Every cell holds what a write of the construction leaves -/

theorem CellsWf.of_table {g : Grammar} {b b2 : Build} (h : CellsWf g b)
    (hlen : b.set.items.length ≤ b2.set.items.length) (ht : b2.table = b.table)
    (hitems : ∀ (s : Nat) (it : Item), b.set.items[s]? = some it →
      ∃ it2, b2.set.items[s]? = some it2 ∧ ∀ x ∈ it.productions, x ∈ it2.productions) :
    CellsWf g b2 := by
  refine ⟨?_, ?_, ?_, ?_, ?_⟩
  · intro r c hty
    rw [ht] at hty ⊢
    obtain ⟨t, h1, h2⟩ := h.shift r c hty
    exact ⟨t, h1, by omega⟩
  · intro r c hty
    rw [ht] at hty ⊢
    exact h.reduce r c hty
  · intro r c hty
    rw [ht] at hty
    obtain ⟨h1, h2⟩ := h.accept r c hty
    refine ⟨h1, fun hc => ?_⟩
    obtain ⟨s, it, hr, hit, x, hx, hrest⟩ := h2 hc
    obtain ⟨it2, hit2, hsub⟩ := hitems s it hit
    exact ⟨s, it2, hr, hit2, x, hsub x hx, hrest⟩
  · intro r c hne
    rw [ht] at hne ⊢
    obtain ⟨t, h1, h2⟩ := h.goto r c hne
    exact ⟨t, h1, by omega⟩
  · intro r c hr
    rw [ht]
    exact h.clear r c (by omega)

theorem CellsWf.of_out {g : Grammar} {b b2 : Build} (h : CellsWf g b)
    (hs : b2.set = b.set) (ht : b2.table = b.table) : CellsWf g b2 :=
  h.of_table (by rw [hs]) ht (fun s it hit => ⟨it, by rw [hs]; exact hit, fun _ hx => hx⟩)

/-- The states after one of them has been replaced by a state with more
items. -/
theorem items_set_grow {items : List Item} {k : Nat} {item0 item : Item}
    (hk : items[k]? = some item0) (hsub : ∀ x ∈ item0.productions, x ∈ item.productions)
    (s : Nat) (it : Item) (hit : items[s]? = some it) :
    ∃ it2, (items.set k item)[s]? = some it2 ∧ ∀ x ∈ it.productions, x ∈ it2.productions := by
  by_cases hsk : s = k
  · subst hsk
    rw [hk] at hit
    cases hit
    exact ⟨item, by rw [List.getElem?_set_self (List.getElem?_eq_some.1 hk).1], hsub⟩
  · exact ⟨it, by rw [List.getElem?_set_ne (fun e => hsk e.symm)]; exact hit, fun _ hx => hx⟩

/-- An assignment to an ACTION cell of row `k` of what the construction
writes keeps the cells as `CellsWf` says. -/
theorem CellsWf.assign {g : Grammar} {b : Build} (h : CellsWf g b) (k : Nat) (c : Int)
    (a : ActionRecord) (hk : k < b.set.items.length)
    (hs : a.type = ACTION_SHIFT →
      ∃ t : Nat, a.target_state = (t : Int) ∧ t < b.set.items.length)
    (hr : a.type = ACTION_REDUCE →
      item_get_production g ⟨a.nonterminal, a.production, 0⟩ ≠ none ∧
      a.target_state = grammar_get_order_from_item g ⟨a.nonterminal, a.production, 0⟩)
    (ha : a.type = ACTION_ACCEPT → c = set_order g.terminal_set '$' ∧
      (0 ≤ set_order g.terminal_set '$' → ∃ it, b.set.items[k]? = some it ∧
        ∃ x ∈ it.productions, x.nonterminal = 'Z' ∧
          ∃ p, item_get_production g x = some p ∧ p.size ≤ x.dot_offset)) :
    CellsWf g (b.assign k c a) := by
  have hcell : ∀ r c2, (b.assign k c a).table.action_cells r c2 =
      if r = cell_row k c ∧ c2 = cell_col c then a else b.table.action_cells r c2 :=
    fun _ _ => rfl
  refine ⟨?_, ?_, ?_, ?_, ?_⟩
  · intro r c2 hty
    rw [hcell] at hty ⊢
    split at hty
    · rw [if_pos (by assumption)]
      exact hs hty
    · rw [if_neg (by assumption)]
      exact h.shift r c2 hty
  · intro r c2 hty
    rw [hcell] at hty ⊢
    split at hty
    · rw [if_pos (by assumption)]
      exact hr hty
    · rw [if_neg (by assumption)]
      exact h.reduce r c2 hty
  · intro r c2 hty
    rw [hcell] at hty
    split at hty
    · rename_i hc
      obtain ⟨ha1, ha2⟩ := ha hty
      refine ⟨by rw [hc.2, ha1], fun h0 => ?_⟩
      obtain ⟨it, hit, hx⟩ := ha2 h0
      refine ⟨k, it, ?_, hit, hx⟩
      rw [hc.1]
      unfold cell_row
      rw [if_neg (by omega)]
    · exact h.accept r c2 hty
  · intro r c2 hne
    exact h.goto r c2 hne
  · intro r c2 hrow
    have hold := h.clear r c2 hrow
    refine ⟨?_, hold.2⟩
    rw [hcell, if_neg]
    · exact hold.1
    · rintro ⟨h1, _⟩
      have := cell_row_le k c
      have hrow2 : ((b.assign k c a).set.items.length : Int) = b.set.items.length := rfl
      omega

/-- An assignment to a GOTO cell of row `k` of the number of a state keeps the
cells as `CellsWf` says. -/
theorem CellsWf.set_goto_wf {g : Grammar} {b : Build} (h : CellsWf g b) (k : Nat) (c : Int)
    (next : Nat) (out : List Diag) (hk : k < b.set.items.length)
    (hnext : next < b.set.items.length) :
    CellsWf g ⟨b.set, set_goto b.table k c next, out, b.writes⟩ := by
  have hcell : ∀ r c2, (set_goto b.table k c next).goto_cells r c2 =
      if r = cell_row k c ∧ c2 = cell_col c then (next : Int) else b.table.goto_cells r c2 :=
    fun _ _ => rfl
  refine ⟨h.shift, h.reduce, h.accept, ?_, ?_⟩
  · intro r c2 hne
    simp only [hcell] at hne ⊢
    split at hne
    · rw [if_pos (by assumption)]
      exact ⟨next, rfl, hnext⟩
    · rw [if_neg (by assumption)]
      exact h.goto r c2 hne
  · intro r c2 hrow
    have hold := h.clear r c2 hrow
    refine ⟨hold.1, ?_⟩
    simp only [hcell]
    rw [if_neg]
    · exact hold.2
    · rintro ⟨h1, _⟩
      have := cell_row_le k c
      simp only [] at hrow
      omega

theorem CellsWf.write_accept_wf {g : Grammar} {b : Build} (h : CellsWf g b) (k : Nat)
    (hk : k < b.set.items.length)
    (hz : ∃ it, b.set.items[k]? = some it ∧ ∃ x ∈ it.productions, x.nonterminal = 'Z' ∧
      ∃ p, item_get_production g x = some p ∧ p.size ≤ x.dot_offset) :
    CellsWf g (write_accept g k b) := by
  unfold write_accept
  exact h.assign k _ _ hk (fun e => by simp at e) (fun e => by simp at e)
    (fun _ => ⟨rfl, fun _ => hz⟩)

theorem CellsWf.write_reduce_wf {g : Grammar} (k : Nat) (ip : ItemProduction)
    (hip : item_get_production g ip ≠ none) :
    ∀ (cols : List Char) (i : Nat) (b : Build), CellsWf g b → k < b.set.items.length →
      CellsWf g (write_reduce g k ip cols i b) := by
  intro cols
  induction cols with
  | nil =>
    intro i b h _
    exact h
  | cons a rest ih =>
    intro i b h hk
    unfold write_reduce
    simp only []
    apply ih
    · have h1 : CellsWf g ⟨b.set, b.table,
          if (b.table.action_table k i).type ≠ ACTION_ERROR then
            b.out ++ [Diag.reduce_overlap k a (b.table.action_table k i).type
              (grammar_get_order_from_item g ip)]
          else b.out, b.writes⟩ := h.of_out rfl rfl
      refine h1.assign k _ _ hk (fun e => by simp at e) (fun _ => ?_) (fun e => by simp at e)
      simp only []
      refine ⟨by rw [item_get_production_advance]; exact hip, ?_⟩
      rfl
    · exact hk

theorem CellsWf.write_complete_wf {g : Grammar} {b : Build} (h : CellsWf g b) (k : Nat)
    (ip : ItemProduction) {item : Item} {p : Production} (hitem : b.set.items[k]? = some item)
    (hmem : ip ∈ item.productions) (hp : item_get_production g ip = some p)
    (hend : p.size ≤ ip.dot_offset) : CellsWf g (write_complete g k ip b) := by
  have hk : k < b.set.items.length := (List.getElem?_eq_some.1 hitem).1
  unfold write_complete
  split
  · rename_i hZ
    exact h.write_accept_wf k hk ⟨item, hitem, ip, hmem, hZ, p, hp, hend⟩
  · exact CellsWf.write_reduce_wf k ip (by rw [hp]; simp) _ _ _ h hk

theorem CellsWf.write_edge_wf {g : Grammar} {b : Build} (h : CellsWf g b) (k : Nat)
    (symbol : Char) (next : Nat) (hk : k < b.set.items.length)
    (hnext : next < b.set.items.length) : CellsWf g (write_edge g k symbol next b) := by
  unfold write_edge
  split
  · exact h.set_goto_wf k _ next _ hk hnext
  · have h1 : CellsWf g ⟨b.set, b.table,
        if (b.table.action_table k (set_order g.terminal_set symbol)).type ≠ ACTION_ERROR then
          b.out ++ [Diag.shift_overlap k symbol next]
        else b.out, b.writes⟩ := h.of_out rfl rfl
    exact h1.assign k _ _ hk (fun _ => ⟨next, rfl, hnext⟩) (fun e => by simp at e)
      (fun e => by simp at e)

/-- Every cell is as `CellsWf` says after a successful call of the
construction on a state that holds kernel items only. -/
theorem internal_cells (g : Grammar) :
    ∀ (fuel : Nat) (b : Build) (k : Nat) (r : Build × Int),
      grammar_create_lr_table_internal fuel g b k = .ok r → 0 ≤ r.2 →
      k + 1 = b.set.items.length →
      CellsWf g b ∧ (∀ it, b.set.items[b.set.items.length - 1]? = some it →
        it.productions.length ≤ it.closure_offset) →
      CellsWf g r.1 := by
  apply internal_induct g
    (fun b => CellsWf g b ∧ (∀ it, b.set.items[b.set.items.length - 1]? = some it →
        it.productions.length ≤ it.closure_offset))
    (fun _ b2 => CellsWf g b2)
    (fun _ k item _ _ b => CellsWf g b ∧ b.set.items[k]? = some item)
  · intro fuel b k item0 item ip hpre hk hit hcl hp0
    obtain ⟨hwf, hker⟩ := hpre
    have hk1 : b.set.items.length - 1 = k := by omega
    rw [hk1] at hker
    obtain ⟨he, hsp, hst⟩ := closure_quiet hcl (hker item0 hit)
    subst he
    have hwf0 : CellsWf g
        ⟨⟨b.set.items.set k item, b.set.initial_symbol⟩, b.table, b.out, b.writes⟩ :=
      hwf.of_table (by simp) rfl (items_set_grow hit (fun _ hx => hx))
    obtain ⟨p, hp⟩ := hst ip hp0
    exact hwf0.write_complete_wf k ip
      (by simp only []; rw [List.getElem?_set_self (by omega)])
      (List.getElem?_mem hp0) hp (hsp ip (List.getElem?_mem hp0) p hp)
  · intro fuel b k item0 item no hpre hk hit hcl _ _
    obtain ⟨hwf, _⟩ := hpre
    obtain ⟨added, hadd, _⟩ := (closure_grows hcl).grows
    refine ⟨hwf.of_table (by simp) rfl
      (items_set_grow hit (fun x hx => by rw [hadd]; exact List.mem_append_left _ hx)), ?_⟩
    simp only []
    rw [List.getElem?_set_self (by omega)]
  · intro b0 k item i v b h
    exact h.2
  · intro b0 k item i v b ip p hinv hread hget b1 hb1
    obtain ⟨hwf, hitem⟩ := hinv
    have hklt0 : k < b.set.items.length := (List.getElem?_eq_some.1 hitem).1
    have hset1 : b1.set = b.set := by
      rw [hb1]
      split
      · exact (write_complete_spec g k ip b).1.set
      · rfl
    have hklt : k < b1.set.items.length := by
      rw [hset1]
      exact hklt0
    have hwf1 : CellsWf g b1 := by
      rw [hb1]
      split
      · rename_i hend
        exact hwf.write_complete_wf k ip hitem (List.getElem?_mem hread) hget hend
      · exact hwf
    have hitem1 : b1.set.items[k]? = some item := by rw [hset1]; exact hitem
    refine ⟨fun _ => ⟨hwf1, hitem1⟩, ?_, ?_⟩
    · intro _ next hfind
      obtain ⟨it, hnext, _⟩ := item_find_from_some hfind
      have hnlt : next < b1.set.items.length := (List.getElem?_eq_some.1 hnext).1
      refine ⟨hwf1.write_edge_wf k _ next hklt hnlt, ?_⟩
      rw [(write_edge_spec g k _ next b1).1.set]
      exact hitem1
    · intro _ hfind ni out hcol
      obtain ⟨_, hkb, _⟩ := (collect_extra_spec g item _ _ _ _ _ _ hcol).2 ni out rfl
      have hni : (b1.set.items ++ [ni])[b1.set.items.length]? = some ni := by simp
      constructor
      · refine ⟨hwf1.of_table (by simp) rfl (fun s it hit =>
          ⟨it, by
            simp only []
            rw [List.getElem?_append_left (List.getElem?_eq_some.1 hit).1]
            exact hit, fun _ hx => hx⟩), ?_⟩
        intro it hit
        simp only [List.length_append, List.length_singleton, Nat.add_sub_cancel] at hit
        rw [hni] at hit
        cases hit
        exact hkb (by simp [item_production_insert])
      · intro b2 hfr hwf2
        have hlen := hfr.length
        simp only [List.length_append, List.length_singleton] at hlen
        refine ⟨hwf2.write_edge_wf k _ _ (by omega) (by omega), ?_⟩
        rw [(write_edge_spec g k _ _ b2).1.set, hfr.items k hklt]
        simp only []
        rw [List.getElem?_append_left hklt]
        exact hitem1
  · intro b0 k item v b _ h
    exact h.1

/-- After a successful construction from an empty item set every cell is as
`CellsWf` says. -/
theorem table_cells (g : Grammar) (fuel : Nat) (c0 : Char) (b : Build) (code : Int)
    (hrun : grammar_create_lr_table fuel g (item_set_init c0) = .ok (b, code))
    (hcode : 0 ≤ code) : CellsWf g b := by
  unfold grammar_create_lr_table at hrun
  simp only [item_set_init, List.nil_append, List.length_nil] at hrun
  refine internal_cells g fuel _ 0 _ hrun hcode (by simp) ⟨?_, ?_⟩
  · refine ⟨?_, ?_, ?_, ?_, ?_⟩
    · intro r c h
      simp [lr0_parsing_table_init] at h
    · intro r c h
      simp [lr0_parsing_table_init] at h
    · intro r c h
      simp [lr0_parsing_table_init] at h
    · intro r c h
      exact absurd rfl h
    · intro r c _
      exact ⟨rfl, rfl⟩
  · intro it hit
    simp at hit
    subst hit
    simp [item_production_insert]

end LR0

namespace LR0

open ActionType

/-! ## What a column of the ACTION table finally holds -/

/-- The reduce loop leaves, in every column it runs over, the reduce action of
the production. -/
theorem write_reduce_cell (g : Grammar) (k : Nat) (ip : ItemProduction) :
    ∀ (cols : List Char) (i : Nat) (b : Build) (c : Nat), i ≤ c → c < i + cols.length →
      (write_reduce g k ip cols i b).table.action_table k c =
        ⟨ACTION_REDUCE, grammar_get_order_from_item g ip, ip.nonterminal, ip.production⟩ := by
  intro cols
  induction cols with
  | nil =>
    intro i b c h1 h2
    simp at h2
    omega
  | cons a rest ih =>
    intro i b c h1 h2
    unfold write_reduce
    simp only []
    by_cases hc : c = i
    · subst hc
      rw [(write_reduce_spec g k ip rest (c + 1) _).2.2 (c : Int) (Or.inl (by omega))]
      exact assign_cell k _ _ _
    · apply ih
      · omega
      · simp only [List.length_cons] at h2
        omega

/-- The cell of the terminal `a` in row `k` after the entries for a production
whose dot is at or beyond the end have been written. -/
theorem write_complete_column (g : Grammar) (k : Nat) (ip : ItemProduction) (b : Build)
    (a : Char) (hcol : 0 ≤ set_order g.terminal_set a) :
    (ip.nonterminal = 'Z' → a = '$' →
      ((write_complete g k ip b).table.action_table k (set_order g.terminal_set a)).type =
        ACTION_ACCEPT) ∧
    (ip.nonterminal = 'Z' → a ≠ '$' →
      (write_complete g k ip b).table.action_table k (set_order g.terminal_set a) =
        b.table.action_table k (set_order g.terminal_set a)) ∧
    (ip.nonterminal ≠ 'Z' →
      (write_complete g k ip b).table.action_table k (set_order g.terminal_set a) =
        ⟨ACTION_REDUCE, grammar_get_order_from_item g ip, ip.nonterminal, ip.production⟩) := by
  unfold write_complete
  refine ⟨?_, ?_, ?_⟩
  · intro hZ ha
    subst ha
    rw [if_pos hZ]
    unfold write_accept
    simp only []
    rw [assign_cell]
  · intro hZ ha
    rw [if_pos hZ]
    unfold write_accept
    simp only []
    apply assign_other
    intro he
    exact ha (set_order_inj (by rw [← he]; exact hcol) he)
  · intro hZ
    rw [if_neg hZ]
    obtain ⟨n, hn, hlt, _⟩ := set_order_nat hcol
    rw [hn]
    exact write_reduce_cell g k ip _ 0 b n (Nat.zero_le _) (by omega)

/-- The cell of the terminal `a` in row `k` after the goto or shift entry for
`symbol` has been written. -/
theorem write_edge_column (g : Grammar) (k : Nat) (symbol : Char) (next : Nat) (b : Build)
    (a : Char) (hcol : 0 ≤ set_order g.terminal_set a) (hta : is_nonterminal a = false) :
    (symbol = a →
      ((write_edge g k symbol next b).table.action_table k (set_order g.terminal_set a)).type =
        ACTION_SHIFT) ∧
    (symbol ≠ a →
      (write_edge g k symbol next b).table.action_table k (set_order g.terminal_set a) =
        b.table.action_table k (set_order g.terminal_set a)) := by
  constructor
  · intro he
    subst he
    exact ((write_edge_spec g k symbol next b).2 hta).1
  · intro hne
    unfold write_edge
    by_cases hnt : is_nonterminal symbol = true
    · rw [if_pos hnt]
      rfl
    · rw [if_neg hnt]
      simp only []
      apply assign_other
      intro he
      exact hne (set_order_inj hcol he.symm)

theorem RowFinal.of_cell {g : Grammar} {a : Char} {b b2 : Build} {s : Nat} {it : Item}
    (h : RowFinal g a b s it)
    (hc : b2.table.action_table s (set_order g.terminal_set a) =
        b.table.action_table s (set_order g.terminal_set a) ∨
      aliased (set_order g.terminal_set a)
        (b2.table.action_table s (set_order g.terminal_set a))) :
    RowFinal g a b2 s it := by
  unfold RowFinal at h ⊢
  rcases hc with hc | hc
  · rw [hc]
    exact h
  · exact Or.inl hc

theorem cell_after_of_cell {g : Grammar} {a : Char} {k : Nat} {item : Item} {b b2 : Build}
    {pre : List CellWrite} (h : cell_after g a k item b pre)
    (hc : b2.table.action_table k (set_order g.terminal_set a) =
        b.table.action_table k (set_order g.terminal_set a) ∨
      aliased (set_order g.terminal_set a)
        (b2.table.action_table k (set_order g.terminal_set a))) :
    cell_after g a k item b2 pre := by
  unfold cell_after at h ⊢
  rcases hc with hc | hc
  · rw [hc]
    exact h
  · exact Or.inl hc

/-- The rows after `k` as the writes for state `k` leave them. -/
theorem RowWrite.above_view {k : Nat} {b b2 : Build} (h : RowWrite k b b2) (r c : Int)
    (hr : (k : Int) < r) (hc : 0 ≤ c) :
    b2.table.action_table r c = b.table.action_table r c := by
  rw [action_table_eq _ _ _ (by omega), action_table_eq _ _ _ (by omega)]
  exact h.above r c hr

/-- The rows below `fixed` as a call of the construction leaves them. -/
theorem Frame.view {n : Nat} {b b2 : Build} (h : Frame n b b2) (r c : Int)
    (hr : r < n) (hc : 0 ≤ c) :
    b2.table.action_table r c = b.table.action_table r c ∨
      aliased c (b2.table.action_table r c) := by
  rw [action_table_eq _ _ _ (by omega), action_table_eq _ _ _ (by omega)]
  exact h.action r c hr

theorem ColumnRest.write {g : Grammar} {a : Char} {b0 : Build} {k : Nat} {item : Item}
    {b b2 : Build} (hcol : 0 ≤ set_order g.terminal_set a) (h : ColumnRest g a b0 k item b)
    (hw : RowWrite k b b2) : ColumnRest g a b0 k item b2 := by
  have hklt : k < b.set.items.length := (List.getElem?_eq_some.1 h.here).1
  refine ⟨by rw [hw.set]; exact h.here, h.last, by rw [hw.set]; exact h.length, ?_, ?_⟩
  · intro s hs1 hs2
    rw [hw.set] at hs2 ⊢
    obtain ⟨it, hit, hfin⟩ := h.done s hs1 hs2
    exact ⟨it, hit, hfin.of_cell (Or.inl (hw.above_view s _ (by omega) hcol))⟩
  · intro r hr
    rw [hw.set] at hr
    rw [hw.above_view r _ (by omega) hcol]
    exact h.clear r hr

theorem ColumnRest.recursed {g : Grammar} {a : Char} {b0 : Build} {k : Nat} {item : Item}
    {b1 b2 : Build} {ni : Item} {out : List Diag}
    (hcol : 0 ≤ set_order g.terminal_set a) (h : ColumnRest g a b0 k item b1)
    (hfr : Frame b1.set.items.length
      ⟨⟨b1.set.items ++ [ni], b1.set.initial_symbol⟩, b1.table, out, b1.writes⟩ b2)
    (hpost : ColumnPost g a
      ⟨⟨b1.set.items ++ [ni], b1.set.initial_symbol⟩, b1.table, out, b1.writes⟩ b2) :
    ColumnRest g a b0 k item b2 := by
  have hklt : k < b1.set.items.length := (List.getElem?_eq_some.1 h.here).1
  have hlen := hfr.length
  simp only [List.length_append, List.length_singleton] at hlen
  have hitems : ∀ j, j < b1.set.items.length → b2.set.items[j]? = b1.set.items[j]? := by
    intro j hj
    rw [hfr.items j hj]
    simp only []
    rw [List.getElem?_append_left hj]
  refine ⟨by rw [hitems k hklt]; exact h.here, h.last, by have := h.length; omega, ?_,
    hpost.clear⟩
  intro s hs1 hs2
  by_cases hs : s < b1.set.items.length
  · obtain ⟨it, hit, hfin⟩ := h.done s hs1 hs
    refine ⟨it, by rw [hitems s hs]; exact hit, hfin.of_cell ?_⟩
    exact hfr.view s _ (by omega) hcol
  · apply hpost.done s ?_ hs2
    simp only [List.length_append, List.length_singleton]
    omega

/-- The assignments to the cell from item `i` on. -/
theorem cell_writes_step {g : Grammar} {a : Char} {l : List ItemProduction} {i : Nat}
    {v : Set} {ip : ItemProduction} {p : Production} (hread : l[i]? = some ip)
    (hget : item_get_production g ip = some p) :
    cell_writes g a (l.drop i) i v =
      (if p.size ≤ ip.dot_offset then
        (if ip.nonterminal = 'Z' then (if a = '$' then [CellWrite.accept i] else [])
        else [CellWrite.reduce i])
      else []) ++
      (if (set_insert v (symbol_at g p ip.dot_offset)).2 ≠ 1 ∧
          symbol_at g p ip.dot_offset = a then [CellWrite.shift i] else []) ++
      cell_writes g a (l.drop (i + 1)) (i + 1) (set_insert v (symbol_at g p ip.dot_offset)).1 := by
  obtain ⟨hlt, hval⟩ := List.getElem?_eq_some.1 hread
  rw [List.drop_eq_getElem_cons hlt, hval]
  simp only [cell_writes, hget]

/-- The cell of row `k` after the entries for item `i`, when its dot is at or
beyond the end, have been written. -/
theorem cell_after_complete {g : Grammar} {a : Char} {k : Nat} {item : Item} {b : Build}
    {pre : List CellWrite} {i : Nat} {ip : ItemProduction} {p : Production}
    (hcol : 0 ≤ set_order g.terminal_set a) (h : cell_after g a k item b pre)
    (hread : item.productions[i]? = some ip) :
    cell_after g a k item (if p.size ≤ ip.dot_offset then write_complete g k ip b else b)
      (pre ++ (if p.size ≤ ip.dot_offset then
        (if ip.nonterminal = 'Z' then (if a = '$' then [CellWrite.accept i] else [])
        else [CellWrite.reduce i])
      else [])) := by
  by_cases hend : p.size ≤ ip.dot_offset
  · rw [if_pos hend, if_pos hend]
    obtain ⟨k1, k2, k3⟩ := write_complete_column g k ip b a hcol
    by_cases hZ : ip.nonterminal = 'Z'
    · rw [if_pos hZ]
      by_cases ha : a = '$'
      · rw [if_pos ha]
        right
        rw [List.getLast?_concat]
        exact k1 hZ ha
      · rw [if_neg ha, List.append_nil]
        exact cell_after_of_cell h (Or.inl (k2 hZ ha))
    · rw [if_neg hZ]
      right
      rw [List.getLast?_concat, k3 hZ]
      exact ⟨ip, hread, rfl⟩
  · rw [if_neg hend, if_neg hend, List.append_nil]
    exact h

/-- The cell of row `k` after the goto or shift entry of item `i` has been
written. -/
theorem cell_after_edge {g : Grammar} {a : Char} {k : Nat} {item : Item} {b : Build}
    {pre : List CellWrite} (i : Nat) (symbol : Char) (next : Nat) (v : Set)
    (hcol : 0 ≤ set_order g.terminal_set a) (hta : is_nonterminal a = false)
    (h : cell_after g a k item b pre) (hflag : (set_insert v symbol).2 ≠ 1) :
    cell_after g a k item (write_edge g k symbol next b)
      (pre ++ (if (set_insert v symbol).2 ≠ 1 ∧ symbol = a then [CellWrite.shift i]
        else [])) := by
  obtain ⟨k1, k2⟩ := write_edge_column g k symbol next b a hcol hta
  by_cases hs : symbol = a
  · rw [if_pos ⟨hflag, hs⟩]
    right
    rw [List.getLast?_concat]
    exact k1 hs
  · rw [if_neg (fun hh => hs hh.2), List.append_nil]
    exact cell_after_of_cell h (Or.inl (k2 hs))

/-- What a successful call of `grammar_create_lr_table_internal` guarantees
about the column of a terminal. -/
theorem internal_column (g : Grammar) (a : Char) (hcol : 0 ≤ set_order g.terminal_set a)
    (hta : is_nonterminal a = false) :
    ∀ (fuel : Nat) (b : Build) (k : Nat) (r : Build × Int),
      grammar_create_lr_table_internal fuel g b k = .ok r → 0 ≤ r.2 →
      k + 1 = b.set.items.length →
      ((∀ r : Int, (b.set.items.length : Int) - 1 ≤ r →
          (b.table.action_table r (set_order g.terminal_set a)).type = ACTION_ERROR) ∧
        (∀ it, b.set.items[b.set.items.length - 1]? = some it →
          it.productions.length ≤ it.closure_offset)) →
      ColumnPost g a b r.1 := by
  apply internal_induct g
    (fun b => (∀ r : Int, (b.set.items.length : Int) - 1 ≤ r →
          (b.table.action_table r (set_order g.terminal_set a)).type = ACTION_ERROR) ∧
        (∀ it, b.set.items[b.set.items.length - 1]? = some it →
          it.productions.length ≤ it.closure_offset))
    (ColumnPost g a) (ColumnLoop g a)
  · intro fuel b k item0 item ip hpre hk hit hcl hp0
    obtain ⟨hclear, hker⟩ := hpre
    have hk1 : b.set.items.length - 1 = k := by omega
    rw [hk1] at hker
    obtain ⟨he, hsp, hfirst⟩ := closure_quiet hcl (hker item0 hit)
    subst he
    have hw := (write_complete_spec g k ip
      ⟨⟨b.set.items.set k item, b.set.initial_symbol⟩, b.table, b.out, b.writes⟩).1
    obtain ⟨k1, k2, k3⟩ := write_complete_column g k ip
      ⟨⟨b.set.items.set k item, b.set.initial_symbol⟩, b.table, b.out, b.writes⟩ a hcol
    constructor
    · intro s hs1 hs2
      rw [hw.set] at hs2
      simp only [List.length_set] at hs2
      have hsk : s = k := by omega
      subst hsk
      refine ⟨item, by rw [hw.set]; simp only []; rw [List.getElem?_set_self (by omega)], ?_⟩
      unfold RowFinal
      right; left
      refine ⟨hsp, ip, hp0, hfirst ip hp0, ?_⟩
      unfold quiet_write
      by_cases hZ : ip.nonterminal = 'Z'
      · rw [if_pos hZ]
        by_cases ha : a = '$'
        · rw [if_pos ha]
          exact k1 hZ ha
        · rw [if_neg ha, k2 hZ ha]
          exact hclear s (by omega)
      · rw [if_neg hZ, k3 hZ]
        exact ⟨ip, hp0, rfl⟩
    · intro r hr
      rw [hw.set] at hr
      simp only [List.length_set] at hr
      rw [hw.above_view r _ (by omega) hcol]
      exact hclear r (by omega)
  · intro fuel b k item0 item no hpre hk hit hcl _ _
    obtain ⟨hclear, _⟩ := hpre
    refine ⟨⟨by simp only []; rw [List.getElem?_set_self (by omega)], hk, by simp, ?_, ?_⟩,
      [], by simp, ?_⟩
    · intro s hs1 hs2
      simp only [List.length_set] at hs2
      omega
    · intro r hr
      simp only [List.length_set] at hr
      exact hclear r (by omega)
    · right
      exact hclear k (by omega)
  · intro b0 k item i v b h
    exact h.rest.here
  · intro b0 k item i v b ip p hinv hread hget b1 hb1
    obtain ⟨hrest, pre, hpre, hcell⟩ := hinv
    rw [cell_writes_step hread hget] at hpre
    have hw1 : RowWrite k b b1 := by
      rw [hb1]
      split
      · exact (write_complete_spec g k ip b).1
      · exact RowWrite.refl_w k b
    have hrest1 := hrest.write hcol hw1
    have hcell1 := cell_after_complete (p := p) hcol hcell hread
    rw [← hb1] at hcell1
    have hklt : k < b1.set.items.length := (List.getElem?_eq_some.1 hrest1.here).1
    refine ⟨?_, ?_, ?_⟩
    · intro hflag
      refine ⟨hrest1, _, ?_, hcell1⟩
      have hno : ¬((set_insert v (symbol_at g p ip.dot_offset)).2 ≠ 1 ∧
          symbol_at g p ip.dot_offset = a) := fun hh => hh.1 hflag
      rw [← hpre, if_neg hno, List.append_nil, List.append_assoc]
    · intro hflag next _
      refine ⟨hrest1.write hcol (write_edge_spec g k _ next b1).1, _, ?_,
        cell_after_edge i _ next v hcol hta hcell1 hflag⟩
      rw [← hpre]
      simp only [List.append_assoc]
    · intro hflag _ ni out hcol2
      obtain ⟨_, hkb, _⟩ := (collect_extra_spec g item _ _ _ _ _ _ hcol2).2 ni out rfl
      have hni : (b1.set.items ++ [ni])[b1.set.items.length]? = some ni := by simp
      constructor
      · constructor
        · intro r hr
          simp only [List.length_append, List.length_singleton] at hr
          exact hrest1.clear r (by push_cast at hr; omega)
        · intro it hit
          simp only [List.length_append, List.length_singleton, Nat.add_sub_cancel] at hit
          rw [hni] at hit
          cases hit
          exact hkb (by simp [item_production_insert])
      · intro b2 hfr hpost
        have hrest2 := hrest1.recursed hcol hfr hpost
        have hcell2 : cell_after g a k item b2 _ :=
          cell_after_of_cell hcell1 (hfr.view k _ (by omega) hcol)
        refine ⟨hrest2.write hcol (write_edge_spec g k _ _ b2).1, _, ?_,
          cell_after_edge i _ _ v hcol hta hcell2 hflag⟩
        rw [← hpre]
        simp only [List.append_assoc]
  · intro b0 k item v b hk hinv
    obtain ⟨hrest, pre, hpre, hcell⟩ := hinv
    rw [List.drop_length] at hpre
    simp only [cell_writes, List.append_nil] at hpre
    subst hpre
    constructor
    · intro s hs1 hs2
      by_cases hsk : s = k
      · subst hsk
        refine ⟨item, hrest.here, ?_⟩
        unfold RowFinal
        rcases hcell with h | h
        · exact Or.inl h
        · exact Or.inr (Or.inr h)
      · exact hrest.done s (by omega) hs2
    · exact hrest.clear

/-- When `grammar_create_lr_table` succeeds from an empty item set, the cell
of a terminal in the row of a state is as `RowFinal` says. -/
theorem table_column (g : Grammar) (a : Char) (hcol : 0 ≤ set_order g.terminal_set a)
    (hta : is_nonterminal a = false) (fuel : Nat) (c0 : Char) (b : Build) (code : Int)
    (hrun : grammar_create_lr_table fuel g (item_set_init c0) = .ok (b, code))
    (hcode : 0 ≤ code) (s : Nat) (item : Item) (hitem : b.set.items[s]? = some item) :
    RowFinal g a b s item := by
  unfold grammar_create_lr_table at hrun
  simp only [item_set_init, List.nil_append, List.length_nil] at hrun
  have hpost := internal_column g a hcol hta fuel _ 0 _ hrun hcode (by simp) (by
    constructor
    · intro r _
      rfl
    · intro it hit
      simp at hit
      subst hit
      simp [item_production_insert])
  obtain ⟨it, h1, h2⟩ := hpost.done s (by simp) (List.getElem?_eq_some.1 hitem).1
  simp only [] at h1
  rw [hitem] at h1
  cases h1
  exact h2

end LR0

namespace LR0

open ActionType

/-! ## The assignments to a cell, and the last of them -/

theorem set_insert_data_mem {v : Set} {c a : Char} (h : a ∈ (set_insert v c).1.data) :
    a ∈ v.data ∨ a = c := by
  unfold set_insert at h
  by_cases hc : c ∈ v.data
  · rw [if_pos hc] at h
    exact Or.inl h
  · rw [if_neg hc] at h
    split at h
    · simp only [List.mem_append, List.mem_singleton] at h
      exact h
    · exact Or.inl h

/-- The assignments from a later item on are the end of the sequence. -/
theorem cell_writes_drop (g : Grammar) (a : Char) :
    ∀ (l : List ItemProduction) (i0 : Nat) (v : Set) (n : Nat),
      ∃ pre v2, cell_writes g a l i0 v = pre ++ cell_writes g a (l.drop n) (i0 + n) v2 := by
  intro l
  induction l with
  | nil =>
    intro i0 v n
    exact ⟨[], v, by simp [cell_writes]⟩
  | cons ip rest ih =>
    intro i0 v n
    cases n with
    | zero => exact ⟨[], v, by simp⟩
    | succ n =>
      have hidx : i0 + (n + 1) = i0 + 1 + n := by omega
      rw [List.drop_succ_cons, hidx]
      cases hget : item_get_production g ip with
      | none =>
        obtain ⟨pre, v2, h⟩ := ih (i0 + 1) v n
        exact ⟨pre, v2, by simp only [cell_writes, hget]; exact h⟩
      | some p =>
        obtain ⟨pre, v2, h⟩ := ih (i0 + 1) (set_insert v (symbol_at g p ip.dot_offset)).1 n
        refine ⟨((if p.size ≤ ip.dot_offset then
            (if ip.nonterminal = 'Z' then (if a = '$' then [CellWrite.accept i0] else [])
            else [CellWrite.reduce i0])
          else []) ++
          (if (set_insert v (symbol_at g p ip.dot_offset)).2 ≠ 1 ∧
              symbol_at g p ip.dot_offset = a then [CellWrite.shift i0] else [])) ++ pre,
          v2, ?_⟩
        simp only [cell_writes, hget]
        rw [h, ← List.append_assoc]

/-- An item of another nonterminal than `Z` whose dot is at or beyond the end
assigns its reduce action. -/
theorem cell_writes_reduce_mem (g : Grammar) (a : Char) :
    ∀ (l : List ItemProduction) (i0 : Nat) (v : Set) (j : Nat) (x : ItemProduction)
      (p : Production), l[j]? = some x → item_get_production g x = some p →
      p.size ≤ x.dot_offset → x.nonterminal ≠ 'Z' →
      CellWrite.reduce (i0 + j) ∈ cell_writes g a l i0 v := by
  intro l
  induction l with
  | nil =>
    intro i0 v j x p h
    simp at h
  | cons ip rest ih =>
    intro i0 v j x p h hget hend hZ
    cases j with
    | zero =>
      simp only [List.getElem?_cons_zero, Option.some.injEq] at h
      subst h
      simp only [cell_writes, hget, if_pos hend, if_neg hZ]
      simp
    | succ j =>
      simp only [List.getElem?_cons_succ] at h
      have hidx : i0 + (j + 1) = i0 + 1 + j := by omega
      rw [hidx]
      cases hg : item_get_production g ip with
      | none =>
        simp only [cell_writes, hg]
        exact ih (i0 + 1) v j x p h hget hend hZ
      | some q =>
        simp only [cell_writes, hg]
        exact List.mem_append_right _ (ih (i0 + 1) _ j x p h hget hend hZ)

/-- A symbol that some item reads at its dot and that has not been dealt with
is assigned its shift action. -/
theorem cell_writes_shift_mem (g : Grammar) (a : Char) :
    ∀ (l : List ItemProduction) (i0 : Nat) (v : Set), a ∉ v.data →
      ∀ (y : ItemProduction) (py : Production), y ∈ l → item_get_production g y = some py →
      symbol_at g py y.dot_offset = a → ∃ j, CellWrite.shift j ∈ cell_writes g a l i0 v := by
  intro l
  induction l with
  | nil =>
    intro i0 v _ y py h
    simp at h
  | cons ip rest ih =>
    intro i0 v hv y py hy hget hsym
    cases hg : item_get_production g ip with
    | none =>
      simp only [cell_writes, hg]
      rcases List.mem_cons.1 hy with he | hmem
      · subst he
        rw [hg] at hget
        cases hget
      · exact ih (i0 + 1) v hv y py hmem hget hsym
    | some q =>
      simp only [cell_writes, hg]
      by_cases hs : symbol_at g q ip.dot_offset = a
      · refine ⟨i0, ?_⟩
        have hc : (set_insert v (symbol_at g q ip.dot_offset)).2 ≠ 1 ∧
            symbol_at g q ip.dot_offset = a := ⟨by rw [hs]; exact fun hf => hv ((set_insert_flag v a).1 hf), hs⟩
        rw [if_pos hc]
        simp
      · rcases List.mem_cons.1 hy with he | hmem
        · subst he
          rw [hg] at hget
          cases hget
          exact absurd hsym hs
        · have hv2 : a ∉ (set_insert v (symbol_at g q ip.dot_offset)).1.data := by
            intro hin
            rcases set_insert_data_mem hin with h1 | h1
            · exact hv h1
            · exact hs h1.symm
          obtain ⟨j, hj⟩ := ih (i0 + 1) _ hv2 y py hmem hget hsym
          exact ⟨j, List.mem_append_right _ hj⟩

/-- When every item whose dot is at or beyond the end is a production of `Z`
and no item reads `$` at its dot, the cell of `$` is assigned accept actions
only. -/
theorem cell_writes_accepts (g : Grammar) :
    ∀ (l : List ItemProduction) (i0 : Nat) (v : Set),
      (∀ z ∈ l, ∀ q, item_get_production g z = some q →
        (q.size ≤ z.dot_offset → z.nonterminal = 'Z') ∧ symbol_at g q z.dot_offset ≠ '$') →
      ∀ w ∈ cell_writes g '$' l i0 v, ∃ n, w = CellWrite.accept n := by
  intro l
  induction l with
  | nil =>
    intro i0 v _ w hw
    simp [cell_writes] at hw
  | cons ip rest ih =>
    intro i0 v h w hw
    have hrest : ∀ z ∈ rest, ∀ q, item_get_production g z = some q →
        (q.size ≤ z.dot_offset → z.nonterminal = 'Z') ∧ symbol_at g q z.dot_offset ≠ '$' :=
      fun z hz => h z (List.mem_cons_of_mem _ hz)
    cases hg : item_get_production g ip with
    | none =>
      simp only [cell_writes, hg] at hw
      exact ih (i0 + 1) v hrest w hw
    | some q =>
      obtain ⟨h1, h2⟩ := h ip (List.mem_cons_self _ _) q hg
      simp only [cell_writes, hg] at hw
      have hno : ¬((set_insert v (symbol_at g q ip.dot_offset)).2 ≠ 1 ∧
          symbol_at g q ip.dot_offset = '$') := fun hh => h2 hh.2
      rw [if_neg hno, List.append_nil] at hw
      rcases List.mem_append.1 hw with hw | hw
      · by_cases hend : q.size ≤ ip.dot_offset
        · rw [if_pos hend, if_pos (h1 hend)] at hw
          exact ⟨i0, by simpa using hw⟩
        · rw [if_neg hend] at hw
          simp at hw
      · exact ih (i0 + 1) _ hrest w hw

/-- The last element of a sequence that ends in a nonempty part. -/
theorem getLast_append_tail {α : Type} (pre tail : List α) (h : tail ≠ []) :
    ∃ w ∈ tail, (pre ++ tail).getLast? = some w := by
  have h2 : pre ++ tail ≠ [] := by simp [h]
  refine ⟨(pre ++ tail).getLast h2, ?_, List.getLast?_eq_getLast _ h2⟩
  rw [List.getLast_append_of_ne_nil h]
  exact List.getLast_mem h

end LR0

namespace LR0

open ActionType

/-! ## Shift/reduce conflicts and accept entries -/

/-- C7. When `grammar_create_lr_table` succeeds from an empty item set, every
state that holds both an item with the dot at the end of a production other
than one of `Z` and an item with the dot immediately before a terminal `a` of
the grammar (a symbol that is not upper case and has a column in the ACTION
table) has an overlap report for one of its ACTION cells among the printed
lines (a `Reduce Overlap` or a `Shift Overlap`); the main loop assigns to the
cell of `a` in the row of the state both a reduce action and a shift action;
and the cell finally holds what the last assignment of the main loop to it
wrote, the reduce action of the item that made it or a shift action, unless
the column is the last of the table and a shift or accept action written with
the column subscript -1 for the next state, which is an assignment to the same
cell, came after it. -/
theorem shift_reduce_reported (g : Grammar) (fuel : Nat) (c0 : Char) (b : Build) (code : Int)
    (hrun : grammar_create_lr_table fuel g (item_set_init c0) = .ok (b, code))
    (hcode : 0 ≤ code)
    (s : Nat) (item : Item) (hitem : b.set.items[s]? = some item)
    (x : ItemProduction) (px : Production) (hx : x ∈ item.productions)
    (hpx : item_get_production g x = some px) (hxend : x.dot_offset = px.size)
    (hxZ : x.nonterminal ≠ 'Z')
    (y : ItemProduction) (py : Production) (hy : y ∈ item.productions)
    (hpy : item_get_production g y = some py)
    (a : Char) (hya : py.symbols[y.dot_offset]? = some a)
    (hterm : is_terminal a = true) (hcol : 0 ≤ set_order g.terminal_set a) :
    (∃ d ∈ b.out, Diag.is_action_overlap s d = true) ∧
    (∃ i j, CellWrite.reduce i ∈ cell_writes g a item.productions 0 set_init ∧
      CellWrite.shift j ∈ cell_writes g a item.productions 0 set_init) ∧
    (∃ w, (cell_writes g a item.productions 0 set_init).getLast? = some w ∧
      (cell_left g item (b.table.action_table s (set_order g.terminal_set a)) (some w) ∨
        aliased (set_order g.terminal_set a)
          (b.table.action_table s (set_order g.terminal_set a)))) := by
  have hta : is_nonterminal a = false := by
    unfold is_terminal at hterm
    unfold is_nonterminal
    simpa using hterm
  have hrow := table_column g a hcol hta fuel c0 b code hrun hcode s item hitem
  have hylt : y.dot_offset < py.size := by
    obtain ⟨h, _⟩ := List.getElem?_eq_some.1 hya
    exact h
  have hsym : symbol_at g py y.dot_offset = a := by
    have h := getElem?_symbol_at (g := g) hylt
    rw [hya] at h
    cases h
    rfl
  obtain ⟨n, hn⟩ := List.getElem?_of_mem hx
  have hred := cell_writes_reduce_mem g a item.productions 0 set_init n x px hn hpx
    (by omega) hxZ
  rw [Nat.zero_add] at hred
  obtain ⟨j, hj⟩ := cell_writes_shift_mem g a item.productions 0 set_init
    (by simp [set_init]) y py hy hpy hsym
  refine ⟨?_, ⟨n, j, hred, hj⟩, ?_⟩
  · unfold grammar_create_lr_table at hrun
    simp only [item_set_init, List.nil_append, List.length_nil] at hrun
    have hk : 0 < (⟨⟨[(item_production_insert ⟨[], 1, set_init⟩ 'Z' 0 0).1], c0⟩,
        lr0_parsing_table_init, [], []⟩ : Build).set.items.length := by simp
    obtain ⟨h0, hnew⟩ := internal_overlap g a hcol hta fuel _ 0 _ hrun hcode hk (by
      intro it hit
      simp at hit
      subst hit
      simp [item_production_insert])
    have hrep : reported g a b s := by
      by_cases hs : s = 0
      · subst hs; exact h0
      · exact hnew s (by simp; omega)
    exact hrep item hitem ⟨x, hx, px, hpx, by omega, hxZ⟩ ⟨y, hy, py, hpy, hya⟩
  · obtain ⟨w, _, hw⟩ := getLast_append_tail []
      (cell_writes g a item.productions 0 set_init) (List.ne_nil_of_mem hred)
    rw [List.nil_append] at hw
    refine ⟨w, hw, ?_⟩
    unfold RowFinal at hrow
    rcases hrow with h | ⟨hsp, _⟩ | h
    · exact Or.inr h
    · have := hsp y hy py hpy
      omega
    · rw [hw] at h
      exact Or.inl h

set_option maxRecDepth 100000 in
/-- Witness for `shift_reduce_reported`: state 2 of the grammar `S -> a | ab`
holds `S -> a .` and `S -> a . b`. -/
theorem shift_reduce_reported_witness :
    ∃ b, grammar_create_lr_table 16 grammar_shift_reduce (item_set_init 'Z') = .ok (b, 0) ∧
      (∃ d ∈ b.out, Diag.is_action_overlap 2 d = true) ∧
      (∃ i j,
        CellWrite.reduce i ∈ cell_writes grammar_shift_reduce 'b'
          [⟨'S', 0, 1⟩, ⟨'S', 1, 1⟩] 0 set_init ∧
        CellWrite.shift j ∈ cell_writes grammar_shift_reduce 'b'
          [⟨'S', 0, 1⟩, ⟨'S', 1, 1⟩] 0 set_init) ∧
      (∃ w, (cell_writes grammar_shift_reduce 'b'
          [⟨'S', 0, 1⟩, ⟨'S', 1, 1⟩] 0 set_init).getLast? = some w ∧
        (cell_left grammar_shift_reduce ⟨[⟨'S', 0, 1⟩, ⟨'S', 1, 1⟩], 2, set_init⟩
            (b.table.action_table 2 (set_order grammar_shift_reduce.terminal_set 'b'))
            (some w) ∨
          aliased (set_order grammar_shift_reduce.terminal_set 'b')
            (b.table.action_table 2 (set_order grammar_shift_reduce.terminal_set 'b')))) := by
  have hm : (grammar_create_lr_table 16 grammar_shift_reduce (item_set_init 'Z')).map
      (fun r => (r.2, r.1.set.items[2]?)) =
      .ok (0, some ⟨[⟨'S', 0, 1⟩, ⟨'S', 1, 1⟩], 2, set_init⟩) := by decide
  cases hrun : grammar_create_lr_table 16 grammar_shift_reduce (item_set_init 'Z') with
  | undefined => rw [hrun] at hm; simp [Res.map] at hm
  | nofuel => rw [hrun] at hm; simp [Res.map] at hm
  | ok r =>
    obtain ⟨b, code⟩ := r
    rw [hrun] at hm
    simp only [Res.map, Res.ok.injEq, Prod.mk.injEq] at hm
    obtain ⟨hc, hitem⟩ := hm
    subst hc
    exact ⟨b, rfl, shift_reduce_reported grammar_shift_reduce 16 'Z' b 0 hrun (by decide) 2 _
      hitem ⟨'S', 0, 1⟩ ⟨['a']⟩ (by simp) (by decide) rfl (by decide)
      ⟨'S', 1, 1⟩ ⟨['a', 'b']⟩ (by simp) (by decide) 'b' (by decide) (by decide) (by decide)⟩

/-- C17 (amended). When `grammar_create_lr_table` succeeds from an empty item
set on a grammar whose terminal set holds `$`, for every state `s`:
if item `i` of `s` is a production of `Z` with the dot at its end, `i` is 0 or
some item of `s` has its dot before the end of its production, and from item
`i` on every item with its dot at or beyond the end is a production of `Z` and
no item reads `$` at its dot, then `ACTION[s]['$']` is an accept action, or
`$` has the last column of the table and the cell holds a shift action (one
written with the column subscript -1 for the next state, which is the same
cell); and if a cell of `s` in a column from 0 on holds an accept action, the
column is that of `$` and `s` holds a production of `Z` with its dot at or
beyond the end, at the end when every dot of `s` is within its production. -/
theorem accept_entries (g : Grammar) (fuel : Nat) (c0 : Char) (b : Build) (code : Int)
    (hrun : grammar_create_lr_table fuel g (item_set_init c0) = .ok (b, code))
    (hcode : 0 ≤ code) (hfin : 0 ≤ set_order g.terminal_set '$')
    (s : Nat) (item : Item) (hitem : b.set.items[s]? = some item) :
    (∀ (i : Nat) (x : ItemProduction) (p : Production), item.productions[i]? = some x →
      x.nonterminal = 'Z' → item_get_production g x = some p → x.dot_offset = p.size →
      (i = 0 ∨ ¬ Item.spent g item) →
      (∀ z ∈ item.productions.drop i, ∀ q, item_get_production g z = some q →
        (q.size ≤ z.dot_offset → z.nonterminal = 'Z') ∧ symbol_at g q z.dot_offset ≠ '$') →
      (b.table.action_table s (set_order g.terminal_set '$')).type = ACTION_ACCEPT ∨
        (set_order g.terminal_set '$' = MAX_DIMENSIONS - 1 ∧
          (b.table.action_table s (set_order g.terminal_set '$')).type = ACTION_SHIFT)) ∧
    (∀ c : Int, 0 ≤ c → (b.table.action_table s c).type = ACTION_ACCEPT →
      c = set_order g.terminal_set '$' ∧
      ∃ x ∈ item.productions, x.nonterminal = 'Z' ∧ ∃ p, item_get_production g x = some p ∧
        p.size ≤ x.dot_offset ∧ (Item.regular g item → x.dot_offset = p.size)) := by
  constructor
  · intro i x p hread hZ hget hend hfirst hafter
    have hrow := table_column g '$' hfin (by decide) fuel c0 b code hrun hcode s item hitem
    obtain ⟨pre, v2, hsplit⟩ := cell_writes_drop g '$' item.productions 0 set_init i
    rw [Nat.zero_add] at hsplit
    have hmem : CellWrite.accept i ∈ cell_writes g '$' (item.productions.drop i) i v2 := by
      rw [cell_writes_step hread hget, if_pos (by omega), if_pos hZ, if_pos rfl]
      simp
    obtain ⟨w, hw, hlast⟩ := getLast_append_tail pre _ (List.ne_nil_of_mem hmem)
    rw [← hsplit] at hlast
    obtain ⟨n, hn⟩ := cell_writes_accepts g _ i v2 hafter w hw
    subst hn
    unfold RowFinal at hrow
    rcases hrow with h | ⟨hsp, ip, hip, _, h⟩ | h
    · rcases h.2 with h2 | h2
      · exact Or.inr ⟨h.1, h2⟩
      · exact Or.inl h2
    · rcases hfirst with h0 | h0
      · subst h0
        rw [hread] at hip
        cases hip
        unfold quiet_write at h
        rw [if_pos hZ, if_pos rfl] at h
        exact Or.inl h
      · exact absurd hsp h0
    · rw [hlast] at h
      exact Or.inl h
  · intro c hc hty
    rw [action_table_eq _ _ _ (by omega)] at hty
    obtain ⟨h1, h2⟩ := (table_cells g fuel c0 b code hrun hcode).accept s c hty
    have hcc : cell_col (set_order g.terminal_set '$') = set_order g.terminal_set '$' := by
      unfold cell_col
      rw [if_neg (by omega)]
    rw [hcc] at h1
    obtain ⟨s2, it, hs, hit, x, hx, hZ, p, hp, hle⟩ := h2 hfin
    have hs2 : s2 = s := by omega
    subst hs2
    rw [hitem] at hit
    cases hit
    refine ⟨h1, x, hx, hZ, p, hp, hle, ?_⟩
    intro hreg
    have := hreg x hx p hp
    omega

set_option maxRecDepth 100000 in
/-- Witness for `accept_entries`: state 1 of Example 1 holds `Z -> E .` as its
first item, together with `E -> E . + T`. -/
theorem accept_entries_witness :
    ∃ b, grammar_create_lr_table 16 example1 (item_set_init 'Z') = .ok (b, 0) ∧
      0 ≤ set_order example1.terminal_set '$' ∧
      ((b.table.action_table 1 (set_order example1.terminal_set '$')).type = ACTION_ACCEPT ∨
        (set_order example1.terminal_set '$' = MAX_DIMENSIONS - 1 ∧
          (b.table.action_table 1 (set_order example1.terminal_set '$')).type =
            ACTION_SHIFT)) := by
  have hm : (grammar_create_lr_table 16 example1 (item_set_init 'Z')).map
      (fun r => (r.2, r.1.set.items[1]?)) =
      .ok (0, some ⟨[⟨'Z', 0, 1⟩, ⟨'E', 0, 1⟩], 2, set_init⟩) := by decide
  cases hrun : grammar_create_lr_table 16 example1 (item_set_init 'Z') with
  | undefined => rw [hrun] at hm; simp [Res.map] at hm
  | nofuel => rw [hrun] at hm; simp [Res.map] at hm
  | ok r =>
    obtain ⟨b, code⟩ := r
    rw [hrun] at hm
    simp only [Res.map, Res.ok.injEq, Prod.mk.injEq] at hm
    obtain ⟨hc, hitem⟩ := hm
    subst hc
    have h1 : item_get_production example1 ⟨'Z', 0, 1⟩ = some ⟨['E']⟩ := by decide
    have h2 : item_get_production example1 ⟨'E', 0, 1⟩ = some ⟨['E', '+', 'T']⟩ := by decide
    refine ⟨b, rfl, by decide,
      (accept_entries example1 16 'Z' b 0 hrun (by decide) (by decide) 1 _ hitem).1 0
        ⟨'Z', 0, 1⟩ ⟨['E']⟩ rfl rfl h1 rfl (Or.inl rfl) ?_⟩
    intro z hz q hq
    simp only [List.drop_zero, List.mem_cons, List.mem_singleton, List.not_mem_nil,
      or_false] at hz
    rcases hz with hz | hz
    · subst hz
      rw [h1] at hq
      cases hq
      decide
    · subst hz
      rw [h2] at hq
      cases hq
      decide

set_option maxRecDepth 100000 in
/-- C17 (counterexample). Constructions that return 0 and leave no accept
action in `ACTION[s]['$']` for a state `s` that holds the augmented start
production with the dot at its end, or leave an accept action in a state that
does not hold it.  For `S -> A | Sb | a`, `A -> S` state 1 holds `Z -> S .`
and the cell is the reduce action of `A -> S`, written after the accept action
(the overlap is printed).  For `S -> aB | c`, `B -> S | Z` state 4 is
`B -> S .`, `Z -> S .`, a state without outgoing item, and the cell is the
reduce action of `B -> S`, its first item.  For Example 1 on storage whose
unwritten symbol slots hold `$`, state 1 holds `Z -> E .` and the cell is a
shift action.  For `S -> A | Ab`, `A -> x`, `P -> cdefghijkl | mnopqrs`, where
`$` has the column 19, state 1 is `Z -> S .` and the cell is the shift action
written for state 2 with the column subscript -1.  In Example 1 state 2 is the
single item `(Z, 0, 2)` of `Z -> E`, an item with the dot beyond the end, and
its cell for `$` is an accept action.  For `S -> b`,
`P -> acdefghijk | lmnopqrst`, augmented without `grammar_finish`, `$` has no
column, state 0 is `Z -> . S`, `S -> . b`, and its cell in column 19 is an
accept action. -/
theorem accept_overwritten :
    (productions_of grammar_accept_overwritten 'Z' = [⟨['S']⟩] ∧
      (grammar_create_lr_table 16 grammar_accept_overwritten (item_set_init 'Z')).map
        (fun r => (r.2, r.1.items_of 1,
          r.1.table.action_table 1 (set_order grammar_accept_overwritten.terminal_set '$'),
          r.1.out.any (Diag.is_action_overlap 1))) =
        .ok (0, [⟨'Z', 0, 1⟩, ⟨'A', 0, 1⟩, ⟨'S', 1, 1⟩], ⟨ACTION_REDUCE, 3, 'A', 0⟩, true)) ∧
    (productions_of grammar_accept_not_first 'Z' = [⟨['S']⟩] ∧
      (grammar_create_lr_table 16 grammar_accept_not_first (item_set_init 'Z')).map
        (fun r => (r.2, r.1.items_of 4,
          r.1.table.action_table 4 (set_order grammar_accept_not_first.terminal_set '$'))) =
        .ok (0, [⟨'B', 0, 1⟩, ⟨'Z', 0, 1⟩], ⟨ACTION_REDUCE, 2, 'B', 0⟩)) ∧
    (productions_of (example1_filled '$') 'Z' = [⟨['E']⟩] ∧
      (grammar_create_lr_table 16 (example1_filled '$') (item_set_init 'Z')).map
        (fun r => (r.2, r.1.items_of 1,
          (r.1.table.action_table 1 (set_order (example1_filled '$').terminal_set '$')).type)) =
        .ok (0, [⟨'Z', 0, 1⟩, ⟨'E', 0, 1⟩], ACTION_SHIFT)) ∧
    (productions_of grammar_accept_aliased 'Z' = [⟨['S']⟩] ∧
      set_order grammar_accept_aliased.terminal_set '$' = 19 ∧
      (grammar_create_lr_table 16 grammar_accept_aliased (item_set_init 'Z')).map
        (fun r => (r.2, r.1.items_of 1, r.1.items_of 2,
          r.1.table.action_table 1 (set_order grammar_accept_aliased.terminal_set '$'))) =
        .ok (0, [⟨'Z', 0, 1⟩], [⟨'S', 0, 1⟩, ⟨'S', 1, 1⟩],
          ⟨ACTION_SHIFT, 3, Char.ofNat 0, 0⟩)) ∧
    (productions_of example1 'Z' = [⟨['E']⟩] ∧
      (grammar_create_lr_table 16 example1 (item_set_init 'Z')).map
        (fun r => (r.2, r.1.items_of 2,
          (r.1.table.action_table 2 (set_order example1.terminal_set '$')).type)) =
        .ok (0, [⟨'Z', 0, 2⟩], ACTION_ACCEPT)) ∧
    (set_order grammar_unfinished.terminal_set '$' = -1 ∧
      (grammar_create_lr_table 16 grammar_unfinished (item_set_init 'Z')).map
        (fun r => (r.2, r.1.items_of 0, (r.1.table.action_table 0 19).type)) =
        .ok (0, [⟨'Z', 0, 0⟩, ⟨'S', 0, 0⟩], ACTION_ACCEPT)) := by
  refine ⟨⟨by decide, by decide⟩, ⟨by decide, by decide⟩, ⟨by decide, by decide⟩,
    ⟨by decide, by decide, by decide⟩, ⟨by decide, by decide⟩, ⟨by decide, by decide⟩⟩

/-- In a column other than the last of the table: after a successful
construction from an empty item set, in a state all of whose items have the
dot before the end of the production, the cell of a terminal of the terminal
set that follows no dot is an error action, and a driver step in that state
with that lookahead returns through the error branch. -/
theorem error_is_default (g : Grammar) (fuel : Nat) (c0 : Char) (b : Build) (code : Int)
    (hrun : grammar_create_lr_table fuel g (item_set_init c0) = .ok (b, code))
    (hcode : 0 ≤ code) (s : Nat) (item : Item) (hitem : b.set.items[s]? = some item)
    (hopen : ∀ x ∈ item.productions, ∀ p, item_get_production g x = some p →
      x.dot_offset < p.size)
    (a : Char) (hterm : is_terminal a = true) (hcol : 0 ≤ set_order g.terminal_set a)
    (hlast : set_order g.terminal_set a ≠ MAX_DIMENSIONS - 1)
    (hdot : ∀ x ∈ item.productions, ∀ p, item_get_production g x = some p →
      p.symbols[x.dot_offset]? ≠ some a) :
    (b.table.action_table s (set_order g.terminal_set a)).type = ACTION_ERROR ∧
    ∀ (input : List Char) (cfg : Config) (sym : Char) (rest : List LR0StackRecord),
      cfg.stack = ⟨sym, s⟩ :: rest → curr_input input cfg.input_offset = a →
      driver_step g b.table input cfg = .ok (.inr Exit.error_state) := by
  have hta : is_nonterminal a = false := by
    unfold is_terminal at hterm
    unfold is_nonterminal
    simpa using hterm
  have hrow := table_column g a hcol hta fuel c0 b code hrun hcode s item hitem
  have hnil : ∀ (l : List ItemProduction) (i0 : Nat) (v : Set),
      (∀ x ∈ l, x ∈ item.productions) → cell_writes g a l i0 v = [] := by
    intro l
    induction l with
    | nil =>
      intro i0 v _
      simp [cell_writes]
    | cons ip rest ih =>
      intro i0 v hsub
      have hrest := ih (i0 + 1)
      cases hg : item_get_production g ip with
      | none =>
        simp only [cell_writes, hg]
        exact hrest v (fun x hx => hsub x (List.mem_cons_of_mem _ hx))
      | some q =>
        have hlt := hopen ip (hsub ip (List.mem_cons_self _ _)) q hg
        have hne : symbol_at g q ip.dot_offset ≠ a := by
          intro he
          apply hdot ip (hsub ip (List.mem_cons_self _ _)) q hg
          rw [← he]
          exact getElem?_symbol_at hlt
        have hno : ¬((set_insert v (symbol_at g q ip.dot_offset)).2 ≠ 1 ∧
            symbol_at g q ip.dot_offset = a) := fun hh => hne hh.2
        simp only [cell_writes, hg]
        rw [if_neg (by omega), if_neg hno,
          hrest _ (fun x hx => hsub x (List.mem_cons_of_mem _ hx))]
        rfl
  have hty : (b.table.action_table s (set_order g.terminal_set a)).type = ACTION_ERROR := by
    unfold RowFinal at hrow
    rcases hrow with h | ⟨hsp, ip, hip, ⟨p, hp⟩, _⟩ | h
    · exact absurd h.1 hlast
    · have hmem : ip ∈ item.productions := List.mem_iff_getElem?.2 ⟨0, hip⟩
      have h1 := hopen ip hmem p hp
      have h2 := hsp ip hmem p hp
      omega
    · rw [hnil item.productions 0 set_init (fun x hx => hx)] at h
      exact h
  refine ⟨hty, ?_⟩
  intro input cfg sym rest hs ha
  unfold driver_step
  rw [hs]
  simp only [ha]
  rw [if_neg (by omega), if_neg (by simp)]
  simp only [hty]

end LR0

namespace LR0

open ActionType

/-! ## The grammar store -/

theorem find_set_set {l : List ProductionSet} {c : Char} {k : Nat} {ps ps2 : ProductionSet}
    (h : l[k]? = some ps) (hs : ps2.symbol = ps.symbol) :
    find_set (l.set k ps2) c = find_set l c := by
  induction l generalizing k with
  | nil => simp at h
  | cons a t ih =>
    cases k with
    | zero =>
      simp at h
      subst h
      simp [find_set, hs]
    | succ m =>
      simp at h
      simp [find_set, ih h]

theorem find_set_set_symbol {l : List ProductionSet} {c : Char} {k : Nat} {ps : ProductionSet}
    (prods : List Production) (nb : Bool) (h : l[k]? = some ps) :
    find_set (l.set k ⟨prods, ps.symbol, nb⟩) c = find_set l c :=
  find_set_set h rfl

theorem find_set_append_ne {l : List ProductionSet} {c : Char} (ps : ProductionSet)
    (h : ps.symbol ≠ c) : find_set (l ++ [ps]) c = find_set l c := by
  induction l with
  | nil => simp [find_set, h]
  | cons a t ih =>
    show find_set (a :: (t ++ [ps])) c = _
    simp [find_set, ih]

theorem find_set_lt {l : List ProductionSet} {c : Char} {k : Nat}
    (h : find_set l c = some k) : k < l.length := by
  obtain ⟨ps, h1, _⟩ := find_set_some h
  exact (List.getElem?_eq_some_iff.1 h1).1

/-- The symbol loop appends to the symbols the characters before the NUL that
are not white space. -/
theorem grammar_insert_scan_symbols (rule : List Char) (ts : Set) (syms : List Char) :
    (grammar_insert_scan rule ts syms).2 =
      syms ++ (rule.takeWhile (fun c => decide (c ≠ Char.ofNat 0))).filter
        (fun c => decide (¬ (c = ' ' ∨ c = '\t' ∨ c = '\n'))) := by
  induction rule generalizing ts syms with
  | nil => simp [grammar_insert_scan]
  | cons c cs ih =>
    unfold grammar_insert_scan
    by_cases h0 : c = Char.ofNat 0
    · simp [h0]
    · by_cases hw : c = ' ' ∨ c = '\t' ∨ c = '\n'
      · rw [if_neg h0, if_pos hw, ih]
        have hw2 : ¬ (¬ c = ' ' ∧ ¬ c = '\t' ∧ ¬ c = '\n') := by tauto
        simp [List.takeWhile_cons, h0, List.filter_cons, hw2]
      · rw [if_neg h0, if_neg hw, ih]
        have hw2 : ¬ c = ' ' ∧ ¬ c = '\t' ∧ ¬ c = '\n' := by tauto
        simp [List.takeWhile_cons, h0, List.filter_cons, hw2]

/-- The production sets after `grammar_insert_internal` on a stored set. -/
theorem insert_internal_set {g : Grammar} {k : Nat} {ps : ProductionSet} (rule : List Char)
    (h : g.set[k]? = some ps) :
    ∃ nb, (grammar_insert_internal g k rule).set =
      g.set.set k ⟨ps.productions ++ [⟨rule_symbols rule⟩], ps.symbol, nb⟩ := by
  unfold grammar_insert_internal
  rw [h]
  by_cases hat : rule.head? = some '@'
  · exact ⟨true, by simp [hat, rule_symbols]⟩
  · refine ⟨ps.nullable, ?_⟩
    simp only [hat, if_false]
    rw [grammar_insert_scan_symbols]
    simp [rule_symbols, hat]

/-- The production sets after `grammar_insert_rule`. -/
theorem insert_rule_set (g : Grammar) (N : Char) (rule : List Char) :
    (∀ k, grammar_find g N = some k → ∃ ps nb, g.set[k]? = some ps ∧
      (grammar_insert_rule g N rule).set =
        g.set.set k ⟨ps.productions ++ [⟨rule_symbols rule⟩], ps.symbol, nb⟩) ∧
    (grammar_find g N = none → ∃ nb, (grammar_insert_rule g N rule).set =
      g.set ++ [⟨[⟨rule_symbols rule⟩], N, nb⟩]) := by
  constructor
  · intro k hk
    obtain ⟨ps, h1, _⟩ := find_set_some hk
    have hk1 : grammar_find
        { g with nonterminal_set := (set_insert g.nonterminal_set N).1 } N = some k := hk
    obtain ⟨nb, hnb⟩ := insert_internal_set
      (g := { g with nonterminal_set := (set_insert g.nonterminal_set N).1 }) rule h1
    refine ⟨ps, nb, h1, ?_⟩
    unfold grammar_insert_rule
    simp only [hk1]
    exact hnb
  · intro hk
    have hk1 : grammar_find
        { g with nonterminal_set := (set_insert g.nonterminal_set N).1 } N = none := hk
    have h1 : (g.set ++ [(⟨[], N, false⟩ : ProductionSet)])[g.set.length]? =
        some ⟨[], N, false⟩ := by simp
    obtain ⟨nb, hnb⟩ := insert_internal_set
      (g := ⟨g.set ++ [⟨[], N, false⟩], (set_insert g.nonterminal_set N).1, g.terminal_set,
        g.starting_symbol, g.fill⟩) rule h1
    refine ⟨nb, ?_⟩
    unfold grammar_insert_rule
    simp only [hk1]
    rw [hnb]
    simp

/-- The productions of the nonterminal a rule was inserted for. -/
theorem insert_rule_productions (g : Grammar) (N : Char) (rule : List Char) :
    productions_of (grammar_insert_rule g N rule) N =
      productions_of g N ++ [⟨rule_symbols rule⟩] := by
  obtain ⟨hsome, hnone⟩ := insert_rule_set g N rule
  cases hk : grammar_find g N with
  | none =>
    obtain ⟨nb, hset⟩ := hnone hk
    have hf : find_set g.set N = none := hk
    simp [productions_of, grammar_find, hset, find_set_append _ hf, hf]
  | some k =>
    obtain ⟨ps, nb, h1, hset⟩ := hsome k hk
    have hf : find_set g.set N = some k := hk
    have hlt := find_set_lt hf
    have hf2 : find_set (g.set.set k ⟨ps.productions ++ [⟨rule_symbols rule⟩], ps.symbol, nb⟩) N =
        some k := by rw [find_set_set_symbol _ _ h1]; exact hf
    simp [productions_of, grammar_find, hset, hf2, hf, h1, hlt]

/-- The probe for a nonterminal after a rule was inserted for it. -/
theorem insert_rule_find (g : Grammar) (N : Char) (rule : List Char) :
    grammar_find (grammar_insert_rule g N rule) N =
      some ((grammar_find g N).getD g.set.length) := by
  obtain ⟨hsome, hnone⟩ := insert_rule_set g N rule
  cases hk : grammar_find g N with
  | none =>
    obtain ⟨nb, hset⟩ := hnone hk
    have hf : find_set g.set N = none := hk
    simp [grammar_find, hset, find_set_append _ hf]
  | some k =>
    obtain ⟨ps, nb, h1, hset⟩ := hsome k hk
    have hf : find_set g.set N = some k := hk
    simp [grammar_find, hset, find_set_set_symbol _ _ h1, hf]

/-- The probe and the productions of every other nonterminal are as before. -/
theorem insert_rule_other (g : Grammar) (N : Char) (rule : List Char) (M : Char)
    (hM : M ≠ N) :
    grammar_find (grammar_insert_rule g N rule) M = grammar_find g M ∧
    productions_of (grammar_insert_rule g N rule) M = productions_of g M := by
  obtain ⟨hsome, hnone⟩ := insert_rule_set g N rule
  cases hk : grammar_find g N with
  | none =>
    obtain ⟨nb, hset⟩ := hnone hk
    have hfind : find_set (g.set ++ [⟨[⟨rule_symbols rule⟩], N, nb⟩]) M = find_set g.set M :=
      find_set_append_ne _ (fun e => hM e.symm)
    refine ⟨by simp [grammar_find, hset, hfind], ?_⟩
    unfold productions_of grammar_find
    rw [hset, hfind]
    cases hm : find_set g.set M with
    | none => rfl
    | some m =>
      have hlt := find_set_lt hm
      simp [List.getElem?_append_left hlt]
  | some k =>
    obtain ⟨ps, nb, h1, hset⟩ := hsome k hk
    have hfind : find_set (g.set.set k ⟨ps.productions ++ [⟨rule_symbols rule⟩], ps.symbol, nb⟩) M =
        find_set g.set M := find_set_set_symbol _ _ h1
    refine ⟨by simp [grammar_find, hset, hfind], ?_⟩
    unfold productions_of grammar_find
    rw [hset, hfind]
    cases hm : find_set g.set M with
    | none => rfl
    | some m =>
      obtain ⟨pm, hpm, hsym⟩ := find_set_some hm
      obtain ⟨pk, hpk, hsymk⟩ := find_set_some (show find_set g.set N = some k from hk)
      have hne : k ≠ m := by
        intro e
        subst e
        rw [hpm] at hpk
        cases hpk
        exact hM (hsym.symm.trans hsymk)
      simp [List.getElem?_set_ne hne]

/-- For a rule whose symbols fit the array `symbols`, the call
`grammar_insert_rule g N rule` appends to the productions of `N` one
production, whose symbols are the characters of the rule before its NUL that
are not white space, or none when the rule begins with `@`; the productions
and the probe result of every other nonterminal are as before; `N` keeps the
index of its production set if it had one and otherwise gets a new last set,
and `grammar_find` answers that index. -/
theorem insert_rule_appends (g : Grammar) (N : Char) (rule : List Char)
    (_hfit : (rule_symbols rule).length ≤ SYMBOLMAXALLOCSIZE) :
    productions_of (grammar_insert_rule g N rule) N =
      productions_of g N ++ [⟨rule_symbols rule⟩] ∧
    (∀ M, M ≠ N →
      productions_of (grammar_insert_rule g N rule) M = productions_of g M ∧
      grammar_find (grammar_insert_rule g N rule) M = grammar_find g M) ∧
    (∀ k, grammar_find g N = some k →
      grammar_find (grammar_insert_rule g N rule) N = some k ∧
      (grammar_insert_rule g N rule).set.length = g.set.length) ∧
    (grammar_find g N = none →
      grammar_find (grammar_insert_rule g N rule) N = some g.set.length ∧
      (grammar_insert_rule g N rule).set.length = g.set.length + 1) ∧
    ((rule.head? = some '@' → rule_symbols rule = []) ∧
     (rule.head? ≠ some '@' → rule_symbols rule =
        (rule.takeWhile (fun c => decide (c ≠ Char.ofNat 0))).filter
          (fun c => decide (¬ (c = ' ' ∨ c = '\t' ∨ c = '\n'))))) := by
  obtain ⟨hsome, hnone⟩ := insert_rule_set g N rule
  refine ⟨insert_rule_productions g N rule, ?_, ?_, ?_, ?_, ?_⟩
  · intro M hM
    exact ⟨(insert_rule_other g N rule M hM).2, (insert_rule_other g N rule M hM).1⟩
  · intro k hk
    obtain ⟨ps, nb, h1, hset⟩ := hsome k hk
    refine ⟨by rw [insert_rule_find, hk]; rfl, ?_⟩
    rw [hset]
    simp
  · intro hk
    obtain ⟨nb, hset⟩ := hnone hk
    refine ⟨by rw [insert_rule_find, hk]; rfl, ?_⟩
    rw [hset]
    simp
  · intro h
    simp [rule_symbols, h]
  · intro h
    simp [rule_symbols, h]

/-! ## Start symbol, finishing and augmentation -/

/-- C23. `grammar_set_starting_symbol g c` makes `c` the starting symbol and
changes nothing else when `c` has a production set (in particular when `c`
has productions), and gives back the grammar as it was, with the starting
symbol it had, when `c` has no production set. -/
theorem set_starting_symbol_spec (g : Grammar) (c : Char) :
    (∀ k, grammar_find g c = some k →
      grammar_set_starting_symbol g c = { g with starting_symbol := c }) ∧
    (productions_of g c ≠ [] → (grammar_set_starting_symbol g c).starting_symbol = c) ∧
    (grammar_find g c = none → grammar_set_starting_symbol g c = g) := by
  have h1 : ∀ k, grammar_find g c = some k →
      grammar_set_starting_symbol g c = { g with starting_symbol := c } := by
    intro k hk
    obtain ⟨ps, hps, hsym⟩ := find_set_some hk
    unfold grammar_set_starting_symbol
    simp [hk, hps, hsym]
  refine ⟨h1, ?_, ?_⟩
  · intro hne
    cases hk : grammar_find g c with
    | none => simp [productions_of, hk] at hne
    | some k => rw [h1 k hk]
  · intro hk
    unfold grammar_set_starting_symbol
    simp [hk]

theorem set_order_append {l : List Char} {c : Char} (k : Char) (h : c ∈ l) :
    set_order ⟨l ++ [k]⟩ c = set_order ⟨l⟩ c := by
  unfold set_order
  simp [h, List.indexOf_append_of_mem h]

/-- Columns of the members of a set after an insertion. -/
theorem set_insert_order (s : Set) (k c : Char) (h : c ∈ s.data) :
    set_order (set_insert s k).1 c = set_order s c := by
  unfold set_insert
  by_cases h1 : k ∈ s.data
  · simp [h1]
  · by_cases h2 : s.data.length < SETMAXALLOCSIZE
    · simp only [h1, h2, if_true, if_false]
      exact set_order_append k h
    · simp [h1, h2]

/-- Membership of the inserted element after an insertion. -/
theorem set_insert_mem (s : Set) (k : Char) :
    k ∈ (set_insert s k).1.data ↔ (k ∈ s.data ∨ s.data.length < SETMAXALLOCSIZE) := by
  unfold set_insert
  by_cases h1 : k ∈ s.data
  · simp [h1]
  · by_cases h2 : s.data.length < SETMAXALLOCSIZE
    · simp [h1, h2]
    · simp [h1, h2]

set_option maxRecDepth 100000 in
/-- C24 (the claim fails). The grammar with the forty terminals `a`..`z`,
`0`..`9`, `+`, `-`, `*`, `/` has the start symbol `S`; `grammar_finish` answers
0 on it, and afterwards `$` is not in the terminal set and has no column. -/
theorem finish_drops_end_marker :
    grammar_forty_terminals.starting_symbol = 'S' ∧
    grammar_forty_terminals.terminal_set.data.length = 40 ∧
    (grammar_finish grammar_forty_terminals).2 = 0 ∧
    '$' ∉ (grammar_finish grammar_forty_terminals).1.terminal_set.data ∧
    set_order (grammar_finish grammar_forty_terminals).1.terminal_set '$' = -1 := by
  decide

/-- C24 (as amended). `grammar_finish g` answers a negative value exactly when
the starting symbol is NUL, the value `grammar_init` gives it, and then gives
back the grammar as it was; otherwise it answers 0, changes nothing but the
terminal set, every terminal keeps its column, and `$` is in the terminal set
afterwards exactly when it was there before or the set held fewer than
`SETMAXALLOCSIZE` elements. -/
theorem grammar_finish_spec (g : Grammar) :
    ((grammar_finish g).2 < 0 ↔ g.starting_symbol = Char.ofNat 0) ∧
    (g.starting_symbol = Char.ofNat 0 → (grammar_finish g).1 = g) ∧
    (g.starting_symbol ≠ Char.ofNat 0 →
      (grammar_finish g).2 = 0 ∧
      (grammar_finish g).1 = { g with terminal_set := (grammar_finish g).1.terminal_set } ∧
      ('$' ∈ (grammar_finish g).1.terminal_set.data ↔
        ('$' ∈ g.terminal_set.data ∨ g.terminal_set.data.length < SETMAXALLOCSIZE)) ∧
      (∀ c ∈ g.terminal_set.data, c ∈ (grammar_finish g).1.terminal_set.data ∧
        set_order (grammar_finish g).1.terminal_set c = set_order g.terminal_set c)) := by
  by_cases h : g.starting_symbol = Char.ofNat 0
  · simp [grammar_finish, h]
  · refine ⟨by simp [grammar_finish, h], fun e => absurd e h, fun _ => ?_⟩
    have hf : grammar_finish g =
        ({ g with terminal_set := (set_insert g.terminal_set '$').1 }, 0) := by
      simp [grammar_finish, h]
    rw [hf]
    refine ⟨rfl, rfl, set_insert_mem _ _, ?_⟩
    intro c hc
    refine ⟨?_, set_insert_order _ _ _ hc⟩
    show c ∈ (set_insert g.terminal_set '$').1.data
    unfold set_insert
    by_cases h1 : '$' ∈ g.terminal_set.data
    · simpa [h1] using hc
    · by_cases h2 : g.terminal_set.data.length < SETMAXALLOCSIZE
      · simp [h1, h2, hc]
      · simpa [h1, h2] using hc

/-- C27 (the claim fails). In the finished grammar `Z -> a`, `S -> b` with
start symbol `S`, `Z` has a production set before the augmentation, and after
it `Z` has two productions, `Z -> a` and `Z -> S`. -/
theorem augment_reuses_Z :
    grammar_with_Z_finished.starting_symbol = 'S' ∧
    grammar_find grammar_with_Z_finished 'Z' = some 0 ∧
    'Z' ∈ grammar_with_Z_finished.nonterminal_set.data ∧
    productions_of (grammar_lr0_augment grammar_with_Z_finished) 'Z' = [⟨['a']⟩, ⟨['S']⟩] := by
  decide

/-- C27 (as amended). For a grammar in which `Z` has no production set and
whose starting symbol is an upper-case letter, after `grammar_lr0_augment` the
nonterminal `Z` has the new last production set of the grammar, with exactly
one production, whose right-hand side is the single symbol
`g.starting_symbol`; the productions of every other symbol are as before. -/
theorem augment_fresh_start (g : Grammar) (hZ : grammar_find g 'Z' = none)
    (hS : is_nonterminal g.starting_symbol = true) :
    grammar_find (grammar_lr0_augment g) 'Z' = some g.set.length ∧
    (grammar_lr0_augment g).set.length = g.set.length + 1 ∧
    productions_of (grammar_lr0_augment g) 'Z' = [⟨[g.starting_symbol]⟩] ∧
    (∀ M, M ≠ 'Z' → productions_of (grammar_lr0_augment g) M = productions_of g M) := by
  obtain ⟨_, hnone⟩ := insert_rule_set g 'Z' [g.starting_symbol]
  obtain ⟨nb, hset⟩ := hnone hZ
  refine ⟨?_, ?_, augment_productions g hZ hS, ?_⟩
  · show grammar_find (grammar_insert_rule g 'Z' [g.starting_symbol]) 'Z' = _
    rw [insert_rule_find, hZ]
    rfl
  · show (grammar_insert_rule g 'Z' [g.starting_symbol]).set.length = _
    rw [hset]
    simp
  · intro M hM
    exact (insert_rule_other g 'Z' [g.starting_symbol] M hM).2

/-- Example 1 before its augmentation has no `Z` and the start symbol `E`;
after the augmentation `Z` has the single production `Z -> E`. -/
theorem augment_fresh_start_witness :
    grammar_find example1_finished 'Z' = none ∧
    is_nonterminal example1_finished.starting_symbol = true ∧
    grammar_find (grammar_lr0_augment example1_finished) 'Z' =
      some example1_finished.set.length ∧
    (grammar_lr0_augment example1_finished).set.length = example1_finished.set.length + 1 ∧
    productions_of (grammar_lr0_augment example1_finished) 'Z' =
      [⟨[example1_finished.starting_symbol]⟩] ∧
    (∀ M, M ≠ 'Z' → productions_of (grammar_lr0_augment example1_finished) M =
      productions_of example1_finished M) :=
  ⟨by decide, by decide, augment_fresh_start example1_finished (by decide) (by decide)⟩

/-- C28 (the claim fails). The grammar with the one rule `S -> a` and no start
symbol is refused by `grammar_finish`; `grammar_lr0_augment` applied to it
adds the nonterminal `Z` with a production set of one production, which has
no symbols. -/
theorem augment_without_start_adds :
    grammar_without_start.starting_symbol = Char.ofNat 0 ∧
    (grammar_finish grammar_without_start).2 = -1 ∧
    grammar_find grammar_without_start 'Z' = none ∧
    'Z' ∉ grammar_without_start.nonterminal_set.data ∧
    grammar_find (grammar_lr0_augment grammar_without_start) 'Z' = some 1 ∧
    'Z' ∈ (grammar_lr0_augment grammar_without_start).nonterminal_set.data ∧
    productions_of (grammar_lr0_augment grammar_without_start) 'Z' = [⟨[]⟩] := by
  decide

/-- C28 (as amended). `grammar_lr0_augment` makes no check of the starting
symbol: applied to a grammar whose starting symbol is still NUL it appends to
the productions of `Z` one production without symbols and leaves the
productions of every other symbol as they were.  Such a grammar is refused
one step earlier, by `grammar_finish`, which answers -1 and gives the grammar
back unchanged. -/
theorem augment_without_start (g : Grammar) (h : g.starting_symbol = Char.ofNat 0) :
    grammar_finish g = (g, -1) ∧
    productions_of (grammar_lr0_augment g) 'Z' = productions_of g 'Z' ++ [⟨[]⟩] ∧
    grammar_find (grammar_lr0_augment g) 'Z' ≠ none ∧
    (∀ M, M ≠ 'Z' → productions_of (grammar_lr0_augment g) M = productions_of g M) := by
  have hsym : rule_symbols [g.starting_symbol] = [] := by
    rw [h]
    decide
  refine ⟨by simp [grammar_finish, h], ?_, ?_, ?_⟩
  · show productions_of (grammar_insert_rule g 'Z' [g.starting_symbol]) 'Z' = _
    rw [insert_rule_productions, hsym]
  · show grammar_find (grammar_insert_rule g 'Z' [g.starting_symbol]) 'Z' ≠ none
    rw [insert_rule_find]
    simp
  · intro M hM
    exact (insert_rule_other g 'Z' [g.starting_symbol] M hM).2

/-- The grammar with the one rule `S -> a` and no start symbol: refused by
`grammar_finish`, and `grammar_lr0_augment` gives `Z` an empty production. -/
theorem augment_without_start_witness :
    grammar_without_start.starting_symbol = Char.ofNat 0 ∧
    grammar_finish grammar_without_start = (grammar_without_start, -1) ∧
    productions_of (grammar_lr0_augment grammar_without_start) 'Z' =
      productions_of grammar_without_start 'Z' ++ [⟨[]⟩] ∧
    grammar_find (grammar_lr0_augment grammar_without_start) 'Z' ≠ none ∧
    (∀ M, M ≠ 'Z' → productions_of (grammar_lr0_augment grammar_without_start) M =
      productions_of grammar_without_start M) :=
  ⟨by decide, augment_without_start grammar_without_start (by decide)⟩


end LR0

namespace LR0

open ActionType

/-! ## The symbol sets of a grammar -/

theorem set_insert_keeps (s : Set) (k : Char) {c : Char} (h : c ∈ s.data) :
    c ∈ (set_insert s k).1.data := by
  unfold set_insert
  by_cases h1 : k ∈ s.data
  · simpa [h1] using h
  · by_cases h2 : s.data.length < SETMAXALLOCSIZE
    · simp [h1, h2, h]
    · simpa [h1, h2] using h

theorem set_insert_length (s : Set) (k : Char) :
    s.data.length ≤ (set_insert s k).1.data.length := by
  unfold set_insert
  by_cases h1 : k ∈ s.data
  · simp [h1]
  · by_cases h2 : s.data.length < SETMAXALLOCSIZE
    · simp [h1, h2]
    · simp [h1, h2]

/-- The symbol loop keeps the terminals it was given, and unless the set it
leaves is full, it has recorded every terminal it stored. -/
theorem grammar_insert_scan_terminals :
    ∀ (rule : List Char) (ts : Set) (syms : List Char),
      (∀ c ∈ ts.data, c ∈ (grammar_insert_scan rule ts syms).1.data) ∧
      ts.data.length ≤ (grammar_insert_scan rule ts syms).1.data.length ∧
      ((grammar_insert_scan rule ts syms).1.data.length < SETMAXALLOCSIZE →
        ∀ c ∈ (grammar_insert_scan rule ts syms).2, c ∈ syms ∨
          (is_terminal c = true → c ∈ (grammar_insert_scan rule ts syms).1.data)) := by
  intro rule
  induction rule with
  | nil =>
    intro ts syms
    simp only [grammar_insert_scan]
    exact ⟨fun c h => h, le_refl _, fun _ c h => Or.inl h⟩
  | cons c cs ih =>
    intro ts syms
    unfold grammar_insert_scan
    by_cases h0 : c = Char.ofNat 0
    · simp only [h0, if_true]
      exact ⟨fun c h => h, le_refl _, fun _ c h => Or.inl h⟩
    · by_cases hw : c = ' ' ∨ c = '\t' ∨ c = '\n'
      · rw [if_neg h0, if_pos hw]
        exact ih ts syms
      · rw [if_neg h0, if_neg hw]
        obtain ⟨k1, k2, k3⟩ :=
          ih (if is_terminal c = true then (set_insert ts c).1 else ts) (syms ++ [c])
        have hsub : ∀ x ∈ ts.data,
            x ∈ (if is_terminal c = true then (set_insert ts c).1 else ts).data := by
          intro x hx
          split
          · exact set_insert_keeps ts c hx
          · exact hx
        have hlen : ts.data.length ≤
            (if is_terminal c = true then (set_insert ts c).1 else ts).data.length := by
          split
          · exact set_insert_length ts c
          · exact le_refl _
        refine ⟨fun x hx => k1 x (hsub x hx), le_trans hlen k2, ?_⟩
        intro hfull x hx
        rcases k3 hfull x hx with h | h
        · rcases List.mem_append.1 h with h | h
          · exact Or.inl h
          · simp only [List.mem_singleton] at h
            subst h
            refine Or.inr (fun ht => ?_)
            apply k1
            rw [if_pos ht]
            apply (set_insert_mem ts x).2
            right
            have : (set_insert ts x).1.data.length ≤
                (grammar_insert_scan cs (if is_terminal x = true then (set_insert ts x).1 else ts)
                  (syms ++ [x])).1.data.length := by
              have := k2
              rw [if_pos ht] at this
              rw [if_pos ht]
              exact this
            have h2 := set_insert_length ts x
            omega
        · exact Or.inr h

/-- The two symbol sets after `grammar_insert_rule`. -/
theorem insert_rule_symbol_sets (g : Grammar) (N : Char) (rule : List Char) :
    (grammar_insert_rule g N rule).nonterminal_set = (set_insert g.nonterminal_set N).1 ∧
    (grammar_insert_rule g N rule).terminal_set =
      if rule.head? = some '@' then g.terminal_set
      else (grammar_insert_scan rule g.terminal_set []).1 := by
  have key : ∀ (g1 : Grammar) (k : Nat), (∃ ps, g1.set[k]? = some ps) →
      (grammar_insert_internal g1 k rule).nonterminal_set = g1.nonterminal_set ∧
      (grammar_insert_internal g1 k rule).terminal_set =
        if rule.head? = some '@' then g1.terminal_set
        else (grammar_insert_scan rule g1.terminal_set []).1 := by
    intro g1 k hps
    obtain ⟨ps, hps⟩ := hps
    unfold grammar_insert_internal
    rw [hps]
    by_cases hat : rule.head? = some '@'
    · simp [hat]
    · simp [hat]
  unfold grammar_insert_rule
  cases hk : grammar_find
      { g with nonterminal_set := (set_insert g.nonterminal_set N).1 } N with
  | some k =>
    obtain ⟨ps, hps, _⟩ := find_set_some hk
    simp only [hk]
    exact key _ k ⟨ps, hps⟩
  | none =>
    simp only [hk]
    exact key _ _ ⟨⟨[], N, false⟩, by simp⟩

/-- An insertion keeps the symbol sets covering the stored symbols. -/
theorem symbols_covered_insert {g : Grammar} (h : SymbolsCovered g) (N : Char)
    (rule : List Char) : SymbolsCovered (grammar_insert_rule g N rule) := by
  obtain ⟨hnts, hts⟩ := insert_rule_symbol_sets g N rule
  obtain ⟨hsome, hnone⟩ := insert_rule_set g N rule
  obtain ⟨k1, k2, k3⟩ := grammar_insert_scan_terminals rule g.terminal_set []
  have hsyms : rule.head? ≠ some '@' →
      rule_symbols rule = (grammar_insert_scan rule g.terminal_set []).2 := by
    intro hat
    rw [grammar_insert_scan_symbols]
    simp [rule_symbols, hat]
  -- the terminal set grows
  have tsub : ∀ c ∈ g.terminal_set.data, c ∈ (grammar_insert_rule g N rule).terminal_set.data := by
    intro c hc
    rw [hts]
    split
    · exact hc
    · exact k1 c hc
  have tlen : g.terminal_set.data.length ≤
      (grammar_insert_rule g N rule).terminal_set.data.length := by
    rw [hts]
    split
    · exact le_refl _
    · exact k2
  -- the new production is covered
  have hnew : (grammar_insert_rule g N rule).terminal_set.data.length < SETMAXALLOCSIZE →
      ∀ c ∈ rule_symbols rule, is_terminal c = true →
        c ∈ (grammar_insert_rule g N rule).terminal_set.data := by
    intro hfull c hc ht
    by_cases hat : rule.head? = some '@'
    · simp [rule_symbols, hat] at hc
    · rw [hts, if_neg hat] at hfull ⊢
      rw [hsyms hat] at hc
      rcases k3 hfull c hc with h | h
      · simp at h
      · exact h ht
  constructor
  · intro hfull ps2 hps2 p hp c hc ht
    have hold := h.1 (lt_of_le_of_lt tlen hfull)
    cases hk : grammar_find g N with
    | none =>
      obtain ⟨nb, hset⟩ := hnone hk
      rw [hset] at hps2
      simp only [List.mem_append, List.mem_singleton] at hps2
      rcases hps2 with hps2 | hps2
      · exact tsub c (hold ps2 hps2 p hp c hc ht)
      · subst hps2
        simp only [List.mem_singleton] at hp
        subst hp
        exact hnew hfull c hc ht
    | some k =>
      obtain ⟨ps, nb, hps, hset⟩ := hsome k hk
      rw [hset] at hps2
      rcases List.mem_or_eq_of_mem_set hps2 with hps2 | hps2
      · exact tsub c (hold ps2 hps2 p hp c hc ht)
      · subst hps2
        simp only [List.mem_append, List.mem_singleton] at hp
        rcases hp with hp | hp
        · exact tsub c (hold ps (List.getElem?_mem hps) p hp c hc ht)
        · subst hp
          exact hnew hfull c hc ht
  · intro hfull ps2 hps2
    rw [hnts] at hfull ⊢
    have hlen := set_insert_length g.nonterminal_set N
    have hold := h.2 (lt_of_le_of_lt hlen hfull)
    cases hk : grammar_find g N with
    | none =>
      obtain ⟨nb, hset⟩ := hnone hk
      rw [hset] at hps2
      simp only [List.mem_append, List.mem_singleton] at hps2
      rcases hps2 with hps2 | hps2
      · exact set_insert_keeps _ _ (hold ps2 hps2)
      · subst hps2
        exact (set_insert_mem _ _).2 (Or.inr (lt_of_le_of_lt hlen hfull))
    | some k =>
      obtain ⟨ps, nb, hps, hset⟩ := hsome k hk
      rw [hset] at hps2
      rcases List.mem_or_eq_of_mem_set hps2 with hps2 | hps2
      · exact set_insert_keeps _ _ (hold ps2 hps2)
      · subst hps2
        exact set_insert_keeps _ _ (hold ps (List.getElem?_mem hps))

set_option maxRecDepth 100000 in
/-- C26 (the claim fails). After the one insertion `S -> Ab` the upper-case
letter `A` occurs in a right-hand side and is not in the nonterminal set, which
holds `S` alone.  After five insertions that store forty-one different
terminals, the terminal `=` of the last right-hand side is not in the terminal
set, which is full. -/
theorem rhs_nonterminal_not_recorded :
    productions_of grammar_undefined_rhs 'S' = [⟨['A', 'b']⟩] ∧
    is_nonterminal 'A' = true ∧
    grammar_undefined_rhs.nonterminal_set.data = ['S'] ∧
    'A' ∉ grammar_undefined_rhs.nonterminal_set.data ∧
    (productions_of grammar_forty_one_terminals 'S')[4]? = some ⟨['=']⟩ ∧
    is_terminal '=' = true ∧
    '=' ∉ grammar_forty_one_terminals.terminal_set.data ∧
    grammar_forty_one_terminals.terminal_set.data.length = 40 := by
  decide

/-- After any sequence of `grammar_insert_rule` calls on an
initialised grammar: unless the terminal set is full (`SETMAXALLOCSIZE`
elements), every terminal stored in a right-hand side is in the terminal set;
unless the nonterminal set is full, the symbol of every production set, that
is every symbol rules were inserted for, is in the nonterminal set. -/
theorem symbol_sets_cover (fill : Char) (rules : List (Char × List Char)) :
    SymbolsCovered
      (rules.foldl (fun g r => grammar_insert_rule g r.1 r.2) (grammar_init fill)) := by
  have hfold : ∀ (rs : List (Char × List Char)) (g : Grammar), SymbolsCovered g →
      SymbolsCovered (rs.foldl (fun g r => grammar_insert_rule g r.1 r.2) g) := by
    intro rs
    induction rs with
    | nil => intro g h; exact h
    | cons r rest ih =>
      intro g h
      exact ih _ (symbols_covered_insert h r.1 r.2)
  apply hfold
  constructor
  · intro _ ps hps
    simp [grammar_init] at hps
  · intro _ ps hps
    simp [grammar_init] at hps

end LR0

namespace LR0

open ActionType

/-! ## The symbol sets after a sequence of insertions -/

theorem set_insert_initial (s : Set) (k : Char) : s.data <+: (set_insert s k).1.data := by
  unfold set_insert
  by_cases h1 : k ∈ s.data
  · simp [h1]
  · by_cases h2 : s.data.length < SETMAXALLOCSIZE
    · simp [h1, h2]
    · simp [h1, h2]

theorem set_insert_bounded (s : Set) (k : Char) (h : s.data.length ≤ SETMAXALLOCSIZE) :
    (set_insert s k).1.data.length ≤ SETMAXALLOCSIZE := by
  unfold set_insert
  by_cases h1 : k ∈ s.data
  · simpa [h1] using h
  · by_cases h2 : s.data.length < SETMAXALLOCSIZE
    · simp only [h1, h2, if_true, if_false, List.length_append, List.length_singleton]
      omega
    · simpa [h1, h2] using h

theorem set_insert_origin (s : Set) (k : Char) {c : Char} (h : c ∈ (set_insert s k).1.data) :
    c ∈ s.data ∨ c = k := by
  unfold set_insert at h
  by_cases h1 : k ∈ s.data
  · simp only [h1, if_true] at h
    exact Or.inl h
  · by_cases h2 : s.data.length < SETMAXALLOCSIZE
    · simp only [h1, h2, if_true, if_false, List.mem_append, List.mem_singleton] at h
      exact h
    · simp only [h1, h2, if_false] at h
      exact Or.inl h

theorem set_insert_all_append (s : Set) (l1 l2 : List Char) :
    set_insert_all s (l1 ++ l2) = set_insert_all (set_insert_all s l1) l2 := by
  unfold set_insert_all
  rw [List.foldl_append]

theorem set_insert_all_cons (s : Set) (c : Char) (l : List Char) :
    set_insert_all s (c :: l) = set_insert_all (set_insert s c).1 l := rfl

theorem set_insert_all_initial (l : List Char) :
    ∀ s : Set, s.data <+: (set_insert_all s l).data := by
  induction l with
  | nil => intro s; exact List.prefix_rfl
  | cons c l ih =>
    intro s
    rw [set_insert_all_cons]
    exact (set_insert_initial s c).trans (ih _)

theorem set_insert_all_bounded (l : List Char) :
    ∀ s : Set, s.data.length ≤ SETMAXALLOCSIZE →
      (set_insert_all s l).data.length ≤ SETMAXALLOCSIZE := by
  induction l with
  | nil => intro s h; exact h
  | cons c l ih =>
    intro s h
    rw [set_insert_all_cons]
    exact ih _ (set_insert_bounded s c h)

theorem set_insert_all_origin (l : List Char) :
    ∀ (s : Set) (c : Char), c ∈ (set_insert_all s l).data → c ∈ s.data ∨ c ∈ l := by
  induction l with
  | nil => intro s c h; exact Or.inl h
  | cons k l ih =>
    intro s c h
    rw [set_insert_all_cons] at h
    rcases ih _ c h with h1 | h1
    · rcases set_insert_origin s k h1 with h2 | h2
      · exact Or.inl h2
      · exact Or.inr (by simp [h2])
    · exact Or.inr (by simp [h1])

/-- An element of the list is in the set that the insertions leave, unless
the set was full when it was to be entered. -/
theorem set_insert_all_entered (s : Set) (l1 : List Char) (c : Char) (l2 : List Char)
    (hs : s.data.length ≤ SETMAXALLOCSIZE) :
    c ∈ (set_insert_all s (l1 ++ c :: l2)).data ∨
      (set_insert_all s l1).data.length = SETMAXALLOCSIZE := by
  rw [set_insert_all_append, set_insert_all_cons]
  by_cases h : c ∈ (set_insert (set_insert_all s l1) c).1.data
  · exact Or.inl ((set_insert_all_initial l2 _).subset h)
  · right
    have h2 := mt (set_insert_mem (set_insert_all s l1) c).2 h
    have h3 := set_insert_all_bounded l1 s hs
    simp only [not_or, not_lt] at h2
    omega

/-- The terminal set that the symbol loop leaves is the one that entering the
terminals among the stored symbols leaves. -/
theorem grammar_insert_scan_set (rule : List Char) :
    ∀ (ts : Set) (syms : List Char),
      (grammar_insert_scan rule ts syms).1 =
        set_insert_all ts
          (((rule.takeWhile (fun c => decide (c ≠ Char.ofNat 0))).filter
            (fun c => decide (¬ (c = ' ' ∨ c = '\t' ∨ c = '\n')))).filter is_terminal) := by
  induction rule with
  | nil => intro ts syms; rfl
  | cons c cs ih =>
    intro ts syms
    unfold grammar_insert_scan
    by_cases h0 : c = Char.ofNat 0
    · simp [h0, set_insert_all]
    · by_cases hw : c = ' ' ∨ c = '\t' ∨ c = '\n'
      · rw [if_neg h0, if_pos hw, ih]
        have hw2 : ¬ (¬ c = ' ' ∧ ¬ c = '\t' ∧ ¬ c = '\n') := by tauto
        simp [List.takeWhile_cons, h0, List.filter_cons, hw2]
      · rw [if_neg h0, if_neg hw, ih]
        have hw2 : ¬ c = ' ' ∧ ¬ c = '\t' ∧ ¬ c = '\n' := by tauto
        by_cases ht : is_terminal c = true
        · simp [List.takeWhile_cons, h0, List.filter_cons, hw2, ht, set_insert_all]
        · simp [List.takeWhile_cons, h0, List.filter_cons, hw2, ht, set_insert_all]

/-- The two symbol sets after one insertion. -/
theorem insert_rule_sets_exact (g : Grammar) (N : Char) (rule : List Char) :
    (grammar_insert_rule g N rule).nonterminal_set = set_insert_all g.nonterminal_set [N] ∧
    (grammar_insert_rule g N rule).terminal_set =
      set_insert_all g.terminal_set (rule_terminals rule) := by
  obtain ⟨h1, h2⟩ := insert_rule_symbol_sets g N rule
  refine ⟨h1, ?_⟩
  rw [h2]
  unfold rule_terminals rule_symbols
  by_cases hat : rule.head? = some '@'
  · simp [hat, set_insert_all]
  · simp only [hat, if_false]
    exact grammar_insert_scan_set rule _ _

/-- The two symbol sets after a sequence of insertions. -/
theorem insert_rules_sets (rules : List (Char × List Char)) :
    ∀ g : Grammar,
      (insert_rules g rules).nonterminal_set =
        set_insert_all g.nonterminal_set (rules.map (fun r => r.1)) ∧
      (insert_rules g rules).terminal_set =
        set_insert_all g.terminal_set (rules.map (fun r => rule_terminals r.2)).join := by
  induction rules with
  | nil => intro g; exact ⟨rfl, rfl⟩
  | cons r rest ih =>
    intro g
    obtain ⟨k1, k2⟩ := ih (grammar_insert_rule g r.1 r.2)
    obtain ⟨e1, e2⟩ := insert_rule_sets_exact g r.1 r.2
    constructor
    · show (insert_rules (grammar_insert_rule g r.1 r.2) rest).nonterminal_set = _
      rw [k1, e1]
      rfl
    · show (insert_rules (grammar_insert_rule g r.1 r.2) rest).terminal_set = _
      rw [k2, e2, List.map_cons]
      show _ = set_insert_all g.terminal_set
        (rule_terminals r.2 ++ (rest.map (fun r => rule_terminals r.2)).join)
      rw [set_insert_all_append]

/-- C26 (as amended). After any sequence of `grammar_insert_rule` calls on an
initialised grammar the terminal set is what `set_insert` leaves when the
terminals stored in the right-hand sides are entered in the order in which they
occur, and the nonterminal set is what it leaves when the left-hand sides are
entered in order.  So every terminal of a right-hand side is in the terminal
set unless the set held `SETMAXALLOCSIZE` elements when that occurrence was to
be entered, and every left-hand side is in the nonterminal set unless that set
was full in the same way; the terminal set holds only terminals of right-hand
sides and the nonterminal set only left-hand sides, so an upper-case symbol
that occurs in right-hand sides only is in neither; and further insertions
leave what the sets hold in its place. -/
theorem symbol_sets_exact (fill : Char) (rules : List (Char × List Char)) :
    (insert_rules (grammar_init fill) rules).terminal_set =
      set_insert_all set_init (rules.map (fun r => rule_terminals r.2)).join ∧
    (insert_rules (grammar_init fill) rules).nonterminal_set =
      set_insert_all set_init (rules.map (fun r => r.1)) ∧
    (∀ l1 c l2, (rules.map (fun r => rule_terminals r.2)).join = l1 ++ c :: l2 →
      c ∈ (insert_rules (grammar_init fill) rules).terminal_set.data ∨
        (set_insert_all set_init l1).data.length = SETMAXALLOCSIZE) ∧
    (∀ l1 c l2, rules.map (fun r => r.1) = l1 ++ c :: l2 →
      c ∈ (insert_rules (grammar_init fill) rules).nonterminal_set.data ∨
        (set_insert_all set_init l1).data.length = SETMAXALLOCSIZE) ∧
    (∀ c ∈ (insert_rules (grammar_init fill) rules).terminal_set.data,
      is_terminal c = true ∧ ∃ r ∈ rules, c ∈ rule_symbols r.2) ∧
    (∀ c ∈ (insert_rules (grammar_init fill) rules).nonterminal_set.data,
      ∃ r ∈ rules, r.1 = c) ∧
    (∀ more : List (Char × List Char),
      (insert_rules (grammar_init fill) rules).terminal_set.data <+:
        (insert_rules (insert_rules (grammar_init fill) rules) more).terminal_set.data ∧
      (insert_rules (grammar_init fill) rules).nonterminal_set.data <+:
        (insert_rules (insert_rules (grammar_init fill) rules) more).nonterminal_set.data) := by
  obtain ⟨hn, ht⟩ := insert_rules_sets rules (grammar_init fill)
  have hn0 : (grammar_init fill).nonterminal_set = set_init := rfl
  have ht0 : (grammar_init fill).terminal_set = set_init := rfl
  rw [hn0] at hn
  rw [ht0] at ht
  have h40 : set_init.data.length ≤ SETMAXALLOCSIZE := by decide
  refine ⟨ht, hn, ?_, ?_, ?_, ?_, ?_⟩
  · intro l1 c l2 hl
    rw [ht, hl]
    exact set_insert_all_entered set_init l1 c l2 h40
  · intro l1 c l2 hl
    rw [hn, hl]
    exact set_insert_all_entered set_init l1 c l2 h40
  · intro c hc
    rw [ht] at hc
    rcases set_insert_all_origin _ _ c hc with h | h
    · simp [set_init] at h
    · simp only [List.mem_join, List.mem_map] at h
      obtain ⟨l, ⟨r, hr, hl⟩, hcl⟩ := h
      subst hl
      unfold rule_terminals at hcl
      rw [List.mem_filter] at hcl
      exact ⟨hcl.2, r, hr, hcl.1⟩
  · intro c hc
    rw [hn] at hc
    rcases set_insert_all_origin _ _ c hc with h | h
    · simp [set_init] at h
    · simp only [List.mem_map] at h
      obtain ⟨r, hr, he⟩ := h
      exact ⟨r, hr, he⟩
  · intro more
    obtain ⟨mn, mt⟩ := insert_rules_sets more (insert_rules (grammar_init fill) rules)
    rw [mn, mt]
    exact ⟨set_insert_all_initial _ _, set_insert_all_initial _ _⟩

end LR0

namespace LR0

open ActionType

/-! ## The driver: reductions -/

/-- The pop loop on a stack whose first entries are as many as the symbols to
pop. -/
theorem pop_symbols_split :
    ∀ (cs : List Char) (tops below : List LR0StackRecord), tops.length = cs.length →
      pop_symbols cs (tops ++ below) =
        if tops.map (fun r => r.symbol) = cs then .ok (some below) else .ok none := by
  intro cs
  induction cs with
  | nil =>
    intro tops below h
    have : tops = [] := List.length_eq_zero.1 h
    subst this
    simp [pop_symbols]
  | cons c cs ih =>
    intro tops below h
    cases tops with
    | nil => simp at h
    | cons t ts =>
      simp only [List.length_cons, Nat.add_right_cancel_iff] at h
      show pop_symbols (c :: cs) (t :: (ts ++ below)) = _
      unfold pop_symbols
      by_cases hc : t.symbol = c
      · simp only [hc, ne_eq, not_true_eq_false, if_false]
        rw [ih ts below h]
        simp [hc]
      · simp [hc]

/-- When the pop loop leaves a stack, the entries it removed are as many as the
symbols and carried them. -/
theorem pop_symbols_some :
    ∀ (cs : List Char) (stack rem : List LR0StackRecord),
      pop_symbols cs stack = .ok (some rem) →
      ∃ tops, stack = tops ++ rem ∧ tops.map (fun r => r.symbol) = cs := by
  intro cs
  induction cs with
  | nil =>
    intro stack rem h
    simp only [pop_symbols, Res.ok.injEq, Option.some.injEq] at h
    exact ⟨[], by simp [h], rfl⟩
  | cons c cs ih =>
    intro stack rem h
    cases stack with
    | nil => simp [pop_symbols] at h
    | cons t ts =>
      unfold pop_symbols at h
      by_cases hc : t.symbol = c
      · simp only [hc, ne_eq, not_true_eq_false, if_false] at h
        obtain ⟨tops, h1, h2⟩ := ih ts rem h
        exact ⟨t :: tops, by simp [h1], by simp [hc, h2]⟩
      · simp [hc] at h

/-- The pop loop has no budget to use up. -/
theorem pop_symbols_fuel (cs : List Char) (stack : List LR0StackRecord) :
    pop_symbols cs stack ≠ .nofuel := by
  induction cs generalizing stack with
  | nil => simp [pop_symbols]
  | cons c cs ih =>
    cases stack with
    | nil => simp [pop_symbols]
    | cons t ts =>
      unfold pop_symbols
      split
      · simp
      · exact ih ts

/-- The pop loop on a stack whose bottom entry carries a symbol that is not
among the symbols to pop: it never reads below the stack and never removes the
bottom entry, and it finds a mismatch when the symbols are at least as many as
the entries. -/
theorem pop_symbols_bottom :
    ∀ (cs : List Char) (above : List LR0StackRecord) (bottom : LR0StackRecord),
      bottom.symbol ∉ cs →
      (pop_symbols cs (above ++ [bottom]) = .ok none ∨
        ∃ above2, pop_symbols cs (above ++ [bottom]) = .ok (some (above2 ++ [bottom]))) ∧
      (above.length < cs.length → pop_symbols cs (above ++ [bottom]) = .ok none) := by
  intro cs
  induction cs with
  | nil =>
    intro above bottom _
    exact ⟨Or.inr ⟨above, by simp [pop_symbols]⟩, by simp⟩
  | cons c cs ih =>
    intro above bottom hb
    have hb1 : bottom.symbol ≠ c := fun e => hb (by simp [e])
    have hb2 : bottom.symbol ∉ cs := fun e => hb (by simp [e])
    cases above with
    | nil =>
      simp [pop_symbols, hb1]
    | cons t ts =>
      show (pop_symbols (c :: cs) (t :: (ts ++ [bottom])) = _ ∨ ∃ above2,
        pop_symbols (c :: cs) (t :: (ts ++ [bottom])) = _) ∧
        (_ → pop_symbols (c :: cs) (t :: (ts ++ [bottom])) = _)
      unfold pop_symbols
      by_cases hc : t.symbol = c
      · simp only [hc, ne_eq, not_true_eq_false, if_false]
        obtain ⟨k1, k2⟩ := ih ts bottom hb2
        exact ⟨k1, fun hlen => k2 (by simpa using hlen)⟩
      · simp [hc]

/-- An iteration that takes the reduce branch, in terms of the pop loop. -/
theorem driver_step_reduce {g : Grammar} {table : LR0ParsingTable} {input : List Char}
    {cfg : Config} {action : ActionRecord} {p : Production}
    (h : reduces_by g table input cfg action p) :
    driver_step g table input cfg =
      match pop_symbols p.symbols.reverse cfg.stack with
      | .undefined => .undefined
      | .nofuel => .nofuel
      | .ok none => .ok (.inr .symbol_mismatch)
      | .ok (some []) => .undefined
      | .ok (some (below :: rest)) =>
        .ok (.inl ⟨⟨action.nonterminal, table.goto_table below.target_state
          (set_order g.nonterminal_set action.nonterminal)⟩ :: below :: rest, cfg.input_offset,
          cfg.trace ++ [action]⟩) := by
  obtain ⟨top, rest, hs, hcol, hrow, hact, htype, hp⟩ := h
  subst hact
  unfold driver_step
  rw [hs]
  simp only []
  rw [if_neg (by omega), if_neg (by omega)]
  simp only [htype, hp]

/-- An iteration that does not return is a shift or a reduction. -/
theorem driver_step_cases {g : Grammar} {table : LR0ParsingTable} {input : List Char}
    {cfg cfg1 : Config} (h : driver_step g table input cfg = .ok (.inl cfg1)) :
    ∃ top rest action, cfg.stack = top :: rest ∧
      0 ≤ set_order g.terminal_set (curr_input input cfg.input_offset) ∧
      0 ≤ top.target_state ∧
      table.action_table top.target_state
        (set_order g.terminal_set (curr_input input cfg.input_offset)) = action ∧
      ((action.type = ACTION_SHIFT ∧
          cfg1 = ⟨⟨curr_input input cfg.input_offset, action.target_state⟩ :: cfg.stack,
            cfg.input_offset + 1, cfg.trace ++ [action]⟩) ∨
       (action.type = ACTION_REDUCE ∧ ∃ p below rest2,
          item_get_production g ⟨action.nonterminal, action.production, 0⟩ = some p ∧
          pop_symbols p.symbols.reverse cfg.stack = .ok (some (below :: rest2)) ∧
          cfg1 = ⟨⟨action.nonterminal, table.goto_table below.target_state
            (set_order g.nonterminal_set action.nonterminal)⟩ :: below :: rest2,
            cfg.input_offset, cfg.trace ++ [action]⟩)) := by
  unfold driver_step at h
  cases hs : cfg.stack with
  | nil => simp [hs] at h
  | cons top rest =>
    simp only [hs] at h
    by_cases hunk : set_order g.terminal_set (curr_input input cfg.input_offset) < 0
    · simp [hunk] at h
    · simp only [hunk, if_false] at h
      by_cases htop : top.target_state < 0
      · simp [htop] at h
      · simp only [htop, if_false] at h
        refine ⟨top, rest, _, rfl, by omega, by omega, rfl, ?_⟩
        split at h
        · simp at h
        · rename_i hty
          simp only [Res.ok.injEq, Sum.inl.injEq] at h
          exact Or.inl ⟨hty, h.symm⟩
        · rename_i hty
          split at h
          · simp at h
          · rename_i p hp
            split at h
            · simp at h
            · simp at h
            · simp at h
            · simp at h
            · rename_i below rest2 hpop
              simp only [Res.ok.injEq, Sum.inl.injEq] at h
              exact Or.inr ⟨hty, p, below, rest2, hp, hpop, h.symm⟩
        · simp at h

/-- C21. When an iteration of `grammar_input_check` takes the reduce branch
with the production `p`, and `tops` are the top `p.size` stack entries (top
entry first): if their symbols are the right-hand side of `p` read from its
last symbol to its first, the iteration removes exactly these entries, pushes
the one entry made of the left-hand side and of the GOTO entry of the state
then on top for that symbol, and leaves the input cursor where it was; if
they are not, the iteration returns through the branch whose value is 0. -/
theorem reduce_checks_handle (g : Grammar) (table : LR0ParsingTable) (input : List Char)
    (cfg : Config) (action : ActionRecord) (p : Production)
    (tops below : List LR0StackRecord)
    (hred : reduces_by g table input cfg action p)
    (hstack : cfg.stack = tops ++ below) (hk : tops.length = p.size) :
    (tops.map (fun r => r.symbol) = p.symbols.reverse →
      ∀ s rest, below = s :: rest →
        driver_step g table input cfg = .ok (.inl
          ⟨⟨action.nonterminal, table.goto_table s.target_state
              (set_order g.nonterminal_set action.nonterminal)⟩ :: below,
            cfg.input_offset, cfg.trace ++ [action]⟩)) ∧
    (tops.map (fun r => r.symbol) ≠ p.symbols.reverse →
      driver_step g table input cfg = .ok (.inr Exit.symbol_mismatch) ∧
      Exit.code Exit.symbol_mismatch = 0) := by
  have hsplit := pop_symbols_split p.symbols.reverse tops below
    (by rw [hk]; simp [Production.size])
  rw [← hstack] at hsplit
  constructor
  · intro hm s rest hb
    rw [driver_step_reduce hred, hsplit, if_pos hm, hb]
  · intro hm
    refine ⟨?_, rfl⟩
    rw [driver_step_reduce hred, hsplit, if_neg hm]

end LR0

namespace LR0

open ActionType

set_option maxRecDepth 100000 in
/-- Witness for `reduce_checks_handle`: the grammar `E -> E+T | T`, `T -> id`.
On the input `id` the first two iterations shift `i` and `d`; with the stack
they leave, the third iteration reduces by `T -> id`: it removes the two
entries and pushes `T` with state 7, the GOTO entry of state 0.  With `+` in
place of `i` below the top entry, the same reduction returns through the
mismatch branch. -/
theorem reduce_checks_handle_witness :
    (grammar_create_lr_table 16 example1 (item_set_init 'Z')).bind
      (fun r => (driver_run example1 r.1.table "id".toList 2 ⟨[⟨'$', 0⟩], 0, []⟩).map
        (Sum.elim (fun cfg => some (cfg.stack, cfg.input_offset)) (fun _ => none))) =
      .ok (some ([⟨'d', 6⟩, ⟨'i', 5⟩, ⟨'$', 0⟩], 2)) ∧
    ∃ b, grammar_create_lr_table 16 example1 (item_set_init 'Z') = .ok (b, 0) ∧
      driver_step example1 b.table "id".toList ⟨[⟨'d', 6⟩, ⟨'i', 5⟩, ⟨'$', 0⟩], 2, []⟩ =
        .ok (.inl ⟨[⟨'T', 7⟩, ⟨'$', 0⟩], 2, [⟨ACTION_REDUCE, 2, 'T', 0⟩]⟩) ∧
      driver_step example1 b.table "id".toList ⟨[⟨'d', 6⟩, ⟨'+', 5⟩, ⟨'$', 0⟩], 2, []⟩ =
        .ok (.inr Exit.symbol_mismatch) := by
  refine ⟨by decide, ?_⟩
  have hm : (grammar_create_lr_table 16 example1 (item_set_init 'Z')).map
      (fun r => (r.2, r.1.table.action_table 6 (set_order example1.terminal_set '$'),
        r.1.table.goto_table 0 (set_order example1.nonterminal_set 'T'))) =
      .ok (0, ⟨ACTION_REDUCE, 2, 'T', 0⟩, 7) := by
    decide
  cases hrun : grammar_create_lr_table 16 example1 (item_set_init 'Z') with
  | undefined => rw [hrun] at hm; simp [Res.map] at hm
  | nofuel => rw [hrun] at hm; simp [Res.map] at hm
  | ok r =>
    obtain ⟨b, code⟩ := r
    rw [hrun] at hm
    simp only [Res.map, Res.ok.injEq, Prod.mk.injEq] at hm
    obtain ⟨hc, hcell, hgoto⟩ := hm
    subst hc
    have hin : curr_input "id".toList 2 = '$' := by decide
    have hred : ∀ (st : List LR0StackRecord),
        reduces_by example1 b.table "id".toList ⟨⟨'d', 6⟩ :: st, 2, []⟩
          ⟨ACTION_REDUCE, 2, 'T', 0⟩ ⟨['i', 'd']⟩ := by
      intro st
      have hcol : 0 ≤ set_order example1.terminal_set (curr_input "id".toList 2) := by decide
      refine ⟨⟨'d', 6⟩, st, rfl, hcol, by decide, ?_, rfl, by decide⟩
      show b.table.action_table 6 (set_order example1.terminal_set (curr_input "id".toList 2)) = _
      rw [hin]
      exact hcell
    have h1 := (reduce_checks_handle example1 b.table "id".toList
      ⟨[⟨'d', 6⟩, ⟨'i', 5⟩, ⟨'$', 0⟩], 2, []⟩ ⟨ACTION_REDUCE, 2, 'T', 0⟩ ⟨['i', 'd']⟩
      [⟨'d', 6⟩, ⟨'i', 5⟩] [⟨'$', 0⟩] (hred _) rfl rfl).1 (by decide) ⟨'$', 0⟩ [] rfl
    have h2 := (reduce_checks_handle example1 b.table "id".toList
      ⟨[⟨'d', 6⟩, ⟨'+', 5⟩, ⟨'$', 0⟩], 2, []⟩ ⟨ACTION_REDUCE, 2, 'T', 0⟩ ⟨['i', 'd']⟩
      [⟨'d', 6⟩, ⟨'+', 5⟩] [⟨'$', 0⟩] (hred _) rfl rfl).2 (by decide)
    refine ⟨b, rfl, ?_, h2.1⟩
    rw [h1]
    simp only [hgoto, List.nil_append]

end LR0

namespace LR0

open ActionType

/-! ## The driver: the bottom of the stack -/

/-- In a grammar none of whose productions contains `$`, an iteration that
does not return keeps the bottom entry of the stack. -/
theorem driver_step_bottom {g : Grammar} {table : LR0ParsingTable} {input : List Char}
    (hg : ∀ ps ∈ g.set, ∀ p ∈ ps.productions, '$' ∉ p.symbols)
    {cfg cfg1 : Config} (h : driver_step g table input cfg = .ok (.inl cfg1))
    (hb : ∃ above, cfg.stack = above ++ [⟨'$', 0⟩]) :
    ∃ above, cfg1.stack = above ++ [⟨'$', 0⟩] := by
  obtain ⟨above, hb⟩ := hb
  obtain ⟨top, rest, action, hs, _, _, _, hcase⟩ := driver_step_cases h
  rcases hcase with ⟨_, h1⟩ | ⟨_, p, below, rest2, hp, hpop, h1⟩
  · subst h1
    exact ⟨⟨curr_input input cfg.input_offset, action.target_state⟩ :: above, by simp [hb]⟩
  · subst h1
    obtain ⟨ps, hps, hpp⟩ := item_get_production_stored hp
    have hno : (⟨'$', 0⟩ : LR0StackRecord).symbol ∉ p.symbols.reverse := by
      simpa using hg ps hps p hpp
    rw [hb] at hpop
    rcases (pop_symbols_bottom p.symbols.reverse above ⟨'$', 0⟩ hno).1 with h2 | ⟨above2, h2⟩
    · rw [h2] at hpop
      simp at hpop
    · rw [h2] at hpop
      simp only [Res.ok.injEq, Option.some.injEq] at hpop
      exact ⟨⟨action.nonterminal, table.goto_table below.target_state
        (set_order g.nonterminal_set action.nonterminal)⟩ :: above2, by simp [← hpop]⟩

/-- In a grammar none of whose productions contains `$`, the variables reached
after `n` iterations have the bottom entry the stack started with. -/
theorem driver_run_bottom {g : Grammar} {table : LR0ParsingTable} {input : List Char}
    (hg : ∀ ps ∈ g.set, ∀ p ∈ ps.productions, '$' ∉ p.symbols) :
    ∀ (n : Nat) (cfg0 cfg : Config), driver_run g table input n cfg0 = .ok (.inl cfg) →
      (∃ above, cfg0.stack = above ++ [⟨'$', 0⟩]) →
      ∃ above, cfg.stack = above ++ [⟨'$', 0⟩] := by
  intro n
  induction n with
  | zero =>
    intro cfg0 cfg h h0
    simp only [driver_run, Res.ok.injEq, Sum.inl.injEq] at h
    subst h
    exact h0
  | succ n ih =>
    intro cfg0 cfg h h0
    unfold driver_run at h
    cases hstep : driver_step g table input cfg0 with
    | undefined => simp [hstep] at h
    | nofuel => simp [hstep] at h
    | ok v =>
      cases v with
      | inr e => simp [hstep] at h
      | inl cfg1 =>
        simp only [hstep] at h
        exact ih cfg1 cfg h (driver_step_bottom hg hstep h0)

/-- The loop returns from variables that some number of iterations reaches. -/
theorem driver_loop_exit (g : Grammar) (table : LR0ParsingTable) (input : List Char) :
    ∀ (fuel : Nat) (cfg0 cfg : Config) (e : Exit),
      driver_loop g table input fuel cfg0 = .ok (e, cfg) →
      ∃ n, driver_run g table input n cfg0 = .ok (.inl cfg) ∧
        driver_step g table input cfg = .ok (.inr e) := by
  intro fuel
  induction fuel with
  | zero =>
    intro cfg0 cfg e h
    simp [driver_loop] at h
  | succ fuel ih =>
    intro cfg0 cfg e h
    unfold driver_loop at h
    cases hstep : driver_step g table input cfg0 with
    | undefined => simp [hstep] at h
    | nofuel => simp [hstep] at h
    | ok v =>
      cases v with
      | inr e1 =>
        simp only [hstep, Res.ok.injEq, Prod.mk.injEq] at h
        obtain ⟨he, hc⟩ := h
        subst he hc
        exact ⟨0, rfl, hstep⟩
      | inl cfg1 =>
        simp only [hstep] at h
        obtain ⟨n, h1, h2⟩ := ih cfg1 cfg e h
        refine ⟨n + 1, ?_, h2⟩
        unfold driver_run
        simp only [hstep]
        exact h1

/-- An iteration entered with a stack that is not empty does not take the
return after the loop. -/
theorem driver_step_stack_empty {g : Grammar} {table : LR0ParsingTable} {input : List Char}
    {cfg : Config} (h : driver_step g table input cfg = .ok (.inr Exit.stack_empty)) :
    cfg.stack = [] := by
  unfold driver_step at h
  cases hs : cfg.stack with
  | nil => rfl
  | cons top rest =>
    simp only [hs] at h
    by_cases hunk : set_order g.terminal_set (curr_input input cfg.input_offset) < 0
    · simp [hunk] at h
    · simp only [hunk, if_false] at h
      by_cases htop : top.target_state < 0
      · simp [htop] at h
      · simp only [htop, if_false] at h
        split at h
        · simp at h
        · simp at h
        · split at h
          · simp at h
          · split at h <;> simp at h
        · simp at h

/-- C30. For a grammar none of whose productions contains `$`, any table and
any input: after every number of iterations of `grammar_input_check` the stack
still ends with the bottom entry (`$`, state 0), so its height is at least 1; a
reduction by a production with at least as many symbols as the stack has
entries, the bottom entry included, returns through the mismatch branch, whose
value is 0; and whenever `grammar_input_check` returns, it is not through the
return after the loop, so the value is not -1. -/
theorem no_stack_underflow (g : Grammar) (table : LR0ParsingTable) (input : List Char)
    (hg : ∀ ps ∈ g.set, ∀ p ∈ ps.productions, '$' ∉ p.symbols) :
    (∀ n cfg, driver_run g table input n ⟨[⟨'$', 0⟩], 0, []⟩ = .ok (.inl cfg) →
      (∃ above, cfg.stack = above ++ [⟨'$', 0⟩]) ∧ 1 ≤ cfg.stack.length) ∧
    (∀ n cfg action p, driver_run g table input n ⟨[⟨'$', 0⟩], 0, []⟩ = .ok (.inl cfg) →
      reduces_by g table input cfg action p → cfg.stack.length ≤ p.size →
      driver_step g table input cfg = .ok (.inr Exit.symbol_mismatch) ∧
      Exit.code Exit.symbol_mismatch = 0) ∧
    (∀ fuel e cfg, grammar_input_check fuel g table input = .ok (e, cfg) →
      e ≠ Exit.stack_empty ∧ e.code ≠ -1 ∧ ∃ above, cfg.stack = above ++ [⟨'$', 0⟩]) := by
  have hrun : ∀ n cfg, driver_run g table input n ⟨[⟨'$', 0⟩], 0, []⟩ = .ok (.inl cfg) →
      ∃ above, cfg.stack = above ++ [⟨'$', 0⟩] :=
    fun n cfg h => driver_run_bottom hg n _ cfg h ⟨[], rfl⟩
  refine ⟨?_, ?_, ?_⟩
  · intro n cfg h
    obtain ⟨above, ha⟩ := hrun n cfg h
    exact ⟨⟨above, ha⟩, by rw [ha]; simp⟩
  · intro n cfg action p h hred hlen
    obtain ⟨above, ha⟩ := hrun n cfg h
    refine ⟨?_, rfl⟩
    obtain ⟨top, rest, hs, hcol, hrow, hact, htype, hp⟩ := hred
    obtain ⟨ps, hps, hpp⟩ := item_get_production_stored hp
    have hno : (⟨'$', 0⟩ : LR0StackRecord).symbol ∉ p.symbols.reverse := by
      simpa using hg ps hps p hpp
    have hpop := (pop_symbols_bottom p.symbols.reverse above ⟨'$', 0⟩ hno).2 (by
      rw [ha] at hlen
      simp only [List.length_append, List.length_singleton] at hlen
      simp only [List.length_reverse]
      unfold Production.size at hlen
      omega)
    rw [driver_step_reduce ⟨top, rest, hs, hcol, hrow, hact, htype, hp⟩, ha, hpop]
  · intro fuel e cfg h
    obtain ⟨n, h1, h2⟩ := driver_loop_exit g table input fuel _ cfg e h
    obtain ⟨above, ha⟩ := hrun n cfg h1
    have hne : e ≠ Exit.stack_empty := by
      intro he
      subst he
      have := driver_step_stack_empty h2
      rw [ha] at this
      simp at this
    refine ⟨hne, ?_, above, ha⟩
    cases e <;> simp [Exit.code] at hne ⊢

set_option maxRecDepth 100000 in
/-- Witness for `no_stack_underflow`: the grammar `E -> E+T | T`, `T -> id`,
its table and the input `id+id`. -/
theorem no_stack_underflow_witness :
    (∀ ps ∈ example1.set, ∀ p ∈ ps.productions, '$' ∉ p.symbols) ∧
    ∃ b, grammar_create_lr_table 16 example1 (item_set_init 'Z') = .ok (b, 0) ∧
      (∀ n cfg, driver_run example1 b.table "id+id".toList n ⟨[⟨'$', 0⟩], 0, []⟩ =
          .ok (.inl cfg) →
        (∃ above, cfg.stack = above ++ [⟨'$', 0⟩]) ∧ 1 ≤ cfg.stack.length) ∧
      (∀ fuel e cfg, grammar_input_check fuel example1 b.table "id+id".toList = .ok (e, cfg) →
        e ≠ Exit.stack_empty ∧ e.code ≠ -1 ∧ ∃ above, cfg.stack = above ++ [⟨'$', 0⟩]) := by
  have hg : ∀ ps ∈ example1.set, ∀ p ∈ ps.productions, '$' ∉ p.symbols := by decide
  refine ⟨hg, ?_⟩
  have hm : (grammar_create_lr_table 16 example1 (item_set_init 'Z')).map (fun r => r.2) =
      .ok 0 := by
    decide
  cases hrun : grammar_create_lr_table 16 example1 (item_set_init 'Z') with
  | undefined => rw [hrun] at hm; simp [Res.map] at hm
  | nofuel => rw [hrun] at hm; simp [Res.map] at hm
  | ok r =>
    obtain ⟨b, code⟩ := r
    rw [hrun] at hm
    simp only [Res.map, Res.ok.injEq] at hm
    subst hm
    exact ⟨b, rfl, (no_stack_underflow example1 b.table "id+id".toList hg).1,
      (no_stack_underflow example1 b.table "id+id".toList hg).2.2⟩

end LR0

namespace LR0

open ActionType

/-! ## The driver: termination -/

/-- An iteration that takes the shift branch. -/
theorem driver_step_shift {g : Grammar} {table : LR0ParsingTable} {input : List Char}
    {cfg : Config} {top : LR0StackRecord} {rest : List LR0StackRecord} {action : ActionRecord}
    (hs : cfg.stack = top :: rest)
    (hcol : 0 ≤ set_order g.terminal_set (curr_input input cfg.input_offset))
    (hrow : 0 ≤ top.target_state)
    (hact : table.action_table top.target_state
      (set_order g.terminal_set (curr_input input cfg.input_offset)) = action)
    (htype : action.type = ACTION_SHIFT) :
    driver_step g table input cfg =
      .ok (.inl ⟨⟨curr_input input cfg.input_offset, action.target_state⟩ :: cfg.stack,
        cfg.input_offset + 1, cfg.trace ++ [action]⟩) := by
  subst hact
  unfold driver_step
  rw [hs]
  simp only []
  rw [if_neg (by omega), if_neg (by omega)]
  simp only [htype]

/-- A set of variables that every iteration maps into itself without
returning is never left: the loop uses up every budget. -/
theorem driver_loop_forever (g : Grammar) (table : LR0ParsingTable) (input : List Char)
    (P : Config → Prop)
    (hP : ∀ cfg, P cfg → ∃ cfg1, driver_step g table input cfg = .ok (.inl cfg1) ∧ P cfg1) :
    ∀ (fuel : Nat) (cfg : Config), P cfg → driver_loop g table input fuel cfg = .nofuel := by
  intro fuel
  induction fuel with
  | zero => intro cfg _; rfl
  | succ fuel ih =>
    intro cfg h
    obtain ⟨cfg1, h1, h2⟩ := hP cfg h
    unfold driver_loop
    simp only [h1]
    exact ih cfg1 h2

/-- At and past the end of the input the lookahead is the end marker. -/
theorem curr_input_end {input : List Char} {i : Nat} (h : input.length ≤ i) :
    curr_input input i = '$' := by
  unfold curr_input
  have : input.getD i (Char.ofNat 0) = Char.ofNat 0 := by
    simp [List.getD_eq_getElem?_getD, List.getElem?_eq_none h]
  rw [this]
  simp

theorem measure_step (R A B x y : Nat) (hx : x < R) (hAB : A + 1 ≤ B) :
    R * A + x < R * B + y := by
  have h1 : R * (A + 1) ≤ R * B := Nat.mul_le_mul_left R hAB
  rw [Nat.mul_succ] at h1
  omega

theorem driver_measure_cons (rank : Char → Nat) (R : Nat) (input : List Char) (cfg : Config)
    (top : LR0StackRecord) (rest : List LR0StackRecord) (h : cfg.stack = top :: rest) :
    driver_measure rank R input cfg =
      R * (2 * (input.length - cfg.input_offset) + (rest.length + 1)) + rank top.symbol := by
  unfold driver_measure
  rw [h]
  rfl

/-- The production that a reduce entry names is stored in the production set
of the nonterminal it names. -/
theorem item_get_production_owner {g : Grammar} {ip : ItemProduction} {p : Production}
    (hp : item_get_production g ip = some p) :
    ∃ ps ∈ g.set, p ∈ ps.productions ∧ ps.symbol = ip.nonterminal := by
  unfold item_get_production at hp
  cases h1 : grammar_find g ip.nonterminal with
  | none => simp [h1] at hp
  | some k =>
    obtain ⟨ps, hps, hsym⟩ := find_set_some h1
    simp only [h1, hps] at hp
    exact ⟨ps, List.getElem?_mem hps, List.getElem?_mem hp, hsym⟩

/-- One iteration of the driver loop on a table that the construction built,
for a grammar without empty productions, without `$` in a production and with
ranked productions of one symbol, when the column of `$` holds no shift entry:
the iteration returns, or it is entered with `GOTO_ERROR` as the state on top
of the stack and reads the table in that row, or it goes on with variables for
which the measure is smaller. -/
theorem driver_step_progress {g : Grammar} {b : Build} {input : List Char}
    {rank : Char → Nat} {R : Nat} (hwf : CellsWf g b) (hne : no_empty_production g)
    (hunit : unit_ranked g rank) (hR : ∀ c, rank c < R) (hend : no_end_marker g)
    (hns : no_shift_at_end g b.table) (cfg : Config) (hinv : StackInv input cfg) :
    (∃ e, driver_step g b.table input cfg = .ok (.inr e)) ∨
    (driver_step g b.table input cfg = .undefined ∧
      ∃ sym rest, cfg.stack = ⟨sym, GOTO_ERROR⟩ :: rest) ∨
    (∃ cfg1, driver_step g b.table input cfg = .ok (.inl cfg1) ∧ StackInv input cfg1 ∧
      driver_measure rank R input cfg1 < driver_measure rank R input cfg) := by
  obtain ⟨above, hbot⟩ := hinv.bottom
  obtain ⟨top, rest, hs⟩ : ∃ top rest, cfg.stack = top :: rest := by
    cases above with
    | nil => exact ⟨_, _, hbot⟩
    | cons a t => exact ⟨a, t ++ [⟨'$', 0⟩], by simpa using hbot⟩
  by_cases hunk : set_order g.terminal_set (curr_input input cfg.input_offset) < 0
  · left
    exact ⟨Exit.unknown_symbol, by unfold driver_step; rw [hs]; simp [hunk]⟩
  by_cases htop : top.target_state < 0
  · right; left
    constructor
    · unfold driver_step
      rw [hs]
      simp [hunk, htop]
    · have h1 := hinv.states top (by rw [hs]; simp)
      have h2 : top.target_state = GOTO_ERROR := by
        unfold GOTO_ERROR at h1 ⊢
        omega
      refine ⟨top.symbol, rest, ?_⟩
      rw [hs, ← h2]
  cases hty : (b.table.action_table top.target_state
      (set_order g.terminal_set (curr_input input cfg.input_offset))).type with
  | ACTION_ACCEPT =>
    left
    refine ⟨Exit.accept, ?_⟩
    unfold driver_step
    rw [hs]
    simp only []
    rw [if_neg hunk, if_neg htop]
    simp only [hty]
  | ACTION_ERROR =>
    left
    refine ⟨Exit.error_state, ?_⟩
    unfold driver_step
    rw [hs]
    simp only []
    rw [if_neg hunk, if_neg htop]
    simp only [hty]
  | ACTION_SHIFT =>
    right; right
    have hstep := @driver_step_shift g b.table input cfg _ _ _ hs
      (by omega) (by omega) rfl hty
    refine ⟨_, hstep, ?_, ?_⟩
    · have hlt : cfg.input_offset < input.length := by
        by_contra hge
        have he := @curr_input_end input cfg.input_offset (by omega)
        rw [he] at hty
        exact hns top.target_state hty
      obtain ⟨t, ht, _⟩ := hwf.shift _ _ (by
        unfold LR0ParsingTable.action_table at hty
        exact hty)
      refine ⟨⟨_ :: above, by simp only []; rw [hbot]; rfl⟩, by simp only []; omega, ?_, ?_⟩
      · intro e he
        simp only [List.mem_cons] at he
        rcases he with he | he
        · rw [he]
          simp only []
          unfold LR0ParsingTable.action_table
          rw [ht]
          unfold GOTO_ERROR
          omega
        · exact hinv.states e he
      · simp only [List.length_cons]
        have := hinv.height
        omega
    · have hlt : cfg.input_offset < input.length := by
        by_contra hge
        have he := @curr_input_end input cfg.input_offset (by omega)
        rw [he] at hty
        exact hns top.target_state hty
      rw [driver_measure_cons rank R input _ _ _ rfl,
        driver_measure_cons rank R input cfg top rest hs]
      simp only [hs, List.length_cons]
      apply measure_step _ _ _ _ _ (hR _)
      omega
  | ACTION_REDUCE =>
    obtain ⟨hstored, _⟩ := hwf.reduce _ _ (by
      unfold LR0ParsingTable.action_table at hty
      exact hty)
    cases hp : item_get_production g
        ⟨(b.table.action_table top.target_state
            (set_order g.terminal_set (curr_input input cfg.input_offset))).nonterminal,
          (b.table.action_table top.target_state
            (set_order g.terminal_set (curr_input input cfg.input_offset))).production, 0⟩ with
    | none =>
      exfalso
      unfold LR0ParsingTable.action_table at hp
      exact hstored hp
    | some p =>
      have hred : reduces_by g b.table input cfg
          (b.table.action_table top.target_state
            (set_order g.terminal_set (curr_input input cfg.input_offset))) p :=
        ⟨top, rest, hs, by omega, by omega, rfl, hty, hp⟩
      have hstep := driver_step_reduce hred
      obtain ⟨ps, hps, hpp, hsym⟩ := item_get_production_owner hp
      simp only [] at hsym
      have hno : (⟨'$', 0⟩ : LR0StackRecord).symbol ∉ p.symbols.reverse := by
        simpa using hend ps hps p hpp
      rw [hbot] at hstep
      rcases (pop_symbols_bottom p.symbols.reverse above ⟨'$', 0⟩ hno).1 with hpop | hpop
      · left
        rw [hpop] at hstep
        exact ⟨Exit.symbol_mismatch, hstep⟩
      · right; right
        obtain ⟨above2, hpop⟩ := hpop
        obtain ⟨tops, hst, htops⟩ := pop_symbols_some _ _ _ hpop
        have hlen : tops.length = p.size := by
          have := congrArg List.length htops
          simpa [Production.size] using this
        have hsize : p.size ≠ 0 := hne ps hps p hpp
        have hstack : cfg.stack = tops ++ (above2 ++ [⟨'$', 0⟩]) := by rw [hbot]; exact hst
        have hheight : cfg.stack.length = tops.length + (above2.length + 1) := by
          rw [hstack]
          simp
        have hgoto : ∀ r c : Int, GOTO_ERROR ≤ b.table.goto_table r c := by
          intro r c
          by_cases hg : b.table.goto_table r c = GOTO_ERROR
          · rw [hg]
          · obtain ⟨t, ht, _⟩ := hwf.goto _ _ hg
            unfold LR0ParsingTable.goto_table
            rw [ht]
            unfold GOTO_ERROR
            omega
        have hsub : ∀ e ∈ above2 ++ [(⟨'$', 0⟩ : LR0StackRecord)], e ∈ cfg.stack := by
          intro e he
          rw [hstack]
          exact List.mem_append_right _ he
        -- the symbol on top of the stack, for a production of one symbol
        have htopsym : p.size = 1 → ∀ c ∈ p.symbols, top.symbol = c := by
          intro h1 c hc
          have hl1 : tops.length = 1 := by omega
          obtain ⟨t0, ht0⟩ := List.length_eq_one.1 hl1
          have hstack2 := hstack
          rw [ht0, hs] at hstack2
          simp only [List.singleton_append, List.cons.injEq] at hstack2
          have hrev : p.symbols.reverse = [t0.symbol] := by
            rw [← htops, ht0]
            rfl
          have hsyms : p.symbols = [t0.symbol] := by
            have := congrArg List.reverse hrev
            simpa using this
          rw [hsyms] at hc
          simp only [List.mem_singleton] at hc
          rw [hc, hstack2.1]
        obtain ⟨below, rest2, hrem⟩ : ∃ below rest2,
            above2 ++ [(⟨'$', 0⟩ : LR0StackRecord)] = below :: rest2 := by
          cases above2 with
          | nil => exact ⟨_, _, rfl⟩
          | cons a t => exact ⟨a, t ++ [(⟨'$', 0⟩ : LR0StackRecord)], rfl⟩
        have hremlen : (below :: rest2).length = above2.length + 1 := by
          rw [← hrem]
          simp
        have hrestlen : rest.length = p.size + above2.length := by
          have h1 := hheight
          rw [hs] at h1
          simp only [List.length_cons] at h1
          omega
        rw [hpop, hrem] at hstep
        simp only [] at hstep
        refine ⟨_, hstep, ⟨⟨_ :: above2, by simp only []; rw [← hrem]; rfl⟩, hinv.within, ?_, ?_⟩,
          ?_⟩
        · intro e he
          simp only [List.mem_cons] at he
          rcases he with he | he
          · rw [he]
            exact hgoto _ _
          · apply hinv.states e
            apply hsub
            rw [hrem]
            simpa using he
        · have h1 := hinv.height
          rw [hs] at h1
          simp only [List.length_cons] at h1 hremlen ⊢
          omega
        · rw [driver_measure_cons rank R input _ _ _ rfl,
            driver_measure_cons rank R input cfg top rest hs]
          simp only [List.length_cons] at hremlen ⊢
          by_cases h1 : p.size = 1
          · have hr : rank (b.table.action_table top.target_state
                (set_order g.terminal_set (curr_input input cfg.input_offset))).nonterminal <
                rank top.symbol := by
              obtain ⟨c, hc⟩ : ∃ c, c ∈ p.symbols := by
                cases hsy : p.symbols with
                | nil => simp [Production.size, hsy] at h1
                | cons c t => exact ⟨c, by simp⟩
              rw [htopsym h1 c hc, ← hsym]
              exact hunit ps hps p hpp h1 c hc
            have hrl : rest.length = rest2.length + 1 := by omega
            rw [hrl]
            omega
          · apply measure_step _ _ _ _ _ (hR _)
            omega

/-- The loop stops within as many iterations as the measure of its variables:
at one of its `return` statements or at the table read in the row of
`GOTO_ERROR`. -/
theorem driver_run_stops {g : Grammar} {b : Build} {input : List Char}
    {rank : Char → Nat} {R : Nat} (hwf : CellsWf g b) (hne : no_empty_production g)
    (hunit : unit_ranked g rank) (hR : ∀ c, rank c < R) (hend : no_end_marker g)
    (hns : no_shift_at_end g b.table) :
    ∀ (m : Nat) (cfg0 : Config), StackInv input cfg0 →
      driver_measure rank R input cfg0 ≤ m →
      ∃ n cfg, n ≤ m ∧ driver_run g b.table input n cfg0 = .ok (.inl cfg) ∧
        StackInv input cfg ∧
        ((∃ e, driver_step g b.table input cfg = .ok (.inr e)) ∨
          (driver_step g b.table input cfg = .undefined ∧
            ∃ sym rest, cfg.stack = ⟨sym, GOTO_ERROR⟩ :: rest)) := by
  intro m
  induction m with
  | zero =>
    intro cfg0 hinv hm
    rcases driver_step_progress hwf hne hunit hR hend hns cfg0 hinv with h | h | h
    · exact ⟨0, cfg0, Nat.le_refl _, rfl, hinv, Or.inl h⟩
    · exact ⟨0, cfg0, Nat.le_refl _, rfl, hinv, Or.inr h⟩
    · obtain ⟨cfg1, _, _, hlt⟩ := h
      omega
  | succ m ih =>
    intro cfg0 hinv hm
    rcases driver_step_progress hwf hne hunit hR hend hns cfg0 hinv with h | h | h
    · exact ⟨0, cfg0, Nat.zero_le _, rfl, hinv, Or.inl h⟩
    · exact ⟨0, cfg0, Nat.zero_le _, rfl, hinv, Or.inr h⟩
    · obtain ⟨cfg1, hstep, hinv1, hlt⟩ := h
      obtain ⟨n, cfg, hn, hrun, hinvn, hfin⟩ := ih cfg1 hinv1 (by omega)
      refine ⟨n + 1, cfg, by omega, ?_, hinvn, hfin⟩
      unfold driver_run
      simp only [hstep]
      exact hrun

/-- The variables reached by the loop all satisfy `StackInv`. -/
theorem driver_run_inv {g : Grammar} {b : Build} {input : List Char}
    {rank : Char → Nat} {R : Nat} (hwf : CellsWf g b) (hne : no_empty_production g)
    (hunit : unit_ranked g rank) (hR : ∀ c, rank c < R) (hend : no_end_marker g)
    (hns : no_shift_at_end g b.table) :
    ∀ (n : Nat) (cfg0 cfg : Config), StackInv input cfg0 →
      driver_run g b.table input n cfg0 = .ok (.inl cfg) → StackInv input cfg := by
  intro n
  induction n with
  | zero =>
    intro cfg0 cfg hinv h
    simp only [driver_run, Res.ok.injEq, Sum.inl.injEq] at h
    subst h
    exact hinv
  | succ n ih =>
    intro cfg0 cfg hinv h
    unfold driver_run at h
    rcases driver_step_progress hwf hne hunit hR hend hns cfg0 hinv with h1 | h1 | h1
    · obtain ⟨e, he⟩ := h1
      simp [he] at h
    · simp [h1.1] at h
    · obtain ⟨cfg1, hstep, hinv1, _⟩ := h1
      simp only [hstep] at h
      exact ih cfg1 cfg hinv1 h

/-- A run of the loop that stops does not depend on the budget left over. -/
theorem driver_loop_budget (g : Grammar) (table : LR0ParsingTable) (input : List Char) :
    ∀ (fuel : Nat) (cfg : Config), driver_loop g table input fuel cfg ≠ .nofuel →
      ∀ k, driver_loop g table input (fuel + k) cfg = driver_loop g table input fuel cfg := by
  intro fuel
  induction fuel with
  | zero => intro cfg h; exact absurd rfl h
  | succ fuel ih =>
    intro cfg h k
    rw [show fuel + 1 + k = (fuel + k) + 1 by omega]
    unfold driver_loop at h ⊢
    cases hstep : driver_step g table input cfg with
    | undefined => rfl
    | nofuel => rfl
    | ok v =>
      cases v with
      | inr e => rfl
      | inl cfg1 =>
        simp only [hstep] at h ⊢
        exact ih cfg1 h k

/-- C22 (as amended). For a grammar none of whose productions is empty or
contains `$` and whose productions of one symbol go down in a rank below `R`,
every table that `grammar_create_lr_table` built from it whose column of `$`
holds no shift entry, and every input: the loop of `grammar_input_check` makes
fewer than `R * (2 * input.length + 2)` iterations and then returns, with the
same answer for every larger budget, unless the iteration it has arrived at is
entered with the state `GOTO_ERROR` on top of the stack, where the table is
read in row -1; and the variables it passes keep the cursor within the input
and the stack within one entry more than the input has characters. -/
theorem driver_terminates (g : Grammar) (fuel : Nat) (c0 : Char) (b : Build) (code : Int)
    (input : List Char) (rank : Char → Nat) (R : Nat)
    (hrun : grammar_create_lr_table fuel g (item_set_init c0) = .ok (b, code))
    (hcode : 0 ≤ code) (hne : no_empty_production g) (hend : no_end_marker g)
    (hunit : unit_ranked g rank) (hR : ∀ c, rank c < R)
    (hns : no_shift_at_end g b.table) :
    (∃ n cfg, n < R * (2 * input.length + 2) ∧
      driver_run g b.table input n ⟨[⟨'$', 0⟩], 0, []⟩ = .ok (.inl cfg) ∧
      ((∃ e, ∀ budget, n < budget →
          grammar_input_check budget g b.table input = .ok (e, cfg)) ∨
        ((∃ sym rest, cfg.stack = ⟨sym, GOTO_ERROR⟩ :: rest) ∧
          ∀ budget, n < budget →
            grammar_input_check budget g b.table input = .undefined))) ∧
    (∀ n cfg, driver_run g b.table input n ⟨[⟨'$', 0⟩], 0, []⟩ = .ok (.inl cfg) →
      cfg.input_offset ≤ input.length ∧ cfg.stack.length ≤ input.length + 1) := by
  have hwf := table_cells g fuel c0 b code hrun hcode
  have hinv0 : StackInv input ⟨[⟨'$', 0⟩], 0, []⟩ :=
    ⟨⟨[], rfl⟩, Nat.zero_le _, by
      intro e he
      simp only [List.mem_singleton] at he
      rw [he]
      decide, by simp⟩
  have hm0 : driver_measure rank R input ⟨[⟨'$', 0⟩], 0, []⟩ <
      R * (2 * input.length + 2) := by
    rw [driver_measure_cons rank R input _ ⟨'$', 0⟩ [] rfl]
    simp only [List.length_nil, Nat.sub_zero]
    have h1 := hR '$'
    have h2 : R * (2 * input.length + 2) = R * (2 * input.length + 1) + R := by
      rw [show 2 * input.length + 2 = (2 * input.length + 1) + 1 by omega, Nat.mul_succ]
    rw [h2, Nat.add_comm (2 * input.length) 1]
    omega
  constructor
  · obtain ⟨n, cfg, hn, hr, _, hfin⟩ := driver_run_stops hwf hne hunit hR hend hns _ _ hinv0
      (Nat.le_refl _)
    refine ⟨n, cfg, by omega, hr, ?_⟩
    rcases hfin with ⟨e, he⟩ | ⟨hu, htop⟩
    · left
      refine ⟨e, ?_⟩
      intro budget hb
      obtain ⟨k, rfl⟩ : ∃ k, budget = n + (k + 1) := ⟨budget - n - 1, by omega⟩
      unfold grammar_input_check
      rw [driver_loop_of_run g b.table input n _ cfg hr (k + 1)]
      unfold driver_loop
      simp only [he]
    · right
      refine ⟨htop, ?_⟩
      intro budget hb
      obtain ⟨k, rfl⟩ : ∃ k, budget = n + (k + 1) := ⟨budget - n - 1, by omega⟩
      unfold grammar_input_check
      rw [driver_loop_of_run g b.table input n _ cfg hr (k + 1)]
      unfold driver_loop
      simp only [hu]
  · intro n cfg hr
    have hinv := driver_run_inv hwf hne hunit hR hend hns n _ cfg hinv0 hr
    have := hinv.height
    have := hinv.within
    exact ⟨by omega, by omega⟩

end LR0

namespace LR0

open ActionType

/-! ## The closure and nonterminals without productions -/

theorem ClosureCode.refl_c (g : Grammar) (s : Item) : ClosureCode g False s s 0 :=
  ⟨fun _ h => h, fun h => h, fun _ h => h, fun _ x hx => Or.inl hx, fun h => by omega⟩

/-- Two runs in a row, the first of which succeeded. -/
theorem ClosureCode.trans_c {g : Grammar} {P : Prop} {s s1 s2 : Item} {c1 c2 : Int}
    (h1 : ClosureCode g P s s1 c1) (hc1 : 0 ≤ c1) (h2 : ClosureCode g False s1 s2 c2) :
    ClosureCode g False s s2 c2 := by
  refine ⟨fun x hx => h2.sub x (h1.sub x hx), fun h => h2.nodup (h1.nodup h), fun _ h => h, ?_, ?_⟩
  · intro hc x hx
    rcases h2.good hc x hx with h | h
    · exact h1.good hc1 x h
    · exact Or.inr h
  · intro hc
    rcases h2.bad hc with h | h
    · exact absurd h id
    · exact Or.inr h

theorem dangling_dot0 {g : Grammar} {B : Char} {i : Nat} {p : Production}
    (hp : (productions_of g B)[i]? = some p) :
    dangling g ⟨B, i, 0⟩ ↔
      (0 < p.size ∧ is_nonterminal (symbol_at g p 0) = true ∧
        grammar_find g (symbol_at g p 0) = none) := by
  constructor
  · rintro ⟨U, hU, hnone⟩
    obtain ⟨h1, h2⟩ := dot_before_dot0 hp hU
    have hsz : 0 < p.size := by
      unfold Production.size
      exact (List.getElem?_eq_some.1 h1).1
    have hsym : symbol_at g p 0 = U := symbol_at_of_getElem? h1
    rw [hsym]
    exact ⟨hsz, h2, hnone⟩
  · rintro ⟨h1, h2, h3⟩
    refine ⟨symbol_at g p 0, ⟨p, ?_, getElem?_symbol_at h1, h2⟩, h3⟩
    rw [item_get_production_dot0]
    exact hp

theorem closure_loop_code (g : Grammar) (recurse : Item → Char → Res (Item × Int))
    (hrec : ∀ s C r, recurse s C = .ok r →
      ClosureCode g (grammar_find g C = none) s r.1 r.2) (B : Char) :
    ∀ (ps : List Production) (i : Nat) (s : Item),
      (∀ j p, ps[j]? = some p → (productions_of g B)[i + j]? = some p) →
      ∀ r, closure_loop recurse g B ps i s = .ok r → ClosureCode g False s r.1 r.2 := by
  intro ps
  induction ps with
  | nil =>
    intro i s _ r h
    simp only [closure_loop, Res.ok.injEq] at h
    subst h
    exact ClosureCode.refl_c g s
  | cons p ps ih =>
    intro i s hps r h
    have hp : (productions_of g B)[i]? = some p := by
      have := hps 0 p (by simp)
      simpa using this
    have hps2 : ∀ j q, ps[j]? = some q → (productions_of g B)[i + 1 + j]? = some q := by
      intro j q hq
      have := hps (j + 1) q (by simpa using hq)
      rw [show i + 1 + j = i + (j + 1) by omega]
      exact this
    unfold closure_loop at h
    by_cases hmem : (⟨B, i, 0⟩ : ItemProduction) ∈ s.productions
    · rw [item_production_insert_mem hmem] at h
      simp only [if_true] at h
      exact ih (i + 1) s hps2 r h
    · rw [item_production_insert_new hmem] at h
      simp only [show ¬ ((0 : Int) = 1) by omega, if_false] at h
      have hsubi : ∀ x ∈ s.productions, x ∈ s.productions ++ [(⟨B, i, 0⟩ : ItemProduction)] :=
        fun x hx => List.mem_append_left _ hx
      have hnodi : s.productions.Nodup →
          (s.productions ++ [(⟨B, i, 0⟩ : ItemProduction)]).Nodup := by
        intro hn
        refine List.nodup_append.2 ⟨hn, List.nodup_singleton _, ?_⟩
        intro a ha hb
        simp only [List.mem_singleton] at hb
        subst hb
        exact hmem ha
      by_cases hnt : 0 < p.size ∧ is_nonterminal (symbol_at g p 0) = true
      · simp only [hnt, and_self, if_true] at h
        cases hres : recurse ⟨s.productions ++ [⟨B, i, 0⟩], s.closure_offset, s.nonterminal_set⟩
            (symbol_at g p 0) with
        | undefined => simp [hres] at h
        | nofuel => simp [hres] at h
        | ok rr =>
          obtain ⟨s1, c1⟩ := rr
          simp only [hres] at h
          have hr := hrec _ _ _ hres
          simp only [] at hr
          by_cases hneg : c1 < 0
          · simp only [hneg, if_true, Res.ok.injEq] at h
            subst h
            simp only []
            refine ⟨fun x hx => hr.sub x (hsubi x hx),
              fun hn => hr.nodup (hnodi hn), fun _ h => h, fun hc => by omega, fun _ => ?_⟩
            right
            rcases hr.bad hneg with hb | hb
            · refine ⟨⟨B, i, 0⟩, hr.sub _ (by simp), ?_⟩
              exact (dangling_dot0 hp).2 ⟨hnt.1, hnt.2, hb⟩
            · exact hb
          · simp only [hneg, if_false] at h
            have hc1 : 0 ≤ c1 := by omega
            have hrest := ih (i + 1) s1 hps2 r h
            -- the inserted item is not dangling
            have hr2 : ClosureCode g False s s1 c1 := by
              refine ⟨fun x hx => hr.sub x (hsubi x hx),
                fun hn => hr.nodup (hnodi hn), fun _ h => h, ?_, fun hc => by omega⟩
              intro _ x hx
              rcases hr.good hc1 x hx with hx1 | hx1
              · simp only [List.mem_append, List.mem_singleton] at hx1
                rcases hx1 with hx1 | hx1
                · exact Or.inl hx1
                · subst hx1
                  right
                  intro hd
                  exact hr.found hc1 ((dangling_dot0 hp).1 hd).2.2
              · exact Or.inr hx1
            exact hr2.trans_c hc1 hrest
      · simp only [hnt, if_false] at h
        have hrest := ih (i + 1) _ hps2 r h
        have hr2 : ClosureCode g False s
            ⟨s.productions ++ [⟨B, i, 0⟩], s.closure_offset, s.nonterminal_set⟩ 0 := by
          refine ⟨hsubi, hnodi, fun _ h => h, ?_, fun hc => by omega⟩
          intro _ x hx
          simp only [List.mem_append, List.mem_singleton] at hx
          rcases hx with hx | hx
          · exact Or.inl hx
          · subst hx
            right
            intro hd
            have := (dangling_dot0 hp).1 hd
            exact hnt ⟨this.1, this.2.1⟩
        exact hr2.trans_c (Int.le_refl 0) hrest

theorem closure_internal_code (g : Grammar) :
    ∀ (fuel : Nat) (s : Item) (B : Char) (r : Item × Int),
      item_insert_closure_internal fuel g s B = .ok r →
      ClosureCode g (grammar_find g B = none) s r.1 r.2 := by
  intro fuel
  induction fuel with
  | zero =>
    intro s B r h
    simp [item_insert_closure_internal] at h
  | succ fuel ih =>
    intro s B r h
    unfold item_insert_closure_internal at h
    cases hf : grammar_find g B with
    | none =>
      simp only [hf, Res.ok.injEq] at h
      subst h
      exact ⟨fun _ h => h, fun h => h, fun hc => by simp at hc, fun hc => by simp at hc,
        fun _ => Or.inl rfl⟩
    | some k =>
      simp only [hf] at h
      cases hps : g.set[k]? with
      | none => simp [hps] at h
      | some ps =>
        simp only [hps] at h
        have hprod : productions_of g B = ps.productions := productions_of_eq hf hps
        have hl := closure_loop_code g (item_insert_closure_internal fuel g) ih B
          ps.productions 0 _ (by
            intro j p hj
            rw [hprod]
            simpa using hj) r h
        simp only [] at hl
        exact ⟨hl.sub, hl.nodup, fun _ e => by simp at e, hl.good, fun hc => by
          rcases hl.bad hc with hb | hb
          · exact absurd hb id
          · exact Or.inr hb⟩

/-- The loop of `item_insert_closure`: besides what `ClosureCode` says, after
a successful run none of the scanned items has its dot before a nonterminal
without a production set. -/
theorem closure_scan_code (g : Grammar) (fuel : Nat) :
    ∀ (n i : Nat) (visited : Set) (no_outgoing : Int) (s : Item),
      (∀ C ∈ visited.data, grammar_find g C ≠ none) →
      ∀ r, closure_scan fuel g n i visited no_outgoing s = .ok r →
        (no_outgoing = 0 ∨ no_outgoing = 1) →
        ClosureCode g False s r.1 r.2 ∧
        (0 ≤ r.2 → ∀ idx, i ≤ idx → idx < i + n → ∀ ip, s.productions[idx]? = some ip →
          ¬ dangling g ip) ∧
        (r.2 < 0 → ∃ x ∈ r.1.productions, dangling g x) := by
  intro n
  induction n with
  | zero =>
    intro i visited no s _ r h hno
    simp only [closure_scan, Res.ok.injEq] at h
    subst h
    refine ⟨?_, fun _ idx h1 h2 => by omega, fun hc => ?_⟩
    · exact ⟨fun _ h => h, fun h => h, fun _ h => h, fun _ x hx => Or.inl hx, fun hc => by
        simp only [] at hc
        rcases hno with e | e <;> omega⟩
    · simp only [] at hc
      rcases hno with e | e <;> omega
  | succ n ih =>
    intro i visited no s hvis r h hno
    unfold closure_scan at h
    cases hread : s.productions[i]? with
    | none => simp [hread] at h
    | some ip =>
      simp only [hread] at h
      cases hget : item_get_production g ip with
      | none => simp [hget] at h
      | some p =>
        simp only [hget] at h
        -- what the scanned item contributes
        have hhere : ∀ (s2 : Item), (∀ (idx : Nat) (ip2 : ItemProduction),
            s.productions[idx]? = some ip2 →
            s2.productions[idx]? = some ip2) → ¬ dangling g ip →
            ∀ r : Item × Int, (ClosureCode g False s2 r.1 r.2 ∧
              (0 ≤ r.2 → ∀ idx, i + 1 ≤ idx → idx < i + 1 + n → ∀ ip2,
                s2.productions[idx]? = some ip2 → ¬ dangling g ip2) ∧
              (r.2 < 0 → ∃ x ∈ r.1.productions, dangling g x)) →
            (0 ≤ r.2 → ∀ idx, i ≤ idx → idx < i + (n + 1) → ∀ ip2,
              s.productions[idx]? = some ip2 → ¬ dangling g ip2) := by
          intro s2 hsame hip r hr hc idx h1 h2 ip2 hidx
          by_cases he : idx = i
          · subst he
            rw [hread] at hidx
            cases hidx
            exact hip
          · exact hr.2.1 hc idx (by omega) (by omega) ip2 (hsame idx ip2 hidx)
        by_cases hcomplete : p.size ≤ ip.dot_offset
        · simp only [hcomplete, if_true] at h
          have hr := ih (i + 1) visited no s hvis r h hno
          refine ⟨hr.1, hhere s (fun _ _ h => h) ?_ r hr, hr.2.2⟩
          rintro ⟨U, ⟨q, hq, hsym, _⟩, _⟩
          rw [hget] at hq
          cases hq
          have := (List.getElem?_eq_some.1 hsym).1
          unfold Production.size at hcomplete
          omega
        · simp only [hcomplete, if_false] at h
          have hlt : ip.dot_offset < p.size := by omega
          have hdot : ∀ U, dot_before g ip U → U = symbol_at g p ip.dot_offset := by
            rintro U ⟨q, hq, hsym, _⟩
            rw [hget] at hq
            cases hq
            exact (symbol_at_of_getElem? hsym).symm
          by_cases hnt : is_nonterminal (symbol_at g p ip.dot_offset) = true
          · simp only [hnt, if_true] at h
            by_cases hflag : (set_insert visited (symbol_at g p ip.dot_offset)).2 = 1
            · simp only [hflag, if_true] at h
              have hmemv := (set_insert_flag visited _).1 hflag
              have hvis2 : ∀ C ∈ (set_insert visited (symbol_at g p ip.dot_offset)).1.data,
                  grammar_find g C ≠ none := by
                intro C hC
                rcases set_insert_data _ _ C hC with h1 | h1
                · exact hvis C h1
                · subst h1
                  exact hvis _ hmemv
              have hr := ih (i + 1) _ no s hvis2 r h hno
              refine ⟨hr.1, hhere s (fun _ _ h => h) ?_ r hr, hr.2.2⟩
              rintro ⟨U, hU, hnone⟩
              rw [hdot U hU] at hnone
              exact hvis _ hmemv hnone
            · simp only [hflag, if_false] at h
              cases hres : item_insert_closure_internal fuel g s
                  (symbol_at g p ip.dot_offset) with
              | undefined => simp [hres] at h
              | nofuel => simp [hres] at h
              | ok rr =>
                obtain ⟨s1, c1⟩ := rr
                simp only [hres] at h
                have hcl := closure_internal_code g fuel s _ _ hres
                simp only [] at hcl
                by_cases hneg : c1 < 0
                · simp only [hneg, if_true, Res.ok.injEq] at h
                  subst h
                  simp only []
                  have hbad : ∃ x ∈ s1.productions, dangling g x := by
                    rcases hcl.bad hneg with hb | hb
                    · exact ⟨ip, hcl.sub ip (List.getElem?_mem hread),
                        symbol_at g p ip.dot_offset,
                        ⟨p, hget, getElem?_symbol_at hlt, hnt⟩, hb⟩
                    · exact hb
                  exact ⟨⟨hcl.sub, hcl.nodup, fun _ h => h, fun hc => by omega,
                    fun _ => Or.inr hbad⟩, fun hc => by omega, fun _ => hbad⟩
                · simp only [hneg, if_false] at h
                  have hc1 : 0 ≤ c1 := by omega
                  have hfound := hcl.found hc1
                  have hvis2 : ∀ C ∈ (set_insert visited (symbol_at g p ip.dot_offset)).1.data,
                      grammar_find g C ≠ none := by
                    intro C hC
                    rcases set_insert_data _ _ C hC with h1 | h1
                    · exact hvis C h1
                    · subst h1
                      exact hfound
                  have hr := ih (i + 1) _ 0 s1 hvis2 r h (Or.inl rfl)
                  have hg := closure_internal_spec g fuel s (symbol_at g p ip.dot_offset)
                  rw [hres] at hg
                  simp only [ClosureOutcome] at hg
                  refine ⟨hcl.trans_c hc1 hr.1,
                    hhere s1 (fun idx ip2 h => hg.mono.getElem? h) ?_ r hr, hr.2.2⟩
                  rintro ⟨U, hU, hnone⟩
                  rw [hdot U hU] at hnone
                  exact hfound hnone
          · simp only [hnt, if_false] at h
            have hr := ih (i + 1) visited 0 s hvis r h (Or.inl rfl)
            refine ⟨hr.1, hhere s (fun _ _ h => h) ?_ r hr, hr.2.2⟩
            rintro ⟨U, hU, _⟩
            obtain ⟨q, hq, hsym, hup⟩ := hU
            rw [hget] at hq
            cases hq
            rw [symbol_at_of_getElem? hsym] at hnt
            exact hnt hup

/-- The function `item_insert_closure` on a state that is not empty and whose
whole list is the kernel: repeated items do not arise; when the code is not
negative, no item of the result has its dot before a nonterminal without a
production set; when it is negative, some item of the result has. -/
theorem closure_code {g : Grammar} {fuel : Nat} {s s2 : Item} {code : Int}
    (h : item_insert_closure fuel g s = .ok (s2, code)) :
    (s.productions.Nodup → s2.productions.Nodup) ∧
    (s.productions.length ≤ s.closure_offset → 0 ≤ code →
      ∀ x ∈ s2.productions, ¬ dangling g x) ∧
    (s.productions ≠ [] → code < 0 → ∃ x ∈ s2.productions, dangling g x) := by
  unfold item_insert_closure at h
  by_cases hlen : s.productions.length = 0
  · simp only [hlen, if_true, Res.ok.injEq, Prod.mk.injEq] at h
    obtain ⟨h1, h2⟩ := h
    subst h1 h2
    refine ⟨fun h => h, fun _ hc => by omega, fun hne => ?_⟩
    exact absurd (List.length_eq_zero.1 hlen) hne
  · simp only [hlen, if_false] at h
    obtain ⟨k1, k2, k3⟩ := closure_scan_code g fuel s.closure_offset 0 set_init 1 s
      (by intro C hC; simp [set_init] at hC) _ h (Or.inr rfl)
    simp only [] at k1 k2 k3
    refine ⟨k1.nodup, ?_, fun _ hc => k3 hc⟩
    intro hk hc x hx
    rcases k1.good hc x hx with hx1 | hx1
    · obtain ⟨idx, hidx⟩ := List.mem_iff_getElem?.1 hx1
      have hlt : idx < s.productions.length := (List.getElem?_eq_some.1 hidx).1
      exact k2 hc idx (Nat.zero_le _) (by omega) x hidx
    · exact hx1

end LR0

namespace LR0

open ActionType

/-! ## The inner loop that fills a new state -/

/-- The inner loop reads only productions of the state being processed, so it
returns when these name stored productions. -/
theorem collect_extra_total (g : Grammar) (item : Item) (symbol : Char)
    (hstored : ∀ x ∈ item.productions, item_get_production g x ≠ none) :
    ∀ (n j : Nat) (new_item : Item) (out : List Diag), j + n ≤ item.productions.length →
      ∃ r, collect_extra g item symbol n j new_item out = .ok r := by
  intro n
  induction n with
  | zero =>
    intro j new_item out _
    exact ⟨_, rfl⟩
  | succ n ih =>
    intro j new_item out hlen
    unfold collect_extra
    have hlt : j < item.productions.length := by omega
    rw [List.getElem?_eq_getElem hlt]
    simp only []
    cases hget : item_get_production g item.productions[j] with
    | none => exact absurd hget (hstored _ (List.getElem_mem hlt))
    | some q =>
      simp only []
      split
      · exact ih _ _ _ (by omega)
      · split
        · exact ih _ _ _ (by omega)
        · exact ih _ _ _ (by omega)

/-- On a state without repeated items the inner loop inserts a different item
at each match, so the new state keeps its whole list as kernel and has no
repeated item. -/
theorem collect_extra_exact (g : Grammar) (item : Item) (symbol : Char)
    (hnodup : item.productions.Nodup) :
    ∀ (n j : Nat) (new_item : Item) (out : List Diag) (ni : Item) (o : List Diag),
      collect_extra g item symbol n j new_item out = .ok (ni, o) →
      new_item.productions.Nodup →
      new_item.closure_offset = new_item.productions.length →
      (∀ x ∈ new_item.productions, ∃ m y, m < j ∧ item.productions[m]? = some y ∧
        x = advance y) →
      ni.productions.Nodup ∧ ni.closure_offset = ni.productions.length := by
  intro n
  induction n with
  | zero =>
    intro j new_item out ni o h h1 h2 _
    simp only [collect_extra, Res.ok.injEq, Prod.mk.injEq] at h
    obtain ⟨e, _⟩ := h
    subst e
    exact ⟨h1, h2⟩
  | succ n ih =>
    intro j new_item out ni o h h1 h2 h3
    unfold collect_extra at h
    cases hread : item.productions[j]? with
    | none => simp [hread] at h
    | some ipj =>
      simp only [hread] at h
      cases hget : item_get_production g ipj with
      | none => simp [hget] at h
      | some q =>
        simp only [hget] at h
        have h3next : ∀ x ∈ new_item.productions, ∃ m y, m < j + 1 ∧
            item.productions[m]? = some y ∧ x = advance y := by
          intro x hx
          obtain ⟨m, y, k1, k2, k3⟩ := h3 x hx
          exact ⟨m, y, by omega, k2, k3⟩
        split at h
        · exact ih _ _ _ _ _ h h1 h2 h3next
        · split at h
          · have hnew : (⟨ipj.nonterminal, ipj.production, ipj.dot_offset + 1⟩ : ItemProduction) ∉
                new_item.productions := by
              intro hx
              obtain ⟨m, y, k1, k2, k3⟩ := h3 _ hx
              have hy : y = ipj := by
                cases y
                cases ipj
                simp only [advance, ItemProduction.mk.injEq] at k3
                obtain ⟨e1, e2, e3⟩ := k3
                simp only [ItemProduction.mk.injEq]
                exact ⟨e1.symm, e2.symm, by omega⟩
              subst hy
              have hjlt : j < item.productions.length := (List.getElem?_eq_some.1 hread).1
              have hmlt : m < item.productions.length := (List.getElem?_eq_some.1 k2).1
              have e1 : item.productions[m] = y := (List.getElem?_eq_some.1 k2).2
              have e2 : item.productions[j] = y := (List.getElem?_eq_some.1 hread).2
              have hinj : item.productions[m] = item.productions[j] ↔ m = j :=
                List.Nodup.getElem_inj_iff hnodup
              have := hinj.1 (e1.trans e2.symm)
              omega
            rw [item_production_insert_new hnew] at h
            simp only [] at h
            apply ih _ _ _ _ _ h
            · simp only []
              refine List.nodup_append.2 ⟨h1, List.nodup_singleton _, ?_⟩
              intro a ha hb
              simp only [List.mem_singleton] at hb
              subst hb
              exact hnew ha
            · simp only [List.length_append, List.length_singleton]
              omega
            · intro x hx
              simp only [List.mem_append, List.mem_singleton] at hx
              rcases hx with hx | hx
              · exact h3next x hx
              · exact ⟨j, ipj, by omega, hread, by rw [hx]; rfl⟩
          · exact ih _ _ _ _ _ h h1 h2 h3next

/-- The state that the main loop creates from item `i` of a sound state is
sound and still consists of its kernel alone. -/
theorem new_state_sound {g : Grammar} {item : Item} {i : Nat} {ip : ItemProduction}
    {symbol : Char} {out o : List Diag} {ni : Item}
    (hs : Item.sound g item) (hread : item.productions[i]? = some ip)
    (hcol : collect_extra g item symbol (item.productions.length - (i + 1)) (i + 1)
      (item_production_insert ⟨[], 1, set_init⟩ ip.nonterminal ip.production
        (ip.dot_offset + 1)).1 out = .ok (ni, o)) :
    Item.sound g ni ∧ ni.productions.length = ni.closure_offset := by
  have hfresh : (item_production_insert ⟨[], 1, set_init⟩ ip.nonterminal ip.production
      (ip.dot_offset + 1)).1 =
      ⟨[⟨ip.nonterminal, ip.production, ip.dot_offset + 1⟩], 1, set_init⟩ := by
    simp [item_production_insert]
  rw [hfresh] at hcol
  obtain ⟨k1, k2⟩ := collect_extra_exact g item symbol hs.nodup _ _ _ _ _ _ hcol
    (by simp) (by simp) (by
      intro x hx
      simp only [List.mem_singleton] at hx
      exact ⟨i, ip, by omega, hread, by rw [hx]; rfl⟩)
  obtain ⟨_, more, hprod, hmore⟩ := collect_extra_members g item _ _ _ _ _ _ _ hcol
  simp only [] at hprod
  refine ⟨⟨?_, k1, by omega⟩, k2.symm⟩
  intro x hx
  rw [hprod] at hx
  simp only [List.mem_append, List.mem_singleton] at hx
  rcases hx with hx | hx
  · subst hx
    rw [item_get_production_advance]
    exact hs.stored ip (List.getElem?_mem hread)
  · obtain ⟨ipj, pj, h1, h2, _, _, h5⟩ := hmore x hx
    subst h5
    rw [item_get_production_advance, h2]
    simp

end LR0

namespace LR0

open ActionType

/-! ## Sound states -/

/-- The closure of a sound state is sound. -/
theorem closure_sound_item {g : Grammar} {fuel : Nat} {item0 item : Item} {no : Int}
    (h : item_insert_closure fuel g item0 = .ok (item, no)) (hs : Item.sound g item0) :
    Item.sound g item := by
  have hg := closure_grows h
  obtain ⟨added, hadd, _⟩ := hg.grows
  refine ⟨?_, (closure_code h).1 hs.nodup, ?_⟩
  · have hin : ∀ x ∈ item.productions, InClosure g item0.productions x := by
      unfold item_insert_closure at h
      by_cases hlen : item0.productions.length = 0
      · simp only [hlen, if_true, Res.ok.injEq, Prod.mk.injEq] at h
        rw [← h.1]
        exact fun x hx => InClosure.kernel x hx
      · simp only [hlen, if_false] at h
        have hspec := closure_scan_spec g fuel item0.closure_offset 0 set_init 1 item0
          (by intro C hC; simp [set_init] at hC) (by intro h; simp [set_init] at h) (Or.inr rfl)
        rw [h] at hspec
        simp only [ScanOutcome] at hspec
        exact hspec.least item0.productions (fun y hy => InClosure.kernel y hy)
    intro x hx
    have := hin x hx
    induction this with
    | kernel y hy => exact hs.stored y hy
    | expand y B j _ _ hj _ =>
      rw [item_get_production_dot0, List.getElem?_eq_getElem hj]
      simp
  · rw [hg.offset, hadd]
    have := hs.kernel
    simp only [List.length_append]
    omega

/-- The closure of a sound state returns, with a budget above the number of
productions of the grammar. -/
theorem closure_total {g : Grammar} {fuel : Nat} {s : Item} (hs : Item.sound g s)
    (hfuel : (dot0_items g).length < fuel) : ∃ r, item_insert_closure fuel g s = .ok r := by
  unfold item_insert_closure
  by_cases hlen : s.productions.length = 0
  · simp only [hlen, if_true]
    exact ⟨_, rfl⟩
  · simp only [hlen, if_false]
    have hspec := closure_scan_spec g fuel s.closure_offset 0 set_init 1 s
      (by intro C hC; simp [set_init] at hC) (by intro h; simp [set_init] at h) (Or.inr rfl)
    cases hres : closure_scan fuel g s.closure_offset 0 set_init 1 s with
    | undefined =>
      rw [hres] at hspec
      exact absurd (readable_of_valid hs.kernel hs.stored) hspec
    | nofuel =>
      rw [hres] at hspec
      simp only [ScanOutcome] at hspec
      have := count_missing_le (dot0_items g) s.productions
      unfold missing at hspec
      omega
    | ok r => exact ⟨r, rfl⟩

theorem all_sound_set {g : Grammar} {b : Build} {k : Nat} {item : Item}
    (h : all_sound g b) (hitem : Item.sound g item) (b2 : Build)
    (hset : b2.set.items = b.set.items.set k item) : all_sound g b2 := by
  intro j it hj
  rw [hset] at hj
  by_cases hjk : j = k
  · subst hjk
    have hlt := (List.getElem?_eq_some.1 hj).1
    simp only [List.length_set] at hlt
    rw [List.getElem?_set_self hlt] at hj
    cases hj
    exact hitem
  · rw [List.getElem?_set_ne (fun e => hjk e.symm)] at hj
    exact h j it hj

theorem all_sound_append {g : Grammar} {b : Build} {ni : Item}
    (h : all_sound g b) (hitem : Item.sound g ni) (b2 : Build)
    (hset : b2.set.items = b.set.items ++ [ni]) : all_sound g b2 := by
  intro j it hj
  rw [hset] at hj
  by_cases hlt : j < b.set.items.length
  · rw [List.getElem?_append_left hlt] at hj
    exact h j it hj
  · have hlt2 := (List.getElem?_eq_some.1 hj).1
    simp only [List.length_append, List.length_singleton] at hlt2
    have hje : j = b.set.items.length := by omega
    subst hje
    simp at hj
    subst hj
    exact hitem

/-- Every state is sound after a successful call of the construction. -/
theorem internal_sound (g : Grammar) :
    ∀ (fuel : Nat) (b : Build) (k : Nat) (r : Build × Int),
      grammar_create_lr_table_internal fuel g b k = .ok r → 0 ≤ r.2 →
      k + 1 = b.set.items.length → all_sound g b → all_sound g r.1 := by
  apply internal_induct g (fun b => all_sound g b) (fun _ b2 => all_sound g b2)
    (fun _ k item _ _ b => all_sound g b ∧ b.set.items[k]? = some item)
  · intro fuel b k item0 item ip hpre hk hit hcl _
    apply all_sound_set hpre (closure_sound_item hcl (hpre k item0 hit)) _
      (k := k)
    rw [(write_complete_spec g k ip _).1.set]
  · intro fuel b k item0 item no hpre hk hit hcl _ _
    refine ⟨all_sound_set hpre (closure_sound_item hcl (hpre k item0 hit)) _ rfl, ?_⟩
    simp only []
    rw [List.getElem?_set_self (by omega)]
  · intro b0 k item i v b h
    exact h.2
  · intro b0 k item i v b ip p hinv hread hget b1 hb1
    obtain ⟨hs, hitem⟩ := hinv
    have hset1 : b1.set = b.set := by
      rw [hb1]
      split
      · exact (write_complete_spec g k ip b).1.set
      · rfl
    have hklt : k < b1.set.items.length := by
      rw [hset1]
      exact (List.getElem?_eq_some.1 hitem).1
    have hs1 : all_sound g b1 := by
      intro j it hj
      rw [hset1] at hj
      exact hs j it hj
    refine ⟨fun _ => ⟨hs1, by rw [hset1]; exact hitem⟩, ?_, ?_⟩
    · intro _ next _
      refine ⟨?_, ?_⟩
      · intro j it hj
        rw [(write_edge_spec g k _ next b1).1.set] at hj
        exact hs1 j it hj
      · rw [(write_edge_spec g k _ next b1).1.set, hset1]
        exact hitem
    · intro _ hfind ni out hcol
      have hni := (new_state_sound (hs k item hitem) hread hcol).1
      constructor
      · exact all_sound_append hs1 hni _ rfl
      · intro b2 hfr hpost
        refine ⟨?_, ?_⟩
        · intro j it hj
          rw [(write_edge_spec g k _ _ b2).1.set] at hj
          exact hpost j it hj
        · rw [(write_edge_spec g k _ _ b2).1.set, hfr.items k hklt]
          simp only []
          rw [List.getElem?_append_left hklt, hset1]
          exact hitem
  · intro b0 k item v b _ h
    exact h.1

end LR0

namespace LR0

open ActionType

/-! ## The construction returns -/

/-- The invariant of the list of states holds of the list that
`grammar_create_lr_table` starts from. -/
theorem states_inv_start (g : Grammar) :
    StatesInv g [⟨[⟨'Z', 0, 0⟩], 1, set_init⟩] := by
  constructor
  · intro j it h
    cases j with
    | zero =>
      simp at h
      subst h
      exact ⟨⟨'Z', 0, 0⟩, rfl, Nat.le_refl _⟩
    | succ j => simp at h
  · intro i j iti itj x hij _ hj
    cases j with
    | zero => omega
    | succ j => simp at hj
  · intro j it x hj1 hj
    cases j with
    | zero => omega
    | succ j => simp at hj
  · intro j it h
    left
    cases j with
    | zero =>
      simp at h
      subst h
      intro x hx p _
      simp at hx
      subst hx
      exact Nat.zero_le _
    | succ j => simp at h

/-- The main loop returns when the recursive calls do. -/
theorem table_loop_returns (g : Grammar) (hfill : fill_unused g) (fuel k : Nat) (item : Item)
    (hrec : ∀ b next, next + 1 = b.set.items.length → StatesInv g b.set.items →
      all_sound g b →
      (1 + item_pairs g - b.set.items.length) + (dot0_items g).length + 1 < fuel →
      ∃ r, grammar_create_lr_table_internal fuel g b next = .ok r)
    (hreg : Item.regular g item) :
    ∀ (n i : Nat) (v : Set) (b : Build), i + n = item.productions.length →
      StatesInv g b.set.items → all_sound g b → b.set.items[k]? = some item →
      (1 + item_pairs g - b.set.items.length) + (dot0_items g).length + 1 ≤ fuel →
      ∃ r, table_loop (grammar_create_lr_table_internal fuel g) g k n i v b = .ok r := by
  intro n
  induction n with
  | zero =>
    intro i v b _ _ _ _ _
    exact ⟨_, rfl⟩
  | succ n ih =>
    intro i v b hin hst hs hitem hm
    have hsound := hs k item hitem
    have hilt : i < item.productions.length := by omega
    have hread : item.productions[i]? = some item.productions[i] :=
      List.getElem?_eq_getElem hilt
    generalize item.productions[i] = ip at hread
    cases hget : item_get_production g ip with
    | none => exact absurd hget (hsound.stored ip (List.getElem?_mem hread))
    | some p =>
      unfold table_loop
      simp only [hitem, hread, hget]
      have hset1 : (if p.size ≤ ip.dot_offset then write_complete g k ip b else b).set =
          b.set := by
        split
        · exact (write_complete_spec g k ip b).1.set
        · rfl
      generalize (if p.size ≤ ip.dot_offset then write_complete g k ip b else b) = b1
        at hset1 ⊢
      have hklt : k < b.set.items.length := (List.getElem?_eq_some.1 hitem).1
      by_cases hflag : (set_insert v (symbol_at g p ip.dot_offset)).2 = 1
      · simp only [hflag, if_true]
        exact ih _ _ _ (by omega) (by rw [hset1]; exact hst)
          (by intro j it hj; rw [hset1] at hj; exact hs j it hj)
          (by rw [hset1]; exact hitem) (by rw [hset1]; exact hm)
      · simp only [hflag, if_false]
        cases hfind : item_find b1.set ⟨ip.nonterminal, ip.production, ip.dot_offset + 1⟩ with
        | some next =>
          simp only []
          have hse := (write_edge_spec g k (symbol_at g p ip.dot_offset) next b1).1.set
          exact ih _ _ _ (by omega) (by rw [hse, hset1]; exact hst)
            (by intro j it hj; rw [hse, hset1] at hj; exact hs j it hj)
            (by rw [hse, hset1]; exact hitem) (by rw [hse, hset1]; exact hm)
        | none =>
          simp only []
          obtain ⟨rc, hcol⟩ := collect_extra_total g item (symbol_at g p ip.dot_offset)
            hsound.stored (item.productions.length - (i + 1)) (i + 1)
            (item_production_insert ⟨[], 1, set_init⟩ ip.nonterminal ip.production
              (ip.dot_offset + 1)).1 b1.out (by omega)
          obtain ⟨ni, out⟩ := rc
          simp only [hcol]
          obtain ⟨h1, h2, h3⟩ := new_state_shape hfill hreg (List.getElem?_mem hread) hget hcol
          have hni := (new_state_sound hsound hread hcol).1
          have hne : b.set.items ≠ [] := by
            intro e
            rw [e] at hklt
            simp at hklt
          rw [hset1] at hfind
          have hst2 : StatesInv g (b.set.items ++ [ni]) :=
            states_inv_append hst hne h1 h2 (item_find_from_none hfind)
              (advanced_mem hget (hreg ip (List.getElem?_mem hread) p hget)) h3
          have hlen2 := states_inv_length hst2
          simp only [List.length_append, List.length_singleton] at hlen2
          have hs2 : all_sound g
              ⟨⟨b1.set.items ++ [ni], b1.set.initial_symbol⟩, b1.table, out, b1.writes⟩ :=
            all_sound_append hs hni _ (by rw [hset1])
          obtain ⟨rr, hres⟩ := hrec
            ⟨⟨b1.set.items ++ [ni], b1.set.initial_symbol⟩, b1.table, out, b1.writes⟩
            b1.set.items.length (by simp) (by simp only []; rw [hset1]; exact hst2) hs2
            (by
              simp only [List.length_append, List.length_singleton]
              rw [hset1]
              omega)
          obtain ⟨b2, code⟩ := rr
          simp only [hres]
          by_cases hneg : code < 0
          · simp only [hneg, if_true]
            exact ⟨_, rfl⟩
          · simp only [hneg, if_false]
            have hc : (0 : Int) ≤ code := by omega
            have hst3 := internal_states g hfill fuel _ _ _ hres hc (by simp)
              (by simp only []; rw [hset1]; exact hst2)
            have hs3 := internal_sound g fuel _ _ _ hres hc (by simp) hs2
            have hfr := (internal_frame g fuel _ _ _ hres (by simp)).1
            have hse := (write_edge_spec g k (symbol_at g p ip.dot_offset)
              b1.set.items.length b2).1.set
            have hlen3 := hfr.length
            simp only [List.length_append, List.length_singleton] at hlen3
            rw [hset1] at hlen3
            refine ih _ _ _ (by omega) (by rw [hse]; exact hst3)
              (by intro j it hj; rw [hse] at hj; exact hs3 j it hj) ?_ ?_
            · rw [hse, hfr.items k (by rw [hset1]; exact hklt)]
              simp only []
              rw [hset1, List.getElem?_append_left hklt]
              exact hitem
            · rw [hse]
              omega

/-- The construction returns from a sound list of states when its budget
exceeds the number of states that can still be created by the number of
productions and two. -/
theorem internal_returns (g : Grammar) (hfill : fill_unused g) :
    ∀ (fuel : Nat) (b : Build) (k : Nat), k + 1 = b.set.items.length →
      StatesInv g b.set.items → all_sound g b →
      (1 + item_pairs g - b.set.items.length) + (dot0_items g).length + 1 < fuel →
      ∃ r, grammar_create_lr_table_internal fuel g b k = .ok r := by
  intro fuel
  induction fuel with
  | zero => intro b k _ _ _ h; omega
  | succ fuel ih =>
    intro b k hk hst hs hm
    have hklt : k < b.set.items.length := by omega
    have hit : b.set.items[k]? = some b.set.items[k] := List.getElem?_eq_getElem hklt
    generalize b.set.items[k] = item0 at hit
    unfold grammar_create_lr_table_internal
    simp only [hit]
    obtain ⟨rc, hcl⟩ := @closure_total g fuel item0 (hs k item0 hit) (by omega)
    obtain ⟨item, no⟩ := rc
    simp only [hcl]
    have hg := closure_grows hcl
    by_cases hno1 : no = 1
    · simp only [hno1, if_true]
      obtain ⟨x, hx, _⟩ := hst.first k item0 hit
      rw [hg.getElem? hx]
      exact ⟨_, rfl⟩
    · simp only [hno1, if_false]
      by_cases hneg : no < 0
      · simp only [hneg, if_true]
        exact ⟨_, rfl⟩
      · simp only [hneg, if_false]
        have hsh := closure_shape hcl (hst.shape k item0 hit)
        apply table_loop_returns g hfill fuel k item ih (hsh.2 hno1 hneg)
        · simp
        · exact states_inv_closure hst hk hit hg hsh.1
        · exact all_sound_set hs (closure_sound_item hcl (hs k item0 hit)) _ rfl
        · simp only []
          rw [List.getElem?_set_self hklt]
        · simp only [List.length_set]
          omega

/-- On a grammar in which `Z` has a production 0 and whose never-written symbol
slots hold a character that occurs in no production, `grammar_create_lr_table`
returns from an empty item set for every budget from `construction_budget`
on. -/
theorem construction_returns (g : Grammar) (c0 : Char) (hfill : fill_unused g)
    (hZ : item_get_production g ⟨'Z', 0, 0⟩ ≠ none) (fuel : Nat)
    (hfuel : construction_budget g ≤ fuel) :
    ∃ b code, grammar_create_lr_table fuel g (item_set_init c0) = .ok (b, code) := by
  unfold grammar_create_lr_table
  simp only [item_set_init, List.nil_append, List.length_nil]
  have hfresh : (item_production_insert ⟨[], 1, set_init⟩ 'Z' 0 0).1 =
      ⟨[⟨'Z', 0, 0⟩], 1, set_init⟩ := by
    simp [item_production_insert]
  rw [hfresh]
  obtain ⟨r, hr⟩ := internal_returns g hfill fuel
    ⟨⟨[⟨[⟨'Z', 0, 0⟩], 1, set_init⟩], c0⟩, lr0_parsing_table_init, [], []⟩ 0 (by simp)
    (states_inv_start g) (by
      intro j it hj
      cases j with
      | zero =>
        simp at hj
        subst hj
        refine ⟨?_, by simp, by simp⟩
        intro x hx
        simp at hx
        subst hx
        exact hZ
      | succ j => simp at hj) (by
      unfold construction_budget at hfuel
      simp only [List.length_singleton]
      omega)
  exact ⟨r.1, r.2, hr⟩

end LR0

namespace LR0

open ActionType

/-! ## The return code of the construction -/

/-- The state that the main loop creates still consists of its kernel alone. -/
theorem new_state_unclosed {g : Grammar} {item : Item} {ip : ItemProduction} {symbol : Char}
    {n j : Nat} {out o : List Diag} {ni : Item} {b1 : Build}
    (hcol : collect_extra g item symbol n j
      (item_production_insert ⟨[], 1, set_init⟩ ip.nonterminal ip.production
        (ip.dot_offset + 1)).1 out = .ok (ni, o))
    (tab : LR0ParsingTable) (out2 : List Diag) (ws : List (Int × Int × ActionRecord)) :
    last_unclosed ⟨⟨b1.set.items ++ [ni], b1.set.initial_symbol⟩, tab, out2, ws⟩ := by
  have hfresh : (item_production_insert ⟨[], 1, set_init⟩ ip.nonterminal ip.production
      (ip.dot_offset + 1)).1 =
      ⟨[⟨ip.nonterminal, ip.production, ip.dot_offset + 1⟩], 1, set_init⟩ := by
    simp [item_production_insert]
  rw [hfresh] at hcol
  obtain ⟨_, k1, k2⟩ := (collect_extra_spec g item symbol n j _ out _ hcol).2 ni o rfl
  intro it hit
  simp at hit
  subst hit
  exact ⟨k2 (by simp), k1 (by simp)⟩

/-- After a successful call of the construction on the last state, still
unclosed, no item of that state or of a later one has its dot before a
nonterminal without a production set. -/
theorem internal_no_dangling (g : Grammar) :
    ∀ (fuel : Nat) (b : Build) (k : Nat) (r : Build × Int),
      grammar_create_lr_table_internal fuel g b k = .ok r → 0 ≤ r.2 →
      k + 1 = b.set.items.length → last_unclosed b →
      no_dangling g (b.set.items.length - 1) r.1 := by
  apply internal_induct g (fun b => last_unclosed b)
    (fun b b2 => no_dangling g (b.set.items.length - 1) b2)
    (fun _ k item _ _ b => b.set.items[k]? = some item ∧
      (∀ x ∈ item.productions, ¬ dangling g x) ∧
      ∀ (j : Nat) (it : Item), k < j → b.set.items[j]? = some it →
        ∀ x ∈ it.productions, ¬ dangling g x)
  · intro fuel b k item0 item ip hpre hk hit hcl _
    have hlast := hpre item0 (by rw [show b.set.items.length - 1 = k by omega]; exact hit)
    intro j it hj hjit
    rw [(write_complete_spec g k ip _).1.set] at hjit
    simp only [] at hjit
    have hlt := (List.getElem?_eq_some.1 hjit).1
    simp only [List.length_set] at hlt
    have hjk : j = k := by omega
    subst hjk
    rw [List.getElem?_set_self (by omega)] at hjit
    cases hjit
    exact (closure_code hcl).2.1 hlast.2 (by omega)
  · intro fuel b k item0 item no hpre hk hit hcl hno1 hneg
    have hlast := hpre item0 (by rw [show b.set.items.length - 1 = k by omega]; exact hit)
    refine ⟨?_, (closure_code hcl).2.1 hlast.2 (by omega), ?_⟩
    · simp only []
      rw [List.getElem?_set_self (by omega)]
    · intro j it hkj hj
      simp only [] at hj
      have hlt := (List.getElem?_eq_some.1 hj).1
      simp only [List.length_set] at hlt
      omega
  · intro b0 k item i v b h
    exact h.1
  · intro b0 k item i v b ip p hinv hread hget b1 hb1
    obtain ⟨hitem, hgood, hlater⟩ := hinv
    have hset1 : b1.set = b.set := by
      rw [hb1]
      split
      · exact (write_complete_spec g k ip b).1.set
      · rfl
    have hklt : k < b1.set.items.length := by
      rw [hset1]
      exact (List.getElem?_eq_some.1 hitem).1
    refine ⟨fun _ => ⟨by rw [hset1]; exact hitem, hgood, by rw [hset1]; exact hlater⟩, ?_, ?_⟩
    · intro _ next _
      rw [(write_edge_spec g k _ next b1).1.set, hset1]
      exact ⟨hitem, hgood, hlater⟩
    · intro _ hfind ni out hcol
      refine ⟨new_state_unclosed hcol _ _ _, ?_⟩
      intro b2 hfr hpost
      rw [(write_edge_spec g k _ _ b2).1.set]
      have hkeep : ∀ j, j < b1.set.items.length → b2.set.items[j]? = b.set.items[j]? := by
        intro j hj
        rw [hfr.items j hj]
        simp only []
        rw [List.getElem?_append_left hj, hset1]
      refine ⟨by rw [hkeep k hklt]; exact hitem, hgood, ?_⟩
      intro j it hkj hj
      by_cases hjl : j < b1.set.items.length
      · rw [hkeep j hjl] at hj
        exact hlater j it hkj hj
      · apply hpost j it ?_ hj
        simp only [List.length_append, List.length_singleton]
        omega
  · intro b0 k item v b hk h
    obtain ⟨hitem, hgood, hlater⟩ := h
    intro j it hkj hj
    by_cases hjk : j = k
    · subst hjk
      rw [hitem] at hj
      cases hj
      exact hgood
    · exact hlater j it (by omega) hj

/-- When the main loop returns a negative code, some state has an item with
its dot before a nonterminal without a production set, provided this holds of
the recursive calls. -/
theorem table_loop_failure (g : Grammar) (recurse : Build → Nat → Res (Build × Int))
    (k : Nat)
    (hrec : ∀ b next r, recurse b next = .ok r → r.2 < 0 → next + 1 = b.set.items.length →
      last_unclosed b → has_dangling g r.1) :
    ∀ (n i : Nat) (v : Set) (b : Build) (r : Build × Int),
      table_loop recurse g k n i v b = .ok r → r.2 < 0 → has_dangling g r.1 := by
  intro n
  induction n with
  | zero =>
    intro i v b r h hc
    simp only [table_loop, Res.ok.injEq] at h
    subst h
    simp at hc
  | succ n ih =>
    intro i v b r h hc
    unfold table_loop at h
    cases hitem : b.set.items[k]? with
    | none => simp [hitem] at h
    | some item =>
      simp only [hitem] at h
      cases hread : item.productions[i]? with
      | none => simp [hread] at h
      | some ip =>
        simp only [hread] at h
        cases hget : item_get_production g ip with
        | none => simp [hget] at h
        | some p =>
          simp only [hget] at h
          generalize (if p.size ≤ ip.dot_offset then write_complete g k ip b else b) = b1 at h
          by_cases hflag : (set_insert v (symbol_at g p ip.dot_offset)).2 = 1
          · simp only [hflag, if_true] at h
            exact ih _ _ _ _ h hc
          · simp only [hflag, if_false] at h
            cases hfind : item_find b1.set
                ⟨ip.nonterminal, ip.production, ip.dot_offset + 1⟩ with
            | some next =>
              simp only [hfind] at h
              exact ih _ _ _ _ h hc
            | none =>
              simp only [hfind] at h
              cases hcol : collect_extra g item (symbol_at g p ip.dot_offset)
                  (item.productions.length - (i + 1)) (i + 1)
                  (item_production_insert ⟨[], 1, set_init⟩ ip.nonterminal ip.production
                    (ip.dot_offset + 1)).1 b1.out with
              | undefined => simp [hcol] at h
              | nofuel => simp [hcol] at h
              | ok rc =>
                obtain ⟨ni, out⟩ := rc
                simp only [hcol] at h
                cases hres : recurse
                    ⟨⟨b1.set.items ++ [ni], b1.set.initial_symbol⟩, b1.table, out, b1.writes⟩
                    b1.set.items.length with
                | undefined => simp [hres] at h
                | nofuel => simp [hres] at h
                | ok rr =>
                  obtain ⟨b2, code⟩ := rr
                  simp only [hres] at h
                  by_cases hneg : code < 0
                  · simp only [hneg, if_true, Res.ok.injEq] at h
                    subst h
                    exact hrec _ _ (b2, code) hres hneg (by simp)
                      (new_state_unclosed hcol _ _ _)
                  · simp only [hneg, if_false] at h
                    exact ih _ _ _ _ h hc

/-- When a call of the construction on the last state, still unclosed, returns
a negative code, some state has an item with its dot before a nonterminal
without a production set. -/
theorem internal_failure (g : Grammar) :
    ∀ (fuel : Nat) (b : Build) (k : Nat) (r : Build × Int),
      grammar_create_lr_table_internal fuel g b k = .ok r → r.2 < 0 →
      k + 1 = b.set.items.length → last_unclosed b → has_dangling g r.1 := by
  intro fuel
  induction fuel with
  | zero =>
    intro b k r h
    simp [grammar_create_lr_table_internal] at h
  | succ fuel ih =>
    intro b k r h hc hk hpre
    unfold grammar_create_lr_table_internal at h
    cases hit : b.set.items[k]? with
    | none => simp [hit] at h
    | some item0 =>
      simp only [hit] at h
      have hlast := hpre item0 (by rw [show b.set.items.length - 1 = k by omega]; exact hit)
      cases hcl : item_insert_closure fuel g item0 with
      | undefined => simp [hcl] at h
      | nofuel => simp [hcl] at h
      | ok rc =>
        obtain ⟨item, no⟩ := rc
        simp only [hcl] at h
        by_cases hno1 : no = 1
        · subst hno1
          simp only [if_true] at h
          cases hp0 : item.productions[0]? with
          | none => simp [hp0] at h
          | some ip =>
            simp only [hp0, Res.ok.injEq] at h
            subst h
            simp at hc
        · simp only [hno1, if_false] at h
          by_cases hneg : no < 0
          · simp only [hneg, if_true, Res.ok.injEq] at h
            subst h
            obtain ⟨x, hx, hd⟩ := (closure_code hcl).2.2 hlast.1 hneg
            refine ⟨k, item, ?_, x, hx, hd⟩
            simp only []
            rw [List.getElem?_set_self (by omega)]
          · simp only [hneg, if_false] at h
            exact table_loop_failure g _ k ih _ _ _ _ _ h hc

/-- In a grammar in which every nonterminal on a right-hand side has a
production set, no item has its dot before a nonterminal without one. -/
theorem rhs_defined_dangling {g : Grammar} (h : rhs_defined g) (x : ItemProduction) :
    ¬ dangling g x := by
  rintro ⟨U, ⟨p, hp, hsym, hU⟩, hnone⟩
  obtain ⟨ps, hps, hpp⟩ := item_get_production_stored hp
  exact h ps hps p hpp U (List.getElem?_mem hsym) hU hnone

end LR0

namespace LR0

open ActionType

/-- On a grammar in which `Z` has a production 0 and whose never-written
symbol slots hold a character that occurs in no production (as on zero-filled
storage), `grammar_create_lr_table` returns from an empty item set for every
budget from `construction_budget` on.  Whenever it returns, its code is
negative exactly when some state it has created has an item with its dot
immediately before a nonterminal that has no production set; and when every
nonterminal on a right-hand side has a production set the code is not
negative, whatever lines about overlaps were printed. -/
theorem construction_code (g : Grammar) (c0 : Char) (hfill : fill_unused g)
    (hZ : item_get_production g ⟨'Z', 0, 0⟩ ≠ none) :
    (∀ fuel, construction_budget g ≤ fuel →
      ∃ b code, grammar_create_lr_table fuel g (item_set_init c0) = .ok (b, code)) ∧
    (∀ fuel b code, grammar_create_lr_table fuel g (item_set_init c0) = .ok (b, code) →
      (code < 0 ↔ has_dangling g b) ∧ (rhs_defined g → 0 ≤ code)) ∧
    (rhs_defined g → ∀ fuel, construction_budget g ≤ fuel →
      ∃ b code, grammar_create_lr_table fuel g (item_set_init c0) = .ok (b, code) ∧
        0 ≤ code) := by
  have hfresh : (item_production_insert ⟨[], 1, set_init⟩ 'Z' 0 0).1 =
      ⟨[⟨'Z', 0, 0⟩], 1, set_init⟩ := by
    simp [item_production_insert]
  have hstart : ∀ (tab : LR0ParsingTable), last_unclosed
      ⟨⟨[⟨[⟨'Z', 0, 0⟩], 1, set_init⟩], c0⟩, tab, [], []⟩ := by
    intro tab it hit
    simp at hit
    subst hit
    exact ⟨by simp, by simp⟩
  have hpart : ∀ fuel b code,
      grammar_create_lr_table fuel g (item_set_init c0) = .ok (b, code) →
      (code < 0 ↔ has_dangling g b) ∧ (rhs_defined g → 0 ≤ code) := by
    intro fuel b code hrun
    unfold grammar_create_lr_table at hrun
    simp only [item_set_init, List.nil_append, List.length_nil] at hrun
    rw [hfresh] at hrun
    have hneg : code < 0 → has_dangling g b :=
      fun hc => internal_failure g fuel _ 0 _ hrun hc (by simp) (hstart _)
    have hpos : 0 ≤ code → ¬ has_dangling g b := by
      intro hc hd
      obtain ⟨j, it, hj, x, hx, hdx⟩ := hd
      exact internal_no_dangling g fuel _ 0 _ hrun hc (by simp) (hstart _) j it
        (by simp) hj x hx hdx
    refine ⟨⟨hneg, ?_⟩, ?_⟩
    · intro hd
      by_contra hc
      exact hpos (by omega) hd
    · intro hdef
      by_contra hc
      obtain ⟨j, it, hj, x, hx, hdx⟩ := hneg (by omega)
      exact rhs_defined_dangling hdef x hdx
  refine ⟨fun fuel hf => construction_returns g c0 hfill hZ fuel hf, hpart, ?_⟩
  intro hdef fuel hf
  obtain ⟨b, code, hrun⟩ := construction_returns g c0 hfill hZ fuel hf
  exact ⟨b, code, hrun, (hpart fuel b code hrun).2 hdef⟩

set_option maxRecDepth 100000 in
/-- Witness for `construction_code`.  The grammar `S -> a | ab`, in which every
nonterminal on a right-hand side has productions: the construction returns for
every budget from `construction_budget` on, with a code that is not negative,
although it prints an overlap.  The grammar `S -> Ab`, in which `A` has no
productions: the construction returns -1, and state 0 has the item
`S -> . Ab`. -/
theorem construction_code_witness :
    (fill_unused grammar_shift_reduce ∧
      item_get_production grammar_shift_reduce ⟨'Z', 0, 0⟩ ≠ none ∧
      rhs_defined grammar_shift_reduce ∧
      (∀ fuel, construction_budget grammar_shift_reduce ≤ fuel →
        ∃ b code, grammar_create_lr_table fuel grammar_shift_reduce (item_set_init 'Z') =
          .ok (b, code) ∧ 0 ≤ code) ∧
      (grammar_create_lr_table 16 grammar_shift_reduce (item_set_init 'Z')).map
        (fun r => (r.2, r.1.out.any (fun d => d.is_overlap))) = .ok (0, true)) ∧
    (fill_unused grammar_missing_nonterminal ∧
      item_get_production grammar_missing_nonterminal ⟨'Z', 0, 0⟩ ≠ none ∧
      grammar_find grammar_missing_nonterminal 'A' = none ∧
      ∃ b, grammar_create_lr_table 16 grammar_missing_nonterminal (item_set_init 'Z') =
          .ok (b, -1) ∧ has_dangling grammar_missing_nonterminal b) := by
  have f1 : fill_unused grammar_shift_reduce := by unfold fill_unused; decide
  have z1 : item_get_production grammar_shift_reduce ⟨'Z', 0, 0⟩ ≠ none := by decide
  have d1 : rhs_defined grammar_shift_reduce := by unfold rhs_defined; decide
  have f2 : fill_unused grammar_missing_nonterminal := by unfold fill_unused; decide
  have z2 : item_get_production grammar_missing_nonterminal ⟨'Z', 0, 0⟩ ≠ none := by decide
  refine ⟨⟨f1, z1, d1, (construction_code grammar_shift_reduce 'Z' f1 z1).2.2 d1, by decide⟩,
    f2, z2, by decide, ?_⟩
  have hm : (grammar_create_lr_table 16 grammar_missing_nonterminal (item_set_init 'Z')).map
      (fun r => r.2) = .ok (-1) := by
    decide
  cases hrun : grammar_create_lr_table 16 grammar_missing_nonterminal (item_set_init 'Z') with
  | undefined => rw [hrun] at hm; simp [Res.map] at hm
  | nofuel => rw [hrun] at hm; simp [Res.map] at hm
  | ok r =>
    obtain ⟨b, code⟩ := r
    rw [hrun] at hm
    simp only [Res.map, Res.ok.injEq] at hm
    subst hm
    exact ⟨b, rfl, ((construction_code grammar_missing_nonterminal 'Z' f2 z2).2.1 16 b (-1)
      hrun).1.1 (by decide)⟩

end LR0

namespace LR0

open ActionType

/-! ## Ordered sets -/

/-- The function `set_order` answers -1 exactly for the characters that are
not in the set. -/
theorem set_order_miss (s : Set) (c : Char) : set_order s c = -1 ↔ c ∉ s.data := by
  unfold set_order
  by_cases h : c ∈ s.data
  · simp only [h, if_true, not_true_eq_false, iff_false]
    omega
  · simp [h]

/-- In a list without repetition an element stands at its first index only. -/
theorem nodup_index {l : List Char} (hn : l.Nodup) {k : Char} (hk : k ∈ l) (j : Nat) :
    l[j]? = some k ↔ j = l.indexOf k := by
  have hlt : l.indexOf k < l.length := List.indexOf_lt_length.2 hk
  have hget : l[l.indexOf k] = k := List.getElem_indexOf hlt
  constructor
  · intro h
    obtain ⟨hj, e⟩ := List.getElem?_eq_some.1 h
    have hinj : l[j] = l[l.indexOf k] ↔ j = l.indexOf k := List.Nodup.getElem_inj_iff hn
    exact hinj.1 (e.trans hget.symm)
  · intro h
    subst h
    rw [List.getElem?_eq_getElem hlt, hget]

/-- C36. For a set without repetition that holds fewer than `SETMAXALLOCSIZE`
elements and every `k`: `set_insert` answers 1 and leaves the set as it is when
`k` is in it, and otherwise answers 0 and appends `k` at the index that was the
size; in both cases every element that was in the set keeps its `set_order`,
the set stays without repetition, and `set_order` of `k` afterwards is the one
index at which `k` stands; `set_order` is -1 exactly for the characters that
are not in the set. -/
theorem set_insert_spec (s : Set) (k : Char) (hn : s.data.Nodup)
    (hlen : s.data.length < SETMAXALLOCSIZE) :
    (k ∈ s.data → set_insert s k = (s, 1)) ∧
    (k ∉ s.data → set_insert s k = (⟨s.data ++ [k]⟩, 0) ∧
      (set_insert s k).1.data[s.data.length]? = some k ∧
      (set_insert s k).1.data_size = s.data_size + 1) ∧
    (∀ c ∈ s.data, c ∈ (set_insert s k).1.data ∧
      set_order (set_insert s k).1 c = set_order s c) ∧
    (set_insert s k).1.data.Nodup ∧
    (∃ i : Nat, set_order (set_insert s k).1 k = (i : Int) ∧
      ∀ j : Nat, (set_insert s k).1.data[j]? = some k ↔ j = i) ∧
    (∀ c, set_order (set_insert s k).1 c = -1 ↔ c ∉ (set_insert s k).1.data) := by
  have hin : k ∈ s.data → set_insert s k = (s, 1) := by
    intro h
    simp [set_insert, h]
  have hout : k ∉ s.data → set_insert s k = (⟨s.data ++ [k]⟩, 0) := by
    intro h
    simp [set_insert, h, hlen]
  have hnodup : (set_insert s k).1.data.Nodup := by
    by_cases h : k ∈ s.data
    · rw [hin h]
      exact hn
    · rw [hout h]
      refine List.nodup_append.2 ⟨hn, List.nodup_singleton _, ?_⟩
      intro a ha hb
      simp only [List.mem_singleton] at hb
      subst hb
      exact h ha
  have hmem : k ∈ (set_insert s k).1.data := (set_insert_mem s k).2 (Or.inr hlen)
  refine ⟨hin, ?_, ?_, hnodup, ?_, fun c => set_order_miss _ c⟩
  · intro h
    refine ⟨hout h, ?_, ?_⟩
    · rw [hout h]
      simp
    · rw [hout h]
      simp [Set.data_size]
  · intro c hc
    exact ⟨set_insert_keeps s k hc, set_insert_order s k c hc⟩
  · refine ⟨(set_insert s k).1.data.indexOf k, ?_, fun j => nodup_index hnodup hmem j⟩
    unfold set_order
    rw [if_pos hmem]

/-- Witness for `set_insert_spec`: the set `+`, `i`, `d` and the character
`$`, which is appended at index 3. -/
theorem set_insert_spec_witness :
    (⟨['+', 'i', 'd']⟩ : Set).data.Nodup ∧
    (⟨['+', 'i', 'd']⟩ : Set).data.length < SETMAXALLOCSIZE ∧
    set_insert ⟨['+', 'i', 'd']⟩ '$' = (⟨['+', 'i', 'd', '$']⟩, 0) ∧
    set_order (set_insert ⟨['+', 'i', 'd']⟩ '$').1 '$' = 3 ∧
    (∀ c ∈ (⟨['+', 'i', 'd']⟩ : Set).data,
      c ∈ (set_insert ⟨['+', 'i', 'd']⟩ '$').1.data ∧
      set_order (set_insert ⟨['+', 'i', 'd']⟩ '$').1 c = set_order ⟨['+', 'i', 'd']⟩ c) ∧
    (set_insert ⟨['+', 'i', 'd']⟩ '$').1.data.Nodup :=
  ⟨by decide, by decide, by decide, by decide,
    (set_insert_spec ⟨['+', 'i', 'd']⟩ '$' (by decide) (by decide)).2.2.1,
    (set_insert_spec ⟨['+', 'i', 'd']⟩ '$' (by decide) (by decide)).2.2.2.1⟩

set_option maxRecDepth 100000 in
/-- C37 (the claim fails). The set of the forty elements `a`..`z`, `0`..`9`,
`+`, `-`, `*`, `/` does not hold `=`; `set_insert` answers 0 on it and leaves
the set as it is, so that `=` is not a member afterwards. -/
theorem insert_into_full_set_dropped :
    full_set.data.length = SETMAXALLOCSIZE ∧
    full_set.data.Nodup ∧
    '=' ∉ full_set.data ∧
    set_insert full_set '=' = (full_set, 0) ∧
    set_exists (set_insert full_set '=').1 '=' = false := by
  decide

/-- C37 (as amended). After `set_insert s k` the element `k` is a member of the
set, and `set_exists` answers true for it, exactly when it was a member before
or the set held fewer than `SETMAXALLOCSIZE` elements; on a set that holds
`SETMAXALLOCSIZE` elements an element that is not a member is dropped, the set
stays as it is and the answer is 0. -/
theorem set_insert_member (s : Set) (k : Char) :
    (k ∈ (set_insert s k).1.data ↔ (k ∈ s.data ∨ s.data.length < SETMAXALLOCSIZE)) ∧
    (set_exists (set_insert s k).1 k = true ↔
      (k ∈ s.data ∨ s.data.length < SETMAXALLOCSIZE)) ∧
    (k ∉ s.data → ¬ s.data.length < SETMAXALLOCSIZE → set_insert s k = (s, 0)) := by
  have h1 := set_insert_mem s k
  refine ⟨h1, ?_, ?_⟩
  · rw [← h1]
    unfold set_exists
    simp only [decide_eq_true_eq]
    constructor
    · intro h
      by_contra hne
      have := (set_order_miss _ _).2 hne
      omega
    · intro h
      unfold set_order
      rw [if_pos h]
      omega
  · intro hk hfull
    simp [set_insert, hk, hfull]

end LR0

namespace LR0

open ActionType

/-! ## Order numbers of productions -/

/-- The value of `grammar_get_order_from_item` for an item whose nonterminal
has production set number `s`. -/
theorem order_from_item_eq {g : Grammar} {k : ItemProduction} {s : Nat}
    (h : grammar_find g k.nonterminal = some s) :
    grammar_get_order_from_item g k = ((productions_before g s + k.production : Nat) : Int) := by
  unfold grammar_get_order_from_item productions_before
  simp only [h, Option.getD_some]
  push_cast
  omega

theorem print_productions_spec (a : Nat) :
    ∀ (l : List Production) (prod order : Nat),
      (print_productions a l prod order).2 = order + l.length ∧
      ∀ (x y n : Nat), (x, y, n) ∈ (print_productions a l prod order).1 ↔
        x = a ∧ ∃ i, i < l.length ∧ y = prod + i ∧ n = order + i := by
  intro l
  induction l with
  | nil =>
    intro prod order
    simp [print_productions]
  | cons p rest ih =>
    intro prod order
    obtain ⟨k1, k2⟩ := ih (prod + 1) (order + 1)
    simp only [print_productions, List.length_cons]
    refine ⟨by rw [k1]; omega, ?_⟩
    intro x y n
    simp only [List.mem_cons, Prod.mk.injEq, k2]
    constructor
    · rintro (⟨h1, h2, h3⟩ | ⟨h1, i, h2, h3, h4⟩)
      · exact ⟨h1, 0, by omega, by omega, by omega⟩
      · exact ⟨h1, i + 1, by omega, by omega, by omega⟩
    · rintro ⟨h1, i, h2, h3, h4⟩
      cases i with
      | zero => exact Or.inl ⟨h1, by omega, by omega⟩
      | succ i => exact Or.inr ⟨h1, i, by omega, by omega, by omega⟩

theorem print_sets_spec :
    ∀ (l : List ProductionSet) (a order : Nat) (x y n : Nat),
      (x, y, n) ∈ print_sets l a order ↔
        ∃ i ps, l[i]? = some ps ∧ x = a + i ∧ y < ps.productions.length ∧
          n = order + ((l.take i).map (fun q => q.productions.length)).sum + y := by
  intro l
  induction l with
  | nil =>
    intro a order x y n
    simp [print_sets]
  | cons ps rest ih =>
    intro a order x y n
    obtain ⟨k1, k2⟩ := print_productions_spec a ps.productions 0 order
    simp only [print_sets, List.mem_append, k2, ih, k1]
    constructor
    · rintro (⟨h1, i, h2, h3, h4⟩ | ⟨i, q, h1, h2, h3, h4⟩)
      · exact ⟨0, ps, by simp, by omega, by omega, by simp; omega⟩
      · refine ⟨i + 1, q, by simpa using h1, by omega, h3, ?_⟩
        simp only [List.take_succ_cons, List.map_cons, List.sum_cons]
        omega
    · rintro ⟨i, q, h1, h2, h3, h4⟩
      cases i with
      | zero =>
        simp only [List.getElem?_cons_zero, Option.some.injEq] at h1
        subst h1
        simp only [List.take_zero, List.map_nil, List.sum_nil] at h4
        exact Or.inl ⟨by omega, y, h3, by omega, by omega⟩
      | succ i =>
        simp only [List.getElem?_cons_succ] at h1
        simp only [List.take_succ_cons, List.map_cons, List.sum_cons] at h4
        exact Or.inr ⟨i, q, h1, by omega, h3, by omega⟩

/-- The lines of `grammar_print`: production `j` of production set `s` is shown
with the number of productions of the sets before `s`, plus `j`. -/
theorem grammar_print_spec (g : Grammar) (s j n : Nat) :
    (s, j, n) ∈ grammar_print g ↔
      ∃ ps, g.set[s]? = some ps ∧ j < ps.productions.length ∧
        n = productions_before g s + j := by
  unfold grammar_print productions_before
  rw [print_sets_spec]
  constructor
  · rintro ⟨i, ps, h1, h2, h3, h4⟩
    have : s = i := by omega
    subst this
    exact ⟨ps, h1, h3, by omega⟩
  · rintro ⟨ps, h1, h2, h3⟩
    exact ⟨s, ps, h1, by omega, h2, by omega⟩

/-- C39. For every grammar and every item whose nonterminal has a production
set, number `s`: `grammar_get_order_from_item` is the number of productions
stored in the production sets before `s` plus the production number of the
item; when the production is stored, this is the number that `grammar_print`
shows for it and no other; and after a successful construction from an empty
item set every reduce cell holds as `target_state` the value of
`grammar_get_order_from_item` for the nonterminal and production it names,
which are a stored production. -/
theorem reduce_numbers (g : Grammar) :
    (∀ (k : ItemProduction) (s : Nat), grammar_find g k.nonterminal = some s →
      grammar_get_order_from_item g k =
        ((productions_before g s + k.production : Nat) : Int)) ∧
    (∀ (k : ItemProduction) (s : Nat) (ps : ProductionSet),
      grammar_find g k.nonterminal = some s → g.set[s]? = some ps →
      k.production < ps.productions.length →
      ∀ n : Nat, (s, k.production, n) ∈ grammar_print g ↔
        (n : Int) = grammar_get_order_from_item g k) ∧
    (∀ (fuel : Nat) (c0 : Char) (b : Build) (code : Int),
      grammar_create_lr_table fuel g (item_set_init c0) = .ok (b, code) → 0 ≤ code →
      ∀ (r : Nat) (c : Int), (b.table.action_table r c).type = ACTION_REDUCE →
        (b.table.action_table r c).target_state =
          grammar_get_order_from_item g
            ⟨(b.table.action_table r c).nonterminal, (b.table.action_table r c).production, 0⟩ ∧
        item_get_production g
          ⟨(b.table.action_table r c).nonterminal, (b.table.action_table r c).production, 0⟩ ≠
            none) := by
  refine ⟨fun k s h => order_from_item_eq h, ?_, ?_⟩
  · intro k s ps hf hps hlt n
    rw [grammar_print_spec, order_from_item_eq hf]
    constructor
    · rintro ⟨q, h1, _, h3⟩
      rw [h3]
    · intro h
      exact ⟨ps, hps, hlt, by exact_mod_cast h⟩
  · intro fuel c0 b code hrun hcode r c hty
    have h := (table_cells g fuel c0 b code hrun hcode).reduce _ _ hty
    exact ⟨h.2, h.1⟩

set_option maxRecDepth 100000 in
/-- The grammar `E -> E+T | T`, `T -> id`: `grammar_print` shows `E -> E+T` as
0, `E -> T` as 1, `T -> id` as 2 and `Z -> E` as 3; the item `T -> id .` has
the order number 2, and the reduce cells of state 6 hold 2. -/
theorem example1_numbers :
    grammar_print example1 = [(0, 0, 0), (0, 1, 1), (1, 0, 2), (2, 0, 3)] ∧
    grammar_get_order_from_item example1 ⟨'T', 0, 2⟩ = 2 ∧
    (grammar_create_lr_table 16 example1 (item_set_init 'Z')).map
      (fun r => (r.2, r.1.table.action_table 6 (set_order example1.terminal_set '$'))) =
      .ok (0, ⟨ACTION_REDUCE, 2, 'T', 0⟩) := by
  refine ⟨by decide, by decide, by decide⟩

end LR0

namespace LR0

open ActionType

/-! ## Augmentation as an extension -/

/-- C40. For a grammar in which `Z` has no production set and is not in the
nonterminal set, whose starting symbol is an upper-case letter and whose
nonterminal set is not full: `grammar_lr0_augment` appends the production set
of `Z`, with the one production `Z -> S`, after the production sets there
are, all of which stay as they are; the terminal set, the starting symbol and
the content of the unwritten slots are unchanged; `Z` is appended to the
nonterminal set, whose elements keep their index; every symbol that had a
production set keeps its number; and `grammar_get_order_from_item` is the same
before and after for every item whose nonterminal had a production set. -/
theorem augment_extends (g : Grammar) (hZ : grammar_find g 'Z' = none)
    (hZn : 'Z' ∉ g.nonterminal_set.data)
    (hS : is_nonterminal g.starting_symbol = true)
    (hcap : g.nonterminal_set.data.length < SETMAXALLOCSIZE) :
    (grammar_lr0_augment g).set = g.set ++ [⟨[⟨[g.starting_symbol]⟩], 'Z', false⟩] ∧
    (grammar_lr0_augment g).terminal_set = g.terminal_set ∧
    (grammar_lr0_augment g).starting_symbol = g.starting_symbol ∧
    (grammar_lr0_augment g).fill = g.fill ∧
    (grammar_lr0_augment g).nonterminal_set.data = g.nonterminal_set.data ++ ['Z'] ∧
    (∀ c ∈ g.nonterminal_set.data,
      set_order (grammar_lr0_augment g).nonterminal_set c = set_order g.nonterminal_set c) ∧
    (∀ (M : Char) (k : Nat), grammar_find g M = some k →
      grammar_find (grammar_lr0_augment g) M = some k ∧
      (grammar_lr0_augment g).set[k]? = g.set[k]? ∧
      productions_of (grammar_lr0_augment g) M = productions_of g M) ∧
    (∀ x : ItemProduction, grammar_find g x.nonterminal ≠ none →
      grammar_get_order_from_item (grammar_lr0_augment g) x =
        grammar_get_order_from_item g x) := by
  obtain ⟨h0, h1, h2, h3, h4, h5⟩ := upper_facts hS
  have hfind : find_set g.set 'Z' = none := hZ
  have hscan : grammar_insert_scan [g.starting_symbol] g.terminal_set [] =
      (g.terminal_set, [g.starting_symbol]) := by
    simp [grammar_insert_scan, h0, h1, h2, h3, h5]
  have hins : (set_insert g.nonterminal_set 'Z').1 = ⟨g.nonterminal_set.data ++ ['Z']⟩ := by
    simp [set_insert, hZn, hcap]
  have hall : grammar_lr0_augment g =
      ⟨g.set ++ [⟨[⟨[g.starting_symbol]⟩], 'Z', false⟩], ⟨g.nonterminal_set.data ++ ['Z']⟩,
        g.terminal_set, g.starting_symbol, g.fill⟩ := by
    simp [grammar_lr0_augment, grammar_insert_rule, grammar_find, hfind,
      grammar_insert_internal, hscan, h4, hins]
  have hkeep : ∀ (M : Char) (k : Nat), grammar_find g M = some k →
      grammar_find (grammar_lr0_augment g) M = some k ∧
      (grammar_lr0_augment g).set[k]? = g.set[k]? := by
    intro M k hk
    have hne : M ≠ 'Z' := by
      intro e
      rw [e, hZ] at hk
      cases hk
    have hlt := find_set_lt (show find_set g.set M = some k from hk)
    rw [hall]
    refine ⟨?_, ?_⟩
    · show find_set (g.set ++ [⟨[⟨[g.starting_symbol]⟩], 'Z', false⟩]) M = some k
      rw [find_set_append_ne _ (fun e => hne e.symm)]
      exact hk
    · simp only []
      rw [List.getElem?_append_left hlt]
  refine ⟨by rw [hall], by rw [hall], by rw [hall], by rw [hall], by rw [hall], ?_, ?_, ?_⟩
  · intro c hc
    rw [hall]
    exact set_order_append 'Z' hc
  · intro M k hk
    obtain ⟨k1, k2⟩ := hkeep M k hk
    refine ⟨k1, k2, ?_⟩
    unfold productions_of
    rw [k1, hk]
    simp only [k2]
  · intro x hx
    cases hk : grammar_find g x.nonterminal with
    | none => exact absurd hk hx
    | some k =>
      obtain ⟨k1, _⟩ := hkeep x.nonterminal k hk
      have hlt := find_set_lt (show find_set g.set x.nonterminal = some k from hk)
      unfold grammar_get_order_from_item
      rw [k1, hk, hall]
      simp only [Option.getD_some]
      rw [List.take_append_of_le_length (by omega)]

/-- Witness for `augment_extends`: the finished grammar `E -> E+T | T`,
`T -> id`. -/
theorem augment_extends_witness :
    grammar_find example1_finished 'Z' = none ∧
    'Z' ∉ example1_finished.nonterminal_set.data ∧
    is_nonterminal example1_finished.starting_symbol = true ∧
    example1_finished.nonterminal_set.data.length < SETMAXALLOCSIZE ∧
    (grammar_lr0_augment example1_finished).set =
      example1_finished.set ++ [⟨[⟨[example1_finished.starting_symbol]⟩], 'Z', false⟩] ∧
    (grammar_lr0_augment example1_finished).terminal_set = example1_finished.terminal_set ∧
    (grammar_lr0_augment example1_finished).nonterminal_set.data =
      example1_finished.nonterminal_set.data ++ ['Z'] ∧
    (∀ x : ItemProduction, grammar_find example1_finished x.nonterminal ≠ none →
      grammar_get_order_from_item (grammar_lr0_augment example1_finished) x =
        grammar_get_order_from_item example1_finished x) :=
  ⟨by decide, by decide, by decide, by decide,
    (augment_extends example1_finished (by decide) (by decide) (by decide) (by decide)).1,
    (augment_extends example1_finished (by decide) (by decide) (by decide) (by decide)).2.1,
    (augment_extends example1_finished (by decide) (by decide) (by decide)
      (by decide)).2.2.2.2.1,
    (augment_extends example1_finished (by decide) (by decide) (by decide)
      (by decide)).2.2.2.2.2.2.2⟩

end LR0

namespace LR0

open ActionType

/-! ## Targets of the table entries, and the error entries -/

/-- C31. After a successful construction from an empty item set with `n`
states, in every row below `n` a shift cell holds a target that is the number
of a state, and a GOTO cell holds `GOTO_ERROR` or the number of a state; so
the state that a driver step pushes after a shift or after reading a GOTO
entry other than `GOTO_ERROR` exists. -/
theorem table_targets (g : Grammar) (fuel : Nat) (c0 : Char) (b : Build) (code : Int)
    (hrun : grammar_create_lr_table fuel g (item_set_init c0) = .ok (b, code))
    (hcode : 0 ≤ code) (r : Nat) (c : Int) (hr : r < b.set.items.length) :
    ((b.table.action_table r c).type = ACTION_SHIFT →
      ∃ t : Nat, (b.table.action_table r c).target_state = (t : Int) ∧
        t < b.set.items.length ∧ b.set.items[t]? ≠ none) ∧
    (b.table.goto_table r c = GOTO_ERROR ∨
      ∃ t : Nat, b.table.goto_table r c = (t : Int) ∧
        t < b.set.items.length ∧ b.set.items[t]? ≠ none) := by
  have hwf := table_cells g fuel c0 b code hrun hcode
  constructor
  · intro hty
    obtain ⟨t, ht, hlt⟩ := hwf.shift _ _ hty
    exact ⟨t, ht, hlt, by rw [List.getElem?_eq_getElem hlt]; simp⟩
  · by_cases hg : b.table.goto_table r c = GOTO_ERROR
    · exact Or.inl hg
    · right
      obtain ⟨t, ht, hlt⟩ := hwf.goto _ _ hg
      exact ⟨t, ht, hlt, by rw [List.getElem?_eq_getElem hlt]; simp⟩

set_option maxRecDepth 100000 in
/-- Witness for `table_targets`: row 0 of the table of the grammar
`E -> E+T | T`, `T -> id`, whose shift cell for `i` holds 5 and whose GOTO
cell for `E` holds 1, of 8 states. -/
theorem table_targets_witness :
    (grammar_create_lr_table 16 example1 (item_set_init 'Z')).map
      (fun r => (r.1.set.items.length,
        r.1.table.action_table 0 (set_order example1.terminal_set 'i'),
        r.1.table.goto_table 0 (set_order example1.nonterminal_set 'E'))) =
      .ok (8, ⟨ACTION_SHIFT, 5, Char.ofNat 0, 0⟩, 1) ∧
    ∃ b, grammar_create_lr_table 16 example1 (item_set_init 'Z') = .ok (b, 0) ∧
      (∃ t : Nat, (b.table.action_table (0 : Nat)
          (set_order example1.terminal_set 'i')).target_state = (t : Int) ∧
        t < b.set.items.length ∧ b.set.items[t]? ≠ none) ∧
      (b.table.goto_table (0 : Nat) (set_order example1.nonterminal_set 'E') = GOTO_ERROR ∨
        ∃ t : Nat, b.table.goto_table (0 : Nat) (set_order example1.nonterminal_set 'E') =
          (t : Int) ∧ t < b.set.items.length ∧ b.set.items[t]? ≠ none) := by
  refine ⟨by decide, ?_⟩
  have hm : (grammar_create_lr_table 16 example1 (item_set_init 'Z')).map
      (fun r => (r.2, r.1.set.items.length,
        (r.1.table.action_table (0 : Nat) (set_order example1.terminal_set 'i')).type)) =
      .ok (0, 8, ACTION_SHIFT) := by
    decide
  cases hrun : grammar_create_lr_table 16 example1 (item_set_init 'Z') with
  | undefined => rw [hrun] at hm; simp [Res.map] at hm
  | nofuel => rw [hrun] at hm; simp [Res.map] at hm
  | ok r =>
    obtain ⟨b, code⟩ := r
    rw [hrun] at hm
    simp only [Res.map, Res.ok.injEq, Prod.mk.injEq] at hm
    obtain ⟨hc, hlen, hty⟩ := hm
    subst hc
    exact ⟨b, rfl,
      (table_targets example1 16 'Z' b 0 hrun (by decide) 0
        (set_order example1.terminal_set 'i') (by omega)).1 hty,
      (table_targets example1 16 'Z' b 0 hrun (by decide) 0
        (set_order example1.nonterminal_set 'E') (by omega)).2⟩

set_option maxRecDepth 100000 in
/-- C32 (evaluation at the failing input). For the grammar `E -> E+T | T`,
`T -> id` the construction returns 0.  State 2 consists of the one item
(`Z`, production 0, dot 2); the production `Z -> E` has one symbol, so the dot
is not at the end of the production but past it, and no symbol follows it.
The cell of `$` in row 2 is an accept action, not an error action. -/
theorem accept_in_state_past_the_end :
    item_get_production example1 ⟨'Z', 0, 2⟩ = some ⟨['E']⟩ ∧
    (0 : Int) ≤ set_order example1.terminal_set '$' ∧
    (grammar_create_lr_table 16 example1 (item_set_init 'Z')).map
      (fun r => (r.2, (r.1.set.items[2]?).map (fun it => it.productions),
        (r.1.table.action_table 2 (set_order example1.terminal_set '$')).type)) =
      .ok (0, some [⟨'Z', 0, 2⟩], ACTION_ACCEPT) := by
  refine ⟨by decide, by decide, by decide⟩

end LR0

namespace LR0

open ActionType

/-! ## The history of assignments, and columns without a shift entry -/

/-- The table built from an empty item set agrees with the history of its
assignments. -/
theorem built_consistent {g : Grammar} {fuel : Nat} {c0 : Char} {b : Build} {code : Int}
    (hrun : grammar_create_lr_table fuel g (item_set_init c0) = .ok (b, code)) :
    consistent b := by
  unfold grammar_create_lr_table at hrun
  simp only [item_set_init, List.nil_append, List.length_nil] at hrun
  have hk : 0 < (⟨⟨[(item_production_insert ⟨[], 1, set_init⟩ 'Z' 0 0).1], c0⟩,
      lr0_parsing_table_init, [], []⟩ : Build).set.items.length := by simp
  have hf := (internal_frame g fuel _ 0 _ hrun hk).1
  exact hf.agrees (fun r c => rfl)

/-- The most recent assignment to a cell is the initial content or one of the
assignments of the history, made to that cell. -/
theorem last_write_cases (ws : List (Int × Int × ActionRecord)) (r c : Int) :
    last_write ws r c = lr0_parsing_table_init.action_cells r c ∨
    ∃ w ∈ ws, w.1 = r ∧ w.2.1 = c ∧ w.2.2 = last_write ws r c := by
  induction ws with
  | nil => exact Or.inl rfl
  | cons w ws ih =>
    unfold last_write
    by_cases h : w.1 = r ∧ w.2.1 = c
    · rw [if_pos h]
      exact Or.inr ⟨w, by simp, h.1, h.2, rfl⟩
    · rw [if_neg h]
      rcases ih with ih | ⟨w2, hw2, k1, k2, k3⟩
      · exact Or.inl ih
      · exact Or.inr ⟨w2, by simp [hw2], k1, k2, k3⟩

/-- A table that agrees with a history without a shift assignment to a cell of
the column that the subscript of `$` addresses has no shift entry in the
column of `$`. -/
theorem no_shift_at_end_of_writes {g : Grammar} {b : Build} (hc : consistent b)
    (h : ∀ w ∈ b.writes, w.2.1 = cell_col (set_order g.terminal_set '$') →
      w.2.2.type ≠ ACTION_SHIFT) :
    no_shift_at_end g b.table := by
  intro r hty
  unfold LR0ParsingTable.action_table at hty
  rw [hc _ _] at hty
  rcases last_write_cases b.writes (cell_row r (set_order g.terminal_set '$'))
      (cell_col (set_order g.terminal_set '$')) with h0 | ⟨w, hw, _, h2, h3⟩
  · rw [h0] at hty
    simp [lr0_parsing_table_init] at hty
  · exact h w hw h2 (by rw [h3]; exact hty)

end LR0

namespace LR0

open ActionType

/-! ## The driver: where the input is accepted -/

/-- An iteration that returns through the accept branch read an accept entry in
a row that is not negative. -/
theorem driver_step_accept_cell {g : Grammar} {table : LR0ParsingTable} {input : List Char}
    {cfg : Config} (h : driver_step g table input cfg = .ok (.inr Exit.accept)) :
    ∃ top rest, cfg.stack = top :: rest ∧
      0 ≤ set_order g.terminal_set (curr_input input cfg.input_offset) ∧
      0 ≤ top.target_state ∧
      (table.action_table top.target_state
        (set_order g.terminal_set (curr_input input cfg.input_offset))).type = ACTION_ACCEPT := by
  unfold driver_step at h
  cases hs : cfg.stack with
  | nil => simp [hs] at h
  | cons top rest =>
    simp only [hs] at h
    by_cases hunk : set_order g.terminal_set (curr_input input cfg.input_offset) < 0
    · simp [hunk] at h
    · simp only [hunk, if_false] at h
      by_cases htop : top.target_state < 0
      · simp [htop] at h
      · simp only [htop, if_false] at h
        refine ⟨top, rest, rfl, by omega, by omega, ?_⟩
        split at h
        · assumption
        · simp at h
        · split at h
          · simp at h
          · split at h <;> simp at h
        · simp at h

/-- The input cursor counts the shifts. -/
theorem driver_run_shifts (g : Grammar) (table : LR0ParsingTable) (input : List Char) :
    ∀ (n : Nat) (cfg0 cfg : Config), driver_run g table input n cfg0 = .ok (.inl cfg) →
      shifts cfg0.trace = cfg0.input_offset → shifts cfg.trace = cfg.input_offset := by
  intro n
  induction n with
  | zero =>
    intro cfg0 cfg h h0
    simp only [driver_run, Res.ok.injEq, Sum.inl.injEq] at h
    subst h
    exact h0
  | succ n ih =>
    intro cfg0 cfg h h0
    unfold driver_run at h
    cases hstep : driver_step g table input cfg0 with
    | undefined => simp [hstep] at h
    | nofuel => simp [hstep] at h
    | ok v =>
      cases v with
      | inr e => simp [hstep] at h
      | inl cfg1 =>
        simp only [hstep] at h
        apply ih cfg1 cfg h
        obtain ⟨top, rest, action, _, _, _, _, hcase⟩ := driver_step_cases hstep
        rcases hcase with ⟨hty, hc⟩ | ⟨hty, p, below, rest2, _, _, hc⟩
        · subst hc
          simp only [shifts, List.filter_append, List.length_append] at h0 ⊢
          simp [hty, h0]
        · subst hc
          simp only [shifts, List.filter_append, List.length_append] at h0 ⊢
          simp [hty, h0]

/-- When the column of the end marker holds no shift entry, the cursor never
passes a position that is read as the end marker. -/
theorem driver_run_before_end (g : Grammar) (table : LR0ParsingTable) (input : List Char)
    (hns : no_shift_at_end g table) :
    ∀ (n : Nat) (cfg0 cfg : Config), driver_run g table input n cfg0 = .ok (.inl cfg) →
      (∀ i, i < cfg0.input_offset → curr_input input i ≠ '$') →
      ∀ i, i < cfg.input_offset → curr_input input i ≠ '$' := by
  intro n
  induction n with
  | zero =>
    intro cfg0 cfg h h0
    simp only [driver_run, Res.ok.injEq, Sum.inl.injEq] at h
    subst h
    exact h0
  | succ n ih =>
    intro cfg0 cfg h h0
    unfold driver_run at h
    cases hstep : driver_step g table input cfg0 with
    | undefined => simp [hstep] at h
    | nofuel => simp [hstep] at h
    | ok v =>
      cases v with
      | inr e => simp [hstep] at h
      | inl cfg1 =>
        simp only [hstep] at h
        apply ih cfg1 cfg h
        obtain ⟨top, rest, action, _, hcol, hrow, hact, hcase⟩ := driver_step_cases hstep
        rcases hcase with ⟨hty, hc⟩ | ⟨hty, p, below, rest2, _, _, hc⟩
        · subst hc
          intro i hi
          simp only [] at hi
          by_cases hlt : i < cfg0.input_offset
          · exact h0 i hlt
          · have hi2 : i = cfg0.input_offset := by omega
            subst hi2
            intro he
            rw [he] at hact
            apply hns top.target_state
            rw [hact]
            exact hty
        · subst hc
          exact h0

/-- When the column of the end marker holds no shift entry, the cursor stays
within the input: it never passes the terminator. -/
theorem driver_run_within (g : Grammar) (table : LR0ParsingTable) (input : List Char)
    (hns : no_shift_at_end g table) :
    ∀ (n : Nat) (cfg0 cfg : Config), driver_run g table input n cfg0 = .ok (.inl cfg) →
      cfg0.input_offset ≤ input.length → cfg.input_offset ≤ input.length := by
  intro n
  induction n with
  | zero =>
    intro cfg0 cfg h h0
    simp only [driver_run, Res.ok.injEq, Sum.inl.injEq] at h
    subst h
    exact h0
  | succ n ih =>
    intro cfg0 cfg h h0
    unfold driver_run at h
    cases hstep : driver_step g table input cfg0 with
    | undefined => simp [hstep] at h
    | nofuel => simp [hstep] at h
    | ok v =>
      cases v with
      | inr e => simp [hstep] at h
      | inl cfg1 =>
        simp only [hstep] at h
        apply ih cfg1 cfg h
        obtain ⟨top, rest, action, _, hcol, hrow, hact, hcase⟩ := driver_step_cases hstep
        rcases hcase with ⟨hty, hc⟩ | ⟨hty, p, below, rest2, _, _, hc⟩
        · subst hc
          simp only []
          by_contra hgt
          have he := @curr_input_end input cfg0.input_offset (by omega)
          rw [he] at hact
          apply hns top.target_state
          rw [hact]
          exact hty
        · subst hc
          exact h0

/-- After a successful construction from an empty item set on a grammar with
`$` in its terminal set, an accept entry read with a column subscript that is
not negative is in the column of the end marker. -/
theorem built_accept_column (g : Grammar) (fuel : Nat) (c0 : Char) (b : Build) (code : Int)
    (hrun : grammar_create_lr_table fuel g (item_set_init c0) = .ok (b, code))
    (hcode : 0 ≤ code) (hfin : 0 ≤ set_order g.terminal_set '$') (r c : Int) (hc : 0 ≤ c)
    (hty : (b.table.action_table r c).type = ACTION_ACCEPT) :
    c = set_order g.terminal_set '$' := by
  rw [action_table_eq _ _ _ (by omega)] at hty
  have h := ((table_cells g fuel c0 b code hrun hcode).accept r c hty).1
  unfold cell_col at h
  rw [if_neg (by omega)] at h
  exact h

/-- C38 (as amended). After a successful construction from an empty item set
on a grammar with `$` in its terminal set, if `grammar_input_check` returns 1
on an input, then at the accepting iteration the lookahead is the end marker:
the character under the cursor is a newline, the terminating NUL (the end of
the list) or a `$`; the cursor has advanced once for each shift, so every
character before it has been shifted; and when the column of `$` of the table
holds no shift entry, the cursor is within the input and no character before
it is read as the end marker, so that the cursor stands on the first newline,
NUL or `$` of the input. -/
theorem accept_at_end_marker (g : Grammar) (fuel : Nat) (c0 : Char) (b : Build) (code : Int)
    (input : List Char) (budget : Nat) (cfg : Config)
    (hrun : grammar_create_lr_table fuel g (item_set_init c0) = .ok (b, code))
    (hcode : 0 ≤ code) (hfin : 0 ≤ set_order g.terminal_set '$')
    (hacc : grammar_input_check budget g b.table input = .ok (Exit.accept, cfg)) :
    curr_input input cfg.input_offset = '$' ∧
    (input[cfg.input_offset]? = none ∨ input[cfg.input_offset]? = some '\n' ∨
      input[cfg.input_offset]? = some (Char.ofNat 0) ∨ input[cfg.input_offset]? = some '$') ∧
    shifts cfg.trace = cfg.input_offset ∧
    (no_shift_at_end g b.table →
      cfg.input_offset ≤ input.length ∧
      ∀ i, i < cfg.input_offset → curr_input input i ≠ '$' ∧
        ∃ ch, input[i]? = some ch ∧ ch ≠ '\n' ∧ ch ≠ Char.ofNat 0 ∧ ch ≠ '$') := by
  obtain ⟨n, hn, hstep⟩ := driver_loop_exit g b.table input budget _ cfg Exit.accept hacc
  obtain ⟨top, rest, _, hcol, hrow, hty⟩ := driver_step_accept_cell hstep
  have hc := built_accept_column g fuel c0 b code hrun hcode hfin _ _ hcol hty
  have hlook : curr_input input cfg.input_offset = '$' := (set_order_inj hcol hc.symm).symm
  have hchar : ∀ i, curr_input input i = '$' ↔
      (input[i]? = none ∨ input[i]? = some '\n' ∨ input[i]? = some (Char.ofNat 0) ∨
        input[i]? = some '$') := by
    intro i
    unfold curr_input
    rw [List.getD_eq_getElem?_getD]
    cases hi : input[i]? with
    | none => simp
    | some ch =>
      simp only [Option.getD_some, Option.some.injEq, false_or]
      by_cases h1 : ch = '\n' ∨ ch = Char.ofNat 0
      · simp only [h1, if_true, true_iff]
        tauto
      · simp only [h1, if_false]
        tauto
  refine ⟨hlook, (hchar _).1 hlook, driver_run_shifts g b.table input n _ cfg hn rfl, ?_⟩
  intro hns
  refine ⟨driver_run_within g b.table input hns n _ cfg hn (Nat.zero_le _), ?_⟩
  intro i hi
  have hne := driver_run_before_end g b.table input hns
    n _ cfg hn (by intro j hj; simp at hj) i hi
  refine ⟨hne, ?_⟩
  have hnot := mt (hchar i).2 hne
  cases hch : input[i]? with
  | none => exact absurd (Or.inl hch) hnot
  | some ch =>
    refine ⟨ch, rfl, ?_, ?_, ?_⟩
    · intro e
      exact hnot (Or.inr (Or.inl (by rw [hch, e])))
    · intro e
      exact hnot (Or.inr (Or.inr (Or.inl (by rw [hch, e]))))
    · intro e
      exact hnot (Or.inr (Or.inr (Or.inr (by rw [hch, e]))))

set_option maxRecDepth 100000 in
/-- Witness for `accept_at_end_marker`: the grammar `E -> E+T | T`, `T -> id`,
whose table has no shift entry in the column of `$`, and the input `id+id`,
accepted with the cursor at offset 5, the end of the input. -/
theorem accept_at_end_marker_witness :
    ∃ b cfg, grammar_create_lr_table 16 example1 (item_set_init 'Z') = .ok (b, 0) ∧
      grammar_input_check 16 example1 b.table "id+id".toList = .ok (Exit.accept, cfg) ∧
      0 ≤ set_order example1.terminal_set '$' ∧
      no_shift_at_end example1 b.table ∧
      cfg.input_offset = 5 ∧
      curr_input "id+id".toList cfg.input_offset = '$' ∧
      shifts cfg.trace = cfg.input_offset ∧
      cfg.input_offset ≤ "id+id".toList.length ∧
      ∀ i, i < cfg.input_offset → curr_input "id+id".toList i ≠ '$' ∧
        ∃ ch, "id+id".toList[i]? = some ch ∧ ch ≠ '\n' ∧ ch ≠ Char.ofNat 0 ∧ ch ≠ '$' := by
  have hm : (grammar_create_lr_table 16 example1 (item_set_init 'Z')).bind
      (fun r => (grammar_input_check 16 example1 r.1.table "id+id".toList).map
        (fun e => (r.2, e.1, e.2.input_offset))) = .ok (0, Exit.accept, 5) := by
    decide
  have hw : (grammar_create_lr_table 16 example1 (item_set_init 'Z')).map
      (fun r => decide (∀ w ∈ r.1.writes,
        w.2.1 = cell_col (set_order example1.terminal_set '$') →
          w.2.2.type ≠ ACTION_SHIFT)) = .ok true := by
    decide
  cases hrun : grammar_create_lr_table 16 example1 (item_set_init 'Z') with
  | undefined => rw [hrun] at hm; simp [Res.bind] at hm
  | nofuel => rw [hrun] at hm; simp [Res.bind] at hm
  | ok r =>
    obtain ⟨b, code⟩ := r
    rw [hrun] at hm hw
    simp only [Res.bind] at hm
    simp only [Res.map, Res.ok.injEq, decide_eq_true_eq] at hw
    cases hchk : grammar_input_check 16 example1 b.table "id+id".toList with
    | undefined => rw [hchk] at hm; simp [Res.map] at hm
    | nofuel => rw [hchk] at hm; simp [Res.map] at hm
    | ok e =>
      obtain ⟨ex, cfg⟩ := e
      rw [hchk] at hm
      simp only [Res.map, Res.ok.injEq, Prod.mk.injEq] at hm
      obtain ⟨hc, hex, hoff⟩ := hm
      subst hc hex
      have hns := no_shift_at_end_of_writes (built_consistent hrun) hw
      have hthm := accept_at_end_marker example1 16 'Z' b 0 "id+id".toList 16 cfg hrun
        (by decide) (by decide) hchk
      exact ⟨b, cfg, rfl, hchk, by decide, hns, hoff, hthm.1, hthm.2.2.1,
        (hthm.2.2.2 hns).1, (hthm.2.2.2 hns).2⟩

set_option maxRecDepth 100000 in
/-- C38 (the claim fails). The grammar `E -> E+T | T`, `T -> id` accepts the
input `id$id`, all of whose characters are in the terminal set, with the
cursor at offset 2, on the `$`; the terminator is at offset 5.  The grammar
`S -> a$b` accepts the input `a`, newline, `b` with the cursor at offset 3,
the end of the input; the first newline is at offset 1 and has been shifted
as `$`.  The grammar `S -> Sa | b`, `P -> cdefghijkl | mnopqrs`, none of whose
productions contains `$`, has twenty terminals with `$` in column 19; the
shift action that state 1 writes with the column subscript -1 is in the cell
of `$` in row 0, and the input that consists of a newline is accepted with the
cursor at offset 1, past the newline.  The grammar `S -> b`,
`P -> acdefghijk | lmnopqrst`, augmented without having been finished, has no
`$` in its terminal set and `t` in column 19; the accept action of state 1 is
in the cell of `t` in row 0, and the input `t` is accepted with the cursor at
offset 0, on the `t`. -/
theorem accepts_before_terminator :
    (∀ c ∈ "id$id".toList, c ≠ '\n' ∧ c ≠ Char.ofNat 0 ∧
      0 ≤ set_order example1.terminal_set c) ∧
    (grammar_create_lr_table 16 example1 (item_set_init 'Z')).bind
      (fun r => (grammar_input_check 16 example1 r.1.table "id$id".toList).map
        (fun e => (r.2, e.1.code, e.2.input_offset))) = .ok (0, 1, 2) ∧
    ['a', '\n', 'b'][1]? = some '\n' ∧
    (grammar_create_lr_table 16 grammar_with_end_marker (item_set_init 'Z')).bind
      (fun r => (grammar_input_check 16 grammar_with_end_marker r.1.table ['a', '\n', 'b']).map
        (fun e => (r.2, e.1.code, e.2.input_offset))) = .ok (0, 1, 3) ∧
    (∀ ps ∈ grammar_twenty_columns.set, ∀ p ∈ ps.productions, '$' ∉ p.symbols) ∧
    grammar_twenty_columns.terminal_set.data.length = 20 ∧
    set_order grammar_twenty_columns.terminal_set '$' = 19 ∧
    (grammar_create_lr_table 16 grammar_twenty_columns (item_set_init 'Z')).map
      (fun r => (r.1.table.action_table 0
        (set_order grammar_twenty_columns.terminal_set '$')).type) = .ok ACTION_SHIFT ∧
    (grammar_create_lr_table 16 grammar_twenty_columns (item_set_init 'Z')).bind
      (fun r => (grammar_input_check 16 grammar_twenty_columns r.1.table ['\n']).map
        (fun e => (r.2, e.1.code, e.2.input_offset))) = .ok (0, 1, 1) ∧
    set_order grammar_unfinished.terminal_set '$' = -1 ∧
    set_order grammar_unfinished.terminal_set 't' = 19 ∧
    (grammar_create_lr_table 16 grammar_unfinished (item_set_init 'Z')).bind
      (fun r => (grammar_input_check 16 grammar_unfinished r.1.table "t".toList).map
        (fun e => (r.2, e.1.code, e.2.input_offset,
          curr_input "t".toList e.2.input_offset))) = .ok (0, 1, 0, 't') := by
  refine ⟨by decide, by decide, by decide, by decide, by decide, by decide, by decide,
    by decide, by decide, by decide, by decide, by decide⟩

end LR0

namespace LR0

open ActionType

/-! ## The driver: tables on which it stops, and one on which it does not -/

set_option maxRecDepth 100000 in
/-- Witness for `driver_terminates`: the grammar `E -> E+T | T`, `T -> id`,
which has the productions of one symbol `E -> T` and `Z -> E`, ranked by
`example1_rank` below 3, and whose table has no shift entry in the column of
`$`; on the input `id+id` the driver answers 1. -/
theorem driver_terminates_witness :
    (grammar_create_lr_table 16 example1 (item_set_init 'Z')).bind
      (fun r => (grammar_input_check 16 example1 r.1.table "id+id".toList).map
        (fun e => e.1.code)) = .ok 1 ∧
    no_empty_production example1 ∧ no_end_marker example1 ∧
    unit_ranked example1 example1_rank ∧ (∀ c, example1_rank c < 3) ∧
    ∃ b, grammar_create_lr_table 16 example1 (item_set_init 'Z') = .ok (b, 0) ∧
      no_shift_at_end example1 b.table ∧
      (∃ n cfg, n < 3 * (2 * "id+id".toList.length + 2) ∧
        driver_run example1 b.table "id+id".toList n ⟨[⟨'$', 0⟩], 0, []⟩ = .ok (.inl cfg) ∧
        ((∃ e, ∀ budget, n < budget →
            grammar_input_check budget example1 b.table "id+id".toList = .ok (e, cfg)) ∨
          ((∃ sym rest, cfg.stack = ⟨sym, GOTO_ERROR⟩ :: rest) ∧
            ∀ budget, n < budget →
              grammar_input_check budget example1 b.table "id+id".toList = .undefined))) ∧
      (∀ n cfg, driver_run example1 b.table "id+id".toList n ⟨[⟨'$', 0⟩], 0, []⟩ =
          .ok (.inl cfg) →
        cfg.input_offset ≤ "id+id".toList.length ∧
          cfg.stack.length ≤ "id+id".toList.length + 1) := by
  have hne : no_empty_production example1 := by
    unfold no_empty_production
    decide
  have hend : no_end_marker example1 := by
    unfold no_end_marker
    decide
  have hunit : unit_ranked example1 example1_rank := by
    unfold unit_ranked
    decide
  have hR : ∀ c, example1_rank c < 3 := by
    intro c
    unfold example1_rank
    split
    · omega
    · split <;> omega
  refine ⟨by decide, hne, hend, hunit, hR, ?_⟩
  have hm : (grammar_create_lr_table 16 example1 (item_set_init 'Z')).map
      (fun r => (r.2,
        decide (∀ w ∈ r.1.writes, w.2.1 = cell_col (set_order example1.terminal_set '$') →
          w.2.2.type ≠ ACTION_SHIFT))) = .ok (0, true) := by
    decide
  cases hrun : grammar_create_lr_table 16 example1 (item_set_init 'Z') with
  | undefined => rw [hrun] at hm; simp [Res.map] at hm
  | nofuel => rw [hrun] at hm; simp [Res.map] at hm
  | ok r =>
    obtain ⟨b, code⟩ := r
    rw [hrun] at hm
    simp only [Res.map, Res.ok.injEq, Prod.mk.injEq, decide_eq_true_eq] at hm
    obtain ⟨hc, hw⟩ := hm
    subst hc
    have hns := no_shift_at_end_of_writes (built_consistent hrun) hw
    have hthm := driver_terminates example1 16 'Z' b 0 "id+id".toList example1_rank 3 hrun
      (by decide) hne hend hunit hR hns
    exact ⟨b, rfl, hns, hthm.1, hthm.2⟩

set_option maxRecDepth 100000 in
/-- A cycle of productions of one symbol.  For the grammar `S -> A | Sb | a`,
`A -> S` the construction returns 0 and reports overlaps.  On the input `a` the driver
shifts `a` and reduces by `S -> a`; from then on it reduces by `A -> S` in
state 1 and by `S -> A` in state 4, in turn, with two entries on the stack and
the cursor at offset 1, and never returns: it uses up every budget. -/
theorem unit_cycle_never_returns :
    (grammar_create_lr_table 16 grammar_accept_overwritten (item_set_init 'Z')).map
      (fun r => r.2) = .ok 0 ∧
    (grammar_create_lr_table 16 grammar_accept_overwritten (item_set_init 'Z')).bind
      (fun r => (driver_run grammar_accept_overwritten r.1.table "a".toList 4
        ⟨[⟨'$', 0⟩], 0, []⟩).map
          (Sum.elim (fun cfg => some (cfg.stack, cfg.input_offset, reductions cfg.trace))
            (fun _ => none))) =
      .ok (some ([⟨'S', 1⟩, ⟨'$', 0⟩], 1, [('S', 2), ('A', 0), ('S', 0)])) ∧
    ∃ b, grammar_create_lr_table 16 grammar_accept_overwritten (item_set_init 'Z') =
        .ok (b, 0) ∧
      ∀ fuel, grammar_input_check fuel grammar_accept_overwritten b.table "a".toList =
        .nofuel := by
  refine ⟨by decide, by decide, ?_⟩
  have hm : (grammar_create_lr_table 16 grammar_accept_overwritten (item_set_init 'Z')).map
      (fun r => (r.2,
        r.1.table.action_table 0 (set_order grammar_accept_overwritten.terminal_set 'a'),
        r.1.table.action_table 5 (set_order grammar_accept_overwritten.terminal_set '$'),
        r.1.table.action_table 1 (set_order grammar_accept_overwritten.terminal_set '$'),
        r.1.table.action_table 4 (set_order grammar_accept_overwritten.terminal_set '$'))) =
      .ok (0, ⟨ACTION_SHIFT, 5, Char.ofNat 0, 0⟩, ⟨ACTION_REDUCE, 2, 'S', 2⟩,
        ⟨ACTION_REDUCE, 3, 'A', 0⟩, ⟨ACTION_REDUCE, 0, 'S', 0⟩) := by
    decide
  have hg : (grammar_create_lr_table 16 grammar_accept_overwritten (item_set_init 'Z')).map
      (fun r => (
        r.1.table.goto_table 0 (set_order grammar_accept_overwritten.nonterminal_set 'S'),
        r.1.table.goto_table 0 (set_order grammar_accept_overwritten.nonterminal_set 'A'))) =
      .ok (1, 4) := by
    decide
  cases hrun : grammar_create_lr_table 16 grammar_accept_overwritten (item_set_init 'Z') with
  | undefined => rw [hrun] at hm; simp [Res.map] at hm
  | nofuel => rw [hrun] at hm; simp [Res.map] at hm
  | ok r =>
    obtain ⟨b, code⟩ := r
    rw [hrun] at hm hg
    simp only [Res.map, Res.ok.injEq, Prod.mk.injEq] at hm hg
    obtain ⟨hc, ha0, ha5, ha1, ha4⟩ := hm
    obtain ⟨hgS, hgA⟩ := hg
    subst hc
    refine ⟨b, rfl, ?_⟩
    have in0 : curr_input "a".toList 0 = 'a' := by decide
    have in1 : curr_input "a".toList 1 = '$' := by decide
    have ca : (0 : Int) ≤ set_order grammar_accept_overwritten.terminal_set 'a' := by decide
    have ce : (0 : Int) ≤ set_order grammar_accept_overwritten.terminal_set '$' := by decide
    have hP : ∀ cfg, among [([⟨'$', 0⟩], 0), ([⟨'a', 5⟩, ⟨'$', 0⟩], 1),
          ([⟨'S', 1⟩, ⟨'$', 0⟩], 1), ([⟨'A', 4⟩, ⟨'$', 0⟩], 1)] cfg →
        ∃ cfg1, driver_step grammar_accept_overwritten b.table "a".toList cfg = .ok (.inl cfg1) ∧
          among [([⟨'$', 0⟩], 0), ([⟨'a', 5⟩, ⟨'$', 0⟩], 1),
            ([⟨'S', 1⟩, ⟨'$', 0⟩], 1), ([⟨'A', 4⟩, ⟨'$', 0⟩], 1)] cfg1 := by
      intro cfg hcfg
      obtain ⟨stack, off, trace⟩ := cfg
      simp only [among, List.mem_cons, Prod.mk.injEq, List.mem_singleton, List.not_mem_nil,
        or_false] at hcfg
      rcases hcfg with ⟨h1, h2⟩ | ⟨h1, h2⟩ | ⟨h1, h2⟩ | ⟨h1, h2⟩
      · subst h1 h2
        have hstep := @driver_step_shift grammar_accept_overwritten b.table "a".toList
          ⟨[⟨'$', 0⟩], 0, trace⟩ ⟨'$', 0⟩ [] ⟨ACTION_SHIFT, 5, Char.ofNat 0, 0⟩ rfl
          (by show (0 : Int) ≤ set_order _ (curr_input "a".toList 0); rw [in0]; exact ca)
          (by decide)
          (by show b.table.action_table 0 (set_order _ (curr_input "a".toList 0)) = _
              rw [in0]; exact ha0) rfl
        refine ⟨_, hstep, ?_⟩
        simp [among, show curr_input ['a'] 0 = 'a' from by decide]
      · subst h1 h2
        have hred : reduces_by grammar_accept_overwritten b.table "a".toList
            ⟨[⟨'a', 5⟩, ⟨'$', 0⟩], 1, trace⟩ ⟨ACTION_REDUCE, 2, 'S', 2⟩ ⟨['a']⟩ :=
          ⟨⟨'a', 5⟩, [⟨'$', 0⟩], rfl,
            (by show (0 : Int) ≤ set_order _ (curr_input "a".toList 1); rw [in1]; exact ce),
            (by decide),
            (by show b.table.action_table 5 (set_order _ (curr_input "a".toList 1)) = _
                rw [in1]; exact ha5), rfl, by decide⟩
        have hstep := driver_step_reduce hred
        have hpop : pop_symbols (⟨['a']⟩ : Production).symbols.reverse
            [⟨'a', 5⟩, ⟨'$', 0⟩] = .ok (some [⟨'$', 0⟩]) := by decide
        simp only [hpop] at hstep
        refine ⟨_, hstep, ?_⟩
        simp [among, hgS]
      · subst h1 h2
        have hred : reduces_by grammar_accept_overwritten b.table "a".toList
            ⟨[⟨'S', 1⟩, ⟨'$', 0⟩], 1, trace⟩ ⟨ACTION_REDUCE, 3, 'A', 0⟩ ⟨['S']⟩ :=
          ⟨⟨'S', 1⟩, [⟨'$', 0⟩], rfl,
            (by show (0 : Int) ≤ set_order _ (curr_input "a".toList 1); rw [in1]; exact ce),
            (by decide),
            (by show b.table.action_table 1 (set_order _ (curr_input "a".toList 1)) = _
                rw [in1]; exact ha1), rfl, by decide⟩
        have hstep := driver_step_reduce hred
        have hpop : pop_symbols (⟨['S']⟩ : Production).symbols.reverse
            [⟨'S', 1⟩, ⟨'$', 0⟩] = .ok (some [⟨'$', 0⟩]) := by decide
        simp only [hpop] at hstep
        refine ⟨_, hstep, ?_⟩
        simp [among, hgA]
      · subst h1 h2
        have hred : reduces_by grammar_accept_overwritten b.table "a".toList
            ⟨[⟨'A', 4⟩, ⟨'$', 0⟩], 1, trace⟩ ⟨ACTION_REDUCE, 0, 'S', 0⟩ ⟨['A']⟩ :=
          ⟨⟨'A', 4⟩, [⟨'$', 0⟩], rfl,
            (by show (0 : Int) ≤ set_order _ (curr_input "a".toList 1); rw [in1]; exact ce),
            (by decide),
            (by show b.table.action_table 4 (set_order _ (curr_input "a".toList 1)) = _
                rw [in1]; exact ha4), rfl, by decide⟩
        have hstep := driver_step_reduce hred
        have hpop : pop_symbols (⟨['A']⟩ : Production).symbols.reverse
            [⟨'A', 4⟩, ⟨'$', 0⟩] = .ok (some [⟨'$', 0⟩]) := by decide
        simp only [hpop] at hstep
        refine ⟨_, hstep, ?_⟩
        simp [among, hgS]
    intro fuel
    exact driver_loop_forever _ _ _ _ hP fuel _ (by simp [among])

set_option maxRecDepth 100000 in
/-- A reduction by a production without symbols removes nothing and pushes one
entry.  For the grammar `S -> ASb`, `A -> @` the construction returns 0 and
reports no overlap; on the input `b` every iteration of the driver reduces by
`A -> @`, so that after `n` iterations the stack holds `n + 1` entries and the
cursor is still at offset 0.  (The 256 entries of the array that holds the
stack in the program are not represented here.) -/
theorem empty_reductions_pile_up :
    ∃ b, grammar_create_lr_table 16 grammar_empty_loop (item_set_init 'Z') = .ok (b, 0) ∧
      b.out = [] ∧
      ∀ n, ∃ cfg, driver_run grammar_empty_loop b.table "b".toList n ⟨[⟨'$', 0⟩], 0, []⟩ =
          .ok (.inl cfg) ∧ cfg.stack.length = n + 1 ∧ cfg.input_offset = 0 := by
  have hm : (grammar_create_lr_table 16 grammar_empty_loop (item_set_init 'Z')).map
      (fun r => (r.2, r.1.out,
        r.1.table.action_table 0 (set_order grammar_empty_loop.terminal_set 'b'),
        r.1.table.action_table 2 (set_order grammar_empty_loop.terminal_set 'b'))) =
      .ok (0, [], ⟨ACTION_REDUCE, 1, 'A', 0⟩, ⟨ACTION_REDUCE, 1, 'A', 0⟩) := by
    decide
  have hg : (grammar_create_lr_table 16 grammar_empty_loop (item_set_init 'Z')).map
      (fun r => (
        r.1.table.goto_table 0 (set_order grammar_empty_loop.nonterminal_set 'A'),
        r.1.table.goto_table 2 (set_order grammar_empty_loop.nonterminal_set 'A'))) =
      .ok (2, 2) := by
    decide
  cases hrun : grammar_create_lr_table 16 grammar_empty_loop (item_set_init 'Z') with
  | undefined => rw [hrun] at hm; simp [Res.map] at hm
  | nofuel => rw [hrun] at hm; simp [Res.map] at hm
  | ok r =>
    obtain ⟨b, code⟩ := r
    rw [hrun] at hm hg
    simp only [Res.map, Res.ok.injEq, Prod.mk.injEq] at hm hg
    obtain ⟨hc, hout, ha0, ha2⟩ := hm
    obtain ⟨hg0, hg2⟩ := hg
    subst hc
    refine ⟨b, rfl, hout, ?_⟩
    have in0 : curr_input "b".toList 0 = 'b' := by decide
    have cb : (0 : Int) ≤ set_order grammar_empty_loop.terminal_set 'b' := by decide
    have hp : item_get_production grammar_empty_loop ⟨'A', 0, 0⟩ = some ⟨[]⟩ := by decide
    have hstep : ∀ (top : LR0StackRecord) (rest : List LR0StackRecord) (trace : List ActionRecord),
        top = ⟨'$', 0⟩ ∨ top = ⟨'A', 2⟩ →
        driver_step grammar_empty_loop b.table "b".toList ⟨top :: rest, 0, trace⟩ =
          .ok (.inl ⟨⟨'A', 2⟩ :: top :: rest, 0, trace ++ [⟨ACTION_REDUCE, 1, 'A', 0⟩]⟩) := by
      intro top rest trace htop
      have hred : reduces_by grammar_empty_loop b.table "b".toList ⟨top :: rest, 0, trace⟩
          ⟨ACTION_REDUCE, 1, 'A', 0⟩ ⟨[]⟩ := by
        refine ⟨top, rest, rfl, ?_, ?_, ?_, rfl, hp⟩
        · show (0 : Int) ≤ set_order _ (curr_input "b".toList 0)
          rw [in0]
          exact cb
        · rcases htop with h | h <;> subst h <;> decide
        · show b.table.action_table top.target_state (set_order _ (curr_input "b".toList 0)) = _
          rw [in0]
          rcases htop with h | h
          · subst h; exact ha0
          · subst h; exact ha2
      rw [driver_step_reduce hred]
      have hpop : pop_symbols (⟨[]⟩ : Production).symbols.reverse (top :: rest) =
          .ok (some (top :: rest)) := rfl
      simp only [hpop]
      rcases htop with h | h
      · subst h
        simp only [hg0]
      · subst h
        simp only [hg2]
    have hall : ∀ (n : Nat) (top : LR0StackRecord) (rest : List LR0StackRecord)
        (trace : List ActionRecord), top = ⟨'$', 0⟩ ∨ top = ⟨'A', 2⟩ →
        ∃ cfg, driver_run grammar_empty_loop b.table "b".toList n ⟨top :: rest, 0, trace⟩ =
          .ok (.inl cfg) ∧ cfg.stack.length = n + (rest.length + 1) ∧ cfg.input_offset = 0 := by
      intro n
      induction n with
      | zero =>
        intro top rest trace _
        exact ⟨_, rfl, by simp, rfl⟩
      | succ n ih =>
        intro top rest trace htop
        obtain ⟨cfg, k1, k2, k3⟩ := ih ⟨'A', 2⟩ (top :: rest)
          (trace ++ [⟨ACTION_REDUCE, 1, 'A', 0⟩]) (Or.inr rfl)
        refine ⟨cfg, ?_, ?_, k3⟩
        · unfold driver_run
          simp only [hstep top rest trace htop]
          exact k1
        · rw [k2]
          simp only [List.length_cons]
          omega
    intro n
    obtain ⟨cfg, k1, k2, k3⟩ := hall n ⟨'$', 0⟩ [] [] (Or.inl rfl)
    exact ⟨cfg, k1, by simpa using k2, k3⟩


set_option maxRecDepth 100000 in
/-- A shift on the end marker.  For the grammar `S -> $S | a` the construction
returns 0 and reports nothing; state 0 and state 2 shift `$` to state 2.  On
the empty input every iteration of the driver shifts the end marker: after `n`
iterations the cursor is at offset `n`, beyond the input, and the stack holds
`n + 1` entries; the loop uses up every budget. -/
theorem end_marker_shifts_forever :
    ∃ b, grammar_create_lr_table 16 grammar_end_marker_loop (item_set_init 'Z') = .ok (b, 0) ∧
      b.out = [] ∧
      (∀ n, ∃ cfg, driver_run grammar_end_marker_loop b.table [] n ⟨[⟨'$', 0⟩], 0, []⟩ =
          .ok (.inl cfg) ∧ cfg.stack.length = n + 1 ∧ cfg.input_offset = n) ∧
      ∀ fuel, grammar_input_check fuel grammar_end_marker_loop b.table [] = .nofuel := by
  have hm : (grammar_create_lr_table 16 grammar_end_marker_loop (item_set_init 'Z')).map
      (fun r => (r.2, r.1.out,
        r.1.table.action_table 0 (set_order grammar_end_marker_loop.terminal_set '$'),
        r.1.table.action_table 2 (set_order grammar_end_marker_loop.terminal_set '$'))) =
      .ok (0, [], ⟨ACTION_SHIFT, 2, Char.ofNat 0, 0⟩, ⟨ACTION_SHIFT, 2, Char.ofNat 0, 0⟩) := by
    decide
  cases hrun : grammar_create_lr_table 16 grammar_end_marker_loop (item_set_init 'Z') with
  | undefined => rw [hrun] at hm; simp [Res.map] at hm
  | nofuel => rw [hrun] at hm; simp [Res.map] at hm
  | ok r =>
    obtain ⟨b, code⟩ := r
    rw [hrun] at hm
    simp only [Res.map, Res.ok.injEq, Prod.mk.injEq] at hm
    obtain ⟨hc, hout, ha0, ha2⟩ := hm
    subst hc
    have hin : ∀ i, curr_input [] i = '$' := fun i => curr_input_end (Nat.zero_le _)
    have ce : (0 : Int) ≤ set_order grammar_end_marker_loop.terminal_set '$' := by decide
    have hstep : ∀ (top : LR0StackRecord) (rest : List LR0StackRecord) (off : Nat)
        (trace : List ActionRecord), top = ⟨'$', 0⟩ ∨ top = ⟨'$', 2⟩ →
        driver_step grammar_end_marker_loop b.table [] ⟨top :: rest, off, trace⟩ =
          .ok (.inl ⟨⟨'$', 2⟩ :: top :: rest, off + 1,
            trace ++ [⟨ACTION_SHIFT, 2, Char.ofNat 0, 0⟩]⟩) := by
      intro top rest off trace htop
      have h := @driver_step_shift grammar_end_marker_loop b.table [] ⟨top :: rest, off, trace⟩
        top rest ⟨ACTION_SHIFT, 2, Char.ofNat 0, 0⟩ rfl
        (by show (0 : Int) ≤ set_order _ (curr_input [] off); rw [hin]; exact ce)
        (by rcases htop with h | h <;> subst h <;> decide)
        (by
          show b.table.action_table top.target_state (set_order _ (curr_input [] off)) = _
          rw [hin]
          rcases htop with h | h
          · subst h; exact ha0
          · subst h; exact ha2) rfl
      rw [h]
      simp only [hin]
    have hall : ∀ (n : Nat) (top : LR0StackRecord) (rest : List LR0StackRecord) (off : Nat)
        (trace : List ActionRecord), top = ⟨'$', 0⟩ ∨ top = ⟨'$', 2⟩ →
        ∃ cfg, driver_run grammar_end_marker_loop b.table [] n ⟨top :: rest, off, trace⟩ =
          .ok (.inl cfg) ∧ cfg.stack.length = n + (rest.length + 1) ∧
          cfg.input_offset = n + off := by
      intro n
      induction n with
      | zero =>
        intro top rest off trace _
        exact ⟨_, rfl, by simp, by simp⟩
      | succ n ih =>
        intro top rest off trace htop
        obtain ⟨cfg, k1, k2, k3⟩ := ih ⟨'$', 2⟩ (top :: rest) (off + 1)
          (trace ++ [⟨ACTION_SHIFT, 2, Char.ofNat 0, 0⟩]) (Or.inr rfl)
        refine ⟨cfg, ?_, ?_, ?_⟩
        · unfold driver_run
          simp only [hstep top rest off trace htop]
          exact k1
        · rw [k2]
          simp only [List.length_cons]
          omega
        · rw [k3]
          omega
    refine ⟨b, rfl, hout, ?_, ?_⟩
    · intro n
      obtain ⟨cfg, k1, k2, k3⟩ := hall n ⟨'$', 0⟩ [] 0 [] (Or.inl rfl)
      exact ⟨cfg, k1, by simpa using k2, by simpa using k3⟩
    · intro fuel
      apply driver_loop_forever grammar_end_marker_loop b.table []
        (fun cfg => ∃ top rest, cfg.stack = top :: rest ∧ (top = ⟨'$', 0⟩ ∨ top = ⟨'$', 2⟩))
      · rintro ⟨stack, off, trace⟩ ⟨top, rest, hs, htop⟩
        simp only [] at hs
        subst hs
        exact ⟨_, hstep top rest off trace htop, ⟨'$', 2⟩, top :: rest, rfl, Or.inr rfl⟩
      · exact ⟨⟨'$', 0⟩, [], rfl, Or.inl rfl⟩

/-- C22 (the claim fails). Three tables that `grammar_create_lr_table` builds
and on which the driver does not return.  For `S -> A | Sb | a`, `A -> S` (a
cycle of productions of one symbol) it reduces by `A -> S` and `S -> A` in turn
on the input `a`, with two entries on the stack.  For `S -> ASb`, `A -> @` (an
empty production) every iteration on the input `b` reduces by `A -> @`, which
pushes an entry and removes none.  For `S -> $S | a` (a shift on the end
marker) every iteration on the empty input shifts the end marker and moves the
cursor further beyond the input. -/
theorem driver_never_returns :
    (∃ b, grammar_create_lr_table 16 grammar_accept_overwritten (item_set_init 'Z') =
        .ok (b, 0) ∧
      ∀ fuel, grammar_input_check fuel grammar_accept_overwritten b.table "a".toList =
        .nofuel) ∧
    (∃ b, grammar_create_lr_table 16 grammar_empty_loop (item_set_init 'Z') = .ok (b, 0) ∧
      b.out = [] ∧
      ∀ n, ∃ cfg, driver_run grammar_empty_loop b.table "b".toList n ⟨[⟨'$', 0⟩], 0, []⟩ =
          .ok (.inl cfg) ∧ cfg.stack.length = n + 1 ∧ cfg.input_offset = 0) ∧
    (∃ b, grammar_create_lr_table 16 grammar_end_marker_loop (item_set_init 'Z') = .ok (b, 0) ∧
      b.out = [] ∧
      (∀ n, ∃ cfg, driver_run grammar_end_marker_loop b.table [] n ⟨[⟨'$', 0⟩], 0, []⟩ =
          .ok (.inl cfg) ∧ cfg.stack.length = n + 1 ∧ cfg.input_offset = n) ∧
      ∀ fuel, grammar_input_check fuel grammar_end_marker_loop b.table [] = .nofuel) :=
  ⟨unit_cycle_never_returns.2.2, empty_reductions_pile_up, end_marker_shifts_forever⟩

end LR0

namespace LR0

open ActionType

/-! ## The states hold no item twice -/

/-- The insertion of a triple keeps a list without repetition so. -/
theorem item_production_insert_nodup (s : Item) (B : Char) (i d : Nat)
    (h : s.productions.Nodup) : (item_production_insert s B i d).1.productions.Nodup := by
  unfold item_production_insert
  by_cases hm : (⟨B, i, d⟩ : ItemProduction) ∈ s.productions
  · simp only [hm, if_true]
    exact h
  · simp only [hm, if_false]
    exact List.nodup_append.2 ⟨h, List.nodup_singleton _, fun a ha hb => by
      rw [List.mem_singleton] at hb
      subst hb
      exact hm ha⟩

/-- The loop that fills a new state keeps it without repetition. -/
theorem collect_extra_nodup (g : Grammar) (item : Item) (symbol : Char) :
    ∀ (n j : Nat) (ni : Item) (out : List Diag) (r : Item × List Diag),
      collect_extra g item symbol n j ni out = .ok r → ni.productions.Nodup →
      r.1.productions.Nodup := by
  intro n
  induction n with
  | zero =>
    intro j ni out r h hn
    simp only [collect_extra, Res.ok.injEq] at h
    subst h
    exact hn
  | succ n ih =>
    intro j ni out r h hn
    unfold collect_extra at h
    cases hread : item.productions[j]? with
    | none => simp [hread] at h
    | some ipj =>
      simp only [hread] at h
      cases hget : item_get_production g ipj with
      | none => simp [hget] at h
      | some p =>
        simp only [hget] at h
        by_cases hend : ipj.dot_offset = p.size
        · simp only [hend, if_true] at h
          exact ih _ _ _ _ h hn
        · simp only [hend, if_false] at h
          by_cases hsym : symbol_at g p ipj.dot_offset = symbol
          · simp only [hsym, if_true] at h
            exact ih _ _ _ _ h (item_production_insert_nodup ni _ _ _ hn)
          · simp only [hsym, if_false] at h
            exact ih _ _ _ _ h hn

/-- The main loop keeps every state without repetition, provided the
recursive calls do. -/
theorem table_loop_nodup (g : Grammar) (recurse : Build → Nat → Res (Build × Int)) (k : Nat)
    (hrec : ∀ b next r, recurse b next = .ok r → all_nodup b → all_nodup r.1) :
    ∀ (n i : Nat) (v : Set) (b : Build) (r : Build × Int),
      table_loop recurse g k n i v b = .ok r → all_nodup b → all_nodup r.1 := by
  intro n
  induction n with
  | zero =>
    intro i v b r h hb
    simp only [table_loop, Res.ok.injEq] at h
    subst h
    exact hb
  | succ n ih =>
    intro i v b r h hb
    unfold table_loop at h
    cases hitem : b.set.items[k]? with
    | none => simp [hitem] at h
    | some item =>
      simp only [hitem] at h
      cases hread : item.productions[i]? with
      | none => simp [hread] at h
      | some ip =>
        simp only [hread] at h
        cases hget : item_get_production g ip with
        | none => simp [hget] at h
        | some p =>
          simp only [hget] at h
          have hb1 : all_nodup (if p.size ≤ ip.dot_offset then write_complete g k ip b else b) := by
            by_cases hc : p.size ≤ ip.dot_offset
            · simp only [hc, if_true]
              unfold all_nodup
              rw [(write_complete_spec g k ip b).1.set]
              exact hb
            · simp only [hc, if_false]
              exact hb
          generalize (if p.size ≤ ip.dot_offset then write_complete g k ip b else b) = b1
            at h hb1
          by_cases hflag : (set_insert v (symbol_at g p ip.dot_offset)).2 = 1
          · simp only [hflag, if_true] at h
            exact ih _ _ _ _ h hb1
          · simp only [hflag, if_false] at h
            cases hfind : item_find b1.set
                ⟨ip.nonterminal, ip.production, ip.dot_offset + 1⟩ with
            | some next =>
              simp only [hfind] at h
              apply ih _ _ _ _ h
              unfold all_nodup
              rw [(write_edge_spec g k _ next b1).1.set]
              exact hb1
            | none =>
              simp only [hfind] at h
              cases hcol : collect_extra g item (symbol_at g p ip.dot_offset)
                  (item.productions.length - (i + 1)) (i + 1)
                  (item_production_insert ⟨[], 1, set_init⟩ ip.nonterminal ip.production
                    (ip.dot_offset + 1)).1 b1.out with
              | undefined => simp [hcol] at h
              | nofuel => simp [hcol] at h
              | ok rc =>
                obtain ⟨ni, out⟩ := rc
                simp only [hcol] at h
                have hni : ni.productions.Nodup :=
                  collect_extra_nodup g item _ _ _ _ _ _ hcol
                    (item_production_insert_nodup _ _ _ _ List.nodup_nil)
                cases hres : recurse
                    ⟨⟨b1.set.items ++ [ni], b1.set.initial_symbol⟩, b1.table, out, b1.writes⟩
                    b1.set.items.length with
                | undefined => simp [hres] at h
                | nofuel => simp [hres] at h
                | ok rr =>
                  obtain ⟨b2, code⟩ := rr
                  simp only [hres] at h
                  have hb2 : all_nodup b2 := by
                    apply hrec _ _ (b2, code) hres
                    intro it hit
                    simp only [List.mem_append, List.mem_singleton] at hit
                    rcases hit with hit | hit
                    · exact hb1 it hit
                    · subst hit
                      exact hni
                  by_cases hneg : code < 0
                  · simp only [hneg, if_true, Res.ok.injEq] at h
                    subst h
                    exact hb2
                  · simp only [hneg, if_false] at h
                    apply ih _ _ _ _ h
                    unfold all_nodup
                    rw [(write_edge_spec g k _ _ b2).1.set]
                    exact hb2

/-- A call of the construction, whatever code it returns, keeps every state
without repetition. -/
theorem internal_nodup (g : Grammar) :
    ∀ (fuel : Nat) (b : Build) (k : Nat) (r : Build × Int),
      grammar_create_lr_table_internal fuel g b k = .ok r → all_nodup b → all_nodup r.1 := by
  intro fuel
  induction fuel with
  | zero =>
    intro b k r h
    simp [grammar_create_lr_table_internal] at h
  | succ fuel ih =>
    intro b k r h hb
    unfold grammar_create_lr_table_internal at h
    cases hitem : b.set.items[k]? with
    | none => simp [hitem] at h
    | some item0 =>
      simp only [hitem] at h
      cases hclo : item_insert_closure fuel g item0 with
      | undefined => simp [hclo] at h
      | nofuel => simp [hclo] at h
      | ok rc =>
        obtain ⟨item, no_outgoing⟩ := rc
        simp only [hclo] at h
        have hitem2 : item.productions.Nodup :=
          (closure_code hclo).1 (hb item0 (List.getElem?_mem hitem))
        have hb0 : all_nodup
            ⟨⟨b.set.items.set k item, b.set.initial_symbol⟩, b.table, b.out, b.writes⟩ := by
          intro it hit
          rcases List.mem_or_eq_of_mem_set hit with hit | hit
          · exact hb it hit
          · subst hit
            exact hitem2
        by_cases h1 : no_outgoing = 1
        · simp only [h1, if_true] at h
          cases hz : item.productions[0]? with
          | none => simp [hz] at h
          | some ip =>
            simp only [hz, Res.ok.injEq] at h
            subst h
            unfold all_nodup
            rw [(write_complete_spec g k ip _).1.set]
            exact hb0
        · simp only [h1, if_false] at h
          by_cases hneg : no_outgoing < 0
          · simp only [hneg, if_true, Res.ok.injEq] at h
            subst h
            exact hb0
          · simp only [hneg, if_false] at h
            exact table_loop_nodup g _ k (fun b next r hr hbn => ih b next r hr hbn)
              _ _ _ _ r h hb0

/-- C33. In every state produced by `grammar_create_lr_table`, whatever code
the construction returns, no triple (nonterminal, production, dot offset)
occurs twice in the list of items: the list has no repetition, and a triple
found at two indices is found at one index.  The states handed in with the
item set are required to be so (none is, for an empty item set). -/
theorem states_deduplicated (g : Grammar) (fuel : Nat) (set : ItemSet) (b : Build) (code : Int)
    (hset : ∀ it ∈ set.items, it.productions.Nodup)
    (hrun : grammar_create_lr_table fuel g set = .ok (b, code)) :
    ∀ it ∈ b.set.items, it.productions.Nodup ∧
      ∀ (i j : Nat) (x : ItemProduction),
        it.productions[i]? = some x → it.productions[j]? = some x → i = j := by
  unfold grammar_create_lr_table at hrun
  have hall := internal_nodup g fuel _ _ (b, code) hrun (by
    intro it hit
    simp only [List.mem_append, List.mem_singleton] at hit
    rcases hit with hit | hit
    · exact hset it hit
    · subst hit
      exact item_production_insert_nodup _ _ _ _ List.nodup_nil)
  intro it hit
  have hn := hall it hit
  refine ⟨hn, fun i j x hi hj => ?_⟩
  obtain ⟨hi1, hi2⟩ := List.getElem?_eq_some.1 hi
  obtain ⟨hj1, hj2⟩ := List.getElem?_eq_some.1 hj
  have hinj : it.productions[i] = it.productions[j] ↔ i = j := List.Nodup.getElem_inj_iff hn
  exact hinj.1 (hi2.trans hj2.symm)

set_option maxRecDepth 100000 in
/-- Witness for `states_deduplicated`: the eight states of the left-recursive
grammar `E -> E+T | T`, `T -> id`, built from an empty item set; state 0 has
four items. -/
theorem states_deduplicated_witness :
    ∃ b, grammar_create_lr_table 16 example1 (item_set_init 'Z') = .ok (b, 0) ∧
      b.set.items.length = 8 ∧
      (b.set.items[0]?.map (fun it => it.productions.length)) = some 4 ∧
      ∀ it ∈ b.set.items, it.productions.Nodup ∧
        ∀ (i j : Nat) (x : ItemProduction),
          it.productions[i]? = some x → it.productions[j]? = some x → i = j := by
  have hm : (grammar_create_lr_table 16 example1 (item_set_init 'Z')).map
      (fun r => (r.2, r.1.set.items.length,
        r.1.set.items[0]?.map (fun it => it.productions.length))) = .ok (0, 8, some 4) := by
    decide
  cases hrun : grammar_create_lr_table 16 example1 (item_set_init 'Z') with
  | undefined => rw [hrun] at hm; simp [Res.map] at hm
  | nofuel => rw [hrun] at hm; simp [Res.map] at hm
  | ok r =>
    obtain ⟨b, code⟩ := r
    rw [hrun] at hm
    simp only [Res.map, Res.ok.injEq, Prod.mk.injEq] at hm
    obtain ⟨hc, hlen, hfour⟩ := hm
    subst hc
    exact ⟨b, rfl, hlen, hfour,
      states_deduplicated example1 16 (item_set_init 'Z') b 0
        (by intro it hit; simp [item_set_init] at hit) hrun⟩

end LR0

namespace LR0

open ActionType

/-! ## The result does not depend on the budget -/

/-- The loop of `item_insert_closure_internal` gives the same result with
another recursive call that agrees with the first wherever that one does not
run out of budget. -/
theorem closure_loop_fuel (recurse recurse2 : Item → Char → Res (Item × Int))
    (hrec : ∀ s c, recurse s c ≠ .nofuel → recurse2 s c = recurse s c) (g : Grammar)
    (B : Char) :
    ∀ (ps : List Production) (i : Nat) (s : Item),
      closure_loop recurse g B ps i s ≠ .nofuel →
      closure_loop recurse2 g B ps i s = closure_loop recurse g B ps i s := by
  intro ps
  induction ps with
  | nil =>
    intro i s _
    simp only [closure_loop]
  | cons p ps ih =>
    intro i s h
    simp only [closure_loop] at h ⊢
    by_cases h1 : (item_production_insert s B i 0).2 = 1
    · simp only [h1, if_true] at h ⊢
      exact ih _ _ h
    · simp only [h1, if_false] at h ⊢
      by_cases hcond : 0 < p.size ∧ is_nonterminal (symbol_at g p 0) = true
      · simp only [hcond, and_self, if_true] at h ⊢
        cases hres : recurse (item_production_insert s B i 0).1 (symbol_at g p 0) with
        | nofuel => simp [hres] at h
        | undefined =>
          rw [hrec _ _ (by rw [hres]; simp), hres]
        | ok r =>
          obtain ⟨s2, code⟩ := r
          rw [hrec _ _ (by rw [hres]; simp), hres]
          simp only [hres] at h ⊢
          by_cases hneg : code < 0
          · simp only [hneg, if_true]
          · simp only [hneg, if_false] at h ⊢
            exact ih _ _ h
      · simp only [hcond, if_false] at h ⊢
        exact ih _ _ h

/-- One more unit of budget does not change a result of
`item_insert_closure_internal`. -/
theorem closure_internal_fuel_succ (g : Grammar) :
    ∀ (fuel : Nat) (s : Item) (B : Char),
      item_insert_closure_internal fuel g s B ≠ .nofuel →
      item_insert_closure_internal (fuel + 1) g s B = item_insert_closure_internal fuel g s B := by
  intro fuel
  induction fuel with
  | zero =>
    intro s B h
    simp [item_insert_closure_internal] at h
  | succ fuel ih =>
    intro s B h
    rw [item_insert_closure_internal] at h
    rw [item_insert_closure_internal, item_insert_closure_internal]
    cases hf : grammar_find g B with
    | none => simp only []
    | some k =>
      simp only [hf] at h ⊢
      cases hs : g.set[k]? with
      | none => simp only []
      | some ps =>
        simp only [hs] at h ⊢
        exact closure_loop_fuel _ _ ih g B _ _ _ h

/-- A larger budget does not change a result of
`item_insert_closure_internal`. -/
theorem closure_internal_fuel (g : Grammar) (fuel fuel2 : Nat) (hle : fuel ≤ fuel2) (s : Item)
    (B : Char) (h : item_insert_closure_internal fuel g s B ≠ .nofuel) :
    item_insert_closure_internal fuel2 g s B = item_insert_closure_internal fuel g s B := by
  induction hle with
  | refl => rfl
  | step hle ih =>
    rw [closure_internal_fuel_succ g _ s B (by rw [ih]; exact h), ih]

/-- A larger budget does not change a result of the loop of
`item_insert_closure`. -/
theorem closure_scan_fuel (g : Grammar) (fuel fuel2 : Nat) (hle : fuel ≤ fuel2) :
    ∀ (n i : Nat) (v : Set) (no : Int) (s : Item),
      closure_scan fuel g n i v no s ≠ .nofuel →
      closure_scan fuel2 g n i v no s = closure_scan fuel g n i v no s := by
  intro n
  induction n with
  | zero =>
    intro i v no s _
    simp only [closure_scan]
  | succ n ih =>
    intro i v no s h
    simp only [closure_scan] at h ⊢
    cases hread : s.productions[i]? with
    | none => simp only []
    | some ip =>
      simp only [hread] at h ⊢
      cases hget : item_get_production g ip with
      | none => simp only []
      | some p =>
        simp only [hget] at h ⊢
        by_cases hend : p.size ≤ ip.dot_offset
        · simp only [hend, if_true] at h ⊢
          exact ih _ _ _ _ h
        · simp only [hend, if_false] at h ⊢
          by_cases hnt : is_nonterminal (symbol_at g p ip.dot_offset) = true
          · simp only [hnt, if_true] at h ⊢
            by_cases hv : (set_insert v (symbol_at g p ip.dot_offset)).2 = 1
            · simp only [hv, if_true] at h ⊢
              exact ih _ _ _ _ h
            · simp only [hv, if_false] at h ⊢
              cases hres : item_insert_closure_internal fuel g s (symbol_at g p ip.dot_offset) with
              | nofuel => simp [hres] at h
              | undefined =>
                rw [closure_internal_fuel g fuel fuel2 hle _ _ (by rw [hres]; simp), hres]
              | ok r =>
                obtain ⟨s2, code⟩ := r
                rw [closure_internal_fuel g fuel fuel2 hle _ _ (by rw [hres]; simp), hres]
                simp only [hres] at h ⊢
                by_cases hneg : code < 0
                · simp only [hneg, if_true]
                · simp only [hneg, if_false] at h ⊢
                  exact ih _ _ _ _ h
          · simp only [hnt, if_false] at h ⊢
            exact ih _ _ _ _ h

/-- A larger budget does not change a result of `item_insert_closure`. -/
theorem closure_fuel (g : Grammar) (fuel fuel2 : Nat) (hle : fuel ≤ fuel2) (s : Item)
    (h : item_insert_closure fuel g s ≠ .nofuel) :
    item_insert_closure fuel2 g s = item_insert_closure fuel g s := by
  unfold item_insert_closure at h ⊢
  by_cases hlen : s.productions.length = 0
  · simp only [hlen, if_true]
  · simp only [hlen, if_false] at h ⊢
    exact closure_scan_fuel g fuel fuel2 hle _ _ _ _ _ h

/-- The main loop of the construction gives the same result with another
recursive call that agrees with the first wherever that one does not run out
of budget. -/
theorem table_loop_fuel (recurse recurse2 : Build → Nat → Res (Build × Int))
    (hrec : ∀ b k, recurse b k ≠ .nofuel → recurse2 b k = recurse b k) (g : Grammar)
    (k : Nat) :
    ∀ (n i : Nat) (v : Set) (b : Build),
      table_loop recurse g k n i v b ≠ .nofuel →
      table_loop recurse2 g k n i v b = table_loop recurse g k n i v b := by
  intro n
  induction n with
  | zero =>
    intro i v b _
    simp only [table_loop]
  | succ n ih =>
    intro i v b h
    simp only [table_loop] at h ⊢
    cases hitem : b.set.items[k]? with
    | none => simp only []
    | some item =>
      simp only [hitem] at h ⊢
      cases hread : item.productions[i]? with
      | none => simp only []
      | some ip =>
        simp only [hread] at h ⊢
        cases hget : item_get_production g ip with
        | none => simp only []
        | some p =>
          simp only [hget] at h ⊢
          generalize (if p.size ≤ ip.dot_offset then write_complete g k ip b else b) = b1
            at h ⊢
          by_cases hflag : (set_insert v (symbol_at g p ip.dot_offset)).2 = 1
          · simp only [hflag, if_true] at h ⊢
            exact ih _ _ _ h
          · simp only [hflag, if_false] at h ⊢
            cases hfind : item_find b1.set
                ⟨ip.nonterminal, ip.production, ip.dot_offset + 1⟩ with
            | some next =>
              simp only [hfind] at h ⊢
              exact ih _ _ _ h
            | none =>
              simp only [hfind] at h ⊢
              cases hcol : collect_extra g item (symbol_at g p ip.dot_offset)
                  (item.productions.length - (i + 1)) (i + 1)
                  (item_production_insert ⟨[], 1, set_init⟩ ip.nonterminal ip.production
                    (ip.dot_offset + 1)).1 b1.out with
              | undefined => simp only []
              | nofuel => simp only []
              | ok rc =>
                obtain ⟨ni, out⟩ := rc
                simp only [hcol] at h ⊢
                cases hres : recurse
                    ⟨⟨b1.set.items ++ [ni], b1.set.initial_symbol⟩, b1.table, out, b1.writes⟩
                    b1.set.items.length with
                | nofuel => simp [hres] at h
                | undefined =>
                  rw [hrec _ _ (by rw [hres]; simp), hres]
                | ok rr =>
                  obtain ⟨b2, code⟩ := rr
                  rw [hrec _ _ (by rw [hres]; simp), hres]
                  simp only [hres] at h ⊢
                  by_cases hneg : code < 0
                  · simp only [hneg, if_true]
                  · simp only [hneg, if_false] at h ⊢
                    exact ih _ _ _ h

/-- One more unit of budget does not change a result of
`grammar_create_lr_table_internal`. -/
theorem internal_fuel_succ (g : Grammar) :
    ∀ (fuel : Nat) (b : Build) (k : Nat),
      grammar_create_lr_table_internal fuel g b k ≠ .nofuel →
      grammar_create_lr_table_internal (fuel + 1) g b k =
        grammar_create_lr_table_internal fuel g b k := by
  intro fuel
  induction fuel with
  | zero =>
    intro b k h
    simp [grammar_create_lr_table_internal] at h
  | succ fuel ih =>
    intro b k h
    rw [grammar_create_lr_table_internal] at h
    rw [grammar_create_lr_table_internal, grammar_create_lr_table_internal]
    cases hitem : b.set.items[k]? with
    | none => simp only []
    | some item0 =>
      simp only [hitem] at h ⊢
      cases hclo : item_insert_closure fuel g item0 with
      | nofuel => simp [hclo] at h
      | undefined =>
        rw [closure_fuel g fuel (fuel + 1) (Nat.le_succ _) _ (by rw [hclo]; simp), hclo]
      | ok rc =>
        obtain ⟨item, no⟩ := rc
        rw [closure_fuel g fuel (fuel + 1) (Nat.le_succ _) _ (by rw [hclo]; simp), hclo]
        simp only [hclo] at h ⊢
        by_cases h1 : no = 1
        · simp only [h1, if_true]
        · simp only [h1, if_false] at h ⊢
          by_cases hneg : no < 0
          · simp only [hneg, if_true]
          · simp only [hneg, if_false] at h ⊢
            exact table_loop_fuel _ _ ih g k _ _ _ _ h

/-- A larger budget does not change a result of `grammar_create_lr_table`. -/
theorem construction_fuel (g : Grammar) (set : ItemSet) (fuel fuel2 : Nat) (hle : fuel ≤ fuel2)
    (h : grammar_create_lr_table fuel g set ≠ .nofuel) :
    grammar_create_lr_table fuel2 g set = grammar_create_lr_table fuel g set := by
  unfold grammar_create_lr_table at h ⊢
  induction hle with
  | refl => rfl
  | step hle ih =>
    rw [internal_fuel_succ g _ _ _ (by rw [ih]; exact h), ih]

/-- On a finished and augmented grammar (`Z` has a production 0) whose
never-written symbol slots hold a character that occurs in no production, the
construction `grammar_create_lr_table` from an empty item set terminates: with
every recursion budget from `construction_budget` on, a number computed from
the grammar alone, it returns, and it returns the same item sets, table,
printed lines and code whatever the budget. -/
theorem construction_terminates (g : Grammar) (c0 : Char) (hfill : fill_unused g)
    (hZ : item_get_production g ⟨'Z', 0, 0⟩ ≠ none) :
    ∃ b code, ∀ fuel, construction_budget g ≤ fuel →
      grammar_create_lr_table fuel g (item_set_init c0) = .ok (b, code) := by
  obtain ⟨b, code, h⟩ := construction_returns g c0 hfill hZ (construction_budget g)
    (Nat.le_refl _)
  refine ⟨b, code, fun fuel hfuel => ?_⟩
  rw [construction_fuel g _ _ fuel hfuel (by rw [h]; simp), h]

set_option maxRecDepth 100000 in
/-- Witness for `construction_terminates`: the grammar `E -> E+T | T`,
`T -> id`, whose construction budget is 18 and whose construction gives eight
states and the code 0. -/
theorem construction_terminates_witness :
    construction_budget example1 = 18 ∧
    (∃ b code, ∀ fuel, construction_budget example1 ≤ fuel →
      grammar_create_lr_table fuel example1 (item_set_init 'Z') = .ok (b, code)) ∧
    (grammar_create_lr_table 18 example1 (item_set_init 'Z')).map
      (fun r => (r.1.set.items.length, r.2)) = .ok (8, 0) :=
  ⟨by decide,
    construction_terminates example1 'Z' (by unfold fill_unused; decide) (by decide),
    by decide⟩

end LR0

namespace LR0

open ActionType

/-! ## The recursive calls of the closure -/

theorem forget_calls_ok {α : Type} {s : Item} {code : Int} {m : α} :
    forget_calls (.ok (s, code, m)) = .ok (s, code) := rfl

theorem forget_calls_undefined {α : Type} :
    forget_calls (.undefined : Res (Item × Int × α)) = .undefined := rfl

theorem forget_calls_nofuel {α : Type} :
    forget_calls (.nofuel : Res (Item × Int × α)) = .nofuel := rfl

/-- Without its counter the counting loop is the loop of
`item_insert_closure_internal`. -/
theorem closure_loop_calls_forget (recurse : Item → Char → Res (Item × Int))
    (recurse2 : Item → Char → Nat → Res (Item × Int × Nat))
    (hrec : ∀ s c m, forget_calls (recurse2 s c m) = recurse s c) (g : Grammar) (B : Char) :
    ∀ (ps : List Production) (i : Nat) (s : Item) (m : Nat),
      forget_calls (closure_loop_calls recurse2 g B ps i s m) =
        closure_loop recurse g B ps i s := by
  intro ps
  induction ps with
  | nil =>
    intro i s m
    simp only [closure_loop_calls, closure_loop, forget_calls_ok]
  | cons p ps ih =>
    intro i s m
    simp only [closure_loop_calls, closure_loop]
    by_cases h1 : (item_production_insert s B i 0).2 = 1
    · simp only [h1, if_true]
      exact ih _ _ _
    · simp only [h1, if_false]
      by_cases hcond : 0 < p.size ∧ is_nonterminal (symbol_at g p 0) = true
      · simp only [hcond, and_self, if_true]
        have hr := hrec (item_production_insert s B i 0).1 (symbol_at g p 0) (m + 1)
        cases hres : recurse2 (item_production_insert s B i 0).1 (symbol_at g p 0) (m + 1) with
        | nofuel =>
          rw [hres, forget_calls_nofuel] at hr
          rw [← hr]
          rfl
        | undefined =>
          rw [hres, forget_calls_undefined] at hr
          rw [← hr]
          rfl
        | ok r =>
          obtain ⟨s2, code, m2⟩ := r
          rw [hres, forget_calls_ok] at hr
          rw [← hr]
          simp only []
          by_cases hneg : code < 0
          · simp only [hneg, if_true, forget_calls_ok]
          · simp only [hneg, if_false]
            exact ih _ _ _
      · simp only [hcond, if_false]
        exact ih _ _ _

/-- Without its counter `item_insert_closure_internal_calls` is
`item_insert_closure_internal`. -/
theorem closure_internal_calls_forget (g : Grammar) :
    ∀ (fuel : Nat) (s : Item) (B : Char) (m : Nat),
      forget_calls (item_insert_closure_internal_calls fuel g s B m) =
        item_insert_closure_internal fuel g s B := by
  intro fuel
  induction fuel with
  | zero =>
    intro s B m
    rfl
  | succ fuel ih =>
    intro s B m
    rw [item_insert_closure_internal_calls, item_insert_closure_internal]
    cases hf : grammar_find g B with
    | none => rfl
    | some k =>
      simp only []
      cases hs : g.set[k]? with
      | none => rfl
      | some ps =>
        simp only []
        exact closure_loop_calls_forget _ _ ih g B _ _ _ _

/-- Without its counter the counting loop of `item_insert_closure` is
`closure_scan`. -/
theorem closure_scan_calls_forget (g : Grammar) (fuel : Nat) :
    ∀ (n i : Nat) (v : Set) (no : Int) (s : Item) (m o : Nat),
      forget_calls (closure_scan_calls fuel g n i v no s m o) =
        closure_scan fuel g n i v no s := by
  intro n
  induction n with
  | zero =>
    intro i v no s m o
    simp only [closure_scan_calls, closure_scan, forget_calls_ok]
  | succ n ih =>
    intro i v no s m o
    simp only [closure_scan_calls, closure_scan]
    cases hread : s.productions[i]? with
    | none => rfl
    | some ip =>
      simp only []
      cases hget : item_get_production g ip with
      | none => rfl
      | some p =>
        simp only []
        by_cases hend : p.size ≤ ip.dot_offset
        · simp only [hend, if_true]
          exact ih _ _ _ _ _ _
        · simp only [hend, if_false]
          by_cases hnt : is_nonterminal (symbol_at g p ip.dot_offset) = true
          · simp only [hnt, if_true]
            by_cases hv : (set_insert v (symbol_at g p ip.dot_offset)).2 = 1
            · simp only [hv, if_true]
              exact ih _ _ _ _ _ _
            · simp only [hv, if_false]
              have hr := closure_internal_calls_forget g fuel s (symbol_at g p ip.dot_offset) m
              cases hres : item_insert_closure_internal_calls fuel g s
                  (symbol_at g p ip.dot_offset) m with
              | nofuel =>
                rw [hres, forget_calls_nofuel] at hr
                rw [← hr]
                rfl
              | undefined =>
                rw [hres, forget_calls_undefined] at hr
                rw [← hr]
                rfl
              | ok r =>
                obtain ⟨s2, code, m2⟩ := r
                rw [hres, forget_calls_ok] at hr
                rw [← hr]
                simp only []
                by_cases hneg : code < 0
                · simp only [hneg, if_true, forget_calls_ok]
                · simp only [hneg, if_false]
                  exact ih _ _ _ _ _ _
          · simp only [hnt, if_false]
            exact ih _ _ _ _ _ _

/-- Without its counter `item_insert_closure_calls` is `item_insert_closure`. -/
theorem closure_calls_forget (g : Grammar) (fuel : Nat) (s : Item) :
    forget_calls (item_insert_closure_calls fuel g s) = item_insert_closure fuel g s := by
  unfold item_insert_closure_calls item_insert_closure
  by_cases hlen : s.productions.length = 0
  · simp only [hlen, if_true, forget_calls_ok]
  · simp only [hlen, if_false]
    exact closure_scan_calls_forget g fuel _ _ _ _ _ _ _

/-- Every recursive call of the loop follows the insertion of a dot-0 item of
the grammar that was not in the list: the calls and the dot-0 items still
absent together do not increase. -/
theorem closure_loop_calls_bound (g : Grammar)
    (recurse2 : Item → Char → Nat → Res (Item × Int × Nat))
    (hrec : ∀ s c m r, recurse2 s c m = .ok r →
      r.2.2 + missing g r.1.productions ≤ m + missing g s.productions)
    (B : Char) (hB : grammar_find g B ≠ none) :
    ∀ (ps : List Production) (i : Nat) (s : Item) (m : Nat),
      (∀ j p, ps[j]? = some p → (productions_of g B)[i + j]? = some p) →
      ∀ r, closure_loop_calls recurse2 g B ps i s m = .ok r →
        r.2.2 + missing g r.1.productions ≤ m + missing g s.productions := by
  intro ps
  induction ps with
  | nil =>
    intro i s m _ r h
    simp only [closure_loop_calls, Res.ok.injEq] at h
    subst h
    exact Nat.le_refl _
  | cons p ps ih =>
    intro i s m hctx r h
    have hp : (productions_of g B)[i]? = some p := by simpa using hctx 0 p (by simp)
    have hctx2 : ∀ j q, ps[j]? = some q → (productions_of g B)[i + 1 + j]? = some q := by
      intro j q hq
      have := hctx (j + 1) q (by simpa using hq)
      rwa [show i + (j + 1) = i + 1 + j by omega] at this
    have hlen : i < (productions_of g B).length := (List.getElem?_eq_some.1 hp).1
    have hx0 : (⟨B, i, 0⟩ : ItemProduction) ∈ dot0_items g := by
      cases h1 : grammar_find g B with
      | none => exact absurd h1 hB
      | some k =>
        cases h2 : g.set[k]? with
        | none => simp [productions_of, h1, h2] at hlen
        | some psB =>
          rw [productions_of_eq h1 h2] at hlen
          exact mem_dot0_items h1 h2 hlen
    unfold closure_loop_calls at h
    by_cases hmem : (⟨B, i, 0⟩ : ItemProduction) ∈ s.productions
    · rw [item_production_insert_mem hmem] at h
      simp only [if_true] at h
      exact ih _ _ _ hctx2 r h
    · rw [item_production_insert_new hmem] at h
      simp only [show ((0 : Int) = 1) = False by simp, if_false] at h
      have hm1 := missing_insert g hx0 hmem
      by_cases hcond : 0 < p.size ∧ is_nonterminal (symbol_at g p 0) = true
      · simp only [hcond, and_self, if_true] at h
        cases hres : recurse2 ⟨s.productions ++ [⟨B, i, 0⟩], s.closure_offset, s.nonterminal_set⟩
            (symbol_at g p 0) (m + 1) with
        | nofuel => simp [hres] at h
        | undefined => simp [hres] at h
        | ok rr =>
          obtain ⟨s2, code, m2⟩ := rr
          have hr := hrec _ _ _ _ hres
          simp only [] at hr
          simp only [hres] at h
          by_cases hneg : code < 0
          · simp only [hneg, if_true, Res.ok.injEq] at h
            subst h
            simp only []
            omega
          · simp only [hneg, if_false] at h
            have := ih _ _ _ hctx2 r h
            omega
      · simp only [hcond, if_false] at h
        have := ih _ _ _ hctx2 r h
        simp only [] at this
        omega

/-- The calls `item_insert_closure_internal` makes to itself and the dot-0
items still absent together do not increase. -/
theorem closure_internal_calls_bound (g : Grammar) :
    ∀ (fuel : Nat) (s : Item) (B : Char) (m : Nat) (r : Item × Int × Nat),
      item_insert_closure_internal_calls fuel g s B m = .ok r →
      r.2.2 + missing g r.1.productions ≤ m + missing g s.productions := by
  intro fuel
  induction fuel with
  | zero =>
    intro s B m r h
    simp [item_insert_closure_internal_calls] at h
  | succ fuel ih =>
    intro s B m r h
    rw [item_insert_closure_internal_calls] at h
    cases h1 : grammar_find g B with
    | none =>
      simp only [h1, Res.ok.injEq] at h
      subst h
      exact Nat.le_refl _
    | some k =>
      simp only [h1] at h
      cases h2 : g.set[k]? with
      | none => simp [h2] at h
      | some psB =>
        simp only [h2] at h
        have hB : grammar_find g B ≠ none := by simp [h1]
        have hprods := productions_of_eq h1 h2
        exact closure_loop_calls_bound g _ ih B hB psB.productions 0
          ⟨s.productions, s.closure_offset, (set_insert s.nonterminal_set B).1⟩ m
          (by intro j p hp; rw [hprods]; simpa using hp) r h

/-- The loop of `item_insert_closure`: the recursive calls and the dot-0 items
still absent together do not increase, and the loop calls the helper at most
once in each iteration. -/
theorem closure_scan_calls_bound (g : Grammar) (fuel : Nat) :
    ∀ (n i : Nat) (v : Set) (no : Int) (s : Item) (m o : Nat) (r : Item × Int × Nat × Nat),
      closure_scan_calls fuel g n i v no s m o = .ok r →
      r.2.2.1 + missing g r.1.productions ≤ m + missing g s.productions ∧
      r.2.2.2 ≤ o + n := by
  intro n
  induction n with
  | zero =>
    intro i v no s m o r h
    simp only [closure_scan_calls, Res.ok.injEq] at h
    subst h
    exact ⟨Nat.le_refl _, Nat.le_refl _⟩
  | succ n ih =>
    intro i v no s m o r h
    simp only [closure_scan_calls] at h
    cases hread : s.productions[i]? with
    | none => simp [hread] at h
    | some ip =>
      simp only [hread] at h
      cases hget : item_get_production g ip with
      | none => simp [hget] at h
      | some p =>
        simp only [hget] at h
        by_cases hend : p.size ≤ ip.dot_offset
        · simp only [hend, if_true] at h
          have := ih _ _ _ _ _ _ r h
          exact ⟨this.1, by omega⟩
        · simp only [hend, if_false] at h
          by_cases hnt : is_nonterminal (symbol_at g p ip.dot_offset) = true
          · simp only [hnt, if_true] at h
            by_cases hv : (set_insert v (symbol_at g p ip.dot_offset)).2 = 1
            · simp only [hv, if_true] at h
              have := ih _ _ _ _ _ _ r h
              exact ⟨this.1, by omega⟩
            · simp only [hv, if_false] at h
              cases hres : item_insert_closure_internal_calls fuel g s
                  (symbol_at g p ip.dot_offset) m with
              | nofuel => simp [hres] at h
              | undefined => simp [hres] at h
              | ok rr =>
                obtain ⟨s2, code, m2⟩ := rr
                have hr := closure_internal_calls_bound g fuel _ _ _ _ hres
                simp only [] at hr
                simp only [hres] at h
                by_cases hneg : code < 0
                · simp only [hneg, if_true, Res.ok.injEq] at h
                  subst h
                  exact ⟨hr, by simp only []; omega⟩
                · simp only [hneg, if_false] at h
                  have := ih _ _ _ _ _ _ r h
                  exact ⟨by omega, by omega⟩
          · simp only [hnt, if_false] at h
            have := ih _ _ _ _ _ _ r h
            exact ⟨this.1, by omega⟩

/-- C34. For every grammar and every state whose kernel items can be read and
name stored productions, `item_insert_closure` with its recursive helper
`item_insert_closure_internal` terminates: with every recursion budget above
the number of dot-0 items of the grammar it returns, and it returns the same
state and code whatever the budget.  The number of calls that
`item_insert_closure_internal` makes to itself is at most the number of dot-0
items of the grammar that the closure adds to the state, hence at most the
number of (production, dot 0) items of the grammar; the calls that
`item_insert_closure` makes to it are at most one for each kernel item. -/
theorem closure_terminates (g : Grammar) (s : Item)
    (hread : readable g 0 s.closure_offset s) :
    ∃ s2 code, ∀ fuel, (dot0_items g).length < fuel →
      item_insert_closure fuel g s = .ok (s2, code) ∧
      ∃ calls outer, item_insert_closure_calls fuel g s = .ok (s2, code, calls, outer) ∧
        calls + missing g s2.productions ≤ missing g s.productions ∧
        calls ≤ (dot0_items g).length ∧
        outer ≤ s.closure_offset := by
  have hret : ∀ fuel, (dot0_items g).length < fuel →
      ∃ r, item_insert_closure fuel g s = .ok r := by
    intro fuel hfuel
    unfold item_insert_closure
    by_cases hlen : s.productions.length = 0
    · simp only [hlen, if_true]
      exact ⟨_, rfl⟩
    · simp only [hlen, if_false]
      have hspec := closure_scan_spec g fuel s.closure_offset 0 set_init 1 s
        (by intro C hC; simp [set_init] at hC) (by intro h; simp [set_init] at h) (Or.inr rfl)
      cases hres : closure_scan fuel g s.closure_offset 0 set_init 1 s with
      | undefined =>
        rw [hres] at hspec
        exact absurd hread hspec
      | nofuel =>
        rw [hres] at hspec
        simp only [ScanOutcome] at hspec
        have := count_missing_le (dot0_items g) s.productions
        unfold missing at hspec
        omega
      | ok r => exact ⟨r, rfl⟩
  obtain ⟨⟨s2, code⟩, h0⟩ := hret ((dot0_items g).length + 1) (Nat.lt_succ_self _)
  refine ⟨s2, code, fun fuel hfuel => ?_⟩
  have hrun : item_insert_closure fuel g s = .ok (s2, code) := by
    rw [closure_fuel g _ fuel hfuel s (by rw [h0]; simp), h0]
  refine ⟨hrun, ?_⟩
  have hf := closure_calls_forget g fuel s
  rw [hrun] at hf
  cases hc : item_insert_closure_calls fuel g s with
  | undefined => rw [hc] at hf; cases hf
  | nofuel => rw [hc] at hf; cases hf
  | ok r =>
    obtain ⟨s3, code3, calls, outer⟩ := r
    rw [hc, forget_calls_ok] at hf
    simp only [Res.ok.injEq, Prod.mk.injEq] at hf
    obtain ⟨e1, e2⟩ := hf
    subst e1 e2
    have hb : calls + missing g s3.productions ≤ missing g s.productions ∧
        outer ≤ s.closure_offset := by
      unfold item_insert_closure_calls at hc
      by_cases hlen : s.productions.length = 0
      · simp only [hlen, if_true, Res.ok.injEq, Prod.mk.injEq] at hc
        obtain ⟨e1, _, e3, e4⟩ := hc
        subst e1 e3 e4
        exact ⟨by omega, Nat.zero_le _⟩
      · simp only [hlen, if_false] at hc
        have := closure_scan_calls_bound g fuel _ _ _ _ _ _ _ _ hc
        simpa using this
    have hle : missing g s.productions ≤ (dot0_items g).length :=
      count_missing_le (dot0_items g) s.productions
    exact ⟨calls, outer, rfl, hb.1, by omega, hb.2⟩

set_option maxRecDepth 100000 in
/-- Witness for `closure_terminates`: the first state of the left-recursive
grammar `E -> E+T | T`, `T -> id`, with the kernel item (`Z`, 0, dot 0).  The
grammar has four dot-0 items; the closure adds three of them and makes two
recursive calls, one after the insertion of `E -> .E+T` and one after the
insertion of `E -> .T`, below the one call for the kernel item. -/
theorem closure_terminates_witness :
    readable example1 0 1 ⟨[⟨'Z', 0, 0⟩], 1, set_init⟩ ∧
    (dot0_items example1).length = 4 ∧
    (item_insert_closure_calls 5 example1 ⟨[⟨'Z', 0, 0⟩], 1, set_init⟩).map
      (fun r => (r.1.productions.length, r.2.1, r.2.2.1, r.2.2.2)) = .ok (4, 0, 2, 1) ∧
    ∃ s2 code, ∀ fuel, (dot0_items example1).length < fuel →
      item_insert_closure fuel example1 ⟨[⟨'Z', 0, 0⟩], 1, set_init⟩ = .ok (s2, code) ∧
      ∃ calls outer, item_insert_closure_calls fuel example1 ⟨[⟨'Z', 0, 0⟩], 1, set_init⟩ =
          .ok (s2, code, calls, outer) ∧
        calls + missing example1 s2.productions ≤ missing example1 [⟨'Z', 0, 0⟩] ∧
        calls ≤ (dot0_items example1).length ∧
        outer ≤ 1 := by
  have hread : readable example1 0 1 ⟨[⟨'Z', 0, 0⟩], 1, set_init⟩ := by
    intro idx _ h2
    have h0 : idx = 0 := by omega
    subst h0
    exact ⟨⟨'Z', 0, 0⟩, ⟨['E']⟩, rfl, by decide⟩
  exact ⟨hread, by decide, by decide,
    closure_terminates example1 ⟨[⟨'Z', 0, 0⟩], 1, set_init⟩ hread⟩

set_option maxRecDepth 100000 in
/-- The closure on a mutually recursive grammar: `S -> SA | SB`, `A -> S`,
`B -> S` has five dot-0 items.  On the state with the kernel `Z -> S.`,
`S -> S.A`, `S -> S.B` the closure adds four of them; the helper calls itself
four times, once after each insertion (`A -> .S`, `S -> .SA`, `S -> .SB`,
`B -> .S`), and `item_insert_closure` calls it twice, for `A` and for `B`. -/
theorem closure_calls_mutual :
    (dot0_items grammar_mutual).length = 5 ∧
    (item_insert_closure_calls 6 grammar_mutual
        ⟨[⟨'Z', 0, 1⟩, ⟨'S', 0, 1⟩, ⟨'S', 1, 1⟩], 3, set_init⟩).map
      (fun r => (r.1.productions, r.2.1, r.2.2.1, r.2.2.2)) =
      .ok ([⟨'Z', 0, 1⟩, ⟨'S', 0, 1⟩, ⟨'S', 1, 1⟩, ⟨'A', 0, 0⟩, ⟨'S', 0, 0⟩, ⟨'S', 1, 0⟩,
        ⟨'B', 0, 0⟩], 0, 4, 2) := by
  refine ⟨by decide, by decide⟩

end LR0

namespace LR0

open ActionType

/-! ## Runs on storage that is not zero-filled -/

set_option maxRecDepth 100000 in
/-- C4 (evaluation at the failing input). The grammar `E -> E+T | T`,
`T -> id` with start symbol `E`, finished and augmented, on storage whose
unwritten symbol slots hold `+`: the stored productions and the two symbol
sets are those of the grammar on zero-filled storage, the construction
returns 0, and `grammar_input_check` on `id+` returns 1 through the accept
branch, with the cursor on the terminator.  State 1 holds `Z -> E .` and
`E -> E . + T`; after the accept action the main loop reads the slot after the
end of `Z -> E`, finds `+` there and makes state 2 with the items (`Z`,
production 0, dot 2) and `E -> E + . T`, whose row holds the accept action in
the column of `$`. -/
theorem example1_accepts_id_plus :
    (example1_filled '+').set = example1.set ∧
    (example1_filled '+').terminal_set = example1.terminal_set ∧
    (example1_filled '+').nonterminal_set = example1.nonterminal_set ∧
    (grammar_create_lr_table 16 (example1_filled '+') (item_set_init 'Z')).bind
      (fun r => (grammar_input_check 16 (example1_filled '+') r.1.table "id+".toList).map
        (fun e => (r.2, e.1, e.1.code, e.2.input_offset,
          curr_input "id+".toList e.2.input_offset))) =
      .ok (0, Exit.accept, 1, 3, '$') ∧
    (grammar_create_lr_table 16 (example1_filled '+') (item_set_init 'Z')).map
      (fun r => ((r.1.set.items[1]?).map (fun it => it.productions),
        (r.1.set.items[2]?).map (fun it => it.productions.take it.closure_offset),
        (r.1.table.action_table 2 (set_order (example1_filled '+').terminal_set '$')).type)) =
      .ok (some [⟨'Z', 0, 1⟩, ⟨'E', 0, 1⟩], some [⟨'Z', 0, 2⟩, ⟨'E', 0, 2⟩], ACTION_ACCEPT) := by
  refine ⟨by decide, by decide, by decide, by decide, by decide⟩

set_option maxRecDepth 100000 in
/-- C16 (evaluation at the failing input). The grammar `E -> E+T | T`,
`T -> id` with start symbol `E`, finished and augmented, on storage whose
unwritten symbol slots hold `T`: the construction returns 0; state 1 holds
`Z -> E .` and `E -> E . + T`, neither of which has its dot before `T`; `T` is
a nonterminal of the grammar with a column; and the GOTO entry of state 1 for
`T` is 2, not `GOTO_ERROR`. -/
theorem goto_entry_without_item :
    (example1_filled 'T').set = example1.set ∧
    0 ≤ set_order (example1_filled 'T').nonterminal_set 'T' ∧
    dot_at (example1_filled 'T') ⟨'Z', 0, 1⟩ 'T' = false ∧
    dot_at (example1_filled 'T') ⟨'E', 0, 1⟩ 'T' = false ∧
    (grammar_create_lr_table 16 (example1_filled 'T') (item_set_init 'Z')).map
      (fun r => (r.2, (r.1.set.items[1]?).map (fun it => it.productions),
        r.1.table.goto_table 1 (set_order (example1_filled 'T').nonterminal_set 'T'))) =
      .ok (0, some [⟨'Z', 0, 1⟩, ⟨'E', 0, 1⟩], 2) := by
  refine ⟨by decide, by decide, by decide, by decide, by decide⟩

/-- C25 (evaluation at the failing input). For the rule `abcdefghijklm` the
symbol loop of `grammar_insert_internal` stores thirteen symbols, at the
subscripts 0 to 12 of the array `symbols`, which has `SYMBOLMAXALLOCSIZE` = 10
slots.  (The list of symbols of a production has no bound here; what the
stores at the subscripts 10 to 12 do in the program is not represented.) -/
theorem long_rule_overruns :
    (productions_of (grammar_insert_rule (grammar_init (Char.ofNat 0)) 'S'
      "abcdefghijklm".toList) 'S').map (fun p => p.size) = [13] ∧
    SYMBOLMAXALLOCSIZE = 10 := by
  refine ⟨by decide, rfl⟩

end LR0

namespace LR0

open ActionType

/-! ## A construction that creates states without end -/

end LR0
